import Mathlib

/-! Five-stage pipeline simulator (`src/simulator.c`), cache simulator
(`src/cache.c`) and linker (`src/linker.c`).

A shallow embedding of the pipelined LC-2K simulator, of the write-back cache
and of the symbol table pass of the linker, and the proofs of the properties
stated about them.  The definitions of the three programs come first, the
theorems follow.

Conventions of the embedding of the pipeline simulator.

* A C `int` is an `Int`; additions that can leave the 32-bit range are wrapped
  by `wrap32` (two's complement).  `>>` on `int` is the arithmetic shift
  `Int.shiftRight`, `&` is `Int.land`, `|` is `Int.lor`, `~` is `Int.not`.
* The arrays `instrMem`, `dataMem` (65536 words) and `reg` (8 words) are total
  functions on the index, and every array access goes through a bounds check
  (`readMem`, `writeMem`, `readReg`, `writeReg`): an access outside the array
  is undefined behaviour in C and makes the cycle return `none`.
* The body of the `while` loop of `main` is `step`; it threads the C variable
  `newState` through the five stages exactly in the order of the source.
-/

namespace Sim

/-! ## Machine definitions (simulator.c, lines 5-29) -/

/-- The constant `NUMMEMORY`: number of words of each memory array. -/
def NUMMEMORY : Int := 65536

/-- The constant `NUMREGS`: number of machine registers. -/
def NUMREGS : Int := 8

def ADD : Int := 0
def NOR : Int := 1
def LW : Int := 2
def SW : Int := 3
def BEQ : Int := 4
def JALR : Int := 5
def HALT : Int := 6
def NOOP : Int := 7

/-- The constant `NOOPINSTR`, that is `NOOP << 22`. -/
def NOOPINSTR : Int := NOOP <<< (22 : Int)

/-! ## Pipeline latches and machine state (lines 31-74) -/

structure IFIDType where
  instr : Int
  pcPlus1 : Int
deriving DecidableEq

structure IDEXType where
  instr : Int
  pcPlus1 : Int
  valA : Int
  valB : Int
  offset : Int
deriving DecidableEq

structure EXMEMType where
  instr : Int
  branchTarget : Int
  eq : Int
  aluResult : Int
  valB : Int
deriving DecidableEq

structure MEMWBType where
  instr : Int
  writeData : Int
deriving DecidableEq

structure WBENDType where
  instr : Int
  writeData : Int
deriving DecidableEq

/-- The C `stateType`.  `numMemory` and `cycles` are `unsigned int`. -/
structure stateType where
  numMemory : Nat
  cycles : Nat
  pc : Int
  instrMem : Int → Int
  dataMem : Int → Int
  reg : Int → Int
  IFID : IFIDType
  IDEX : IDEXType
  EXMEM : EXMEMType
  MEMWB : MEMWBType
  WBEND : WBENDType

/-! ## Instruction codec (lines 76-95) -/

/-- Wrap an integer into the range of a 32-bit two's-complement `int`. -/
def wrap32 (x : Int) : Int := (x + 2147483648) % 4294967296 - 2147483648

/-- The function `opcode`: `instruction >> 22`. -/
def opcode (instruction : Int) : Int := instruction >>> (22 : Nat)

/-- The function `field0`: `(instruction >> 19) & 0x7`. -/
def field0 (instruction : Int) : Int := Int.land (instruction >>> (19 : Nat)) 7

/-- The function `field1`: `(instruction >> 16) & 0x7`. -/
def field1 (instruction : Int) : Int := Int.land (instruction >>> (16 : Nat)) 7

/-- The function `field2`: `instruction & 0xFFFF`. -/
def field2 (instruction : Int) : Int := Int.land instruction 65535

/-- The function `convertNum`: `num - ((num & (1 << 15)) ? 1 << 16 : 0)`. -/
def convertNum (num : Int) : Int :=
  num - (if Int.land num ((1 : Int) <<< (15 : Int)) ≠ 0 then (1 : Int) <<< (16 : Int) else 0)

/-! ## Bounds-checked array accesses -/

/-- Read `mem[i]` of a `NUMMEMORY`-word array. -/
def readMem (mem : Int → Int) (i : Int) : Option Int :=
  if 0 ≤ i ∧ i < NUMMEMORY then some (mem i) else none

/-- The assignment `mem[i] = v` on a `NUMMEMORY`-word array. -/
def writeMem (mem : Int → Int) (i v : Int) : Option (Int → Int) :=
  if 0 ≤ i ∧ i < NUMMEMORY then some (Function.update mem i v) else none

/-- Read `reg[i]` of the `NUMREGS`-word register file. -/
def readReg (reg : Int → Int) (i : Int) : Option Int :=
  if 0 ≤ i ∧ i < NUMREGS then some (reg i) else none

/-- The assignment `reg[i] = v` on the register file. -/
def writeReg (reg : Int → Int) (i v : Int) : Option (Int → Int) :=
  if 0 ≤ i ∧ i < NUMREGS then some (Function.update reg i v) else none

/-! ## Hazard resolver (lines 261-311) -/

/-- The function `isReadInstr`. -/
def isReadInstr (instr : Int) : Bool :=
  let opc := opcode instr
  decide (opc ≠ JALR ∧ opc ≠ HALT ∧ opc ≠ NOOP)

/-- The function `isWritingOpcode`: the field that names the written register
(1 for `field1`, 2 for `field2`), or 0 when no register is written. -/
def isWritingOpcode (instr : Int) : Int :=
  let opc := opcode instr
  if opc = LW then 1 else (if opc = ADD ∨ opc = NOR then 2 else 0)

/-- The function `processField`; the two `int*` out-parameters are returned as
a pair `(valA, valB)`. -/
def processField (instr valA valB targetInstr writeData : Int) : Int × Int :=
  let field := isWritingOpcode targetInstr
  if field = 1 then
    let valA := if field0 instr = field1 targetInstr then writeData else valA
    let valB := if field1 instr = field1 targetInstr then writeData else valB
    (valA, valB)
  else if field = 2 then
    let valA := if field0 instr = field2 targetInstr then writeData else valA
    let valB := if field1 instr = field2 targetInstr then writeData else valB
    (valA, valB)
  else (valA, valB)

/-- The function `dataHazard`; returns the pair `(valA, valB)`. -/
def dataHazard (valA valB : Int) (state : stateType) : Int × Int :=
  let instr := state.IDEX.instr
  if ¬ isReadInstr instr then (valA, valB)
  else
    let p1 := processField instr valA valB state.WBEND.instr state.WBEND.writeData
    let p2 := processField instr p1.1 p1.2 state.MEMWB.instr state.MEMWB.writeData
    processField instr p2.1 p2.2 state.EXMEM.instr state.EXMEM.aluResult

/-! ## The cycle body of `main` (lines 140-252) -/

/-- IF stage (lines 144-146).  The fetch has checked `state.pc < NUMMEMORY`, so
`state.pc + 1` does not overflow. -/
def ifStage (state newState : stateType) : Option stateType := do
  let fetched ← readMem state.instrMem state.pc
  some { newState with
    IFID := { instr := fetched, pcPlus1 := state.pc + 1 }
    pc := state.pc + 1 }

/-- The value given to the local variable `stalling` in the ID stage
(lines 150, 158-163), as a `Bool`: it stays 0 unless `ID/EX` holds a `lw`. -/
def stalling (state : stateType) : Bool :=
  if opcode state.IDEX.instr = LW then
    if opcode state.IFID.instr = LW then
      decide (field0 state.IFID.instr = field1 state.IDEX.instr)
    else
      decide (field0 state.IFID.instr = field1 state.IDEX.instr) ||
        decide (field1 state.IFID.instr = field1 state.IDEX.instr)
  else false

/-- ID stage (lines 150-173). -/
def idStage (state newState : stateType) : Option stateType := do
  let valA ← readReg state.reg (field0 state.IFID.instr)
  let valB ← readReg state.reg (field1 state.IFID.instr)
  let newState := { newState with
    IDEX := { instr := state.IFID.instr
              valA := valA
              valB := valB
              offset := convertNum (field2 state.IFID.instr)
              pcPlus1 := state.IFID.pcPlus1 } }
  if stalling state then
    some { newState with
      IDEX := { newState.IDEX with instr := NOOPINSTR }
      pc := state.pc
      IFID := state.IFID }
  else some newState

/-- The `aluResult` computed by the EX stage (lines 188-199); for an opcode
outside the `switch` the field keeps the value it has in `newState`. -/
def aluOut (op valA valB offset old : Int) : Int :=
  if op = LW ∨ op = SW then wrap32 (valA + offset)
  else if op = NOR then ~~~ (Int.lor valA valB)
  else if op = ADD then wrap32 (valA + valB)
  else old

/-- EX stage (lines 177-203). -/
def exStage (state newState : stateType) : stateType :=
  let v := dataHazard state.IDEX.valA state.IDEX.valB state
  { newState with
    EXMEM := { valB := v.2
               branchTarget := wrap32 (state.IDEX.offset + state.IDEX.pcPlus1)
               aluResult := aluOut (opcode state.IDEX.instr) v.1 v.2 state.IDEX.offset
                 newState.EXMEM.aluResult
               eq := if v.1 = v.2 then 1 else 0
               instr := state.IDEX.instr } }

/-- The branch test of the MEM stage (line 209):
`state.EXMEM.eq && (opcode(state.EXMEM.instr) == BEQ)`. -/
def branchTaken (state : stateType) : Bool :=
  decide (state.EXMEM.eq ≠ 0 ∧ opcode state.EXMEM.instr = BEQ)

/-- MEM stage (lines 207-234). -/
def memStage (state newState : stateType) : Option stateType := do
  let newState := { newState with MEMWB := { newState.MEMWB with instr := state.EXMEM.instr } }
  if branchTaken state then
    some { newState with
      pc := state.EXMEM.branchTarget
      IFID := { newState.IFID with instr := NOOPINSTR }
      IDEX := { newState.IDEX with instr := NOOPINSTR }
      EXMEM := { newState.EXMEM with instr := NOOPINSTR }
      MEMWB := { newState.MEMWB with writeData := state.EXMEM.aluResult } }
  else if opcode state.EXMEM.instr = LW then do
    let v ← readMem state.dataMem state.EXMEM.aluResult
    some { newState with MEMWB := { newState.MEMWB with writeData := v } }
  else if opcode state.EXMEM.instr = SW then do
    let dataMem ← writeMem newState.dataMem state.EXMEM.aluResult state.EXMEM.valB
    let v ← readMem state.dataMem state.EXMEM.aluResult
    some { newState with
      dataMem := dataMem
      MEMWB := { newState.MEMWB with writeData := v } }
  else
    some { newState with MEMWB := { newState.MEMWB with writeData := state.EXMEM.aluResult } }

/-- WB stage (lines 238-249). -/
def wbStage (state newState : stateType) : Option stateType := do
  let newState := { newState with
    WBEND := { writeData := state.MEMWB.writeData, instr := state.MEMWB.instr } }
  if opcode state.MEMWB.instr = NOR ∨ opcode state.MEMWB.instr = ADD then do
    let reg ← writeReg newState.reg (field2 state.MEMWB.instr) state.MEMWB.writeData
    some { newState with reg := reg }
  else if opcode state.MEMWB.instr = LW then do
    let reg ← writeReg newState.reg (field1 state.MEMWB.instr) state.MEMWB.writeData
    some { newState with reg := reg }
  else some newState

/-- One iteration of the `while` loop of `main` (lines 140-252).  At the top of
the body `newState` equals `state` (lines 135 and 252); the result is the value
assigned to `state` at the end of the body. -/
def step (state : stateType) : Option stateType := do
  let newState := { state with cycles := (state.cycles + 1) % 4294967296 }
  let newState ← ifStage state newState
  let newState ← idStage state newState
  let newState := exStage state newState
  let newState ← memStage state newState
  wbStage state newState

/-- The `while` loop of `main` (line 137) with a bound on the number of cycles:
`some` of the state in which the loop exits, `none` when a cycle is undefined
or the bound is reached first. -/
def run : Nat → stateType → Option stateType
  | 0, state => if opcode state.MEMWB.instr = HALT then some state else none
  | fuel + 1, state =>
    if opcode state.MEMWB.instr = HALT then some state
    else (step state).bind (run fuel)

/-- Exactly `n` iterations of the cycle body, without the loop test. -/
def stepN : Nat → stateType → Option stateType
  | 0, state => some state
  | n + 1, state => (step state).bind (stepN n)

/-- The memory image built by `readMachineCode` (lines 455-474) from the words
of the machine-code file: word `i` of the file at address `i`, zero elsewhere
(the state has static storage). -/
def loadMem (prog : List Int) : Int → Int :=
  fun a => if 0 ≤ a then prog.getD a.toNat 0 else 0

/-- The state at the first test of the loop (lines 114-135): memories loaded by
`readMachineCode`, everything else zero, the five latches holding `NOOPINSTR`. -/
def initState (prog : List Int) : stateType :=
  { numMemory := prog.length
    cycles := 0
    pc := 0
    instrMem := loadMem prog
    dataMem := loadMem prog
    reg := fun _ => 0
    IFID := { instr := NOOPINSTR, pcPlus1 := 0 }
    IDEX := { instr := NOOPINSTR, pcPlus1 := 0, valA := 0, valB := 0, offset := 0 }
    EXMEM := { instr := NOOPINSTR, branchTarget := 0, eq := 0, aluResult := 0, valB := 0 }
    MEMWB := { instr := NOOPINSTR, writeData := 0 }
    WBEND := { instr := NOOPINSTR, writeData := 0 } }

/-- Every array access of the cycle that starts in `state` is inside its array:
the fetch, the data access of a load or store in the MEM stage (not performed
for a taken branch), and the register write of an `add` or `nor` in the WB
stage. -/
def stepDefined (state : stateType) : Prop :=
  (0 ≤ state.pc ∧ state.pc < NUMMEMORY) ∧
  ((opcode state.EXMEM.instr = LW ∨ opcode state.EXMEM.instr = SW) →
    0 ≤ state.EXMEM.aluResult ∧ state.EXMEM.aluResult < NUMMEMORY) ∧
  ((opcode state.MEMWB.instr = NOR ∨ opcode state.MEMWB.instr = ADD) →
    field2 state.MEMWB.instr < NUMREGS)

instance (state : stateType) : Decidable (stepDefined state) := by
  unfold stepDefined; infer_instance

/-- The state assigned to `state` at the end of a cycle all of whose array
accesses are in range, written field by field (a closed form of `step`, see
`step_eq_some_iff`). -/
def nextState (s : stateType) : stateType :=
  let v := dataHazard s.IDEX.valA s.IDEX.valB s
  { numMemory := s.numMemory
    cycles := (s.cycles + 1) % 4294967296
    pc := if branchTaken s then s.EXMEM.branchTarget
          else if stalling s then s.pc else s.pc + 1
    instrMem := s.instrMem
    dataMem := if ¬ branchTaken s ∧ opcode s.EXMEM.instr = SW
               then Function.update s.dataMem s.EXMEM.aluResult s.EXMEM.valB
               else s.dataMem
    reg := if opcode s.MEMWB.instr = NOR ∨ opcode s.MEMWB.instr = ADD
           then Function.update s.reg (field2 s.MEMWB.instr) s.MEMWB.writeData
           else if opcode s.MEMWB.instr = LW
           then Function.update s.reg (field1 s.MEMWB.instr) s.MEMWB.writeData
           else s.reg
    IFID := { instr := if branchTaken s then NOOPINSTR
                       else if stalling s then s.IFID.instr else s.instrMem s.pc
              pcPlus1 := if stalling s then s.IFID.pcPlus1 else s.pc + 1 }
    IDEX := { instr := if branchTaken s ∨ stalling s then NOOPINSTR else s.IFID.instr
              pcPlus1 := s.IFID.pcPlus1
              valA := s.reg (field0 s.IFID.instr)
              valB := s.reg (field1 s.IFID.instr)
              offset := convertNum (field2 s.IFID.instr) }
    EXMEM := { instr := if branchTaken s then NOOPINSTR else s.IDEX.instr
               branchTarget := wrap32 (s.IDEX.offset + s.IDEX.pcPlus1)
               eq := if v.1 = v.2 then 1 else 0
               aluResult := aluOut (opcode s.IDEX.instr) v.1 v.2 s.IDEX.offset s.EXMEM.aluResult
               valB := v.2 }
    MEMWB := { instr := s.EXMEM.instr
               writeData := if ¬ branchTaken s ∧
                                (opcode s.EXMEM.instr = LW ∨ opcode s.EXMEM.instr = SW)
                            then s.dataMem s.EXMEM.aluResult else s.EXMEM.aluResult }
    WBEND := { instr := s.MEMWB.instr, writeData := s.MEMWB.writeData } }

/-! ## Vocabulary of the stated properties -/

/-- The instruction word `t` writes register `f`: an `add` or `nor` whose
`field2` is `f`, or a `lw` whose `field1` is `f`. -/
def writesReg (t f : Int) : Prop :=
  (opcode t = LW ∧ field1 t = f) ∨ ((opcode t = ADD ∨ opcode t = NOR) ∧ field2 t = f)

instance (t f : Int) : Decidable (writesReg t f) := by
  unfold writesReg; infer_instance

/-- The operand the forwarding priority rule prescribes for register `f` whose
latched value is `latched`: the nearest in-flight writer of `f` wins. -/
def forwarded (s : stateType) (f latched : Int) : Int :=
  if writesReg s.EXMEM.instr f then s.EXMEM.aluResult
  else if writesReg s.MEMWB.instr f then s.MEMWB.writeData
  else if writesReg s.WBEND.instr f then s.WBEND.writeData
  else latched

/-- The load-use condition: `ID/EX` holds a load and the instruction in `IF/ID`
reads the register the load writes (`field0`, and `field1` unless the `IF/ID`
instruction is itself a load). -/
def loadUse (s : stateType) : Prop :=
  opcode s.IDEX.instr = LW ∧
    (field0 s.IFID.instr = field1 s.IDEX.instr ∨
      (opcode s.IFID.instr ≠ LW ∧ field1 s.IFID.instr = field1 s.IDEX.instr))

instance (s : stateType) : Decidable (loadUse s) := by
  unfold loadUse; infer_instance

/-! ## Example programs and states -/

/-- The program `lw 0 1 0; add 1 1 1; halt`. -/
def lwAddProg : List Int := [0x00810000, 0x00090001, 0x01800000]

/-- The state two cycles after reset of `lwAddProg`: the load is in `ID/EX`
and the dependent `add` in `IF/ID`. -/
def lwAddState : stateType := nextState (nextState (initState lwAddProg))

/-- The program `beq 0 0 1; add 0 0 1; noop; halt`. -/
def beqProg : List Int := [0x01000001, 0x00000001, 0x01C00000, 0x01800000]

/-- The state three cycles after reset of `beqProg`: the taken branch is in
`EX/MEM`. -/
def beqState : stateType := nextState (nextState (nextState (initState beqProg)))

/-- The program `add 0 0 1; add 1 1 1; sw 0 1 7; halt`. -/
def fwdProg : List Int := [0x00000001, 0x00090001, 0x00C10007, 0x01800000]

/-- The state `n` cycles after reset of `fwdProg`. -/
def fwdState : Nat → stateType
  | 0 => initState fwdProg
  | n + 1 => nextState (fwdState n)

/-- The program consisting of a single `halt`. -/
def haltProg : List Int := [0x01800000]

/-! ## Sequential reference machine

The one-instruction-at-a-time execution against which the pipeline is
compared.  It is written from the instruction semantics of the specification:
arithmetic instructions write their destination field (`field2`), loads write
their second field (`field1`), stores write data memory, a branch whose two
operands are equal continues at the offset plus the address following the
branch, and `halt` stops the machine.  It uses the same codec and the same
bounds-checked arrays as the pipeline. -/

/-- Architectural state of the sequential machine. -/
structure seqState where
  pc : Int
  reg : Int → Int
  dataMem : Int → Int

/-- Specification: execution of the single instruction at `q.pc`.  `none` when
an array access is out of range or the word is not an `add`, `nor`, `lw`, `sw`,
`beq` or `noop`. -/
def seqStep (instrMem : Int → Int) (q : seqState) : Option seqState := do
  let instr ← readMem instrMem q.pc
  let a ← readReg q.reg (field0 instr)
  let b ← readReg q.reg (field1 instr)
  let offset := convertNum (field2 instr)
  if opcode instr = ADD then do
    let reg ← writeReg q.reg (field2 instr) (wrap32 (a + b))
    some { q with reg := reg, pc := q.pc + 1 }
  else if opcode instr = NOR then do
    let reg ← writeReg q.reg (field2 instr) (~~~ (Int.lor a b))
    some { q with reg := reg, pc := q.pc + 1 }
  else if opcode instr = LW then do
    let v ← readMem q.dataMem (wrap32 (a + offset))
    let reg ← writeReg q.reg (field1 instr) v
    some { q with reg := reg, pc := q.pc + 1 }
  else if opcode instr = SW then do
    let dataMem ← writeMem q.dataMem (wrap32 (a + offset)) b
    some { q with dataMem := dataMem, pc := q.pc + 1 }
  else if opcode instr = BEQ then
    if a = b then some { q with pc := wrap32 (offset + (q.pc + 1)) }
    else some { q with pc := q.pc + 1 }
  else if opcode instr = NOOP then some { q with pc := q.pc + 1 }
  else none

/-- Specification: sequential execution until the instruction at `pc` is a
`halt`, with a bound on the number of instructions.  `some` of the state in
which `halt` is reached; `none` when an access is out of range, a word is not
executable, or the bound is reached first. -/
def seqRun (instrMem : Int → Int) : Nat → seqState → Option seqState
  | 0, q => (readMem instrMem q.pc).bind fun w =>
      if opcode w = HALT then some q else none
  | fuel + 1, q => (readMem instrMem q.pc).bind fun w =>
      if opcode w = HALT then some q else (seqStep instrMem q).bind (seqRun instrMem fuel)

/-- Exactly `n` sequential instructions. -/
def seqStepN (instrMem : Int → Int) : Nat → seqState → Option seqState
  | 0, q => some q
  | n + 1, q => (seqStep instrMem q).bind (seqStepN instrMem n)

/-- The reset state of the sequential machine for a program: `pc` 0, all
registers 0, data memory equal to the program image. -/
def seqInit (prog : List Int) : seqState :=
  { pc := 0, reg := fun _ => 0, dataMem := loadMem prog }

/-- The word is an `add`, `nor`, `lw`, `sw`, `beq`, `noop` or `halt`, and the
destination field of an `add` or `nor` is below 8. -/
def executableWord (w : Int) : Prop :=
  (opcode w = ADD ∨ opcode w = NOR ∨ opcode w = LW ∨ opcode w = SW ∨ opcode w = BEQ ∨
    opcode w = NOOP ∨ opcode w = HALT) ∧
  ((opcode w = ADD ∨ opcode w = NOR) → field2 w < 8)

instance (w : Int) : Decidable (executableWord w) := by
  unfold executableWord; infer_instance

/-- Closed form of `seqStep` when it is defined (see `seqStep_eq_some`). -/
def seqNext (instrMem : Int → Int) (q : seqState) : seqState :=
  let instr := instrMem q.pc
  let a := q.reg (field0 instr)
  let b := q.reg (field1 instr)
  let offset := convertNum (field2 instr)
  { pc := if opcode instr = BEQ ∧ a = b then wrap32 (offset + (q.pc + 1)) else q.pc + 1
    reg := if opcode instr = ADD then Function.update q.reg (field2 instr) (wrap32 (a + b))
           else if opcode instr = NOR
           then Function.update q.reg (field2 instr) (~~~ (Int.lor a b))
           else if opcode instr = LW
           then Function.update q.reg (field1 instr) (q.dataMem (wrap32 (a + offset)))
           else q.reg
    dataMem := if opcode instr = SW
               then Function.update q.dataMem (wrap32 (a + offset)) b
               else q.dataMem }

/-- The side conditions under which `seqStep` is defined. -/
def seqDefined (instrMem : Int → Int) (q : seqState) : Prop :=
  let instr := instrMem q.pc
  let a := q.reg (field0 instr)
  (0 ≤ q.pc ∧ q.pc < NUMMEMORY) ∧
  (opcode instr = ADD ∨ opcode instr = NOR ∨ opcode instr = LW ∨ opcode instr = SW ∨
    opcode instr = BEQ ∨ opcode instr = NOOP) ∧
  ((opcode instr = ADD ∨ opcode instr = NOR) → field2 instr < NUMREGS) ∧
  ((opcode instr = LW ∨ opcode instr = SW) →
    0 ≤ wrap32 (a + convertNum (field2 instr)) ∧
    wrap32 (a + convertNum (field2 instr)) < NUMMEMORY)

/-! ## Relating a pipeline state to the sequential execution

The sequential execution is given as a trace `tr : Nat → seqState` of length
`n` (`tr n` is the state in which `halt` is reached).  A pipeline state is
related to it through six counters: how many instructions of the trace have
been fetched, have entered `ID/EX`, `EX/MEM`, `MEM/WB`, `WB/END`, and have left
`WB/END`.  A latch holds the instruction of the trace with the index of the
counter below it when the two counters around it differ, and otherwise a
bubble or an instruction fetched behind a pending `halt` or taken branch. -/

/-- Counters locating the pipeline in the sequential trace. -/
structure Ghost where
  cV : Nat
  cW : Nat
  cM : Nat
  cE : Nat
  cD : Nat
  cF : Nat

/-- The `k`-th instruction word of the trace. -/
def instrAt (im : Int → Int) (tr : Nat → seqState) (k : Nat) : Int := im (tr k).pc

/-- The first operand of the `k`-th instruction. -/
def opA (im : Int → Int) (tr : Nat → seqState) (k : Nat) : Int :=
  (tr k).reg (field0 (instrAt im tr k))

/-- The second operand of the `k`-th instruction. -/
def opB (im : Int → Int) (tr : Nat → seqState) (k : Nat) : Int :=
  (tr k).reg (field1 (instrAt im tr k))

/-- The `k`-th instruction ends the straight-line instruction stream: it is the
final `halt` (index `n`) or a taken branch. -/
def termAt (im : Int → Int) (tr : Nat → seqState) (n k : Nat) : Prop :=
  k = n ∨ (opcode (instrAt im tr k) = BEQ ∧ opA im tr k = opB im tr k)

/-- The trace `tr` is a sequential execution of length `n` ending at a
`halt`. -/
structure IsTrace (im : Int → Int) (tr : Nat → seqState) (n : Nat) : Prop where
  defined : ∀ k, k < n → seqDefined im (tr k)
  next : ∀ k, k < n → tr (k + 1) = seqNext im (tr k)
  notHalt : ∀ k, k < n → opcode (instrAt im tr k) ≠ HALT
  haltAt : opcode (instrAt im tr n) = HALT
  pcRange : ∀ k, k ≤ n → 0 ≤ (tr k).pc ∧ (tr k).pc < NUMMEMORY

/-- Every fetch `instrMem[state.pc]` (line 144) of the run loop started in `s0`
is inside the array: in every state that the loop reaches without having met
its exit test (`halt` in `MEM/WB`, line 137), `pc` is below `NUMMEMORY`.  The
pipeline fetches in every cycle, also the words behind a taken branch and
behind the `halt` that it squashes or never executes; the source does not check
the index, and a read outside the array is undefined in C. -/
def fetchesInRange (s0 : stateType) : Prop :=
  ∀ k s, stepN k s0 = some s →
    (∀ j, j ≤ k → ∀ t, stepN j s0 = some t → opcode t.MEMWB.instr ≠ HALT) →
    s.pc < NUMMEMORY

/-- The youngest fetched instruction of the trace ends the instruction stream
and has not entered `MEM/WB` yet. -/
def pending (im : Int → Int) (tr : Nat → seqState) (n : Nat) (g : Ghost) : Prop :=
  ∃ j, g.cF = j + 1 ∧ g.cM ≤ j ∧ termAt im tr n j

/-- The value `wd` is the one the `k`-th instruction writes to its register. -/
def WbOK (im : Int → Int) (tr : Nat → seqState) (k : Nat) (wd : Int) : Prop :=
  ((opcode (instrAt im tr k) = ADD ∨ opcode (instrAt im tr k) = NOR) →
    wd = (tr (k + 1)).reg (field2 (instrAt im tr k))) ∧
  (opcode (instrAt im tr k) = LW → wd = (tr (k + 1)).reg (field1 (instrAt im tr k)))

/-- The `EX/MEM` latch `x` holds the results of executing the `k`-th
instruction on its sequential operands. -/
def ExOK (im : Int → Int) (tr : Nat → seqState) (k : Nat) (x : EXMEMType) : Prop :=
  x.branchTarget = wrap32 (convertNum (field2 (instrAt im tr k)) + ((tr k).pc + 1)) ∧
  (opcode (instrAt im tr k) = BEQ → (x.eq ≠ 0 ↔ opA im tr k = opB im tr k)) ∧
  (opcode (instrAt im tr k) = SW → x.valB = opB im tr k) ∧
  ((opcode (instrAt im tr k) = ADD ∨ opcode (instrAt im tr k) = NOR ∨
      opcode (instrAt im tr k) = LW ∨ opcode (instrAt im tr k) = SW) →
    x.aluResult = aluOut (opcode (instrAt im tr k)) (opA im tr k) (opB im tr k)
      (convertNum (field2 (instrAt im tr k))) 0)

/-- The consumer word `c` does not read the register written by the load `l`
in the sense of the stall check. -/
def noLoadUse (c l : Int) : Prop :=
  field0 c ≠ field1 l ∧ (opcode c ≠ LW → field1 c ≠ field1 l)

/-- The invariant relating the pipeline state `s` to the trace through the
counters `g`. -/
structure PipeInv (im : Int → Int) (tr : Nat → seqState) (n : Nat)
    (s : stateType) (g : Ghost) : Prop where
  mono : g.cV ≤ g.cW ∧ g.cW ≤ g.cV + 1 ∧ g.cW ≤ g.cM ∧ g.cM ≤ g.cW + 1 ∧
    g.cM ≤ g.cE ∧ g.cE ≤ g.cM + 1 ∧ g.cE ≤ g.cD ∧ g.cD ≤ g.cE + 1 ∧
    g.cD ≤ g.cF ∧ g.cF ≤ g.cD + 1
  bound : g.cF ≤ n + 1 ∧ g.cM ≤ n
  inner : ∀ j, g.cM ≤ j → j + 1 < g.cF → ¬ termAt im tr n j
  instrMem : s.instrMem = im
  reg : s.reg = (tr g.cW).reg
  dataMem : s.dataMem = (tr g.cM).dataMem
  pcSeq : ¬ pending im tr n g → s.pc = (tr g.cF).pc
  pcPend : ∀ j, g.cF = j + 1 → g.cM ≤ j → termAt im tr n j →
    (tr j).pc + 1 ≤ s.pc ∧
    s.pc ≤ (tr j).pc + 1 + ((g.cD - j : Nat) : Int) + ((g.cE - j : Nat) : Int)
  ifidReal : g.cD < g.cF →
    s.IFID.instr = instrAt im tr g.cD ∧ s.IFID.pcPlus1 = (tr g.cD).pc + 1
  ifidIdle : g.cD = g.cF → s.IFID.instr = NOOPINSTR ∨ pending im tr n g
  idexReal : g.cE < g.cD →
    s.IDEX.instr = instrAt im tr g.cE ∧ s.IDEX.pcPlus1 = (tr g.cE).pc + 1 ∧
    s.IDEX.offset = convertNum (field2 (instrAt im tr g.cE)) ∧
    s.IDEX.valA = (tr g.cV).reg (field0 (instrAt im tr g.cE)) ∧
    s.IDEX.valB = (tr g.cV).reg (field1 (instrAt im tr g.cE)) ∧
    (g.cM < g.cE → opcode (instrAt im tr g.cM) = LW →
      noLoadUse (instrAt im tr g.cE) (instrAt im tr g.cM))
  idexIdle : g.cE = g.cD →
    s.IDEX.instr = NOOPINSTR ∨ (g.cM < g.cE ∧ termAt im tr n g.cM)
  exmemReal : g.cM < g.cE → s.EXMEM.instr = instrAt im tr g.cM ∧ ExOK im tr g.cM s.EXMEM
  exmemIdle : g.cM = g.cE → s.EXMEM.instr = NOOPINSTR
  memwbReal : g.cW < g.cM →
    s.MEMWB.instr = instrAt im tr g.cW ∧ WbOK im tr g.cW s.MEMWB.writeData
  memwbIdle : g.cW = g.cM → s.MEMWB.instr = NOOPINSTR
  wbendReal : g.cV < g.cW →
    s.WBEND.instr = instrAt im tr g.cV ∧ WbOK im tr g.cV s.WBEND.writeData
  wbendIdle : g.cV = g.cW → s.WBEND.instr = NOOPINSTR

/-- The counters after one cycle from state `s` with counters `g`.  `pend`
tells whether a `halt` or taken branch is pending in `g`. -/
def nextGhost (s : stateType) (g : Ghost) (pend : Bool) : Ghost :=
  { cV := g.cW
    cW := g.cM
    cM := g.cE
    cE := g.cD
    cD := if stalling s then g.cD else g.cF
    cF := if branchTaken s ∨ stalling s ∨ pend then g.cF else g.cF + 1 }

/-- Progress measure of the counters. -/
def Ghost.total (g : Ghost) : Nat := g.cV + g.cW + g.cM + g.cE + g.cD + g.cF

/-! ## Programs used for the refinement property -/

/-- The program
`lw 0 1 6; add 1 1 2; beq 0 0 1; add 1 1 1; sw 0 2 6; halt; .fill 5`:
a load-use stall, forwarding, a taken branch and a store. -/
def mixProg : List Int :=
  [0x00810006, 0x00090002, 0x01000001, 0x00090001, 0x00C20006, 0x01800000, 0x00000005]

/-- The state in which the sequential execution of `mixProg` reaches `halt`
(four instructions are executed). -/
def mixFinal : seqState :=
  seqNext (loadMem mixProg) (seqNext (loadMem mixProg) (seqNext (loadMem mixProg)
    (seqNext (loadMem mixProg) (seqInit mixProg))))

/-! ## Scenarios: stall bookkeeping and further example states -/

/-- The value of `stalling` in each cycle executed by the `while` loop of
`main`, in order, with a bound on the number of cycles (`none` as for `run`). -/
def runStalls : Nat → stateType → Option (List Bool)
  | 0, state => if opcode state.MEMWB.instr = HALT then some [] else none
  | fuel + 1, state =>
    if opcode state.MEMWB.instr = HALT then some []
    else (step state).bind fun s' => (runStalls fuel s').map (fun l => stalling state :: l)

/-- The reset state of `lwAddProg` (`lw 0 1 0; add 1 1 1; halt`) with the data
memory replaced by `dm`. -/
def lwAddInit (dm : Int → Int) : stateType := { initState lwAddProg with dataMem := dm }

/-- The program image of `lwAddProg` with data word 0 set to 5. -/
def lwAddData : Int → Int := Function.update (loadMem lwAddProg) 0 5

/-- The program `add 0 1 2; noop; noop; noop; halt`. -/
def addNoopProg : List Int := [0x00010002, 0x01C00000, 0x01C00000, 0x01C00000, 0x01800000]

/-- The program `beq 0 0 2; lw 0 1 0; add 1 1 1; halt`: the load and the `add`
that uses it are fetched behind a taken branch. -/
def stallSquashProg : List Int := [0x01000002, 0x00810000, 0x00090001, 0x01800000]

/-- The state three cycles after reset of `stallSquashProg`: the taken branch
is in `EX/MEM`, the load in `ID/EX` and the dependent `add` in `IF/ID`. -/
def stallSquashState : stateType :=
  nextState (nextState (nextState (initState stallSquashProg)))

/-- The reset state of `haltProg` with the program counter one past the end of
instruction memory. -/
def fetchFaultState : stateType := { initState haltProg with pc := 65536 }

/-- The reset state of `haltProg` with `sw 0 0 0` in `EX/MEM` and the address
`-1` as its `aluResult`. -/
def storeFaultState : stateType :=
  { initState haltProg with
    EXMEM := { instr := 0x00C00000, branchTarget := 0, eq := 0, aluResult := -1, valB := 0 } }

/-- The reset state of `haltProg` with the word `0x00000008` (an `add` whose
`field2` is 8) in `MEM/WB`. -/
def destFaultState : stateType :=
  { initState haltProg with MEMWB := { instr := 0x00000008, writeData := 0 } }

/-- The reset state of `haltProg` with the cycle counter at the largest
`unsigned int`. -/
def lastCountState : stateType := { initState haltProg with cycles := 4294967295 }


/-! ## Definitions for the stage postconditions and the load-use invariant -/

/-- The reset state (lines 114-135) with arbitrary contents of the instruction
memory, the data memory and the register file: program counter and cycle count
zero, the five latches holding `NOOPINSTR`. -/
def resetWith (nm : Nat) (im dm rg : Int → Int) : stateType :=
  { initState [] with numMemory := nm, instrMem := im, dataMem := dm, reg := rg }

/-- The state with the instruction of the `EX/MEM` latch replaced by the no-op
word, so that `EX/MEM` forwards nothing. -/
def withoutEXMEM (s : stateType) : stateType :=
  { s with EXMEM := { s.EXMEM with instr := NOOPINSTR } }

/-- The program `lw 0 1 5; noop; noop; add 1 1 2; halt; .fill 7`. -/
def wbDecodeProg : List Int :=
  [0x00810005, 0x01C00000, 0x01C00000, 0x00090002, 0x01800000, 7]

/-- The state four cycles after reset of `wbDecodeProg`: the load is in
`MEM/WB` and the `add` that reads its destination is in `IF/ID`. -/
def wbDecodeState : stateType :=
  nextState (nextState (nextState (nextState (initState wbDecodeProg))))

/-- The state three cycles after the reset of `lwAddProg`: the load is in
`EX/MEM`. -/
def lwAddLoadState : stateType :=
  nextState (nextState (nextState
    (resetWith 3 (loadMem lwAddProg) (loadMem lwAddProg) (fun _ => 0))))

/-- The program `lw 0 1 3; lw 1 2 1; halt; .fill 2147483647`: the second load
adds the offset 1 to the largest `int`. -/
def addrWrapProg : List Int := [0x00810003, 0x008A0001, 0x01800000, 2147483647]

/-- The state four cycles after reset of `addrWrapProg`: the second load is in
`ID/EX` and the first in `MEM/WB`. -/
def addrWrapState : stateType :=
  nextState (nextState (nextState (nextState (initState addrWrapProg))))

/-! ## The cache simulator (`src/cache.c`)

The cache is the global `cache` of the source, passed and returned explicitly.
The arrays `cache.blocks` and `data` are total functions on `Int`; with the
configuration checks of `cache_init` every index the code uses is inside its
array.  `printAction` only prints and is left out.  Arithmetic on `int` is
arithmetic on `Int`; the cases in which an index would leave its array or a
signed `int` operation would overflow, which C leaves undefined, are collected
in `accessDefined`, and `cache_access` returns `none` there. -/

def MAX_CACHE_SIZE : Int := 256
def MAX_BLOCK_SIZE : Int := 256
def UNINITIALIZED_TAG : Int := -1

/-- The struct `blockStruct` (lines 41-48). -/
structure blockStruct where
  data : Int → Int
  dirty : Int
  lruLabel : Int
  tag : Int
  valid : Int

/-- The struct `cacheStruct` (lines 50-57). -/
structure cacheStruct where
  blocks : Int → blockStruct
  blockSize : Int
  numSets : Int
  blocksPerSet : Int

/-- The struct `decoded_address` (lines 62-69). -/
structure decoded_address where
  block_bits : Int
  index_bits : Int
  block_offset : Int
  set_index : Int
  tag : Int
  base : Int

/-- Modelled from the spec: the main memory behind `mem_access`, which the
source only declares (`extern`, line 23).  `mem` is the array `state.mem` of the
comment in lines 15-22, `calls` the list of the calls made so far, oldest
first, each as `(addr, write_flag, write_data)`. -/
structure mainMemory where
  mem : Int → Int
  calls : List (Int × Int × Int)

/-- Modelled from the spec: `mem_access` as the comment in lines 15-22 describes
it: "If write flag is 1, mem_access does: state.mem[addr] = write_data.  The
return of mem_access is state.mem[addr]."  The call is appended to `calls`. -/
def mem_access (m : mainMemory) (addr write_flag write_data : Int) : mainMemory × Int :=
  let mem := if write_flag = 1 then Function.update m.mem addr write_data else m.mem
  ({ mem := mem, calls := m.calls ++ [(addr, write_flag, write_data)] }, mem addr)

/-- The binary logarithm rounded down, by repeated halving (`fuel` bounds the
number of halvings). -/
def log2Fuel : Nat → Nat → Nat
  | 0, _ => 0
  | fuel + 1, n => if 2 ≤ n then log2Fuel fuel (n / 2) + 1 else 0

/-- The largest `k` with `2^k ≤ n`, for `n > 0`. -/
def log2Nat (n : Nat) : Nat := log2Fuel n n

/-- The value of `log2(n)` of `<math.h>` converted to `int`, for `n > 0`: the
conversion truncates, so this is the largest `k` with `2^k ≤ n`. -/
def log2 (n : Int) : Int := (log2Nat n.toNat : Nat)

/-- The function `create_mask` (lines 284-286). -/
def create_mask (bits : Int) : Int := ((1 : Int) <<< bits) - 1

/-- The function `extract_bits` (lines 288-290). -/
def extract_bits (original shift_num bits : Int) : Int :=
  Int.land (original >>> shift_num.toNat) (create_mask bits)

/-- The block written by `reset_cache` (lines 292-303). -/
def emptyBlock : blockStruct :=
  { data := fun _ => 0, dirty := 0, lruLabel := 0, valid := 0, tag := UNINITIALIZED_TAG }

/-- The function `reset_cache` (lines 292-303): every block of the array is
cleared. -/
def reset_cache (c : cacheStruct) : cacheStruct :=
  { c with blocks := fun _ => emptyBlock }

/-- The function `cache_init` (lines 96-129); `none` is `exit(1)`.  The two
power-of-two tests only print a warning. -/
def cache_init (blockSize numSets blocksPerSet : Int) : Option cacheStruct :=
  if blockSize ≤ 0 ∨ numSets ≤ 0 ∨ blocksPerSet ≤ 0 then none
  else if blocksPerSet * numSets > MAX_CACHE_SIZE then none
  else if blockSize > MAX_BLOCK_SIZE then none
  else some (reset_cache
    { blocks := fun _ => emptyBlock, blockSize := blockSize, numSets := numSets,
      blocksPerSet := blocksPerSet })

/-- The function `decode` (lines 305-315). -/
def decode (c : cacheStruct) (addr : Int) : decoded_address :=
  let block_bits := log2 c.blockSize
  let index_bits := log2 c.numSets
  let block_offset := extract_bits addr 0 block_bits
  let set_index := extract_bits addr block_bits index_bits
  let tag := addr >>> (block_bits + index_bits).toNat
  { block_bits := block_bits, index_bits := index_bits, block_offset := block_offset,
    set_index := set_index, tag := tag, base := set_index * c.blocksPerSet }

/-- The loop of `block_index` (lines 319-325) with `n` iterations left, the
loop variable being `block`. -/
def block_index_loop (c : cacheStruct) (addy : decoded_address) : Nat → Int → Int
  | 0, _ => -1
  | n + 1, block =>
    let check_block := c.blocks (addy.base + block)
    if check_block.valid ≠ 0 ∧ check_block.tag = addy.tag then addy.base + block
    else block_index_loop c addy n (block + 1)

/-- The function `block_index` (lines 317-328). -/
def block_index (c : cacheStruct) (addy : decoded_address) : Int :=
  block_index_loop c addy c.blocksPerSet.toNat 0

/-- The loop of `find_first_invalid` (lines 331-335) with `n` iterations left. -/
def find_first_invalid_loop (c : cacheStruct) (addy : decoded_address) : Nat → Int → Int
  | 0, _ => -1
  | n + 1, block =>
    if (c.blocks (addy.base + block)).valid = 0 then block
    else find_first_invalid_loop c addy n (block + 1)

/-- The function `find_first_invalid` (lines 330-338). -/
def find_first_invalid (c : cacheStruct) (addy : decoded_address) : Int :=
  find_first_invalid_loop c addy c.blocksPerSet.toNat 0

/-- The loop of `find_highest_LRU` (lines 342-347) with `n` iterations left and
the current values of `block`, `max` and `index`. -/
def find_highest_LRU_loop (c : cacheStruct) (addy : decoded_address) :
    Nat → Int → Int → Int → Int
  | 0, _, _, index => index
  | n + 1, block, max, index =>
    if (c.blocks (addy.base + block)).lruLabel > max then
      find_highest_LRU_loop c addy n (block + 1) (c.blocks (addy.base + block)).lruLabel block
    else find_highest_LRU_loop c addy n (block + 1) max index

/-- The function `find_highest_LRU` (lines 340-350). -/
def find_highest_LRU (c : cacheStruct) (addy : decoded_address) : Int :=
  find_highest_LRU_loop c addy (c.blocksPerSet.toNat - 1) 1 (c.blocks addy.base).lruLabel 0

/-- The function `find_block_to_replace` (lines 352-361). -/
def find_block_to_replace (c : cacheStruct) (addy : decoded_address) : Int :=
  let first_index := find_first_invalid c addy
  let first_index := if first_index = -1 then find_highest_LRU c addy else first_index
  addy.base + first_index

/-- The loop of `update_LRUs` (lines 365-369) with `n` iterations left. -/
def update_LRUs_loop (addy : decoded_address) : Nat → Int → cacheStruct → cacheStruct
  | 0, _, c => c
  | n + 1, block, c =>
    let c :=
      if (c.blocks (addy.base + block)).valid ≠ 0 then
        { c with blocks := (Function.update c.blocks (addy.base + block)
            { c.blocks (addy.base + block) with
              lruLabel := (c.blocks (addy.base + block)).lruLabel + 1 }) }
      else c
    update_LRUs_loop addy n (block + 1) c

/-- The function `update_LRUs` (lines 363-373). -/
def update_LRUs (c : cacheStruct) (addy : decoded_address) (read_block : Int) : cacheStruct :=
  let c := update_LRUs_loop addy c.blocksPerSet.toNat 0 c
  { c with blocks := (Function.update c.blocks read_block
      { c.blocks read_block with lruLabel := 0 }) }

/-- The loop of `evict` (lines 379-381) with `n` iterations left. -/
def evict_loop (c : cacheStruct) (evicted_addr open_block : Int) :
    Nat → Int → mainMemory → mainMemory
  | 0, _, m => m
  | n + 1, block, m =>
    evict_loop c evicted_addr open_block n (block + 1)
      (mem_access m (evicted_addr + block) 1 ((c.blocks open_block).data block)).1

/-- The function `evict` (lines 375-383); it changes main memory only. -/
def evict (c : cacheStruct) (m : mainMemory) (evicted_addr open_block : Int) : mainMemory :=
  if (c.blocks open_block).valid = 0 then m
  else if (c.blocks open_block).dirty ≠ 0 then
    evict_loop c evicted_addr open_block c.blockSize.toNat 0 m
  else m

/-- The function `touch_block` (lines 385-390), applied to
`cache.blocks + open_block`. -/
def touch_block (c : cacheStruct) (open_block tag : Int) : cacheStruct :=
  { c with blocks := (Function.update c.blocks open_block
      { c.blocks open_block with dirty := 0, valid := 1, tag := tag }) }

/-- The loop of lines 163-165 with `n` iterations left: the words of the block
are read from main memory. -/
def fill_loop (open_block start : Int) :
    Nat → Int → cacheStruct × mainMemory → cacheStruct × mainMemory
  | 0, _, cm => cm
  | n + 1, block, cm =>
    let r := mem_access cm.2 (start + block) 0 0
    let c : cacheStruct :=
      { cm.1 with blocks := (Function.update cm.1.blocks open_block
          { cm.1.blocks open_block with
            data := Function.update (cm.1.blocks open_block).data block r.2 }) }
    fill_loop open_block start n (block + 1) (c, r.1)

/-- The address `evicted` of line 155 for the block `open_block`. -/
def evictedAddr (c : cacheStruct) (decoded : decoded_address) (open_block : Int) : Int :=
  ((c.blocks open_block).tag * c.numSets + decoded.set_index) * c.blockSize

/-- Lines 148-168 of `cache_access`: the block to work with, after the miss
handling when the address is not cached.  The result is the cache, the main
memory and `open_block`.  The remainder `%` of C truncates towards zero. -/
def locate (c : cacheStruct) (m : mainMemory) (addr : Int) : cacheStruct × mainMemory × Int :=
  let decoded := decode c addr
  let open_block := block_index c decoded
  if open_block = -1 then
    let open_block := find_block_to_replace c decoded
    let evicted := evictedAddr c decoded open_block
    let m := evict c m evicted open_block
    let c := touch_block c open_block decoded.tag
    let start := addr - Int.tmod addr c.blockSize
    let cm := fill_loop open_block start c.blockSize.toNat 0 (c, m)
    (cm.1, cm.2, open_block)
  else (c, m, open_block)

/-- The value fits in a 32-bit `int`. -/
def inInt (x : Int) : Prop := -2147483648 ≤ x ∧ x ≤ 2147483647

instance (x : Int) : Decidable (inInt x) := by
  unfold inInt; infer_instance

/-- The configuration passes the checks of `cache_init`, so that `log2` is
defined, the divisor of `%` is not zero and every index used by `cache_access`
is inside its array. -/
def configOK (c : cacheStruct) : Prop :=
  0 < c.blockSize ∧ c.blockSize ≤ MAX_BLOCK_SIZE ∧ 0 < c.numSets ∧ 0 < c.blocksPerSet ∧
    c.blocksPerSet * c.numSets ≤ MAX_CACHE_SIZE

instance (c : cacheStruct) : Decidable (configOK c) := by
  unfold configOK; infer_instance

/-- No `lruLabel++` of `update_LRUs` overflows: the valid blocks of the set
have a label below `INT_MAX`. -/
def labelsOK (c : cacheStruct) (addy : decoded_address) : Prop :=
  ∀ j ∈ List.range c.blocksPerSet.toNat,
    (c.blocks (addy.base + (j : Nat))).valid ≠ 0 →
      (c.blocks (addy.base + (j : Nat))).lruLabel < 2147483647

instance (c : cacheStruct) (addy : decoded_address) : Decidable (labelsOK c addy) := by
  unfold labelsOK; infer_instance

/-- The block that a miss on `addr` replaces: the value of `open_block` after
line 153. -/
def victim (c : cacheStruct) (addr : Int) : Int :=
  find_block_to_replace c (decode c addr)

/-- The block that the access to `addr` works with: the block found by
`block_index` on a hit, the replaced block on a miss. -/
def usedBlock (c : cacheStruct) (addr : Int) : Int :=
  if block_index c (decode c addr) = -1 then victim c addr
  else block_index c (decode c addr)

/-- The value of `start` in line 161. -/
def blockStart (c : cacheStruct) (addr : Int) : Int := addr - Int.tmod addr c.blockSize

/-- The call `cache_access(addr, ..)` has defined behaviour in the cache `c`:
the configuration is one that `cache_init` accepts, `addr` is an `int`, on a
miss the `int` arithmetic of lines 155-164 and of `evict` does not overflow,
and no `lruLabel++` overflows (the labels incremented are those of the blocks
of the set that are valid after `touch_block`). -/
def accessDefined (c : cacheStruct) (addr : Int) : Prop :=
  configOK c ∧ inInt addr ∧
  (block_index c (decode c addr) = -1 →
    inInt ((c.blocks (victim c addr)).tag * c.numSets) ∧
    inInt ((c.blocks (victim c addr)).tag * c.numSets + (decode c addr).set_index) ∧
    inInt (evictedAddr c (decode c addr) (victim c addr)) ∧
    ((c.blocks (victim c addr)).valid ≠ 0 → (c.blocks (victim c addr)).dirty ≠ 0 →
      inInt (evictedAddr c (decode c addr) (victim c addr) + (c.blockSize - 1))) ∧
    inInt (blockStart c addr + (c.blockSize - 1))) ∧
  labelsOK (locate c { mem := fun _ => 0, calls := [] } addr).1 (decode c addr)

instance (c : cacheStruct) (addr : Int) : Decidable (accessDefined c addr) := by
  unfold accessDefined; infer_instance

/-- The function `cache_access` (lines 141-183): the new cache, the new main
memory and the returned value; `none` when the behaviour is undefined. -/
def cache_access (c : cacheStruct) (m : mainMemory) (addr write_flag write_data : Int) :
    Option (cacheStruct × mainMemory × Int) :=
  if accessDefined c addr then
    let decoded := decode c addr
    let l := locate c m addr
    let open_block := l.2.2
    let c := update_LRUs l.1 decoded open_block
    let c :=
      if write_flag ≠ 0 then
        { c with blocks := (Function.update c.blocks open_block
            { c.blocks open_block with
              data := Function.update (c.blocks open_block).data decoded.block_offset write_data
              dirty := 1 }) }
      else c
    some (c, l.2.1, if write_flag ≠ 0 then 0 else (c.blocks open_block).data decoded.block_offset)
  else none

/-- One call of `cache_access`: its three arguments. -/
structure accessCall where
  addr : Int
  write_flag : Int
  write_data : Int

/-- The calls of `cache_access` in the list, made in order from the cache `c`
and main memory `m`: the final cache, the final main memory and the returned
values, `none` as soon as one call is undefined. -/
def cacheRun : cacheStruct → mainMemory → List accessCall →
    Option (cacheStruct × mainMemory × List Int)
  | c, m, [] => some (c, m, [])
  | c, m, r :: rs =>
    (cache_access c m r.addr r.write_flag r.write_data).bind fun x =>
      (cacheRun x.1 x.2.1 rs).map fun y => (y.1, y.2.1, x.2.2 :: y.2.2)

/-! ### Reference notions for the cache claims -/

/-- A memory without a cache: a write stores the word and returns 0 (as
`cache_access` does), a read returns the stored word. -/
def flatAccess (f : Int → Int) (r : accessCall) : (Int → Int) × Int :=
  if r.write_flag ≠ 0 then (Function.update f r.addr r.write_data, 0) else (f, f r.addr)

/-- The calls of the list made on a memory without a cache: the final memory
and the returned values. -/
def flatRun : (Int → Int) → List accessCall → (Int → Int) × List Int
  | f, [] => (f, [])
  | f, r :: rs =>
    ((flatRun (flatAccess f r).1 rs).1, (flatAccess f r).2 :: (flatRun (flatAccess f r).1 rs).2)

/-- Main memory overlaid with the valid cached blocks: the word of the cached
copy when the address is cached, the word of main memory otherwise. -/
def overlay (c : cacheStruct) (m : mainMemory) (a : Int) : Int :=
  if block_index c (decode c a) = -1 then m.mem a
  else (c.blocks (block_index c (decode c a))).data (decode c a).block_offset

/-- The time of the most recent access of each block during the calls of the
list, made from the cache `c` at time `t`: the calls are numbered `t + 1`,
`t + 2`, ..; a block that no call has worked with keeps its entry of `lu`. -/
def useRun : cacheStruct → mainMemory → Nat → (Int → Nat) → List accessCall → (Int → Nat)
  | _, _, _, lu, [] => lu
  | c, m, t, lu, r :: rs =>
    match cache_access c m r.addr r.write_flag r.write_data with
    | none => lu
    | some x => useRun x.1 x.2.1 (t + 1) (Function.update lu (usedBlock c r.addr) (t + 1)) rs

/-- The time of the most recent access of each block after the calls of the
list made from the cache `c`; 0 for a block never accessed. -/
def lastUse (c : cacheStruct) (m : mainMemory) (calls : List accessCall) : Int → Nat :=
  useRun c m 0 (fun _ => 0) calls

/-! ### Example caches -/

/-- A main memory holding `100 + a` at address `a`, with no call made yet. -/
def exampleMemory : mainMemory := { mem := fun a => 100 + a, calls := [] }

/-- The cache with one set of one block of two words, after the write of 9 to
address 0: its block is valid and dirty. -/
def dirtyCache : cacheStruct × mainMemory × Int :=
  ((cache_init 2 1 1).bind fun c => cache_access c exampleMemory 0 1 9).getD
    ({ blocks := fun _ => emptyBlock, blockSize := 0, numSets := 0, blocksPerSet := 0 },
      exampleMemory, 0)

/-- The read of address 2 in `dirtyCache`, which replaces the dirty block. -/
def dirtyMiss : cacheStruct × mainMemory × Int :=
  (cache_access dirtyCache.1 dirtyCache.2.1 2 0 0).getD dirtyCache

/-- The bookkeeping of `lruLabel` against the times `lu` of the most recent
access of each block, `t` calls after `cache_init`: a block is valid exactly
when it has been accessed, two blocks are never accessed at the same time, the
labels lie between 0 and `t`, among the valid blocks of a set the label order
is the reverse of the order of the last accesses, and the block accessed last
has label 0. -/
def LruInv (c : cacheStruct) (lu : Int → Nat) (t : Nat) : Prop :=
  (∀ i, lu i ≤ t) ∧
  (∀ i, (c.blocks i).valid = 0 → lu i = 0) ∧
  (∀ i, (c.blocks i).valid ≠ 0 → 1 ≤ lu i) ∧
  (∀ i1 i2, (c.blocks i1).valid ≠ 0 → (c.blocks i2).valid ≠ 0 → lu i1 = lu i2 → i1 = i2) ∧
  (∀ i, 0 ≤ (c.blocks i).lruLabel ∧ (c.blocks i).lruLabel ≤ t) ∧
  (∀ i1 i2, i1 / c.blocksPerSet = i2 / c.blocksPerSet →
    (c.blocks i1).valid ≠ 0 → (c.blocks i2).valid ≠ 0 →
    (lu i1 < lu i2 ↔ (c.blocks i2).lruLabel < (c.blocks i1).lruLabel)) ∧
  (∀ i, 0 < t → lu i = t → (c.blocks i).lruLabel = 0)

/-- The cache with one set of two blocks of one word. -/
def lruInit : cacheStruct :=
  reset_cache
    { blocks := fun _ => emptyBlock, blockSize := 1, numSets := 1, blocksPerSet := 2 }

/-- The reads of the addresses 0 and 1: both blocks of the set are valid and
the block holding address 0 is the least recently used. -/
def lruCalls : List accessCall := [⟨0, 0, 0⟩, ⟨1, 0, 0⟩]

/-- The cache, main memory and returned values after `lruCalls`. -/
def lruExample : cacheStruct × mainMemory × List Int :=
  (cacheRun lruInit exampleMemory lruCalls).getD (lruInit, exampleMemory, [])

/-- The configuration has `2^bb` words per block and `2^ib` sets and passes the
checks of `cache_init`. -/
def Pow2Config (c : cacheStruct) (bb ib : Nat) : Prop :=
  c.blockSize = 2 ^ bb ∧ c.numSets = 2 ^ ib ∧ configOK c

/-- The write-back invariant: the valid blocks of a set have distinct tags, a
valid block that is not dirty holds the words of main memory, and main memory
overlaid with the cached blocks is the memory `f`. -/
def CacheInv (c : cacheStruct) (m : mainMemory) (f : Int → Int) : Prop :=
  (∀ S j1 j2 : Int, 0 ≤ j1 → j1 < c.blocksPerSet → 0 ≤ j2 → j2 < c.blocksPerSet →
    (c.blocks (S * c.blocksPerSet + j1)).valid ≠ 0 →
    (c.blocks (S * c.blocksPerSet + j2)).valid ≠ 0 →
    (c.blocks (S * c.blocksPerSet + j1)).tag = (c.blocks (S * c.blocksPerSet + j2)).tag →
    j1 = j2) ∧
  (∀ S j k : Int, 0 ≤ S → S < c.numSets → 0 ≤ j → j < c.blocksPerSet →
    (c.blocks (S * c.blocksPerSet + j)).valid ≠ 0 →
    (c.blocks (S * c.blocksPerSet + j)).dirty = 0 →
    0 ≤ k → k < c.blockSize →
    (c.blocks (S * c.blocksPerSet + j)).data k =
      m.mem (((c.blocks (S * c.blocksPerSet + j)).tag * c.numSets + S) * c.blockSize + k)) ∧
  (∀ a, overlay c m a = f a)

/-- The cached blocks lie inside the 65536 words of memory: an invalid block
has the tag -1 of `reset_cache`, a valid block of set `S` has a non-negative tag
and ends at or before address 65536. -/
def TagInv (c : cacheStruct) : Prop :=
  (∀ i, (c.blocks i).valid = 0 → (c.blocks i).tag = -1) ∧
  (∀ S j : Int, 0 ≤ S → S < c.numSets → 0 ≤ j → j < c.blocksPerSet →
    (c.blocks (S * c.blocksPerSet + j)).valid ≠ 0 →
    0 ≤ (c.blocks (S * c.blocksPerSet + j)).tag ∧
    ((c.blocks (S * c.blocksPerSet + j)).tag * c.numSets + S) * c.blockSize + c.blockSize
      ≤ 65536)

/-- The value of the most recent write to address `a` among the calls of the
list (the last one in the list), or the word `f a` of the initial memory when
the list has no write to `a`. -/
def lastWritten (f : Int → Int) (calls : List accessCall) (a : Int) : Int :=
  match calls.reverse.find? (fun q => decide (q.write_flag ≠ 0 ∧ q.addr = a)) with
  | some q => q.write_data
  | none => f a

/-- The cache with one set of one block of two words. -/
def pow2Init : cacheStruct :=
  reset_cache
    { blocks := fun _ => emptyBlock, blockSize := 2, numSets := 1, blocksPerSet := 1 }

/-- The write of 9 to address 0, the read of address 2 (which replaces the
dirty block) and the read of address 0. -/
def pow2Calls : List accessCall := [⟨0, 1, 9⟩, ⟨2, 0, 0⟩, ⟨0, 0, 0⟩]
/-! ## The linker (`src/linker.c`): the symbol table pass

The linker up to line 247: the test of the number of files (lines 66-70) and
the pass of lines 162-247 over the symbol tables that lines 88-156 have read
into the array `files`.  The input of the model is that array: one `FileData`
for each of the `argc - 2` object files, taken to open.  A label is a `String`
and `strcmp` is equality of labels, for labels that the arrays `char label[7]`
hold with their terminator; a location is a `Char`; an `unsigned int` is a
`Nat` below `2^32` and its additions are taken modulo `2^32`.  The linker ends
in one of three ways (`LinkResult`): it overruns an array, which C leaves
undefined; it ends with `exit(1)`; or it goes on with the combined symbol
table.  The copying of the text and data words (lines 183-191) does not touch
the symbol table; of it the model keeps the condition that it stays inside the
arrays.  The words themselves and the relocation tables, which the pass does
not read, are not part of the model. -/

/-- The constant `MAXSIZE` (line 6). -/
def MAXSIZE : Nat := 500

/-- The constant `MAXFILES` (line 8). -/
def MAXFILES : Nat := 6

/-- The string literal of lines 201, 241, 244 and 308. -/
def StackLabel : String := "Stack"

/-- The struct `SymbolTableEntry` (lines 22-26).  The values that the struct
holds are those of `entryInBounds`. -/
structure SymbolTableEntry where
  label : String
  location : Char
  offset : Nat
deriving DecidableEq

/-- How the linker has ended after line 247: with an access outside an array
(undefined in C), with `exit(1)`, or with the combined symbol table. -/
inductive LinkResult where
  | undefined : LinkResult
  | error : LinkResult
  | table (t : List SymbolTableEntry) : LinkResult
deriving DecidableEq

/-- The fields of the struct `FileData` (lines 35-46) that the symbol table
pass reads; `symbolTableSize` is the length of `symbolTable`.  The values that
the struct holds are those of `fileInBounds`. -/
structure FileData where
  textSize : Nat
  dataSize : Nat
  symbolTable : List SymbolTableEntry

/-- The string is one that an array `char label[7]` (lines 23 and 132) holds
with its terminator: it has at most 6 bytes, none of them zero.  A longer label
is written past the end of the array by lines 137 and 140. -/
def fitsLabel (s : String) : Prop :=
  s.utf8ByteSize < 7 ∧ ∀ c ∈ s.data, c.toNat ≠ 0

instance (s : String) : Decidable (fitsLabel s) := by
  unfold fitsLabel; infer_instance

/-- The entry is a value of the struct of lines 22-26: the label fits its
array, the location is one `char` and the offset is an `unsigned int`. -/
def entryInBounds (e : SymbolTableEntry) : Prop :=
  fitsLabel e.label ∧ e.location.toNat < 256 ∧ e.offset < 4294967296

instance (e : SymbolTableEntry) : Decidable (entryInBounds e) := by
  unfold entryInBounds; infer_instance

/-- The file is one that the arrays of the struct `FileData` hold: at most
`MAXSIZE` text words, data words and symbols (lines 42-44; the loops of lines
117-142 and the accesses of lines 185, 190 and 199 run up to the sizes), each
symbol a value of its struct. -/
def fileInBounds (f : FileData) : Prop :=
  f.textSize ≤ MAXSIZE ∧ f.dataSize ≤ MAXSIZE ∧ f.symbolTable.length ≤ MAXSIZE ∧
    ∀ e ∈ f.symbolTable, entryInBounds e

instance (f : FileData) : Decidable (fileInBounds f) := by
  unfold fileInBounds; infer_instance

/-- Every file is inside the arrays. -/
def inBounds (files : List FileData) : Prop := ∀ f ∈ files, fileInBounds f

instance (files : List FileData) : Decidable (inBounds files) := by
  unfold inBounds; infer_instance

/-- The value of `combined.expectedTextSize` after the files are read (line
113): the sum of the text sizes. -/
def expectedTextSize : List FileData → Nat
  | [] => 0
  | f :: fs => (f.textSize + expectedTextSize fs) % 4294967296

/-- The value of `combined.expectedDataSize` after the files are read (line
112): the sum of the data sizes. -/
def expectedDataSize : List FileData → Nat
  | [] => 0
  | f :: fs => (f.dataSize + expectedDataSize fs) % 4294967296

/-- The function `calculateOffset` (lines 306-312); `expText` is
`addition->expectedTextSize`. -/
def calculateOffset (entry : SymbolTableEntry) (preText preData expText : Nat) : Nat :=
  if entry.label = StackLabel then 0
  else if entry.location = 'T' then (entry.offset + preText) % 4294967296
  else (entry.offset + preData + expText) % 4294967296

/-- The loop of lines 207-222 over the entries of the combined table for the
entry `e` of a file: the entries after the loop and `creationFlag`; `none` for
the duplicate-label error. -/
def mergeLoop (e : SymbolTableEntry) (preText preData expText : Nat) :
    List SymbolTableEntry → Option (List SymbolTableEntry × Bool)
  | [] => some ([], false)
  | x :: xs =>
    if e.label = x.label then
      if e.location ≠ 'U' ∧ x.location ≠ 'U' then none
      else
        (mergeLoop e preText preData expText xs).map fun r =>
          ((if x.location = 'U' ∧ e.location ≠ 'U' then
              { x with location := e.location,
                       offset := calculateOffset e preText preData expText }
            else x) :: r.1, true)
    else (mergeLoop e preText preData expText xs).map fun r => (x :: r.1, r.2)

/-- The body of the loop of lines 196-234 for the entry `e` of a file whose
text and data start at `preText` and `preData`: the combined symbol table after
the entry; `none` for an error. -/
def addSymbol (combined : List SymbolTableEntry) (e : SymbolTableEntry)
    (preText preData expText : Nat) : Option (List SymbolTableEntry) :=
  if e.label = StackLabel ∧ e.location ≠ 'U' then none
  else
    (mergeLoop e preText preData expText combined).map fun r =>
      if r.2 then r.1
      else r.1 ++ [{ label := e.label,
                     offset := if e.location = 'T' ∨ e.location = 'D'
                       then calculateOffset e preText preData expText else e.offset,
                     location := e.location }]

/-- The loop of lines 196-234 over the symbol table of one file. -/
def fileLoop (expText preText preData : Nat) :
    List SymbolTableEntry → List SymbolTableEntry → Option (List SymbolTableEntry)
  | [], combined => some combined
  | e :: es, combined =>
    (addSymbol combined e preText preData expText).bind (fileLoop expText preText preData es)

/-- The loop of lines 168-236 over the files; `textSize` and `dataSize` are
`combined.textSize` and `combined.dataSize`. -/
def filesLoop (expText : Nat) :
    List FileData → Nat → Nat → List SymbolTableEntry → Option (List SymbolTableEntry)
  | [], _, _, combined => some combined
  | f :: fs, textSize, dataSize, combined =>
    (fileLoop expText textSize dataSize f.symbolTable combined).bind
      (filesLoop expText fs ((textSize + f.textSize) % 4294967296)
        ((dataSize + f.dataSize) % 4294967296))

/-- The loop of lines 238-247 over the combined table; `total` is
`combined.expectedTextSize + combined.expectedDataSize`. -/
def finalLoop (total : Nat) : List SymbolTableEntry → Option (List SymbolTableEntry)
  | [] => some []
  | x :: xs =>
    if x.location = 'U' ∧ x.label ≠ StackLabel then none
    else
      (finalLoop total xs).map fun r =>
        (if x.label = StackLabel then { x with offset := total } else x) :: r

/-- The two loops of lines 162-247 on files that are inside the arrays: the
combined symbol table, `none` when `throwError` ends the program. -/
def tablePass (files : List FileData) : Option (List SymbolTableEntry) :=
  (filesLoop (expectedTextSize files) files 0 0 []).bind
    (finalLoop ((expectedTextSize files + expectedDataSize files) % 4294967296))

/-- The linker up to line 247 for the `argc - 2` object files `files`.  The
test of line 66, `argc <= 2 || argc > 8`, ends the program with `exit(1)` when
there is no object file or more than `MAXFILES`.  Otherwise the files are read
and the symbol table pass runs; with a file that is not inside the arrays the
reading overruns an array. -/
def symbolPass (files : List FileData) : LinkResult :=
  if files.length = 0 ∨ MAXFILES < files.length then LinkResult.error
  else if inBounds files then
    match tablePass files with
    | none => LinkResult.error
    | some t => LinkResult.table t
  else LinkResult.undefined

/-- The entries of all the symbol tables, in the order of the files. -/
def allSymbols : List FileData → List SymbolTableEntry
  | [] => []
  | f :: fs => f.symbolTable ++ allSymbols fs

/-- The sum of the text sizes of the files. -/
def totalText : List FileData → Nat
  | [] => 0
  | f :: fs => f.textSize + totalText fs

/-- The sum of the data sizes of the files. -/
def totalData : List FileData → Nat
  | [] => 0
  | f :: fs => f.dataSize + totalData fs

/-- The entries of all the symbol tables in the order in which the pass treats
them, each with the text start and the data start of its file
(`textStartingLine` and `dataStartingLine`, lines 172-173), for files placed
from `textSize` and `dataSize` on. -/
def entriesFrom : List FileData → Nat → Nat → List (SymbolTableEntry × Nat × Nat)
  | [], _, _ => []
  | f :: fs, textSize, dataSize =>
    f.symbolTable.map (fun e => (e, textSize, dataSize)) ++
      entriesFrom fs ((textSize + f.textSize) % 4294967296)
        ((dataSize + f.dataSize) % 4294967296)

/-- The loop of lines 196-234 over a list of entries that carry the starts of
their files. -/
def passLoop (expText : Nat) :
    List (SymbolTableEntry × Nat × Nat) → List SymbolTableEntry →
      Option (List SymbolTableEntry)
  | [], combined => some combined
  | a :: as, combined =>
    (addSymbol combined a.1 a.2.1 a.2.2 expText).bind (passLoop expText as)

/-- The entry written for `e` into the combined table: the update of line
217-218 for an undefined entry with the label of `e` when `e` is defined. -/
def mergeEntry (e : SymbolTableEntry) (preText preData expText : Nat)
    (x : SymbolTableEntry) : SymbolTableEntry :=
  if e.label = x.label ∧ x.location = 'U' ∧ e.location ≠ 'U' then
    { x with location := e.location, offset := calculateOffset e preText preData expText }
  else x

/-- The relation between the entries treated so far and the combined table:
the table holds each label once, it holds exactly the labels treated, no
treated entry defines `Stack`, an entry of the table is undefined exactly when
every treated entry with its label is, and it carries the location and the
resolved offset of a defined treated entry with its label. -/
def TableInv (expText : Nat) (done : List (SymbolTableEntry × Nat × Nat))
    (tbl : List SymbolTableEntry) : Prop :=
  (tbl.map (fun x => x.label)).Nodup ∧
  (∀ L, (∃ x ∈ tbl, x.label = L) ↔ (∃ a ∈ done, a.1.label = L)) ∧
  (∀ a ∈ done, ¬ (a.1.label = StackLabel ∧ a.1.location ≠ 'U')) ∧
  (∀ x ∈ tbl, (x.location = 'U' ↔ ∀ a ∈ done, a.1.label = x.label → a.1.location = 'U')) ∧
  (∀ x ∈ tbl, ∀ a ∈ done, a.1.label = x.label → a.1.location ≠ 'U' →
    x.location = a.1.location ∧
    (a.1.location = 'T' → x.offset = (a.1.offset + a.2.1) % 4294967296) ∧
    (a.1.location = 'D' → x.offset = (a.1.offset + a.2.2 + expText) % 4294967296))

/-- An object file with 3 text words and 2 data words that defines `Main` in
its text and `Dat` in its data and uses `Foo` and `Stack`. -/
def linkFile1 : FileData :=
  { textSize := 3, dataSize := 2,
    symbolTable := [⟨"Main", 'T', 0⟩, ⟨"Foo", 'U', 0⟩, ⟨"Dat", 'D', 1⟩, ⟨"Stack", 'U', 0⟩] }

/-- An object file with 4 text words and 1 data word that defines `Foo` in its
text and `Bar` in its data and uses `Main`. -/
def linkFile2 : FileData :=
  { textSize := 4, dataSize := 1,
    symbolTable := [⟨"Foo", 'T', 2⟩, ⟨"Bar", 'D', 0⟩, ⟨"Main", 'U', 0⟩] }

/-- Two object files of one text word each; the second defines `Far` in its
text with the largest `unsigned int` as offset. -/
def wrapFiles : List FileData :=
  [{ textSize := 1, dataSize := 0, symbolTable := [] },
   { textSize := 1, dataSize := 0, symbolTable := [⟨"Far", 'T', 4294967295⟩] }]
/-! ## Codec facts -/

theorem ldiff_mask (k m : Nat) : Nat.ldiff (2 ^ k - 1) m = 2 ^ k - (m % 2 ^ k + 1) := by
  apply Nat.eq_of_testBit_eq
  intro i
  have hlt : m % 2 ^ k < 2 ^ k := Nat.mod_lt _ (Nat.two_pow_pos k)
  rw [Nat.testBit_ldiff, Nat.testBit_two_pow_sub_one, Nat.testBit_two_pow_sub_succ hlt,
    Nat.testBit_mod_two_pow]
  cases decide (i < k) <;> simp

/-- Masking with `2^k - 1` is the residue modulo `2^k`, also for negative words. -/
theorem land_mask (k : Nat) (x : Int) : Int.land x ((2 ^ k - 1 : Nat) : Int) = x % 2 ^ k := by
  cases x with
  | ofNat m =>
    show ((m &&& (2 ^ k - 1) : Nat) : Int) = _
    rw [Nat.and_pow_two_sub_one_eq_mod]
    simp
  | negSucc m =>
    show ((Nat.ldiff (2 ^ k - 1) m : Nat) : Int) = _
    rw [ldiff_mask]
    have hlt : m % 2 ^ k < 2 ^ k := Nat.mod_lt _ (Nat.two_pow_pos k)
    rw [Int.negSucc_emod m (by positivity), Nat.cast_sub (by omega)]
    push_cast
    ring

theorem land_seven (x : Int) : Int.land x 7 = x % 8 := land_mask 3 x

theorem land_ffff (x : Int) : Int.land x 65535 = x % 65536 := land_mask 16 x

theorem field0_eq (w : Int) : field0 w = (w / 524288) % 8 := by
  unfold field0
  rw [land_seven, Int.shiftRight_eq_div_pow]
  norm_num

theorem field1_eq (w : Int) : field1 w = (w / 65536) % 8 := by
  unfold field1
  rw [land_seven, Int.shiftRight_eq_div_pow]
  norm_num

theorem field2_eq (w : Int) : field2 w = w % 65536 := by
  unfold field2
  rw [land_ffff]

theorem opcode_eq (w : Int) : opcode w = w / 4194304 := by
  unfold opcode
  rw [Int.shiftRight_eq_div_pow]
  norm_num

theorem field0_range (w : Int) : 0 ≤ field0 w ∧ field0 w < 8 := by
  rw [field0_eq]; omega

theorem field1_range (w : Int) : 0 ≤ field1 w ∧ field1 w < 8 := by
  rw [field1_eq]; omega

theorem field2_range (w : Int) : 0 ≤ field2 w ∧ field2 w < 65536 := by
  rw [field2_eq]; omega

theorem NOOPINSTR_val : NOOPINSTR = 29360128 := by decide

theorem opcode_NOOPINSTR : opcode NOOPINSTR = 7 := by decide

theorem readReg_field0 (reg : Int → Int) (w : Int) :
    readReg reg (field0 w) = some (reg (field0 w)) := by
  have h := field0_range w
  simp [readReg, NUMREGS, h.1, h.2]

theorem readReg_field1 (reg : Int → Int) (w : Int) :
    readReg reg (field1 w) = some (reg (field1 w)) := by
  have h := field1_range w
  simp [readReg, NUMREGS, h.1, h.2]

theorem writeReg_field1 (reg : Int → Int) (w v : Int) :
    writeReg reg (field1 w) v = some (Function.update reg (field1 w) v) := by
  have h := field1_range w
  simp [writeReg, NUMREGS, h.1, h.2]

/-! ## The cycle in closed form -/


theorem branchTaken_not_mem (s : stateType) (h : branchTaken s = true) :
    ¬ opcode s.EXMEM.instr = LW ∧ ¬ opcode s.EXMEM.instr = SW := by
  simp only [branchTaken, decide_eq_true_eq] at h
  rw [h.2]; decide

theorem readMem_of_range (mem : Int → Int) (i : Int) (h : 0 ≤ i ∧ i < NUMMEMORY) :
    readMem mem i = some (mem i) := by
  simp [readMem, h]

theorem writeMem_of_range (mem : Int → Int) (i v : Int) (h : 0 ≤ i ∧ i < NUMMEMORY) :
    writeMem mem i v = some (Function.update mem i v) := by
  simp [writeMem, h]

theorem writeReg_field2 (reg : Int → Int) (w v : Int) (h : field2 w < NUMREGS) :
    writeReg reg (field2 w) v = some (Function.update reg (field2 w) v) := by
  have h2 := field2_range w
  simp [writeReg, h, h2.1]




theorem idStage_eq (s ns : stateType) :
    idStage s ns = some { ns with
      IDEX := { instr := if stalling s then NOOPINSTR else s.IFID.instr
                pcPlus1 := s.IFID.pcPlus1
                valA := s.reg (field0 s.IFID.instr)
                valB := s.reg (field1 s.IFID.instr)
                offset := convertNum (field2 s.IFID.instr) }
      pc := if stalling s then s.pc else ns.pc
      IFID := if stalling s then s.IFID else ns.IFID } := by
  simp only [idStage, readReg_field0, readReg_field1, Option.bind_eq_bind, Option.some_bind]
  split <;> rfl

theorem memStage_eq (s ns : stateType)
    (hm : (opcode s.EXMEM.instr = LW ∨ opcode s.EXMEM.instr = SW) →
      0 ≤ s.EXMEM.aluResult ∧ s.EXMEM.aluResult < NUMMEMORY) :
    memStage s ns = some { ns with
      pc := if branchTaken s then s.EXMEM.branchTarget else ns.pc
      IFID := { ns.IFID with instr := if branchTaken s then NOOPINSTR else ns.IFID.instr }
      IDEX := { ns.IDEX with instr := if branchTaken s then NOOPINSTR else ns.IDEX.instr }
      EXMEM := { ns.EXMEM with instr := if branchTaken s then NOOPINSTR else ns.EXMEM.instr }
      dataMem := if ¬ branchTaken s ∧ opcode s.EXMEM.instr = SW
                 then Function.update ns.dataMem s.EXMEM.aluResult s.EXMEM.valB
                 else ns.dataMem
      MEMWB := { instr := s.EXMEM.instr
                 writeData := if ¬ branchTaken s ∧
                                  (opcode s.EXMEM.instr = LW ∨ opcode s.EXMEM.instr = SW)
                              then s.dataMem s.EXMEM.aluResult else s.EXMEM.aluResult } } := by
  unfold memStage
  by_cases hb : branchTaken s = true
  · have hbm := branchTaken_not_mem s hb
    simp [hb]
  · by_cases hl : opcode s.EXMEM.instr = LW
    · have h1 : LW ≠ SW := by decide
      simp [hb, hl, h1, readMem_of_range _ _ (hm (Or.inl hl))]
    · by_cases hs : opcode s.EXMEM.instr = SW
      · have h1 : SW ≠ LW := by decide
        simp [hb, hs, h1, readMem_of_range _ _ (hm (Or.inr hs)),
          writeMem_of_range _ _ _ (hm (Or.inr hs))]
      · simp [hb, hl, hs]

theorem wbStage_eq (s ns : stateType)
    (hr : (opcode s.MEMWB.instr = NOR ∨ opcode s.MEMWB.instr = ADD) →
      field2 s.MEMWB.instr < NUMREGS) :
    wbStage s ns = some { ns with
      WBEND := { instr := s.MEMWB.instr, writeData := s.MEMWB.writeData }
      reg := if opcode s.MEMWB.instr = NOR ∨ opcode s.MEMWB.instr = ADD
             then Function.update ns.reg (field2 s.MEMWB.instr) s.MEMWB.writeData
             else if opcode s.MEMWB.instr = LW
             then Function.update ns.reg (field1 s.MEMWB.instr) s.MEMWB.writeData
             else ns.reg } := by
  unfold wbStage
  by_cases hw : opcode s.MEMWB.instr = NOR ∨ opcode s.MEMWB.instr = ADD
  · simp only [if_pos hw, writeReg_field2 _ _ _ (hr hw)]
    rfl
  · by_cases hl : opcode s.MEMWB.instr = LW
    · simp only [if_neg hw, if_pos hl, writeReg_field1]
      rfl
    · simp only [if_neg hw, if_neg hl]

theorem step_of_defined (s : stateType) (h : stepDefined s) : step s = some (nextState s) := by
  obtain ⟨hp, hm, hr⟩ := h
  have e1 : ifStage s { s with cycles := (s.cycles + 1) % 4294967296 } = some
      { s with cycles := (s.cycles + 1) % 4294967296,
               IFID := { instr := s.instrMem s.pc, pcPlus1 := s.pc + 1 }, pc := s.pc + 1 } := by
    simp [ifStage, readMem_of_range _ _ hp]
  simp only [step, e1, Option.bind_eq_bind, Option.some_bind, idStage_eq, exStage,
    memStage_eq _ _ hm, wbStage_eq _ _ hr, nextState]
  by_cases hb : branchTaken s = true <;> by_cases hs : stalling s = true <;> simp [hb, hs]

theorem ifStage_none (s ns : stateType) (h : ¬ (0 ≤ s.pc ∧ s.pc < NUMMEMORY)) :
    ifStage s ns = none := by
  simp [ifStage, readMem, h]

theorem memStage_none (s ns : stateType)
    (ho : opcode s.EXMEM.instr = LW ∨ opcode s.EXMEM.instr = SW)
    (h : ¬ (0 ≤ s.EXMEM.aluResult ∧ s.EXMEM.aluResult < NUMMEMORY)) :
    memStage s ns = none := by
  have hb : ¬ branchTaken s = true := fun hb => by
    have := branchTaken_not_mem s hb
    tauto
  unfold memStage
  by_cases hl : opcode s.EXMEM.instr = LW
  · simp [hb, hl, readMem, h]
  · have hs : opcode s.EXMEM.instr = SW := by tauto
    simp [hb, hl, hs, readMem, writeMem, h]

theorem wbStage_none (s ns : stateType)
    (ho : opcode s.MEMWB.instr = NOR ∨ opcode s.MEMWB.instr = ADD)
    (h : ¬ field2 s.MEMWB.instr < NUMREGS) :
    wbStage s ns = none := by
  unfold wbStage
  simp [ho, writeReg, h]

theorem step_defined_of_some (s s' : stateType) (h : step s = some s') : stepDefined s := by
  unfold step at h
  simp only [Option.bind_eq_bind] at h
  refine ⟨?_, ?_, ?_⟩
  · by_contra hc
    rw [ifStage_none _ _ hc] at h
    simp at h
  · intro ho
    by_contra hc
    cases h1 : ifStage s { s with cycles := (s.cycles + 1) % 4294967296 } with
    | none => rw [h1] at h; simp at h
    | some a =>
      rw [h1] at h
      simp only [Option.some_bind, idStage_eq, memStage_none _ _ ho hc] at h
      simp at h
  · intro ho
    by_contra hc
    cases h1 : ifStage s { s with cycles := (s.cycles + 1) % 4294967296 } with
    | none => rw [h1] at h; simp at h
    | some a =>
      rw [h1] at h
      simp only [Option.some_bind, idStage_eq] at h
      cases h2 : memStage s (exStage s { a with
          IDEX := { instr := if stalling s then NOOPINSTR else s.IFID.instr
                    pcPlus1 := s.IFID.pcPlus1
                    valA := s.reg (field0 s.IFID.instr)
                    valB := s.reg (field1 s.IFID.instr)
                    offset := convertNum (field2 s.IFID.instr) }
          pc := if stalling s then s.pc else a.pc
          IFID := if stalling s then s.IFID else a.IFID }) with
      | none => rw [h2] at h; simp at h
      | some b =>
        rw [h2] at h
        simp only [Option.some_bind, wbStage_none _ _ ho hc] at h
        simp at h

/-- The cycle is defined exactly when its array accesses are in range, and then
its result is `nextState`. -/
theorem step_eq_some_iff (s s' : stateType) :
    step s = some s' ↔ stepDefined s ∧ s' = nextState s := by
  constructor
  · intro h
    have hd := step_defined_of_some s s' h
    rw [step_of_defined s hd] at h
    exact ⟨hd, (Option.some.inj h).symm⟩
  · rintro ⟨hd, rfl⟩
    exact step_of_defined s hd

/-! ### Field-wise view of `nextState` -/

theorem nextState_cycles (s : stateType) :
    (nextState s).cycles = (s.cycles + 1) % 4294967296 := rfl

theorem nextState_numMemory (s : stateType) : (nextState s).numMemory = s.numMemory := rfl

theorem nextState_pc (s : stateType) :
    (nextState s).pc = if branchTaken s then s.EXMEM.branchTarget
      else if stalling s then s.pc else s.pc + 1 := rfl

theorem nextState_instrMem (s : stateType) : (nextState s).instrMem = s.instrMem := rfl

theorem nextState_dataMem (s : stateType) :
    (nextState s).dataMem = if ¬ branchTaken s ∧ opcode s.EXMEM.instr = SW
      then Function.update s.dataMem s.EXMEM.aluResult s.EXMEM.valB else s.dataMem := rfl

theorem nextState_reg (s : stateType) :
    (nextState s).reg = if opcode s.MEMWB.instr = NOR ∨ opcode s.MEMWB.instr = ADD
      then Function.update s.reg (field2 s.MEMWB.instr) s.MEMWB.writeData
      else if opcode s.MEMWB.instr = LW
      then Function.update s.reg (field1 s.MEMWB.instr) s.MEMWB.writeData
      else s.reg := rfl

theorem nextState_IFID_instr (s : stateType) :
    (nextState s).IFID.instr = if branchTaken s then NOOPINSTR
      else if stalling s then s.IFID.instr else s.instrMem s.pc := rfl

theorem nextState_IFID_pcPlus1 (s : stateType) :
    (nextState s).IFID.pcPlus1 = if stalling s then s.IFID.pcPlus1 else s.pc + 1 := rfl

theorem nextState_IDEX_instr (s : stateType) :
    (nextState s).IDEX.instr =
      if branchTaken s ∨ stalling s then NOOPINSTR else s.IFID.instr := rfl

theorem nextState_IDEX_pcPlus1 (s : stateType) :
    (nextState s).IDEX.pcPlus1 = s.IFID.pcPlus1 := rfl

theorem nextState_IDEX_valA (s : stateType) :
    (nextState s).IDEX.valA = s.reg (field0 s.IFID.instr) := rfl

theorem nextState_IDEX_valB (s : stateType) :
    (nextState s).IDEX.valB = s.reg (field1 s.IFID.instr) := rfl

theorem nextState_IDEX_offset (s : stateType) :
    (nextState s).IDEX.offset = convertNum (field2 s.IFID.instr) := rfl

theorem nextState_EXMEM_instr (s : stateType) :
    (nextState s).EXMEM.instr = if branchTaken s then NOOPINSTR else s.IDEX.instr := rfl

theorem nextState_EXMEM_branchTarget (s : stateType) :
    (nextState s).EXMEM.branchTarget = wrap32 (s.IDEX.offset + s.IDEX.pcPlus1) := rfl

theorem nextState_EXMEM_eq (s : stateType) :
    (nextState s).EXMEM.eq =
      if (dataHazard s.IDEX.valA s.IDEX.valB s).1 = (dataHazard s.IDEX.valA s.IDEX.valB s).2
      then 1 else 0 := rfl

theorem nextState_EXMEM_aluResult (s : stateType) :
    (nextState s).EXMEM.aluResult =
      aluOut (opcode s.IDEX.instr) (dataHazard s.IDEX.valA s.IDEX.valB s).1
        (dataHazard s.IDEX.valA s.IDEX.valB s).2 s.IDEX.offset s.EXMEM.aluResult := rfl

theorem nextState_EXMEM_valB (s : stateType) :
    (nextState s).EXMEM.valB = (dataHazard s.IDEX.valA s.IDEX.valB s).2 := rfl

theorem nextState_MEMWB_instr (s : stateType) :
    (nextState s).MEMWB.instr = s.EXMEM.instr := rfl

theorem nextState_MEMWB_writeData (s : stateType) :
    (nextState s).MEMWB.writeData =
      if ¬ branchTaken s ∧ (opcode s.EXMEM.instr = LW ∨ opcode s.EXMEM.instr = SW)
      then s.dataMem s.EXMEM.aluResult else s.EXMEM.aluResult := rfl

theorem nextState_WBEND_instr (s : stateType) :
    (nextState s).WBEND.instr = s.MEMWB.instr := rfl

theorem nextState_WBEND_writeData (s : stateType) :
    (nextState s).WBEND.writeData = s.MEMWB.writeData := rfl

/-! ## The run loop -/

theorem run_of_halt (fuel : Nat) (s : stateType) (h : opcode s.MEMWB.instr = HALT) :
    run fuel s = some s := by
  cases fuel <;> simp [run, h]

theorem run_succ_of_not_halt (fuel : Nat) (s : stateType) (h : opcode s.MEMWB.instr ≠ HALT) :
    run (fuel + 1) s = (step s).bind (run fuel) := by
  simp [run, h]

/-- Characterisation of the result of the run loop: it is the first state of
the cycle sequence whose `MEM/WB` latch holds `halt`. -/
theorem run_eq_some_iff (fuel : Nat) (s s' : stateType) :
    run fuel s = some s' ↔
      ∃ n, n ≤ fuel ∧ stepN n s = some s' ∧ opcode s'.MEMWB.instr = HALT ∧
        ∀ k, k < n → ∀ t, stepN k s = some t → opcode t.MEMWB.instr ≠ HALT := by
  induction fuel generalizing s with
  | zero =>
    constructor
    · intro h
      by_cases hh : opcode s.MEMWB.instr = HALT
      · simp only [run, hh, if_true] at h
        have h2 := Option.some.inj h
        subst h2
        exact ⟨0, le_refl _, rfl, hh, fun k hk => absurd hk (Nat.not_lt_zero k)⟩
      · simp [run, hh] at h
    · rintro ⟨n, hn, hs, hh, -⟩
      have : n = 0 := by omega
      subst this
      simp only [stepN] at hs
      have h2 := Option.some.inj hs
      subst h2
      exact run_of_halt 0 s hh
  | succ fuel ih =>
    constructor
    · intro h
      by_cases hh : opcode s.MEMWB.instr = HALT
      · rw [run_of_halt _ _ hh] at h
        have h2 := Option.some.inj h
        subst h2
        exact ⟨0, Nat.zero_le _, rfl, hh, fun k hk => absurd hk (Nat.not_lt_zero k)⟩
      · rw [run_succ_of_not_halt _ _ hh] at h
        cases h1 : step s with
        | none => rw [h1] at h; simp at h
        | some t1 =>
          rw [h1, Option.some_bind] at h
          obtain ⟨n, hn, hs, hh', hk⟩ := (ih t1).1 h
          refine ⟨n + 1, by omega, by simp [stepN, h1, hs], hh', ?_⟩
          intro k hk' t ht
          cases k with
          | zero =>
            simp only [stepN] at ht
            have h2 := Option.some.inj ht
            subst h2
            exact hh
          | succ k =>
            simp only [stepN, h1, Option.some_bind] at ht
            exact hk k (by omega) t ht
    · rintro ⟨n, hn, hs, hh, hk⟩
      cases n with
      | zero =>
        simp only [stepN] at hs
        have h2 := Option.some.inj hs
        subst h2
        exact run_of_halt _ s hh
      | succ n =>
        have hh0 : opcode s.MEMWB.instr ≠ HALT := hk 0 (Nat.succ_pos n) s rfl
        rw [run_succ_of_not_halt _ _ hh0]
        cases h1 : step s with
        | none => simp [stepN, h1] at hs
        | some t1 =>
          simp only [stepN, h1, Option.some_bind] at hs
          rw [Option.some_bind]
          refine (ih t1).2 ⟨n, by omega, hs, hh, ?_⟩
          intro k hk' t ht
          exact hk (k + 1) (by omega) t (by simp [stepN, h1, ht])

/-! ## Run loop and halt detection -/

/-- C2 (as stated, refuted): from reset with the one-word program `halt` the
run loop exits after four cycles in a state whose `MEM/WB` latch holds `halt`
while the retire latch `WB/END` still holds a no-op, so the loop does not wait
for `halt` to reach the retire latch. -/
theorem run_exits_before_retire :
    ∃ s, run 4 (initState haltProg) = some s ∧ s.cycles = 4 ∧
      opcode s.MEMWB.instr = HALT ∧ opcode s.WBEND.instr ≠ HALT :=
  ⟨(run 4 (initState haltProg)).get (by decide), by simp, by decide, by decide, by decide⟩

/-- C2 (amended): the run loop tests the `MEM/WB` latch.  From any state it
executes another cycle exactly when `opcode(MEMWB.instr)` is not `HALT`, and
its result is the first state of the cycle sequence whose `MEM/WB` latch holds
`halt`, no earlier state. -/
theorem run_stops_at_first_MEMWB_halt (fuel : Nat) (s : stateType) :
    (opcode s.MEMWB.instr = HALT → run fuel s = some s) ∧
    (opcode s.MEMWB.instr ≠ HALT → run (fuel + 1) s = (step s).bind (run fuel)) ∧
    ∀ s', run fuel s = some s' ↔
      ∃ n, n ≤ fuel ∧ stepN n s = some s' ∧ opcode s'.MEMWB.instr = HALT ∧
        ∀ k, k < n → ∀ t, stepN k s = some t → opcode t.MEMWB.instr ≠ HALT :=
  ⟨run_of_halt fuel s, run_succ_of_not_halt fuel s, run_eq_some_iff fuel s⟩

/-! ## Load-use stall -/

theorem stalling_of_loadUse (s : stateType) (h : loadUse s) : stalling s = true := by
  obtain ⟨hl, hd⟩ := h
  unfold stalling
  by_cases hi : opcode s.IFID.instr = LW
  · rcases hd with hd | ⟨hn, -⟩
    · simp [hl, hi, hd]
    · exact absurd hi hn
  · rcases hd with hd | ⟨-, hd⟩ <;> simp [hl, hi, hd]

theorem stalling_false_of_noop (s : stateType) (h : s.IDEX.instr = NOOPINSTR) :
    stalling s = false := by
  have : opcode NOOPINSTR ≠ LW := by decide
  simp [stalling, h, this]

theorem branchTaken_false_of_noop (s : stateType) (h : s.EXMEM.instr = NOOPINSTR) :
    branchTaken s = false := by
  have : opcode NOOPINSTR ≠ BEQ := by decide
  simp [branchTaken, h, this]

/-- C3: in every state whose cycle is defined (its array accesses are in
range), when `ID/EX` holds a load, the `IF/ID` instruction reads the register
the load writes and `EX/MEM` holds no taken branch, the cycle puts the no-op
word into `ID/EX`, keeps the program counter and the whole `IF/ID` latch, and
still moves the load into `EX/MEM`. -/
theorem stall_step (s : stateType) (hdef : stepDefined s)
    (hlw : opcode s.IDEX.instr = LW)
    (hdep : field0 s.IFID.instr = field1 s.IDEX.instr ∨
      (opcode s.IFID.instr ≠ LW ∧ field1 s.IFID.instr = field1 s.IDEX.instr))
    (hnb : ¬ (s.EXMEM.eq ≠ 0 ∧ opcode s.EXMEM.instr = BEQ)) :
    ∃ s', step s = some s' ∧ s'.IDEX.instr = NOOPINSTR ∧ s'.pc = s.pc ∧
      s'.IFID = s.IFID ∧ s'.EXMEM.instr = s.IDEX.instr := by
  have hs : stalling s = true := stalling_of_loadUse s ⟨hlw, hdep⟩
  have hb : branchTaken s = false := by simp [branchTaken, hnb]
  exact ⟨nextState s, step_of_defined s hdef, by simp [nextState, hs, hb]⟩

/-- Witness of C3 at the state of `lwAddProg` in which the load is in `ID/EX`. -/
theorem stall_step_witness :
    ∃ s', step lwAddState = some s' ∧ s'.IDEX.instr = NOOPINSTR ∧ s'.pc = lwAddState.pc ∧
      s'.IFID = lwAddState.IFID ∧ s'.EXMEM.instr = lwAddState.IDEX.instr :=
  stall_step lwAddState (by decide) (by decide) (by decide) (by decide)

/-- C4: a load-use stall lasts exactly one cycle.  In a state where the stall
condition holds (and whose cycle is defined) the cycle stalls; the next cycle does not stall because
`ID/EX` then holds the no-op word; and when no branch is taken in either
cycle, the held instruction enters `ID/EX` in the second cycle. -/
theorem stall_exactly_one_cycle (s : stateType) (hdef : stepDefined s) (hlu : loadUse s) :
    stalling s = true ∧
    ∃ s', step s = some s' ∧ s'.IDEX.instr = NOOPINSTR ∧ opcode s'.IDEX.instr ≠ LW ∧
      stalling s' = false ∧
      (stepDefined s' → ∃ s'', step s' = some s'' ∧
        (branchTaken s = false → branchTaken s' = false → s''.IDEX.instr = s.IFID.instr)) := by
  have hs : stalling s = true := stalling_of_loadUse s hlu
  have hi : (nextState s).IDEX.instr = NOOPINSTR := by simp [nextState, hs]
  have hs' : stalling (nextState s) = false := stalling_false_of_noop _ hi
  refine ⟨hs, nextState s, step_of_defined s hdef, hi, ?_, hs', ?_⟩
  · rw [hi]; decide
  · intro hdef'
    refine ⟨nextState (nextState s), step_of_defined _ hdef', ?_⟩
    intro hb hb'
    simp [nextState_IDEX_instr, nextState_IFID_instr, hs', hb', hs, hb]

/-- Witness of C4 at the state of `lwAddProg` in which the load is in `ID/EX`. -/
theorem stall_exactly_one_cycle_witness :
    loadUse lwAddState ∧ stalling lwAddState = true ∧
    ∃ s', step lwAddState = some s' ∧ s'.IDEX.instr = NOOPINSTR ∧ opcode s'.IDEX.instr ≠ LW ∧
      stalling s' = false ∧
      (stepDefined s' → ∃ s'', step s' = some s'' ∧
        (branchTaken lwAddState = false → branchTaken s' = false →
          s''.IDEX.instr = lwAddState.IFID.instr)) :=
  ⟨by decide, stall_exactly_one_cycle lwAddState (by decide) (by decide)⟩

/-! ## Branch squash -/

/-- C5: in every state whose cycle is defined, a taken branch in `EX/MEM`
(a `beq` with the equality flag set) redirects the program counter to
`EXMEM.branchTarget`, replaces the instructions of the new `IF/ID`, `ID/EX` and
`EX/MEM` latches by the no-op word (stall or not) while the branch moves to
`MEM/WB` and the older instruction to `WB/END`; the following cycle fetches the
word at the branch target. -/
theorem taken_branch_squash (s : stateType) (hdef : stepDefined s)
    (hbeq : opcode s.EXMEM.instr = BEQ) (heq : s.EXMEM.eq ≠ 0) :
    ∃ s', step s = some s' ∧ s'.pc = s.EXMEM.branchTarget ∧
      s'.IFID.instr = NOOPINSTR ∧ s'.IDEX.instr = NOOPINSTR ∧ s'.EXMEM.instr = NOOPINSTR ∧
      s'.MEMWB.instr = s.EXMEM.instr ∧ s'.WBEND.instr = s.MEMWB.instr ∧
      (0 ≤ s.EXMEM.branchTarget ∧ s.EXMEM.branchTarget < NUMMEMORY →
        ∃ s'', step s' = some s'' ∧
          s''.IFID.instr = s.instrMem s.EXMEM.branchTarget ∧
          s''.IFID.pcPlus1 = s.EXMEM.branchTarget + 1) := by
  have hb : branchTaken s = true := by simp [branchTaken, hbeq, heq]
  have hpc : (nextState s).pc = s.EXMEM.branchTarget := by simp [nextState, hb]
  have hex : (nextState s).EXMEM.instr = NOOPINSTR := by simp [nextState, hb]
  have hid : (nextState s).IDEX.instr = NOOPINSTR := by simp [nextState, hb]
  have hmw : (nextState s).MEMWB.instr = s.EXMEM.instr := by simp [nextState]
  refine ⟨nextState s, step_of_defined s hdef, hpc, by simp [nextState, hb], hid, hex, hmw,
    by simp [nextState], ?_⟩
  intro hbt
  have hdef' : stepDefined (nextState s) := by
    refine ⟨by rw [hpc]; exact hbt, ?_, ?_⟩
    · rw [hex]
      intro h
      exact absurd h (by decide)
    · rw [hmw, hbeq]
      intro h
      exact absurd h (by decide)
  have hb' : branchTaken (nextState s) = false := branchTaken_false_of_noop _ hex
  have hs' : stalling (nextState s) = false := stalling_false_of_noop _ hid
  refine ⟨nextState (nextState s), step_of_defined _ hdef', ?_, ?_⟩
  · rw [nextState_IFID_instr, hb', hs', hpc]
    simp [nextState_instrMem]
  · rw [nextState_IFID_pcPlus1, hs', hpc]
    simp

/-- Witness of C5 at the state of `beqProg` in which the taken branch is in
`EX/MEM`. -/
theorem taken_branch_squash_witness :
    opcode beqState.EXMEM.instr = BEQ ∧ beqState.EXMEM.eq ≠ 0 ∧
    ∃ s', step beqState = some s' ∧ s'.pc = beqState.EXMEM.branchTarget ∧
      s'.IFID.instr = NOOPINSTR ∧ s'.IDEX.instr = NOOPINSTR ∧ s'.EXMEM.instr = NOOPINSTR ∧
      s'.MEMWB.instr = beqState.EXMEM.instr ∧ s'.WBEND.instr = beqState.MEMWB.instr ∧
      (0 ≤ beqState.EXMEM.branchTarget ∧ beqState.EXMEM.branchTarget < NUMMEMORY →
        ∃ s'', step s' = some s'' ∧
          s''.IFID.instr = beqState.instrMem beqState.EXMEM.branchTarget ∧
          s''.IFID.pcPlus1 = beqState.EXMEM.branchTarget + 1) :=
  ⟨by decide, by decide, taken_branch_squash beqState (by decide) (by decide) (by decide)⟩

/-! ## Forwarding -/

theorem isWritingOpcode_cases (t : Int) :
    (isWritingOpcode t = 1 ∧ opcode t = LW) ∨
    (isWritingOpcode t = 2 ∧ (opcode t = ADD ∨ opcode t = NOR) ∧ opcode t ≠ LW) ∨
    (isWritingOpcode t = 0 ∧ opcode t ≠ LW ∧ opcode t ≠ ADD ∧ opcode t ≠ NOR) := by
  unfold isWritingOpcode
  by_cases h1 : opcode t = LW
  · left; simp [h1]
  · by_cases h2 : opcode t = ADD ∨ opcode t = NOR
    · right; left; simp [h1, h2]
    · right; right
      simp only [h1, h2, if_false, true_and]
      tauto

/-- What `processField` returns, in terms of `writesReg`. -/
theorem processField_eq (instr valA valB t wd : Int) :
    processField instr valA valB t wd =
      (if writesReg t (field0 instr) then wd else valA,
       if writesReg t (field1 instr) then wd else valB) := by
  have hLA : LW ≠ ADD := by decide
  have hLN : LW ≠ NOR := by decide
  rcases isWritingOpcode_cases t with ⟨h, ho⟩ | ⟨h, ho, hn⟩ | ⟨h, h1, h2, h3⟩
  · simp [processField, writesReg, h, ho, hLA, hLN, eq_comm]
  · have ho2 : ADD = opcode t ∨ NOR = opcode t := by
      rcases ho with ho | ho
      · exact Or.inl ho.symm
      · exact Or.inr ho.symm
    simp [processField, writesReg, h, ho, ho2, hn, eq_comm]
  · simp [processField, writesReg, h, h1, h2, h3]

theorem dataHazard_eq (s : stateType) (valA valB : Int) (h : isReadInstr s.IDEX.instr = true) :
    dataHazard valA valB s =
      (forwarded s (field0 s.IDEX.instr) valA, forwarded s (field1 s.IDEX.instr) valB) := by
  simp only [dataHazard, h, not_true_eq_false, if_false, processField_eq, forwarded]

/-- C6: forwarding priority.  For an `ID/EX` instruction that reads registers,
each operand returned by `dataHazard` is `EXMEM.aluResult` when the `EX/MEM`
instruction writes the operand register, else `MEMWB.writeData` when the
`MEM/WB` instruction writes it, else `WBEND.writeData` when the `WB/END`
instruction writes it, else the value latched in `ID/EX`. -/
theorem forwarding_priority (s : stateType)
    (hread : opcode s.IDEX.instr ≠ JALR ∧ opcode s.IDEX.instr ≠ HALT ∧
      opcode s.IDEX.instr ≠ NOOP) :
    (dataHazard s.IDEX.valA s.IDEX.valB s).1 =
      (if writesReg s.EXMEM.instr (field0 s.IDEX.instr) then s.EXMEM.aluResult
       else if writesReg s.MEMWB.instr (field0 s.IDEX.instr) then s.MEMWB.writeData
       else if writesReg s.WBEND.instr (field0 s.IDEX.instr) then s.WBEND.writeData
       else s.IDEX.valA) ∧
    (dataHazard s.IDEX.valA s.IDEX.valB s).2 =
      (if writesReg s.EXMEM.instr (field1 s.IDEX.instr) then s.EXMEM.aluResult
       else if writesReg s.MEMWB.instr (field1 s.IDEX.instr) then s.MEMWB.writeData
       else if writesReg s.WBEND.instr (field1 s.IDEX.instr) then s.WBEND.writeData
       else s.IDEX.valB) := by
  have h : isReadInstr s.IDEX.instr = true := by simp [isReadInstr, hread]
  rw [dataHazard_eq s _ _ h]
  exact ⟨rfl, rfl⟩

/-- Witness of C6: three cycles after reset of `fwdProg` the second `add` is in
`ID/EX` and the first, which writes its operand register 1, is in `EX/MEM`. -/
theorem forwarding_priority_witness :
    writesReg (fwdState 3).EXMEM.instr (field0 (fwdState 3).IDEX.instr) ∧
    (dataHazard (fwdState 3).IDEX.valA (fwdState 3).IDEX.valB (fwdState 3)).1 =
      (if writesReg (fwdState 3).EXMEM.instr (field0 (fwdState 3).IDEX.instr)
       then (fwdState 3).EXMEM.aluResult
       else if writesReg (fwdState 3).MEMWB.instr (field0 (fwdState 3).IDEX.instr)
       then (fwdState 3).MEMWB.writeData
       else if writesReg (fwdState 3).WBEND.instr (field0 (fwdState 3).IDEX.instr)
       then (fwdState 3).WBEND.writeData
       else (fwdState 3).IDEX.valA) ∧
    (dataHazard (fwdState 3).IDEX.valA (fwdState 3).IDEX.valB (fwdState 3)).2 =
      (if writesReg (fwdState 3).EXMEM.instr (field1 (fwdState 3).IDEX.instr)
       then (fwdState 3).EXMEM.aluResult
       else if writesReg (fwdState 3).MEMWB.instr (field1 (fwdState 3).IDEX.instr)
       then (fwdState 3).MEMWB.writeData
       else if writesReg (fwdState 3).WBEND.instr (field1 (fwdState 3).IDEX.instr)
       then (fwdState 3).WBEND.writeData
       else (fwdState 3).IDEX.valB) :=
  ⟨by decide, forwarding_priority (fwdState 3) (by decide)⟩

theorem processField_of_nonwriter (instr valA valB t wd : Int)
    (h : opcode t ≠ ADD ∧ opcode t ≠ NOR ∧ opcode t ≠ LW) :
    processField instr valA valB t wd = (valA, valB) := by
  have : isWritingOpcode t = 0 := by simp [isWritingOpcode, h.1, h.2.1, h.2.2]
  simp [processField, this]

/-- C7: `dataHazard` returns both operands unchanged when the `ID/EX`
instruction is a `halt` or a no-op, and also when none of the `EX/MEM`,
`MEM/WB` and `WB/END` instructions has opcode `add`, `nor` or `lw`. -/
theorem no_forwarding (s : stateType)
    (h : (opcode s.IDEX.instr = HALT ∨ opcode s.IDEX.instr = NOOP) ∨
      ((opcode s.EXMEM.instr ≠ ADD ∧ opcode s.EXMEM.instr ≠ NOR ∧ opcode s.EXMEM.instr ≠ LW) ∧
       (opcode s.MEMWB.instr ≠ ADD ∧ opcode s.MEMWB.instr ≠ NOR ∧ opcode s.MEMWB.instr ≠ LW) ∧
       (opcode s.WBEND.instr ≠ ADD ∧ opcode s.WBEND.instr ≠ NOR ∧ opcode s.WBEND.instr ≠ LW))) :
    dataHazard s.IDEX.valA s.IDEX.valB s = (s.IDEX.valA, s.IDEX.valB) := by
  rcases h with h | ⟨he, hm, hw⟩
  · have : isReadInstr s.IDEX.instr = false := by
      rcases h with h | h <;> simp [isReadInstr, h]
    simp [dataHazard, this]
  · simp only [dataHazard, processField_of_nonwriter _ _ _ _ _ hw,
      processField_of_nonwriter _ _ _ _ _ hm, processField_of_nonwriter _ _ _ _ _ he, ite_self]

/-- Witness of C7 at the reset state of `fwdProg`, whose latches hold no-ops. -/
theorem no_forwarding_witness :
    (opcode (fwdState 0).IDEX.instr = HALT ∨ opcode (fwdState 0).IDEX.instr = NOOP) ∧
    dataHazard (fwdState 0).IDEX.valA (fwdState 0).IDEX.valB (fwdState 0) =
      ((fwdState 0).IDEX.valA, (fwdState 0).IDEX.valB) :=
  ⟨by decide, no_forwarding (fwdState 0) (Or.inl (by decide))⟩

/-! ## Writeback and memory frame properties -/

/-- C8: in every state whose cycle is defined, when the `MEM/WB` instruction has
an opcode other than `add`, `nor` and `lw`, every register holds after the
cycle the value it held before. -/
theorem nonwriter_keeps_registers (s : stateType) (hdef : stepDefined s)
    (hnw : opcode s.MEMWB.instr ≠ ADD ∧ opcode s.MEMWB.instr ≠ NOR ∧
      opcode s.MEMWB.instr ≠ LW) :
    ∃ s', step s = some s' ∧ ∀ r, s'.reg r = s.reg r := by
  refine ⟨nextState s, step_of_defined s hdef, fun r => ?_⟩
  simp [nextState_reg, hnw.1, hnw.2.1, hnw.2.2]

/-- Witness of C8 at the reset state of `fwdProg` (a no-op in `MEM/WB`). -/
theorem nonwriter_keeps_registers_witness :
    (opcode (fwdState 0).MEMWB.instr ≠ ADD ∧ opcode (fwdState 0).MEMWB.instr ≠ NOR ∧
      opcode (fwdState 0).MEMWB.instr ≠ LW) ∧
    ∃ s', step (fwdState 0) = some s' ∧ ∀ r, s'.reg r = (fwdState 0).reg r :=
  ⟨by decide, nonwriter_keeps_registers (fwdState 0) (by decide) (by decide)⟩

/-- C9: in every state whose cycle is defined, an `add` or `nor` in `MEM/WB`
with `field2` below 8 sets register
`field2` to `MEMWB.writeData`, a `lw` in `MEM/WB` sets register `field1` to
`MEMWB.writeData`, and in both cases every other register is unchanged. -/
theorem writeback_writes_one_register (s : stateType) (hdef : stepDefined s) :
    ∃ s', step s = some s' ∧
      ((opcode s.MEMWB.instr = ADD ∨ opcode s.MEMWB.instr = NOR) →
        field2 s.MEMWB.instr < 8 →
        s'.reg (field2 s.MEMWB.instr) = s.MEMWB.writeData ∧
        ∀ r, r ≠ field2 s.MEMWB.instr → s'.reg r = s.reg r) ∧
      (opcode s.MEMWB.instr = LW →
        s'.reg (field1 s.MEMWB.instr) = s.MEMWB.writeData ∧
        ∀ r, r ≠ field1 s.MEMWB.instr → s'.reg r = s.reg r) := by
  refine ⟨nextState s, step_of_defined s hdef, ?_, ?_⟩
  · intro ho _
    have ho2 : opcode s.MEMWB.instr = NOR ∨ opcode s.MEMWB.instr = ADD := ho.symm
    rw [nextState_reg, if_pos ho2]
    exact ⟨Function.update_same _ _ _, fun r hr => Function.update_noteq hr _ _⟩
  · intro ho
    have ho2 : ¬ (opcode s.MEMWB.instr = NOR ∨ opcode s.MEMWB.instr = ADD) := by
      rw [ho]; decide
    rw [nextState_reg, if_neg ho2, if_pos ho]
    exact ⟨Function.update_same _ _ _, fun r hr => Function.update_noteq hr _ _⟩

/-- Witness of C9: four cycles after reset of `fwdProg` the first `add`, which
writes register 1, is in `MEM/WB`. -/
theorem writeback_writes_one_register_witness :
    (opcode (fwdState 4).MEMWB.instr = ADD ∧ field2 (fwdState 4).MEMWB.instr < 8) ∧
    ∃ s', step (fwdState 4) = some s' ∧
      ((opcode (fwdState 4).MEMWB.instr = ADD ∨ opcode (fwdState 4).MEMWB.instr = NOR) →
        field2 (fwdState 4).MEMWB.instr < 8 →
        s'.reg (field2 (fwdState 4).MEMWB.instr) = (fwdState 4).MEMWB.writeData ∧
        ∀ r, r ≠ field2 (fwdState 4).MEMWB.instr → s'.reg r = (fwdState 4).reg r) ∧
      (opcode (fwdState 4).MEMWB.instr = LW →
        s'.reg (field1 (fwdState 4).MEMWB.instr) = (fwdState 4).MEMWB.writeData ∧
        ∀ r, r ≠ field1 (fwdState 4).MEMWB.instr → s'.reg r = (fwdState 4).reg r) :=
  ⟨by decide, writeback_writes_one_register (fwdState 4) (by decide)⟩

/-- C10: in every state whose cycle is defined, the cycle leaves instruction
memory unchanged, leaves data memory
unchanged unless the `EX/MEM` instruction is a store, and for a store (whose
address `EXMEM.aluResult` is in range) changes data memory at most at word
`EXMEM.aluResult`, which then holds `EXMEM.valB`. -/
theorem memory_frame (s : stateType) (hdef : stepDefined s) :
    ∃ s', step s = some s' ∧ s'.instrMem = s.instrMem ∧
      (opcode s.EXMEM.instr ≠ SW → s'.dataMem = s.dataMem) ∧
      (opcode s.EXMEM.instr = SW →
        0 ≤ s.EXMEM.aluResult ∧ s.EXMEM.aluResult < NUMMEMORY →
        s'.dataMem s.EXMEM.aluResult = s.EXMEM.valB ∧
        ∀ a, a ≠ s.EXMEM.aluResult → s'.dataMem a = s.dataMem a) := by
  refine ⟨nextState s, step_of_defined s hdef, rfl, ?_, ?_⟩
  · intro ho
    simp [nextState_dataMem, ho]
  · intro ho _
    have hb : branchTaken s = false := by
      have : SW ≠ BEQ := by decide
      simp [branchTaken, ho, this]
    have : (nextState s).dataMem =
        Function.update s.dataMem s.EXMEM.aluResult s.EXMEM.valB := by
      simp [nextState_dataMem, hb, ho]
    rw [this]
    exact ⟨Function.update_same _ _ _, fun a ha => Function.update_noteq ha _ _⟩

/-- Witness of C10: five cycles after reset of `fwdProg` the store is in
`EX/MEM` with address 7. -/
theorem memory_frame_witness :
    (opcode (fwdState 5).EXMEM.instr = SW ∧ (fwdState 5).EXMEM.aluResult = 7 ∧
      (fwdState 5).EXMEM.valB = 0) ∧
    ∃ s', step (fwdState 5) = some s' ∧ s'.instrMem = (fwdState 5).instrMem ∧
      (opcode (fwdState 5).EXMEM.instr ≠ SW → s'.dataMem = (fwdState 5).dataMem) ∧
      (opcode (fwdState 5).EXMEM.instr = SW →
        0 ≤ (fwdState 5).EXMEM.aluResult ∧ (fwdState 5).EXMEM.aluResult < NUMMEMORY →
        s'.dataMem (fwdState 5).EXMEM.aluResult = (fwdState 5).EXMEM.valB ∧
        ∀ a, a ≠ (fwdState 5).EXMEM.aluResult → s'.dataMem a = (fwdState 5).dataMem a) :=
  ⟨by decide, memory_frame (fwdState 5) (by decide)⟩

/-! ## The sequential machine in closed form -/

theorem readMem_eq_some (mem : Int → Int) (i v : Int) (h : readMem mem i = some v) :
    (0 ≤ i ∧ i < NUMMEMORY) ∧ v = mem i := by
  unfold readMem at h
  split at h
  · exact ⟨by assumption, (Option.some.inj h).symm⟩
  · exact absurd h (by simp)

theorem writeMem_eq_some (mem : Int → Int) (i v : Int) (m : Int → Int)
    (h : writeMem mem i v = some m) :
    (0 ≤ i ∧ i < NUMMEMORY) ∧ m = Function.update mem i v := by
  unfold writeMem at h
  split at h
  · exact ⟨by assumption, (Option.some.inj h).symm⟩
  · exact absurd h (by simp)

theorem writeReg_eq_some (reg : Int → Int) (i v : Int) (m : Int → Int)
    (h : writeReg reg i v = some m) :
    (0 ≤ i ∧ i < NUMREGS) ∧ m = Function.update reg i v := by
  unfold writeReg at h
  split at h
  · exact ⟨by assumption, (Option.some.inj h).symm⟩
  · exact absurd h (by simp)

theorem seqStep_eq_some (im : Int → Int) (q q' : seqState) (h : seqStep im q = some q') :
    seqDefined im q ∧ q' = seqNext im q := by
  unfold seqStep at h
  simp only [Option.bind_eq_bind, readReg_field0, readReg_field1, Option.some_bind] at h
  cases hf : readMem im q.pc with
  | none => rw [hf] at h; simp at h
  | some w =>
    rw [hf, Option.some_bind] at h
    obtain ⟨hpc, hw⟩ := readMem_eq_some _ _ _ hf
    subst hw
    have hAN : ADD ≠ NOR := by decide
    have hAL : ADD ≠ LW := by decide
    have hAS : ADD ≠ SW := by decide
    have hAB : ADD ≠ BEQ := by decide
    have hNL : NOR ≠ LW := by decide
    have hNS : NOR ≠ SW := by decide
    have hNB : NOR ≠ BEQ := by decide
    have hLS : LW ≠ SW := by decide
    have hLB : LW ≠ BEQ := by decide
    have hSB : SW ≠ BEQ := by decide
    by_cases h0 : opcode (im q.pc) = ADD
    · rw [if_pos h0] at h
      cases hr : writeReg q.reg (field2 (im q.pc))
          (wrap32 (q.reg (field0 (im q.pc)) + q.reg (field1 (im q.pc)))) with
      | none => rw [hr] at h; simp at h
      | some r =>
        rw [hr, Option.some_bind] at h
        obtain ⟨hrr, hre⟩ := writeReg_eq_some _ _ _ _ hr
        subst hre
        refine ⟨⟨hpc, Or.inl h0, fun _ => hrr.2, ?_⟩, ?_⟩
        · rw [h0]; intro hc; rcases hc with hc | hc
          · exact absurd hc hAL
          · exact absurd hc hAS
        · rw [← Option.some.inj h]
          simp [seqNext, h0, hAB, hAS]
    · rw [if_neg h0] at h
      by_cases h1 : opcode (im q.pc) = NOR
      · rw [if_pos h1] at h
        cases hr : writeReg q.reg (field2 (im q.pc))
            (~~~ (Int.lor (q.reg (field0 (im q.pc))) (q.reg (field1 (im q.pc))))) with
        | none => rw [hr] at h; simp at h
        | some r =>
          rw [hr, Option.some_bind] at h
          obtain ⟨hrr, hre⟩ := writeReg_eq_some _ _ _ _ hr
          subst hre
          refine ⟨⟨hpc, Or.inr (Or.inl h1), fun _ => hrr.2, ?_⟩, ?_⟩
          · rw [h1]; intro hc; rcases hc with hc | hc
            · exact absurd hc hNL
            · exact absurd hc hNS
          · rw [← Option.some.inj h]
            simp [seqNext, h1, hNB, hNS, hAN.symm]
      · rw [if_neg h1] at h
        by_cases h2 : opcode (im q.pc) = LW
        · rw [if_pos h2] at h
          cases hm : readMem q.dataMem
              (wrap32 (q.reg (field0 (im q.pc)) + convertNum (field2 (im q.pc)))) with
          | none => rw [hm] at h; simp at h
          | some v =>
            rw [hm, Option.some_bind, writeReg_field1, Option.some_bind] at h
            obtain ⟨hmr, hme⟩ := readMem_eq_some _ _ _ hm
            subst hme
            refine ⟨⟨hpc, Or.inr (Or.inr (Or.inl h2)), ?_, fun _ => hmr⟩, ?_⟩
            · intro hc; exact absurd hc (by simp [h0, h1])
            · rw [← Option.some.inj h]
              simp [seqNext, h2, hLB, hLS, hAL.symm, hNL.symm]
        · rw [if_neg h2] at h
          by_cases h3 : opcode (im q.pc) = SW
          · rw [if_pos h3] at h
            cases hm : writeMem q.dataMem
                (wrap32 (q.reg (field0 (im q.pc)) + convertNum (field2 (im q.pc))))
                (q.reg (field1 (im q.pc))) with
            | none => rw [hm] at h; simp at h
            | some v =>
              rw [hm, Option.some_bind] at h
              obtain ⟨hmr, hme⟩ := writeMem_eq_some _ _ _ _ hm
              subst hme
              refine ⟨⟨hpc, Or.inr (Or.inr (Or.inr (Or.inl h3))), ?_, fun _ => hmr⟩, ?_⟩
              · intro hc; exact absurd hc (by simp [h0, h1])
              · rw [← Option.some.inj h]
                simp [seqNext, h3, hSB, hAS.symm, hNS.symm, hLS.symm]
          · rw [if_neg h3] at h
            by_cases h4 : opcode (im q.pc) = BEQ
            · rw [if_pos h4] at h
              refine ⟨⟨hpc, Or.inr (Or.inr (Or.inr (Or.inr (Or.inl h4)))), ?_, ?_⟩, ?_⟩
              · intro hc; exact absurd hc (by simp [h0, h1])
              · intro hc; exact absurd hc (by simp [h2, h3])
              · by_cases hab : q.reg (field0 (im q.pc)) = q.reg (field1 (im q.pc))
                · rw [if_pos hab] at h
                  rw [← Option.some.inj h]
                  simp [seqNext, h4, hab, hAB.symm, hNB.symm, hLB.symm, hSB.symm]
                · rw [if_neg hab] at h
                  rw [← Option.some.inj h]
                  simp [seqNext, h4, hab, hAB.symm, hNB.symm, hLB.symm, hSB.symm]
            · rw [if_neg h4] at h
              by_cases h5 : opcode (im q.pc) = NOOP
              · rw [if_pos h5] at h
                refine ⟨⟨hpc, Or.inr (Or.inr (Or.inr (Or.inr (Or.inr h5)))), ?_, ?_⟩, ?_⟩
                · intro hc; exact absurd hc (by simp [h0, h1])
                · intro hc; exact absurd hc (by simp [h2, h3])
                · rw [← Option.some.inj h]
                  simp [seqNext, h0, h1, h2, h3, h4]
              · rw [if_neg h5] at h
                simp at h

theorem seqStep_of_defined (im : Int → Int) (q : seqState) (h : seqDefined im q) :
    seqStep im q = some (seqNext im q) := by
  obtain ⟨hpc, hop, hreg, hmem⟩ := h
  have hAN : ADD ≠ NOR := by decide
  have hAL : ADD ≠ LW := by decide
  have hAS : ADD ≠ SW := by decide
  have hAB : ADD ≠ BEQ := by decide
  have hAO : ADD ≠ NOOP := by decide
  have hNL : NOR ≠ LW := by decide
  have hNS : NOR ≠ SW := by decide
  have hNB : NOR ≠ BEQ := by decide
  have hNO : NOR ≠ NOOP := by decide
  have hLS : LW ≠ SW := by decide
  have hLB : LW ≠ BEQ := by decide
  have hLO : LW ≠ NOOP := by decide
  have hSB : SW ≠ BEQ := by decide
  have hSO : SW ≠ NOOP := by decide
  have hBO : BEQ ≠ NOOP := by decide
  unfold seqStep
  simp only [Option.bind_eq_bind, readReg_field0, readReg_field1, Option.some_bind,
    readMem_of_range _ _ hpc]
  rcases hop with h | h | h | h | h | h
  · simp [seqNext, h, hAB, hAS, hAL, hAN, writeReg_field2 _ _ _ (hreg (Or.inl h))]
  · simp [seqNext, h, hNB, hNS, hNL, hAN.symm, writeReg_field2 _ _ _ (hreg (Or.inr h))]
  · simp [seqNext, h, hLB, hLS, hAL.symm, hNL.symm, writeReg_field1,
      readMem_of_range _ _ (hmem (Or.inl h))]
  · simp [seqNext, h, hSB, hAS.symm, hNS.symm, hLS.symm,
      writeMem_of_range _ _ _ (hmem (Or.inr h))]
  · by_cases hab : q.reg (field0 (im q.pc)) = q.reg (field1 (im q.pc)) <;>
      simp [seqNext, h, hab, hAB.symm, hNB.symm, hLB.symm, hSB.symm]
  · simp [seqNext, h, hAO.symm, hNO.symm, hLO.symm, hSO.symm, hBO.symm]

/-- A successful sequential run yields a trace of the executed states. -/
theorem seqRun_trace (im : Int → Int) :
    ∀ (fuel : Nat) (q qf : seqState), seqRun im fuel q = some qf →
      ∃ (n : Nat) (tr : Nat → seqState), n ≤ fuel ∧ tr 0 = q ∧ tr n = qf ∧
        (∀ k, k < n → seqDefined im (tr k) ∧ tr (k + 1) = seqNext im (tr k) ∧
          opcode (im (tr k).pc) ≠ HALT) ∧
        opcode (im (tr n).pc) = HALT ∧
        (0 ≤ (tr n).pc ∧ (tr n).pc < NUMMEMORY) ∧
        (∀ k, k ≤ n → seqStepN im k q = some (tr k)) := by
  have base : ∀ (fuel : Nat) (q qf : seqState), (0 ≤ q.pc ∧ q.pc < NUMMEMORY) →
      opcode (im q.pc) = HALT → qf = q →
      ∃ (n : Nat) (tr : Nat → seqState), n ≤ fuel ∧ tr 0 = q ∧ tr n = qf ∧
        (∀ k, k < n → seqDefined im (tr k) ∧ tr (k + 1) = seqNext im (tr k) ∧
          opcode (im (tr k).pc) ≠ HALT) ∧
        opcode (im (tr n).pc) = HALT ∧
        (0 ≤ (tr n).pc ∧ (tr n).pc < NUMMEMORY) ∧
        (∀ k, k ≤ n → seqStepN im k q = some (tr k)) := by
    intro fuel q qf hpc hh hq
    refine ⟨0, fun _ => q, Nat.zero_le _, rfl, hq.symm, ?_, hh, hpc, ?_⟩
    · intro k hk; exact absurd hk (Nat.not_lt_zero k)
    · intro k hk
      have : k = 0 := by omega
      subst this
      rfl
  intro fuel
  induction fuel with
  | zero =>
    intro q qf h
    simp only [seqRun] at h
    cases hf : readMem im q.pc with
    | none => rw [hf] at h; simp at h
    | some w =>
      rw [hf, Option.some_bind] at h
      obtain ⟨hpc, hw⟩ := readMem_eq_some _ _ _ hf
      subst hw
      by_cases hh : opcode (im q.pc) = HALT
      · rw [if_pos hh] at h
        exact base 0 q qf hpc hh (Option.some.inj h).symm
      · rw [if_neg hh] at h; simp at h
  | succ fuel ih =>
    intro q qf h
    simp only [seqRun] at h
    cases hf : readMem im q.pc with
    | none => rw [hf] at h; simp at h
    | some w =>
      rw [hf, Option.some_bind] at h
      obtain ⟨hpc, hw⟩ := readMem_eq_some _ _ _ hf
      subst hw
      by_cases hh : opcode (im q.pc) = HALT
      · rw [if_pos hh] at h
        exact base (fuel + 1) q qf hpc hh (Option.some.inj h).symm
      · rw [if_neg hh] at h
        cases hs : seqStep im q with
        | none => rw [hs] at h; simp at h
        | some q1 =>
          rw [hs, Option.some_bind] at h
          obtain ⟨hd, hq1⟩ := seqStep_eq_some im q q1 hs
          obtain ⟨n, tr, hn, h0, hnf, hstep, hhalt, hrange, hN⟩ := ih q1 qf h
          refine ⟨n + 1, fun k => match k with | 0 => q | k + 1 => tr k, by omega, rfl, hnf,
            ?_, hhalt, hrange, ?_⟩
          · intro k hk
            cases k with
            | zero =>
              refine ⟨hd, ?_, hh⟩
              show tr 0 = seqNext im q
              rw [h0, hq1]
            | succ k => exact hstep k (by omega)
          · intro k hk
            cases k with
            | zero => rfl
            | succ k =>
              show (seqStep im q).bind (seqStepN im k) = some (tr k)
              rw [hs, Option.some_bind]
              exact hN k (by omega)

/-- A successful sequential run gives an `IsTrace`, whose states are those of
`seqStepN`. -/
theorem seqRun_isTrace (im : Int → Int) (fuel : Nat) (q qf : seqState)
    (h : seqRun im fuel q = some qf) :
    ∃ (n : Nat) (tr : Nat → seqState), tr 0 = q ∧ tr n = qf ∧ IsTrace im tr n ∧
      ∀ k, k ≤ n → seqStepN im k q = some (tr k) := by
  obtain ⟨n, tr, -, h0, hnf, hstep, hhalt, hrange, hN⟩ := seqRun_trace im fuel q qf h
  refine ⟨n, tr, h0, hnf, ?_, hN⟩
  refine ⟨fun k hk => (hstep k hk).1, fun k hk => (hstep k hk).2.1,
    fun k hk => (hstep k hk).2.2, hhalt, ?_⟩
  intro k hk
  rcases Nat.lt_or_ge k n with hlt | hge
  · exact (hstep k hlt).1.1
  · have : k = n := by omega
    subst this
    exact hrange
/-! ## Facts about a sequential trace -/

theorem trace_opcode (im : Int → Int) (tr : Nat → seqState) (n k : Nat)
    (hT : IsTrace im tr n) (hk : k < n) :
    opcode (instrAt im tr k) = ADD ∨ opcode (instrAt im tr k) = NOR ∨
    opcode (instrAt im tr k) = LW ∨ opcode (instrAt im tr k) = SW ∨
    opcode (instrAt im tr k) = BEQ ∨ opcode (instrAt im tr k) = NOOP :=
  (hT.defined k hk).2.1

theorem trace_pc (im : Int → Int) (tr : Nat → seqState) (n k : Nat)
    (hT : IsTrace im tr n) (hk : k < n) :
    (tr (k + 1)).pc =
      if opcode (instrAt im tr k) = BEQ ∧ opA im tr k = opB im tr k
      then wrap32 (convertNum (field2 (instrAt im tr k)) + ((tr k).pc + 1))
      else (tr k).pc + 1 := by
  rw [hT.next k hk]; rfl

theorem trace_reg (im : Int → Int) (tr : Nat → seqState) (n k : Nat)
    (hT : IsTrace im tr n) (hk : k < n) :
    (tr (k + 1)).reg =
      if opcode (instrAt im tr k) = ADD
      then Function.update (tr k).reg (field2 (instrAt im tr k))
        (wrap32 (opA im tr k + opB im tr k))
      else if opcode (instrAt im tr k) = NOR
      then Function.update (tr k).reg (field2 (instrAt im tr k))
        (~~~ (Int.lor (opA im tr k) (opB im tr k)))
      else if opcode (instrAt im tr k) = LW
      then Function.update (tr k).reg (field1 (instrAt im tr k))
        ((tr k).dataMem (wrap32 (opA im tr k + convertNum (field2 (instrAt im tr k)))))
      else (tr k).reg := by
  rw [hT.next k hk]; rfl

theorem trace_dataMem (im : Int → Int) (tr : Nat → seqState) (n k : Nat)
    (hT : IsTrace im tr n) (hk : k < n) :
    (tr (k + 1)).dataMem =
      if opcode (instrAt im tr k) = SW
      then Function.update (tr k).dataMem
        (wrap32 (opA im tr k + convertNum (field2 (instrAt im tr k)))) (opB im tr k)
      else (tr k).dataMem := by
  rw [hT.next k hk]; rfl

/-- A register that the `k`-th instruction does not write keeps its value. -/
theorem trace_reg_of_not_writes (im : Int → Int) (tr : Nat → seqState) (n k : Nat)
    (hT : IsTrace im tr n) (hk : k < n) (r : Int)
    (h : ¬ writesReg (instrAt im tr k) r) :
    (tr (k + 1)).reg r = (tr k).reg r := by
  rw [trace_reg im tr n k hT hk]
  unfold writesReg at h
  by_cases h0 : opcode (instrAt im tr k) = ADD
  · have hr : r ≠ field2 (instrAt im tr k) := fun e => h (Or.inr ⟨Or.inl h0, e.symm⟩)
    rw [if_pos h0, Function.update_noteq hr]
  · by_cases h1 : opcode (instrAt im tr k) = NOR
    · have hr : r ≠ field2 (instrAt im tr k) := fun e => h (Or.inr ⟨Or.inr h1, e.symm⟩)
      rw [if_neg h0, if_pos h1, Function.update_noteq hr]
    · by_cases h2 : opcode (instrAt im tr k) = LW
      · have hr : r ≠ field1 (instrAt im tr k) := fun e => h (Or.inl ⟨h2, e.symm⟩)
        rw [if_neg h0, if_neg h1, if_pos h2, Function.update_noteq hr]
      · rw [if_neg h0, if_neg h1, if_neg h2]

/-- The register file after the `k`-th instruction, from the one before it and
a value `wd` satisfying `WbOK`. -/
theorem trace_reg_of_WbOK (im : Int → Int) (tr : Nat → seqState) (n k : Nat)
    (hT : IsTrace im tr n) (hk : k < n) (wd : Int) (hw : WbOK im tr k wd) :
    (if opcode (instrAt im tr k) = NOR ∨ opcode (instrAt im tr k) = ADD
     then Function.update (tr k).reg (field2 (instrAt im tr k)) wd
     else if opcode (instrAt im tr k) = LW
     then Function.update (tr k).reg (field1 (instrAt im tr k)) wd
     else (tr k).reg) = (tr (k + 1)).reg := by
  have hreg := trace_reg im tr n k hT hk
  have hNA : NOR ≠ ADD := by decide
  have hLA : LW ≠ ADD := by decide
  have hLN : LW ≠ NOR := by decide
  by_cases h0 : opcode (instrAt im tr k) = ADD
  · have e := hw.1 (Or.inl h0)
    rw [if_pos (Or.inr h0), e]
    rw [if_pos h0] at hreg
    rw [hreg, Function.update_same]
  · by_cases h1 : opcode (instrAt im tr k) = NOR
    · have e := hw.1 (Or.inr h1)
      rw [if_pos (Or.inl h1), e]
      rw [if_neg h0, if_pos h1] at hreg
      rw [hreg, Function.update_same]
    · have hno : ¬ (opcode (instrAt im tr k) = NOR ∨ opcode (instrAt im tr k) = ADD) := by
        tauto
      by_cases h2 : opcode (instrAt im tr k) = LW
      · have e := hw.2 h2
        rw [if_neg hno, if_pos h2, e]
        rw [if_neg h0, if_neg h1, if_pos h2] at hreg
        rw [hreg, Function.update_same]
      · rw [if_neg hno, if_neg h2]
        rw [if_neg h0, if_neg h1, if_neg h2] at hreg
        exact hreg.symm

theorem not_writesReg_NOOPINSTR (r : Int) : ¬ writesReg NOOPINSTR r := by
  unfold writesReg
  rw [opcode_NOOPINSTR]
  rintro (⟨h, -⟩ | ⟨h | h, -⟩) <;> exact absurd h (by decide)

/-! ## Consequences of the invariant -/

theorem inv_branchTaken_iff (im : Int → Int) (tr : Nat → seqState) (n : Nat)
    (s : stateType) (g : Ghost) (hI : PipeInv im tr n s g) :
    branchTaken s = true ↔
      g.cM < g.cE ∧ opcode (instrAt im tr g.cM) = BEQ ∧ opA im tr g.cM = opB im tr g.cM := by
  unfold branchTaken
  rw [decide_eq_true_eq]
  rcases Nat.lt_or_ge g.cM g.cE with h | h
  · obtain ⟨hi, -, heq, -⟩ := hI.exmemReal h
    rw [hi]
    constructor
    · rintro ⟨h1, h2⟩
      exact ⟨h, h2, (heq h2).1 h1⟩
    · rintro ⟨-, h2, h3⟩
      exact ⟨(heq h2).2 h3, h2⟩
  · have he : g.cM = g.cE := le_antisymm hI.mono.2.2.2.2.1 h
    rw [hI.exmemIdle he, opcode_NOOPINSTR]
    constructor
    · rintro ⟨-, h2⟩
      exact absurd h2 (by decide)
    · rintro ⟨h1, -⟩
      omega

theorem inv_taken_counters (im : Int → Int) (tr : Nat → seqState) (n : Nat)
    (s : stateType) (g : Ghost) (hI : PipeInv im tr n s g)
    (h : g.cM < g.cE) (ht : termAt im tr n g.cM) :
    g.cE = g.cM + 1 ∧ g.cD = g.cM + 1 ∧ g.cF = g.cM + 1 := by
  have hm := hI.mono
  have := hI.inner g.cM (le_refl _)
  have hF : ¬ (g.cM + 1 < g.cF) := fun hc => this hc ht
  omega

/-- When `halt` is not in `EX/MEM`, a stream-ending instruction in `EX/MEM` is
a taken branch. -/
theorem inv_term_taken (im : Int → Int) (tr : Nat → seqState) (n : Nat)
    (s : stateType) (g : Ghost) (hI : PipeInv im tr n s g) (hE : g.cE ≤ n)
    (h : g.cM < g.cE) (ht : termAt im tr n g.cM) : branchTaken s = true := by
  rw [inv_branchTaken_iff im tr n s g hI]
  rcases ht with ht | ht
  · omega
  · exact ⟨h, ht⟩

theorem inv_MEMWB_not_halt (im : Int → Int) (tr : Nat → seqState) (n : Nat)
    (s : stateType) (g : Ghost) (hT : IsTrace im tr n) (hI : PipeInv im tr n s g) :
    opcode s.MEMWB.instr ≠ HALT := by
  have hm := hI.mono
  rcases Nat.lt_or_ge g.cW g.cM with h | h
  · rw [(hI.memwbReal h).1]
    exact hT.notHalt g.cW (by have := hI.bound; omega)
  · rw [hI.memwbIdle (by omega), opcode_NOOPINSTR]
    decide

theorem inv_pc_nonneg (im : Int → Int) (tr : Nat → seqState) (n : Nat)
    (s : stateType) (g : Ghost) (hT : IsTrace im tr n) (hI : PipeInv im tr n s g) :
    0 ≤ s.pc := by
  by_cases hp : pending im tr n g
  · obtain ⟨j, hj, hjm, ht⟩ := hp
    have hb := hI.bound
    have hm := hI.mono
    have hjn : j ≤ n := by omega
    obtain ⟨h1, -⟩ := hI.pcPend j hj hjm ht
    have h4 := hT.pcRange j hjn
    omega
  · rw [hI.pcSeq hp]
    apply (hT.pcRange _ _).1
    by_contra hc
    apply hp
    have hb := hI.bound
    exact ⟨n, by omega, hb.2, Or.inl rfl⟩

theorem aluOut_mem (op a b off old : Int) (h : op = LW ∨ op = SW) :
    aluOut op a b off old = wrap32 (a + off) := by
  simp [aluOut, h]

theorem aluOut_NOR (a b off old : Int) : aluOut NOR a b off old = ~~~ (Int.lor a b) := by
  have h1 : ¬ (NOR = LW ∨ NOR = SW) := by decide
  simp [aluOut, h1]

theorem aluOut_ADD (a b off old : Int) : aluOut ADD a b off old = wrap32 (a + b) := by
  have h1 : ¬ (ADD = LW ∨ ADD = SW) := by decide
  have h2 : ADD ≠ NOR := by decide
  simp [aluOut, h1, h2]

/-- A cycle whose fetch is inside instruction memory is defined: the data
address of a load or store and the destination of an `add` or `nor` are those
of the sequential execution. -/
theorem inv_stepDefined (im : Int → Int) (tr : Nat → seqState) (n : Nat)
    (s : stateType) (g : Ghost) (hT : IsTrace im tr n) (hI : PipeInv im tr n s g)
    (hpc : s.pc < NUMMEMORY) :
    stepDefined s := by
  have hm := hI.mono
  have hb := hI.bound
  refine ⟨⟨inv_pc_nonneg im tr n s g hT hI, hpc⟩, ?_, ?_⟩
  · intro ho
    rcases Nat.lt_or_ge g.cM g.cE with h | h
    · obtain ⟨hi, -, -, -, halu⟩ := hI.exmemReal h
      rw [hi] at ho
      have hk : g.cM < n := by
        rcases Nat.lt_or_ge g.cM n with hlt | hge
        · exact hlt
        · have : g.cM = n := by omega
          rw [this, hT.haltAt] at ho
          rcases ho with ho | ho <;> exact absurd ho (by decide)
      have hd := (hT.defined g.cM hk).2.2.2 ho
      rw [halu (by tauto), aluOut_mem _ _ _ _ _ ho]
      exact hd
    · rw [hI.exmemIdle (by omega), opcode_NOOPINSTR] at ho
      rcases ho with ho | ho <;> exact absurd ho (by decide)
  · intro ho
    rcases Nat.lt_or_ge g.cW g.cM with h | h
    · rw [(hI.memwbReal h).1] at ho ⊢
      exact (hT.defined g.cW (by omega)).2.2.1 (by tauto)
    · rw [hI.memwbIdle (by omega), opcode_NOOPINSTR] at ho
      rcases ho with ho | ho <;> exact absurd ho (by decide)

/-! ## One cycle preserves the invariant: architectural state -/

theorem inv_next_reg (im : Int → Int) (tr : Nat → seqState) (n : Nat)
    (s : stateType) (g : Ghost) (hT : IsTrace im tr n) (hI : PipeInv im tr n s g) :
    (nextState s).reg = (tr g.cM).reg := by
  have hm := hI.mono
  have hb := hI.bound
  rw [nextState_reg, hI.reg]
  rcases Nat.lt_or_ge g.cW g.cM with h | h
  · obtain ⟨hi, hw⟩ := hI.memwbReal h
    have hc : g.cM = g.cW + 1 := by omega
    rw [hi, hc]
    exact trace_reg_of_WbOK im tr n g.cW hT (by omega) _ hw
  · have hc : g.cW = g.cM := by omega
    have h1 : ¬ (opcode NOOPINSTR = NOR ∨ opcode NOOPINSTR = ADD) := by decide
    have h2 : ¬ opcode NOOPINSTR = LW := by decide
    rw [hI.memwbIdle hc, if_neg h1, if_neg h2, hc]

theorem inv_next_dataMem (im : Int → Int) (tr : Nat → seqState) (n : Nat)
    (s : stateType) (g : Ghost) (hT : IsTrace im tr n) (hI : PipeInv im tr n s g)
    (hE : g.cE ≤ n) :
    (nextState s).dataMem = (tr g.cE).dataMem := by
  have hm := hI.mono
  rw [nextState_dataMem, hI.dataMem]
  rcases Nat.lt_or_ge g.cM g.cE with h | h
  · obtain ⟨hi, -, -, hvb, halu⟩ := hI.exmemReal h
    have hc : g.cE = g.cM + 1 := by omega
    rw [hc, trace_dataMem im tr n g.cM hT (by omega), hi]
    by_cases hs : opcode (instrAt im tr g.cM) = SW
    · have hnt : ¬ branchTaken s = true := by
        rw [inv_branchTaken_iff im tr n s g hI, hs]
        rintro ⟨-, hc, -⟩
        exact absurd hc (by decide)
      rw [if_pos ⟨hnt, hs⟩, if_pos hs, halu (by tauto), hvb hs,
        aluOut_mem _ _ _ _ _ (Or.inr hs)]
    · rw [if_neg hs, if_neg (fun hc => hs hc.2)]
  · have hc : g.cM = g.cE := by omega
    have h1 : ¬ opcode NOOPINSTR = SW := by decide
    rw [hI.exmemIdle hc, if_neg (fun hc => h1 hc.2), hc]

theorem inv_next_wbend (im : Int → Int) (tr : Nat → seqState) (n : Nat)
    (s : stateType) (g : Ghost) (hI : PipeInv im tr n s g) :
    (g.cW < g.cM → (nextState s).WBEND.instr = instrAt im tr g.cW ∧
      WbOK im tr g.cW (nextState s).WBEND.writeData) ∧
    (g.cW = g.cM → (nextState s).WBEND.instr = NOOPINSTR) :=
  ⟨fun h => hI.memwbReal h, fun h => hI.memwbIdle h⟩

theorem inv_next_memwb (im : Int → Int) (tr : Nat → seqState) (n : Nat)
    (s : stateType) (g : Ghost) (hT : IsTrace im tr n) (hI : PipeInv im tr n s g)
    (hE : g.cE ≤ n) :
    (g.cM < g.cE → (nextState s).MEMWB.instr = instrAt im tr g.cM ∧
      WbOK im tr g.cM (nextState s).MEMWB.writeData) ∧
    (g.cM = g.cE → (nextState s).MEMWB.instr = NOOPINSTR) := by
  refine ⟨fun h => ?_, fun h => hI.exmemIdle h⟩
  obtain ⟨hi, -, -, -, halu⟩ := hI.exmemReal h
  refine ⟨hi, ?_, ?_⟩
  · intro ho
    have hnm : ¬ (opcode (instrAt im tr g.cM) = LW ∨ opcode (instrAt im tr g.cM) = SW) := by
      rcases ho with ho | ho <;> rw [ho] <;> decide
    rw [nextState_MEMWB_writeData, hi, if_neg (fun hc => hnm hc.2), halu (by tauto),
      trace_reg im tr n g.cM hT (by omega)]
    rcases ho with ho | ho
    · rw [if_pos ho, Function.update_same, ho, aluOut_ADD]
    · have h0 : ¬ opcode (instrAt im tr g.cM) = ADD := by rw [ho]; decide
      rw [if_neg h0, if_pos ho, Function.update_same, ho, aluOut_NOR]
  · intro ho
    have hnt : ¬ branchTaken s = true := by
      rw [inv_branchTaken_iff im tr n s g hI, ho]
      rintro ⟨-, hc, -⟩
      exact absurd hc (by decide)
    have h0 : ¬ opcode (instrAt im tr g.cM) = ADD := by rw [ho]; decide
    have h1 : ¬ opcode (instrAt im tr g.cM) = NOR := by rw [ho]; decide
    rw [nextState_MEMWB_writeData, hi, if_pos ⟨hnt, Or.inl ho⟩, halu (by tauto),
      trace_reg im tr n g.cM hT (by omega), if_neg h0, if_neg h1, if_pos ho,
      Function.update_same, aluOut_mem _ _ _ _ _ (Or.inl ho), hI.dataMem]

/-! ## One cycle preserves the invariant: forwarding and the EX stage -/

/-- Forwarding from a latch behind the MEM stage yields the register value
after its instruction. -/
theorem wb_forward (im : Int → Int) (tr : Nat → seqState) (n k : Nat)
    (hT : IsTrace im tr n) (hk : k < n) (wd : Int) (hw : WbOK im tr k wd) (r : Int) :
    (if writesReg (instrAt im tr k) r then wd else (tr k).reg r) = (tr (k + 1)).reg r := by
  by_cases h : writesReg (instrAt im tr k) r
  · rw [if_pos h]
    rcases h with ⟨ho, hf⟩ | ⟨ho, hf⟩
    · rw [hw.2 ho, hf]
    · rw [hw.1 ho, hf]
  · rw [if_neg h, trace_reg_of_not_writes im tr n k hT hk r h]

/-- Forwarding from `EX/MEM` yields the register value after its instruction,
unless that instruction is a load of the register. -/
theorem ex_forward (im : Int → Int) (tr : Nat → seqState) (n k : Nat)
    (hT : IsTrace im tr n) (hk : k < n) (x : EXMEMType) (hx : ExOK im tr k x) (r : Int)
    (hnl : ¬ (opcode (instrAt im tr k) = LW ∧ field1 (instrAt im tr k) = r)) :
    (if writesReg (instrAt im tr k) r then x.aluResult else (tr k).reg r) =
      (tr (k + 1)).reg r := by
  by_cases h : writesReg (instrAt im tr k) r
  · rw [if_pos h]
    rcases h with h | ⟨ho, hf⟩
    · exact absurd h hnl
    · rw [hx.2.2.2 (by tauto), trace_reg im tr n k hT hk, ← hf]
      rcases ho with ho | ho
      · rw [if_pos ho, Function.update_same, ho, aluOut_ADD]
      · have h0 : ¬ opcode (instrAt im tr k) = ADD := by rw [ho]; decide
        rw [if_neg h0, if_pos ho, Function.update_same, ho, aluOut_NOR]
  · rw [if_neg h, trace_reg_of_not_writes im tr n k hT hk r h]

/-- The forwarded operand for register `r` is its value in the sequential state
before the instruction in `ID/EX`, unless the instruction in `EX/MEM` is a load
of `r`. -/
theorem inv_forwarded (im : Int → Int) (tr : Nat → seqState) (n : Nat)
    (s : stateType) (g : Ghost) (hT : IsTrace im tr n) (hI : PipeInv im tr n s g)
    (hE : g.cE ≤ n) (r : Int)
    (hnl : g.cM < g.cE →
      ¬ (opcode (instrAt im tr g.cM) = LW ∧ field1 (instrAt im tr g.cM) = r)) :
    forwarded s r ((tr g.cV).reg r) = (tr g.cE).reg r := by
  have hm := hI.mono
  have hb := hI.bound
  have h1 : (if writesReg s.WBEND.instr r then s.WBEND.writeData else (tr g.cV).reg r) =
      (tr g.cW).reg r := by
    rcases Nat.lt_or_ge g.cV g.cW with h | h
    · obtain ⟨hi, hw⟩ := hI.wbendReal h
      have hc : g.cW = g.cV + 1 := by omega
      rw [hi, hc]
      exact wb_forward im tr n g.cV hT (by omega) _ hw r
    · have hc : g.cV = g.cW := by omega
      rw [hI.wbendIdle hc, if_neg (not_writesReg_NOOPINSTR r), hc]
  have h2 : (if writesReg s.MEMWB.instr r then s.MEMWB.writeData else (tr g.cW).reg r) =
      (tr g.cM).reg r := by
    rcases Nat.lt_or_ge g.cW g.cM with h | h
    · obtain ⟨hi, hw⟩ := hI.memwbReal h
      have hc : g.cM = g.cW + 1 := by omega
      rw [hi, hc]
      exact wb_forward im tr n g.cW hT (by omega) _ hw r
    · have hc : g.cW = g.cM := by omega
      rw [hI.memwbIdle hc, if_neg (not_writesReg_NOOPINSTR r), hc]
  have h3 : (if writesReg s.EXMEM.instr r then s.EXMEM.aluResult else (tr g.cM).reg r) =
      (tr g.cE).reg r := by
    rcases Nat.lt_or_ge g.cM g.cE with h | h
    · obtain ⟨hi, hx⟩ := hI.exmemReal h
      have hc : g.cE = g.cM + 1 := by omega
      rw [hi, hc]
      exact ex_forward im tr n g.cM hT (by omega) _ hx r (hnl h)
    · have hc : g.cM = g.cE := by omega
      rw [hI.exmemIdle hc, if_neg (not_writesReg_NOOPINSTR r), hc]
  unfold forwarded
  rw [← h3, ← h2, ← h1]

theorem inv_operands (im : Int → Int) (tr : Nat → seqState) (n : Nat)
    (s : stateType) (g : Ghost) (hT : IsTrace im tr n) (hI : PipeInv im tr n s g)
    (hE : g.cE ≤ n) (h : g.cE < g.cD)
    (hop : opcode (instrAt im tr g.cE) = ADD ∨ opcode (instrAt im tr g.cE) = NOR ∨
      opcode (instrAt im tr g.cE) = LW ∨ opcode (instrAt im tr g.cE) = SW ∨
      opcode (instrAt im tr g.cE) = BEQ) :
    (dataHazard s.IDEX.valA s.IDEX.valB s).1 = opA im tr g.cE ∧
    (opcode (instrAt im tr g.cE) ≠ LW →
      (dataHazard s.IDEX.valA s.IDEX.valB s).2 = opB im tr g.cE) := by
  obtain ⟨hi, -, -, hva, hvb, hlu⟩ := hI.idexReal h
  have hread : isReadInstr s.IDEX.instr = true := by
    rw [hi]
    unfold isReadInstr
    rcases hop with ho | ho | ho | ho | ho <;> rw [ho] <;> decide
  rw [dataHazard_eq s _ _ hread, hi, hva, hvb]
  constructor
  · apply inv_forwarded im tr n s g hT hI hE
    rintro hME ⟨hl, hf⟩
    exact (hlu hME hl).1 hf.symm
  · intro hnl
    apply inv_forwarded im tr n s g hT hI hE
    rintro hME ⟨hl, hf⟩
    exact (hlu hME hl).2 hnl hf.symm

theorem inv_next_exmem (im : Int → Int) (tr : Nat → seqState) (n : Nat)
    (s : stateType) (g : Ghost) (hT : IsTrace im tr n) (hI : PipeInv im tr n s g)
    (hE : g.cE ≤ n) :
    (g.cE < g.cD → (nextState s).EXMEM.instr = instrAt im tr g.cE ∧
      ExOK im tr g.cE (nextState s).EXMEM) ∧
    (g.cE = g.cD → (nextState s).EXMEM.instr = NOOPINSTR) := by
  have hm := hI.mono
  constructor
  · intro h
    obtain ⟨hi, hpc, hoff, -, -, -⟩ := hI.idexReal h
    have hnt : ¬ branchTaken s = true := by
      intro hc
      obtain ⟨h1, h2⟩ := (inv_branchTaken_iff im tr n s g hI).1 hc
      have := inv_taken_counters im tr n s g hI h1 (Or.inr h2)
      omega
    refine ⟨by rw [nextState_EXMEM_instr, if_neg hnt, hi], ?_, ?_, ?_, ?_⟩
    · rw [nextState_EXMEM_branchTarget, hoff, hpc]
    · intro ho
      obtain ⟨ha, hb⟩ := inv_operands im tr n s g hT hI hE h (by tauto)
      have hnl : opcode (instrAt im tr g.cE) ≠ LW := by rw [ho]; decide
      rw [nextState_EXMEM_eq, ha, hb hnl]
      by_cases hab : opA im tr g.cE = opB im tr g.cE <;> simp [hab]
    · intro ho
      obtain ⟨-, hb⟩ := inv_operands im tr n s g hT hI hE h (by tauto)
      have hnl : opcode (instrAt im tr g.cE) ≠ LW := by rw [ho]; decide
      rw [nextState_EXMEM_valB, hb hnl]
    · intro ho
      obtain ⟨ha, hb⟩ := inv_operands im tr n s g hT hI hE h (by tauto)
      rw [nextState_EXMEM_aluResult, hi, hoff, ha]
      rcases ho with ho | ho | ho | ho
      · have hnl : opcode (instrAt im tr g.cE) ≠ LW := by rw [ho]; decide
        rw [hb hnl, ho, aluOut_ADD, aluOut_ADD]
      · have hnl : opcode (instrAt im tr g.cE) ≠ LW := by rw [ho]; decide
        rw [hb hnl, ho, aluOut_NOR, aluOut_NOR]
      · rw [aluOut_mem _ _ _ _ _ (Or.inl ho), aluOut_mem _ _ _ _ _ (Or.inl ho)]
      · rw [aluOut_mem _ _ _ _ _ (Or.inr ho), aluOut_mem _ _ _ _ _ (Or.inr ho)]
  · intro h
    rw [nextState_EXMEM_instr]
    by_cases hb : branchTaken s = true
    · rw [if_pos hb]
    · rw [if_neg hb]
      rcases hI.idexIdle h with h1 | ⟨h1, h2⟩
      · exact h1
      · exact absurd (inv_term_taken im tr n s g hI hE h1 h2) hb

/-! ## One cycle preserves the invariant: counters, fetch and decode -/

theorem nextGhost_cV (s : stateType) (g : Ghost) (p : Bool) : (nextGhost s g p).cV = g.cW := rfl

theorem nextGhost_cW (s : stateType) (g : Ghost) (p : Bool) : (nextGhost s g p).cW = g.cM := rfl

theorem nextGhost_cM (s : stateType) (g : Ghost) (p : Bool) : (nextGhost s g p).cM = g.cE := rfl

theorem nextGhost_cE (s : stateType) (g : Ghost) (p : Bool) : (nextGhost s g p).cE = g.cD := rfl

theorem nextGhost_cD (s : stateType) (g : Ghost) (p : Bool) :
    (nextGhost s g p).cD = if stalling s then g.cD else g.cF := rfl

theorem nextGhost_cF (s : stateType) (g : Ghost) (p : Bool) :
    (nextGhost s g p).cF =
      if branchTaken s ∨ stalling s ∨ p then g.cF else g.cF + 1 := rfl

theorem inv_not_pending_bound (im : Int → Int) (tr : Nat → seqState) (n : Nat)
    (s : stateType) (g : Ghost) (hI : PipeInv im tr n s g)
    (hp : ¬ pending im tr n g) : g.cF ≤ n := by
  by_contra hc
  have hb := hI.bound
  exact hp ⟨n, by omega, hb.2, Or.inl rfl⟩

/-- A pending stream end stays pending over a cycle that takes no branch. -/
theorem inv_pending_pos (im : Int → Int) (tr : Nat → seqState) (n : Nat)
    (s : stateType) (g : Ghost) (hI : PipeInv im tr n s g) (hE : g.cE ≤ n)
    (hnt : ¬ branchTaken s = true) (j : Nat) (hj : g.cF = j + 1) (hjm : g.cM ≤ j)
    (ht : termAt im tr n j) : g.cE ≤ j := by
  by_contra hc
  have hm := hI.mono
  have hjM : j = g.cM := by omega
  subst hjM
  exact hnt (inv_term_taken im tr n s g hI hE (by omega) ht)

theorem inv_next_counters (im : Int → Int) (tr : Nat → seqState) (n : Nat)
    (s : stateType) (g : Ghost) (hI : PipeInv im tr n s g) (hE : g.cE ≤ n)
    (p : Bool) (hp : p = true ↔ pending im tr n g) :
    ((nextGhost s g p).cV ≤ (nextGhost s g p).cW ∧
      (nextGhost s g p).cW ≤ (nextGhost s g p).cV + 1 ∧
      (nextGhost s g p).cW ≤ (nextGhost s g p).cM ∧
      (nextGhost s g p).cM ≤ (nextGhost s g p).cW + 1 ∧
      (nextGhost s g p).cM ≤ (nextGhost s g p).cE ∧
      (nextGhost s g p).cE ≤ (nextGhost s g p).cM + 1 ∧
      (nextGhost s g p).cE ≤ (nextGhost s g p).cD ∧
      (nextGhost s g p).cD ≤ (nextGhost s g p).cE + 1 ∧
      (nextGhost s g p).cD ≤ (nextGhost s g p).cF ∧
      (nextGhost s g p).cF ≤ (nextGhost s g p).cD + 1) ∧
    ((nextGhost s g p).cF ≤ n + 1 ∧ (nextGhost s g p).cM ≤ n) ∧
    (∀ j, (nextGhost s g p).cM ≤ j → j + 1 < (nextGhost s g p).cF → ¬ termAt im tr n j) := by
  have hm := hI.mono
  have hb := hI.bound
  simp only [nextGhost_cV, nextGhost_cW, nextGhost_cM, nextGhost_cE, nextGhost_cD,
    nextGhost_cF]
  by_cases hs : stalling s = true
  · rw [if_pos hs, if_pos (Or.inr (Or.inl hs))]
    refine ⟨by omega, by omega, ?_⟩
    intro j h1 h2
    exact hI.inner j (by omega) h2
  · rw [if_neg hs]
    by_cases hbt : branchTaken s = true
    · rw [if_pos (Or.inl hbt)]
      refine ⟨by omega, by omega, ?_⟩
      intro j h1 h2
      exact hI.inner j (by omega) h2
    · by_cases hpp : p = true
      · rw [if_pos (Or.inr (Or.inr hpp))]
        refine ⟨by omega, by omega, ?_⟩
        intro j h1 h2
        exact hI.inner j (by omega) h2
      · have hnp : ¬ pending im tr n g := fun hc => hpp (hp.2 hc)
        have hFn := inv_not_pending_bound im tr n s g hI hnp
        rw [if_neg (by tauto)]
        refine ⟨by omega, by omega, ?_⟩
        intro j h1 h2 ht
        rcases Nat.lt_or_ge (j + 1) g.cF with h3 | h3
        · exact hI.inner j (by omega) h3 ht
        · exact hnp ⟨j, by omega, by omega, ht⟩

/-- Whether a stream end is pending after the cycle. -/
theorem inv_next_pending (im : Int → Int) (tr : Nat → seqState) (n : Nat)
    (s : stateType) (g : Ghost) (hI : PipeInv im tr n s g) (hE : g.cE ≤ n)
    (p : Bool) (hp : p = true ↔ pending im tr n g) :
    pending im tr n (nextGhost s g p) ↔
      (¬ branchTaken s = true ∧
        (pending im tr n g ∨ (¬ stalling s = true ∧ termAt im tr n g.cF))) := by
  have hm := hI.mono
  unfold pending
  simp only [nextGhost_cM, nextGhost_cF]
  constructor
  · rintro ⟨j, hj, hjm, ht⟩
    by_cases hbt : branchTaken s = true
    · exfalso
      rw [if_pos (Or.inl hbt)] at hj
      obtain ⟨h1, h2⟩ := (inv_branchTaken_iff im tr n s g hI).1 hbt
      have := inv_taken_counters im tr n s g hI h1 (Or.inr h2)
      omega
    · refine ⟨hbt, ?_⟩
      by_cases hpp : pending im tr n g
      · exact Or.inl hpp
      · have hpf : ¬ p = true := fun hc => hpp (hp.1 hc)
        by_cases hs : stalling s = true
        · rw [if_pos (Or.inr (Or.inl hs))] at hj
          exact absurd ⟨j, hj, by omega, ht⟩ hpp
        · rw [if_neg (by tauto)] at hj
          have : j = g.cF := by omega
          subst this
          exact Or.inr ⟨hs, ht⟩
  · rintro ⟨hbt, h | ⟨hs, ht⟩⟩
    · obtain ⟨j, hj, hjm, ht⟩ := h
      have hpp : p = true := hp.2 ⟨j, hj, hjm, ht⟩
      refine ⟨j, ?_, inv_pending_pos im tr n s g hI hE hbt j hj hjm ht, ht⟩
      rw [if_pos (Or.inr (Or.inr hpp)), hj]
    · by_cases hpp : pending im tr n g
      · obtain ⟨j, hj, hjm, ht'⟩ := hpp
        have hpt : p = true := hp.2 ⟨j, hj, hjm, ht'⟩
        refine ⟨j, ?_, inv_pending_pos im tr n s g hI hE hbt j hj hjm ht', ht'⟩
        rw [if_pos (Or.inr (Or.inr hpt)), hj]
      · have hpf : ¬ p = true := fun hc => hpp (hp.1 hc)
        refine ⟨g.cF, ?_, by omega, ht⟩
        rw [if_neg (by tauto)]

theorem inv_next_pc (im : Int → Int) (tr : Nat → seqState) (n : Nat)
    (s : stateType) (g : Ghost) (hT : IsTrace im tr n) (hI : PipeInv im tr n s g)
    (hE : g.cE ≤ n) (p : Bool) (hp : p = true ↔ pending im tr n g) :
    (¬ pending im tr n (nextGhost s g p) →
      (nextState s).pc = (tr (nextGhost s g p).cF).pc) ∧
    (∀ j, (nextGhost s g p).cF = j + 1 → (nextGhost s g p).cM ≤ j → termAt im tr n j →
      (tr j).pc + 1 ≤ (nextState s).pc ∧
      (nextState s).pc ≤ (tr j).pc + 1 + (((nextGhost s g p).cD - j : Nat) : Int) +
        (((nextGhost s g p).cE - j : Nat) : Int)) := by
  have hm := hI.mono
  have hb := hI.bound
  rw [inv_next_pending im tr n s g hI hE p hp]
  simp only [nextGhost_cM, nextGhost_cE, nextGhost_cD, nextGhost_cF, nextState_pc]
  by_cases hbt : branchTaken s = true
  · obtain ⟨h1, h2⟩ := (inv_branchTaken_iff im tr n s g hI).1 hbt
    obtain ⟨c1, c2, c3⟩ := inv_taken_counters im tr n s g hI h1 (Or.inr h2)
    rw [if_pos hbt, if_pos (Or.inl hbt)]
    constructor
    · intro _
      rw [(hI.exmemReal h1).2.1, c3, trace_pc im tr n g.cM hT (by omega), if_pos h2]
    · intro j hj hjm
      omega
  · rw [if_neg hbt]
    by_cases hs : stalling s = true
    · rw [if_pos hs, if_pos (Or.inr (Or.inl hs)), if_pos hs]
      constructor
      · intro hnp
        apply hI.pcSeq
        intro hc
        exact hnp ⟨hbt, Or.inl hc⟩
      · intro j hj hjm ht
        obtain ⟨b1, b2⟩ := hI.pcPend j hj (by omega) ht
        refine ⟨b1, ?_⟩
        omega
    · rw [if_neg hs, if_neg hs]
      by_cases hpp : p = true
      · rw [if_pos (Or.inr (Or.inr hpp))]
        constructor
        · intro hnp
          exact absurd ⟨hbt, Or.inl (hp.1 hpp)⟩ hnp
        · intro j hj hjm ht
          obtain ⟨b1, b2⟩ := hI.pcPend j hj (by omega) ht
          constructor
          · omega
          · omega
      · have hnp : ¬ pending im tr n g := fun hc => hpp (hp.2 hc)
        have hFn := inv_not_pending_bound im tr n s g hI hnp
        rw [if_neg (by tauto), hI.pcSeq hnp]
        constructor
        · intro hnt
          have hnterm : ¬ termAt im tr n g.cF := fun hc => hnt ⟨hbt, Or.inr ⟨hs, hc⟩⟩
          have hlt : g.cF < n := by
            rcases Nat.lt_or_ge g.cF n with h | h
            · exact h
            · exact absurd (Or.inl (by omega)) hnterm
          rw [trace_pc im tr n g.cF hT hlt, if_neg (fun hc => hnterm (Or.inr hc))]
        · intro j hj hjm ht
          have : j = g.cF := by omega
          subst this
          constructor
          · omega
          · omega

theorem inv_next_ifid (im : Int → Int) (tr : Nat → seqState) (n : Nat)
    (s : stateType) (g : Ghost) (hI : PipeInv im tr n s g)
    (hE : g.cE ≤ n) (p : Bool) (hp : p = true ↔ pending im tr n g) :
    ((nextGhost s g p).cD < (nextGhost s g p).cF →
      (nextState s).IFID.instr = instrAt im tr (nextGhost s g p).cD ∧
      (nextState s).IFID.pcPlus1 = (tr (nextGhost s g p).cD).pc + 1) ∧
    ((nextGhost s g p).cD = (nextGhost s g p).cF →
      (nextState s).IFID.instr = NOOPINSTR ∨ pending im tr n (nextGhost s g p)) := by
  have hm := hI.mono
  rw [inv_next_pending im tr n s g hI hE p hp]
  simp only [nextGhost_cD, nextGhost_cF, nextState_IFID_instr, nextState_IFID_pcPlus1]
  by_cases hbt : branchTaken s = true
  · obtain ⟨h1, h2⟩ := (inv_branchTaken_iff im tr n s g hI).1 hbt
    obtain ⟨c1, c2, c3⟩ := inv_taken_counters im tr n s g hI h1 (Or.inr h2)
    rw [if_pos hbt, if_pos (Or.inl hbt)]
    constructor
    · intro hlt
      split at hlt <;> omega
    · intro _
      exact Or.inl rfl
  · rw [if_neg hbt]
    by_cases hs : stalling s = true
    · rw [if_pos hs, if_pos (Or.inr (Or.inl hs)), if_pos hs, if_pos hs]
      constructor
      · exact hI.ifidReal
      · intro he
        rcases hI.ifidIdle he with h | h
        · exact Or.inl h
        · exact Or.inr ⟨hbt, Or.inl h⟩
    · rw [if_neg hs, if_neg hs, if_neg hs]
      by_cases hpp : p = true
      · rw [if_pos (Or.inr (Or.inr hpp))]
        constructor
        · intro hlt
          omega
        · intro _
          exact Or.inr ⟨hbt, Or.inl (hp.1 hpp)⟩
      · have hnp : ¬ pending im tr n g := fun hc => hpp (hp.2 hc)
        rw [if_neg (by tauto)]
        constructor
        · intro _
          rw [hI.instrMem, hI.pcSeq hnp]
          exact ⟨rfl, rfl⟩
        · intro he
          omega

theorem inv_next_idex (im : Int → Int) (tr : Nat → seqState) (n : Nat)
    (s : stateType) (g : Ghost) (hI : PipeInv im tr n s g)
    (hE : g.cE ≤ n) (p : Bool) :
    ((nextGhost s g p).cE < (nextGhost s g p).cD →
      (nextState s).IDEX.instr = instrAt im tr (nextGhost s g p).cE ∧
      (nextState s).IDEX.pcPlus1 = (tr (nextGhost s g p).cE).pc + 1 ∧
      (nextState s).IDEX.offset = convertNum (field2 (instrAt im tr (nextGhost s g p).cE)) ∧
      (nextState s).IDEX.valA =
        (tr (nextGhost s g p).cV).reg (field0 (instrAt im tr (nextGhost s g p).cE)) ∧
      (nextState s).IDEX.valB =
        (tr (nextGhost s g p).cV).reg (field1 (instrAt im tr (nextGhost s g p).cE)) ∧
      ((nextGhost s g p).cM < (nextGhost s g p).cE →
        opcode (instrAt im tr (nextGhost s g p).cM) = LW →
        noLoadUse (instrAt im tr (nextGhost s g p).cE)
          (instrAt im tr (nextGhost s g p).cM))) ∧
    ((nextGhost s g p).cE = (nextGhost s g p).cD →
      (nextState s).IDEX.instr = NOOPINSTR ∨
        ((nextGhost s g p).cM < (nextGhost s g p).cE ∧
          termAt im tr n (nextGhost s g p).cM)) := by
  have hm := hI.mono
  simp only [nextGhost_cV, nextGhost_cM, nextGhost_cE, nextGhost_cD, nextState_IDEX_instr,
    nextState_IDEX_pcPlus1, nextState_IDEX_offset, nextState_IDEX_valA, nextState_IDEX_valB]
  by_cases hs : stalling s = true
  · rw [if_pos hs, if_pos (Or.inr hs)]
    exact ⟨fun h => absurd h (lt_irrefl _), fun _ => Or.inl rfl⟩
  · rw [if_neg hs]
    by_cases hbt : branchTaken s = true
    · obtain ⟨h1, h2⟩ := (inv_branchTaken_iff im tr n s g hI).1 hbt
      obtain ⟨c1, c2, c3⟩ := inv_taken_counters im tr n s g hI h1 (Or.inr h2)
      rw [if_pos (Or.inl hbt)]
      exact ⟨fun h => by omega, fun _ => Or.inl rfl⟩
    · rw [if_neg (by tauto)]
      constructor
      · intro h
        obtain ⟨hi, hpc⟩ := hI.ifidReal h
        refine ⟨hi, hpc, by rw [hi], by rw [hi, hI.reg], by rw [hi, hI.reg], ?_⟩
        intro hED hl
        obtain ⟨hx, -⟩ := hI.idexReal hED
        have hst : stalling s = false := by simpa using hs
        unfold stalling at hst
        rw [hx, hi, if_pos hl] at hst
        unfold noLoadUse
        by_cases hc : opcode (instrAt im tr g.cD) = LW
        · rw [if_pos hc] at hst
          exact ⟨by simpa using hst, fun hn => absurd hc hn⟩
        · rw [if_neg hc] at hst
          simp only [Bool.or_eq_false_iff, decide_eq_false_iff_not] at hst
          exact ⟨hst.1, fun _ => hst.2⟩
      · intro he
        rcases hI.ifidIdle he with h | ⟨j, hj, hjm, ht⟩
        · exact Or.inl h
        · right
          have hEj := inv_pending_pos im tr n s g hI hE hbt j hj hjm ht
          have : j = g.cE := by omega
          subst this
          exact ⟨by omega, ht⟩

/-! ## The invariant is inductive, and the run terminates -/

/-- One cycle preserves the invariant as long as `halt` does not enter
`MEM/WB` in it. -/
theorem inv_step (im : Int → Int) (tr : Nat → seqState) (n : Nat)
    (s : stateType) (g : Ghost) (hT : IsTrace im tr n) (hI : PipeInv im tr n s g)
    (hE : g.cE ≤ n) (p : Bool) (hp : p = true ↔ pending im tr n g) :
    PipeInv im tr n (nextState s) (nextGhost s g p) := by
  obtain ⟨c1, c2, c3⟩ := inv_next_counters im tr n s g hI hE p hp
  obtain ⟨p1, p2⟩ := inv_next_pc im tr n s g hT hI hE p hp
  obtain ⟨f1, f2⟩ := inv_next_ifid im tr n s g hI hE p hp
  obtain ⟨d1, d2⟩ := inv_next_idex im tr n s g hI hE p
  obtain ⟨e1, e2⟩ := inv_next_exmem im tr n s g hT hI hE
  obtain ⟨m1, m2⟩ := inv_next_memwb im tr n s g hT hI hE
  obtain ⟨w1, w2⟩ := inv_next_wbend im tr n s g hI
  exact
    { mono := c1
      bound := c2
      inner := c3
      instrMem := hI.instrMem
      reg := inv_next_reg im tr n s g hT hI
      dataMem := inv_next_dataMem im tr n s g hT hI hE
      pcSeq := p1
      pcPend := p2
      ifidReal := f1
      ifidIdle := f2
      idexReal := d1
      idexIdle := d2
      exmemReal := e1
      exmemIdle := e2
      memwbReal := m1
      memwbIdle := m2
      wbendReal := w1
      wbendIdle := w2 }

/-- The cycle in which `halt` enters `MEM/WB` leaves the architectural state of
the sequential execution. -/
theorem inv_final (im : Int → Int) (tr : Nat → seqState) (n : Nat)
    (s : stateType) (g : Ghost) (hT : IsTrace im tr n) (hI : PipeInv im tr n s g)
    (hE : g.cE = n + 1) :
    opcode (nextState s).MEMWB.instr = HALT ∧ (nextState s).reg = (tr n).reg ∧
      (nextState s).dataMem = (tr n).dataMem := by
  have hm := hI.mono
  have hb := hI.bound
  have hM : g.cM = n := by omega
  obtain ⟨hi, -⟩ := hI.exmemReal (by omega)
  rw [hM] at hi
  refine ⟨by rw [nextState_MEMWB_instr, hi, hT.haltAt], ?_, ?_⟩
  · rw [inv_next_reg im tr n s g hT hI, hM]
  · have hns : ¬ opcode (instrAt im tr n) = SW := by rw [hT.haltAt]; decide
    rw [nextState_dataMem, hi, if_neg (fun hc => hns hc.2), hI.dataMem, hM]

theorem inv_total_le (im : Int → Int) (tr : Nat → seqState) (n : Nat)
    (s : stateType) (g : Ghost) (hI : PipeInv im tr n s g) :
    g.total ≤ 6 * (n + 1) := by
  have hm := hI.mono
  have hb := hI.bound
  unfold Ghost.total
  omega

/-- Every cycle advances at least one counter. -/
theorem inv_progress (im : Int → Int) (tr : Nat → seqState) (n : Nat)
    (s : stateType) (g : Ghost) (hI : PipeInv im tr n s g)
    (p : Bool) (hp : p = true ↔ pending im tr n g) :
    g.total < (nextGhost s g p).total := by
  have hm := hI.mono
  unfold Ghost.total
  simp only [nextGhost_cV, nextGhost_cW, nextGhost_cM, nextGhost_cE, nextGhost_cD,
    nextGhost_cF]
  by_cases hs : stalling s = true
  · rw [if_pos hs, if_pos (Or.inr (Or.inl hs))]
    have hlw : opcode s.IDEX.instr = LW := by
      by_contra hc
      simp [stalling, hc] at hs
    have hne : s.IDEX.instr ≠ NOOPINSTR := by
      intro hc
      rw [hc] at hlw
      exact absurd hlw (by decide)
    have : g.cV < g.cD := by
      rcases Nat.lt_or_ge g.cE g.cD with h | h
      · omega
      · rcases hI.idexIdle (by omega) with h1 | ⟨h1, -⟩
        · exact absurd h1 hne
        · omega
    omega
  · rw [if_neg hs]
    by_cases hbt : branchTaken s = true
    · obtain ⟨h1, -⟩ := (inv_branchTaken_iff im tr n s g hI).1 hbt
      rw [if_pos (Or.inl hbt)]
      omega
    · by_cases hpp : p = true
      · obtain ⟨j, hj, hjm, -⟩ := hp.1 hpp
        rw [if_pos (Or.inr (Or.inr hpp))]
        omega
      · rw [if_neg (by tauto)]
        omega

theorem fetchesInRange_pc (s : stateType) (hf : fetchesInRange s)
    (hnh : opcode s.MEMWB.instr ≠ HALT) : s.pc < NUMMEMORY := by
  apply hf 0 s rfl
  intro j hj t ht
  have hj0 : j = 0 := by omega
  subst hj0
  simp only [stepN, Option.some.injEq] at ht
  rw [← ht]
  exact hnh

theorem fetchesInRange_next (s : stateType) (hf : fetchesInRange s)
    (hnh : opcode s.MEMWB.instr ≠ HALT) (hdef : stepDefined s) :
    fetchesInRange (nextState s) := by
  have hstep : ∀ k, stepN (k + 1) s = stepN k (nextState s) := by
    intro k
    simp only [stepN]
    rw [step_of_defined s hdef, Option.some_bind]
  intro k t hk hno
  apply hf (k + 1) t (by rw [hstep]; exact hk)
  intro j hj u hu
  cases j with
  | zero =>
    simp only [stepN, Option.some.injEq] at hu
    rw [← hu]
    exact hnh
  | succ i =>
    rw [hstep] at hu
    exact hno i (by omega) u hu

/-- From any state satisfying the invariant the run loop terminates, in a
state with the registers and data memory of the sequential execution, when all
its fetches are inside instruction memory. -/
theorem inv_run (im : Int → Int) (tr : Nat → seqState) (n : Nat) (hT : IsTrace im tr n) :
    ∀ (m : Nat) (s : stateType) (g : Ghost), PipeInv im tr n s g → fetchesInRange s →
      6 * (n + 1) - g.total ≤ m →
      ∃ fuel s', run fuel s = some s' ∧ s'.reg = (tr n).reg ∧
        s'.dataMem = (tr n).dataMem := by
  intro m
  induction m with
  | zero =>
    intro s g hI hf hm
    have hnh := inv_MEMWB_not_halt im tr n s g hT hI
    have hdef := inv_stepDefined im tr n s g hT hI (fetchesInRange_pc s hf hnh)
    have hb := hI.bound
    have hmono := hI.mono
    rcases Nat.lt_or_ge n g.cE with hE | hE
    · obtain ⟨f1, f2, f3⟩ := inv_final im tr n s g hT hI (by omega)
      refine ⟨1, nextState s, ?_, f2, f3⟩
      rw [run_succ_of_not_halt 0 s hnh, step_of_defined s hdef, Option.some_bind]
      exact run_of_halt 0 _ f1
    · exfalso
      have hp : (@decide (pending im tr n g) (Classical.propDecidable _)) = true ↔
          pending im tr n g := by simp
      have h1 := inv_progress im tr n s g hI _ hp
      have h2 := inv_total_le im tr n _ _ (inv_step im tr n s g hT hI hE _ hp)
      omega
  | succ m ih =>
    intro s g hI hf hm
    have hnh := inv_MEMWB_not_halt im tr n s g hT hI
    have hdef := inv_stepDefined im tr n s g hT hI (fetchesInRange_pc s hf hnh)
    have hb := hI.bound
    have hmono := hI.mono
    rcases Nat.lt_or_ge n g.cE with hE | hE
    · obtain ⟨f1, f2, f3⟩ := inv_final im tr n s g hT hI (by omega)
      refine ⟨1, nextState s, ?_, f2, f3⟩
      rw [run_succ_of_not_halt 0 s hnh, step_of_defined s hdef, Option.some_bind]
      exact run_of_halt 0 _ f1
    · have hp : (@decide (pending im tr n g) (Classical.propDecidable _)) = true ↔
          pending im tr n g := by simp
      have h1 := inv_progress im tr n s g hI _ hp
      have hI' := inv_step im tr n s g hT hI hE _ hp
      obtain ⟨fuel, s', hr, hreg, hmem⟩ :=
        ih _ _ hI' (fetchesInRange_next s hf hnh hdef) (by omega)
      refine ⟨fuel + 1, s', ?_, hreg, hmem⟩
      rw [run_succ_of_not_halt fuel s hnh, step_of_defined s hdef, Option.some_bind]
      exact hr

/-- The reset state satisfies the invariant with all counters zero. -/
theorem inv_init (prog : List Int) (tr : Nat → seqState) (n : Nat)
    (h0 : tr 0 = seqInit prog) :
    PipeInv (loadMem prog) tr n (initState prog) ⟨0, 0, 0, 0, 0, 0⟩ :=
  { mono := by simp
    bound := by simp
    inner := fun j _ h => absurd h (Nat.not_lt_zero _)
    instrMem := rfl
    reg := by rw [h0]; rfl
    dataMem := by rw [h0]; rfl
    pcSeq := fun _ => by rw [h0]; rfl
    pcPend := fun j h => absurd h (by simp)
    ifidReal := fun h => absurd h (lt_irrefl _)
    ifidIdle := fun _ => Or.inl rfl
    idexReal := fun h => absurd h (lt_irrefl _)
    idexIdle := fun _ => Or.inl rfl
    exmemReal := fun h => absurd h (lt_irrefl _)
    exmemIdle := fun _ => rfl
    memwbReal := fun h => absurd h (lt_irrefl _)
    memwbIdle := fun _ => rfl
    wbendReal := fun h => absurd h (lt_irrefl _)
    wbendIdle := fun _ => rfl }

/-- The pipelined run from reset terminates with the registers and data memory
of the sequential run, when all its fetches are inside instruction memory. -/
theorem run_refines_seqRun (prog : List Int) (fuel : Nat) (qf : seqState)
    (hseq : seqRun (loadMem prog) fuel (seqInit prog) = some qf)
    (hfetch : fetchesInRange (initState prog)) :
    ∃ n s', run n (initState prog) = some s' ∧ s'.reg = qf.reg ∧
      s'.dataMem = qf.dataMem := by
  obtain ⟨n, tr, h0, hn, hT, -⟩ := seqRun_isTrace (loadMem prog) fuel (seqInit prog) qf hseq
  obtain ⟨k, s', hr, hreg, hmem⟩ :=
    inv_run (loadMem prog) tr n hT _ _ _ (inv_init prog tr n h0) hfetch (le_refl _)
  exact ⟨k, s', hr, by rw [hreg, hn], by rw [hmem, hn]⟩

/-! ## Refinement of the sequential machine by the pipeline -/

theorem stepN_add (a b : Nat) (s : stateType) :
    stepN (a + b) s = (stepN a s).bind (stepN b) := by
  induction a generalizing s with
  | zero => simp [stepN]
  | succ a ih =>
    rw [Nat.succ_add]
    simp only [stepN]
    cases step s with
    | none => rfl
    | some t => simp [ih]

/-- Every state that the run loop reaches from a state satisfying the
invariant satisfies it. -/
theorem inv_reach (im : Int → Int) (tr : Nat → seqState) (n : Nat) (hT : IsTrace im tr n) :
    ∀ (k : Nat) (s0 : stateType) (g0 : Ghost), PipeInv im tr n s0 g0 →
      ∀ s, stepN k s0 = some s →
        (∀ j, j ≤ k → ∀ t, stepN j s0 = some t → opcode t.MEMWB.instr ≠ HALT) →
        ∃ g, PipeInv im tr n s g := by
  intro k
  induction k with
  | zero =>
    intro s0 g0 hI s hs _
    simp only [stepN, Option.some.injEq] at hs
    rw [← hs]
    exact ⟨g0, hI⟩
  | succ k ih =>
    intro s0 g0 hI s hs hno
    simp only [stepN] at hs
    cases hst : step s0 with
    | none => rw [hst] at hs; simp at hs
    | some s1 =>
      rw [hst, Option.some_bind] at hs
      obtain ⟨-, hs1⟩ := (step_eq_some_iff s0 s1).1 hst
      subst hs1
      have h1 : stepN 1 s0 = some (nextState s0) := by
        simp only [stepN]
        rw [hst, Option.some_bind]
      have hE : g0.cE ≤ n := by
        by_contra hc
        have hb := hI.bound
        have hm := hI.mono
        obtain ⟨f1, -, -⟩ := inv_final im tr n s0 g0 hT hI (by omega)
        exact hno 1 (by omega) _ h1 f1
      have hp : (@decide (pending im tr n g0) (Classical.propDecidable _)) = true ↔
          pending im tr n g0 := by simp
      have hI1 := inv_step im tr n s0 g0 hT hI hE _ hp
      apply ih _ _ hI1 s hs
      intro j hj t ht
      apply hno (j + 1) (by omega) t
      simp only [stepN]
      rw [hst, Option.some_bind]
      exact ht

/-- The fetches of the pipelined run are inside instruction memory when the
three words behind the `halt` and behind every taken branch of the sequential
run are (address + 3 below 65536): the pipeline fetches at most three words
behind them. -/
theorem fetchesInRange_of_margin (prog : List Int) (fuel : Nat) (qf : seqState)
    (hseq : seqRun (loadMem prog) fuel (seqInit prog) = some qf)
    (hmargin : ∀ k q, seqStepN (loadMem prog) k (seqInit prog) = some q →
      (opcode (loadMem prog q.pc) = HALT ∨
        (opcode (loadMem prog q.pc) = BEQ ∧
          q.reg (field0 (loadMem prog q.pc)) = q.reg (field1 (loadMem prog q.pc)))) →
      q.pc + 3 < NUMMEMORY) :
    fetchesInRange (initState prog) := by
  obtain ⟨n, tr, h0, -, hT, hN⟩ :=
    seqRun_isTrace (loadMem prog) fuel (seqInit prog) qf hseq
  intro k s hk hno
  obtain ⟨g, hI⟩ := inv_reach (loadMem prog) tr n hT k _ _ (inv_init prog tr n h0) s hk hno
  by_cases hp : pending (loadMem prog) tr n g
  · obtain ⟨j, hj, hjm, ht⟩ := hp
    have hb := hI.bound
    have hm := hI.mono
    have hjn : j ≤ n := by omega
    obtain ⟨-, h2⟩ := hI.pcPend j hj hjm ht
    have h3 : (tr j).pc + 3 < NUMMEMORY := by
      apply hmargin j (tr j) (hN j hjn)
      rcases ht with ht | ht
      · subst ht
        exact Or.inl hT.haltAt
      · exact Or.inr ht
    have h5 : ((g.cD - j : Nat) : Int) ≤ 1 := by omega
    have h6 : ((g.cE - j : Nat) : Int) ≤ 1 := by omega
    omega
  · rw [hI.pcSeq hp]
    apply (hT.pcRange _ _).2
    by_contra hc
    apply hp
    have hb := hI.bound
    exact ⟨n, by omega, hb.2, Or.inl rfl⟩

/-- The fetches of a run are inside instruction memory when the run reaches
`halt` in `MEM/WB` after `N` cycles and `pc` is in range in the states before
it. -/
theorem fetchesInRange_of_bounded (s0 : stateType) (N : Nat)
    (hh : (stepN N s0).map (fun s => decide (opcode s.MEMWB.instr = HALT)) = some true)
    (hb : ∀ k, k < N → (stepN k s0).map (fun s => decide (s.pc < NUMMEMORY)) = some true) :
    fetchesInRange s0 := by
  intro k s hk hno
  rcases Nat.lt_or_ge k N with h | h
  · have := hb k h
    rw [hk, Option.map_some', Option.some.injEq, decide_eq_true_eq] at this
    exact this
  · exfalso
    cases hN : stepN N s0 with
    | none => rw [hN] at hh; simp at hh
    | some t =>
      rw [hN, Option.map_some', Option.some.injEq, decide_eq_true_eq] at hh
      exact hno N h t hN hh

theorem mixProg_fetches : fetchesInRange (initState mixProg) :=
  fetchesInRange_of_bounded (initState mixProg) 12 (by decide) (by decide)

/-- C1: for every program of executable words (`add`, `nor`, `lw`, `sw`,
`beq`, `noop`, `halt`, the destination field of `add` and `nor` below 8) whose
sequential execution from the reset state reaches `halt` with every fetch
address, data address and branch target in range, the pipelined run loop
started from the reset state terminates, and its final register file and data
memory are those of the sequential execution.  The run is taken with all its
fetches `instrMem[pc]` inside the array (`fetchesInRange`): the source does not
check the index, and C leaves a cycle that reads outside the array without a
meaning.  This is so whenever the `halt` and the taken branches of the
sequential execution lie at least three words before the end of instruction
memory (`fetchesInRange_of_margin`).  The data addresses and register numbers
of the pipelined run are proved to be in range. -/
theorem pipeline_refines_sequential (prog : List Int) (fuel : Nat) (qf : seqState)
    (_hprog : ∀ w, w ∈ prog → executableWord w)
    (hseq : seqRun (loadMem prog) fuel (seqInit prog) = some qf)
    (hfetch : fetchesInRange (initState prog)) :
    ∃ n s', run n (initState prog) = some s' ∧ s'.reg = qf.reg ∧
      s'.dataMem = qf.dataMem :=
  run_refines_seqRun prog fuel qf hseq hfetch

/-- Witness of C1 at `mixProg`, whose run has a load-use stall, forwarding, a
taken branch and a store. -/
theorem pipeline_refines_sequential_witness :
    (∀ w, w ∈ mixProg → executableWord w) ∧
    seqRun (loadMem mixProg) 4 (seqInit mixProg) = some mixFinal ∧
    fetchesInRange (initState mixProg) ∧
    ∃ n s', run n (initState mixProg) = some s' ∧ s'.reg = mixFinal.reg ∧
      s'.dataMem = mixFinal.dataMem :=
  ⟨by decide, rfl, mixProg_fetches,
    pipeline_refines_sequential mixProg 4 mixFinal (by decide) rfl mixProg_fetches⟩

/-! ## Scenarios -/

theorem lwAdd_run (d : Int → Int) :
    (run 7 (lwAddInit (Function.update d 0 5))).map
      (fun s => (s.reg 1, s.cycles, opcode s.MEMWB.instr)) = some (10, 7, 6) := rfl

theorem lwAdd_stalls (d : Int → Int) :
    runStalls 7 (lwAddInit (Function.update d 0 5)) =
      some [false, false, true, false, false, false, false] := rfl

theorem lwAdd_load_position (d : Int → Int) :
    (stepN 1 (lwAddInit (Function.update d 0 5))).map (fun s => opcode s.IDEX.instr) =
      some NOOP ∧
    (stepN 2 (lwAddInit (Function.update d 0 5))).map (fun s => opcode s.IDEX.instr) =
      some LW := ⟨rfl, rfl⟩

/-- C11: running `lw 0 1 0; add 1 1 1; halt` from the state with `pc` 0, all
registers 0, all latches no-op and data word 0 equal to 5 (any other data
memory), the run loop stops after seven cycles with register 1 equal to 10, and
exactly one of its cycles stalls: the third, which starts in the state where
the load has just entered `ID/EX`. -/
theorem lw_add_scenario (dm : Int → Int) (h : dm 0 = 5) :
    (∃ s, run 7 (lwAddInit dm) = some s ∧ s.reg 1 = 10 ∧ s.cycles = 7) ∧
    (∃ l, runStalls 7 (lwAddInit dm) = some l ∧ l.count true = 1 ∧
      l = [false, false, true, false, false, false, false]) ∧
    (∃ t1 t2, stepN 1 (lwAddInit dm) = some t1 ∧ stepN 2 (lwAddInit dm) = some t2 ∧
      opcode t1.IDEX.instr ≠ LW ∧ opcode t2.IDEX.instr = LW ∧ stalling t2 = true) := by
  have e : dm = Function.update dm 0 5 := by
    rw [← h]; exact (Function.update_eq_self 0 dm).symm
  rw [e]
  refine ⟨?_, ⟨_, lwAdd_stalls dm, by decide, rfl⟩, ?_⟩
  · have hr := lwAdd_run dm
    cases hs : run 7 (lwAddInit (Function.update dm 0 5)) with
    | none => rw [hs] at hr; simp at hr
    | some s =>
      rw [hs, Option.map_some'] at hr
      have hp := Option.some.inj hr
      simp only [Prod.mk.injEq] at hp
      exact ⟨s, rfl, hp.1, hp.2.1⟩
  · obtain ⟨h1, h2⟩ := lwAdd_load_position dm
    have h3 : (stepN 2 (lwAddInit (Function.update dm 0 5))).map stalling = some true := rfl
    cases hs1 : stepN 1 (lwAddInit (Function.update dm 0 5)) with
    | none => rw [hs1] at h1; simp at h1
    | some t1 =>
      cases hs2 : stepN 2 (lwAddInit (Function.update dm 0 5)) with
      | none => rw [hs2] at h2; simp at h2
      | some t2 =>
        rw [hs1, Option.map_some'] at h1
        rw [hs2, Option.map_some'] at h2 h3
        refine ⟨t1, t2, rfl, rfl, ?_, Option.some.inj h2, Option.some.inj h3⟩
        rw [Option.some.inj h1]
        decide

/-- Witness of C11 at the program image with data word 0 set to 5. -/
theorem lw_add_scenario_witness :
    lwAddData 0 = 5 ∧
    (∃ s, run 7 (lwAddInit lwAddData) = some s ∧ s.reg 1 = 10 ∧ s.cycles = 7) ∧
    (∃ l, runStalls 7 (lwAddInit lwAddData) = some l ∧ l.count true = 1 ∧
      l = [false, false, true, false, false, false, false]) ∧
    (∃ t1 t2, stepN 1 (lwAddInit lwAddData) = some t1 ∧
      stepN 2 (lwAddInit lwAddData) = some t2 ∧
      opcode t1.IDEX.instr ≠ LW ∧ opcode t2.IDEX.instr = LW ∧ stalling t2 = true) :=
  ⟨by decide, lw_add_scenario lwAddData (by decide)⟩

/-- C12 (as stated, refuted): from reset, `add 0 1 2; noop; noop; noop; halt`
leaves the run loop with the cycle counter at 8, not 9. -/
theorem add_noop_not_nine_cycles :
    (run 9 (initState addNoopProg)).map (fun s => s.cycles) = some 8 ∧
    (run 9 (initState addNoopProg)).map (fun s => s.cycles) ≠ some 9 := by
  constructor <;> decide

/-- C12 (amended): from reset, `add 0 1 2; noop; noop; noop; halt` leaves the
run loop after 8 cycles (the final cycle counter is 8, `halt` is in `MEM/WB`),
register 2 is 0 in the final state, and no cycle of the run stalls. -/
theorem add_noop_scenario :
    (∃ s, run 8 (initState addNoopProg) = some s ∧ s.cycles = 8 ∧ s.reg 2 = 0 ∧
      opcode s.MEMWB.instr = HALT) ∧
    (∀ k, k < 8 → run k (initState addNoopProg) = none) ∧
    runStalls 8 (initState addNoopProg) =
      some [false, false, false, false, false, false, false, false] := by
  refine ⟨⟨(run 8 (initState addNoopProg)).get (by decide), by simp, by decide, by decide,
    by decide⟩, ?_, by decide⟩
  intro k hk
  have hd : ∀ k, k < 8 → (run k (initState addNoopProg)).isSome = false := by decide
  simpa using hd k hk

/-! ## Squash of the instructions behind a taken branch -/

/-- C13: in every state whose cycle is defined and whose `EX/MEM` latch holds a
`beq` with the equality flag set, the instruction behind the branch (held in
`ID/EX`) never reaches writeback.  After one cycle the program counter is the
branch target, `EX/MEM` holds the no-op word in its place and data memory is
unchanged; after two cycles `MEM/WB` holds that no-op and its memory stage has
left data memory unchanged; after three cycles it is in `WB/END` and its
writeback stage has left the register file unchanged. -/
theorem squashed_never_writes (s : stateType) (hdef : stepDefined s)
    (hbeq : opcode s.EXMEM.instr = BEQ) (heq : s.EXMEM.eq ≠ 0) :
    ∃ s1, step s = some s1 ∧ s1.pc = s.EXMEM.branchTarget ∧ s1.EXMEM.instr = NOOPINSTR ∧
      s1.dataMem = s.dataMem ∧
      (stepDefined s1 → ∃ s2, step s1 = some s2 ∧ s2.MEMWB.instr = NOOPINSTR ∧
        s2.dataMem = s1.dataMem ∧
        (stepDefined s2 → ∃ s3, step s2 = some s3 ∧ s3.WBEND.instr = NOOPINSTR ∧
          s3.reg = s2.reg)) := by
  have hb : branchTaken s = true := by simp [branchTaken, hbeq, heq]
  have hex : (nextState s).EXMEM.instr = NOOPINSTR := by rw [nextState_EXMEM_instr, if_pos hb]
  have hnsw : ¬ opcode NOOPINSTR = SW := by decide
  refine ⟨nextState s, step_of_defined s hdef, by rw [nextState_pc, if_pos hb], hex, ?_, ?_⟩
  · rw [nextState_dataMem, if_neg (fun hc => hc.1 hb)]
  · intro hdef1
    have hmw : (nextState (nextState s)).MEMWB.instr = NOOPINSTR := by
      rw [nextState_MEMWB_instr, hex]
    refine ⟨nextState (nextState s), step_of_defined _ hdef1, hmw, ?_, ?_⟩
    · rw [nextState_dataMem, hex, if_neg (fun hc => hnsw hc.2)]
    · intro hdef2
      refine ⟨nextState (nextState (nextState s)), step_of_defined _ hdef2, ?_, ?_⟩
      · rw [nextState_WBEND_instr, hmw]
      · have h1 : ¬ (opcode NOOPINSTR = NOR ∨ opcode NOOPINSTR = ADD) := by decide
        have h2 : ¬ opcode NOOPINSTR = LW := by decide
        rw [nextState_reg, hmw, if_neg h1, if_neg h2]

/-- Witness of C13: the program `beq 0 0 1; add 0 0 1; noop; halt` from reset,
in the state where the taken branch is in `EX/MEM` and the `add` behind it in
`ID/EX`. -/
theorem squashed_never_writes_witness :
    (stepN 3 (initState beqProg)).map (fun s => (s.EXMEM.instr, s.IDEX.instr)) =
      some (beqState.EXMEM.instr, beqState.IDEX.instr) ∧
    opcode beqState.EXMEM.instr = BEQ ∧ beqState.EXMEM.eq ≠ 0 ∧
    opcode beqState.IDEX.instr = ADD ∧
    ∃ s1, step beqState = some s1 ∧ s1.pc = beqState.EXMEM.branchTarget ∧
      s1.EXMEM.instr = NOOPINSTR ∧ s1.dataMem = beqState.dataMem ∧
      (stepDefined s1 → ∃ s2, step s1 = some s2 ∧ s2.MEMWB.instr = NOOPINSTR ∧
        s2.dataMem = s1.dataMem ∧
        (stepDefined s2 → ∃ s3, step s2 = some s3 ∧ s3.WBEND.instr = NOOPINSTR ∧
          s3.reg = s2.reg)) :=
  ⟨by decide, by decide, by decide, by decide,
    squashed_never_writes beqState (by decide) (by decide) (by decide)⟩

/-- C14 (as stated, refuted): three cycles after reset of
`beq 0 0 2; lw 0 1 0; add 1 1 1; halt` the taken branch is in `EX/MEM` while
the load fetched behind it is in `ID/EX` and the `add` that reads the loaded
register is in `IF/ID`: the load-use stall condition and the taken-branch
condition hold in the same cycle of a reachable state. -/
theorem stall_coincides_with_squash :
    ∃ s, stepN 3 (initState stallSquashProg) = some s ∧ loadUse s ∧ stalling s = true ∧
      opcode s.EXMEM.instr = BEQ ∧ s.EXMEM.eq ≠ 0 ∧ branchTaken s = true :=
  ⟨(stepN 3 (initState stallSquashProg)).get (by decide), by simp, by decide, by decide,
    by decide, by decide, by decide⟩

/-- C14 (amended): a stall can coincide with a squash, and then the squash
prevails.  In every state whose cycle is defined and in which both the load-use
stall condition and the taken-branch condition hold, the cycle sets the program
counter to `EXMEM.branchTarget` (it is not frozen) and replaces the load in
`ID/EX`, its consumer in `IF/ID` and the freshly executed instruction in
`EX/MEM` by the no-op word, so the stalled pair is discarded. -/
theorem squash_overrides_stall (s : stateType) (hdef : stepDefined s) (hlu : loadUse s)
    (hbeq : opcode s.EXMEM.instr = BEQ) (heq : s.EXMEM.eq ≠ 0) :
    stalling s = true ∧ branchTaken s = true ∧
    ∃ s', step s = some s' ∧ s'.pc = s.EXMEM.branchTarget ∧ s'.IFID.instr = NOOPINSTR ∧
      s'.IDEX.instr = NOOPINSTR ∧ s'.EXMEM.instr = NOOPINSTR ∧
      s'.MEMWB.instr = s.EXMEM.instr := by
  have hb : branchTaken s = true := by simp [branchTaken, hbeq, heq]
  refine ⟨stalling_of_loadUse s hlu, hb, nextState s, step_of_defined s hdef, ?_, ?_, ?_, ?_,
    rfl⟩
  · rw [nextState_pc, if_pos hb]
  · rw [nextState_IFID_instr, if_pos hb]
  · rw [nextState_IDEX_instr, if_pos (Or.inl hb)]
  · rw [nextState_EXMEM_instr, if_pos hb]

/-- Witness of C14 (amended) at the state of `stallSquashProg` in which stall
and squash coincide. -/
theorem squash_overrides_stall_witness :
    loadUse stallSquashState ∧ opcode stallSquashState.EXMEM.instr = BEQ ∧
    stallSquashState.EXMEM.eq ≠ 0 ∧
    stalling stallSquashState = true ∧ branchTaken stallSquashState = true ∧
    ∃ s', step stallSquashState = some s' ∧ s'.pc = stallSquashState.EXMEM.branchTarget ∧
      s'.IFID.instr = NOOPINSTR ∧ s'.IDEX.instr = NOOPINSTR ∧ s'.EXMEM.instr = NOOPINSTR ∧
      s'.MEMWB.instr = stallSquashState.EXMEM.instr :=
  ⟨by decide, by decide, by decide,
    squash_overrides_stall stallSquashState (by decide) (by decide) (by decide) (by decide)⟩

/-! ## Definedness of a cycle -/

theorem step_eq_none_of_not_defined (s : stateType) (h : ¬ stepDefined s) :
    step s = none := by
  cases hs : step s with
  | none => rfl
  | some s' => exact absurd (step_defined_of_some s s' hs) h

/-- C15 (as stated, refuted): three states built from 32-bit values in which
the cycle has no defined outcome: the fetch `instrMem[65536]`, the store
`dataMem[-1]` of a `sw` in `EX/MEM`, and the register write `reg[8]` of an
`add` in `MEM/WB` are outside their arrays. -/
theorem step_undefined_out_of_range :
    step fetchFaultState = none ∧ step storeFaultState = none ∧
      step destFaultState = none :=
  ⟨step_eq_none_of_not_defined _ (by decide), step_eq_none_of_not_defined _ (by decide),
    step_eq_none_of_not_defined _ (by decide)⟩

/-- C15 (amended): the cycle has a defined outcome exactly for the states in
which its three unchecked array accesses are in range: `0 ≤ pc < 65536` for the
fetch, `0 ≤ EXMEM.aluResult < 65536` when `EX/MEM` holds a `lw` or `sw`, and
`field2(MEMWB.instr) < 8` when `MEM/WB` holds an `add` or `nor`.  The two
register reads of the ID stage and the register write of a `lw` are in range in
every state. -/
theorem step_defined_iff_in_range (s : stateType) :
    ((∃ s', step s = some s') ↔
      (0 ≤ s.pc ∧ s.pc < NUMMEMORY) ∧
      ((opcode s.EXMEM.instr = LW ∨ opcode s.EXMEM.instr = SW) →
        0 ≤ s.EXMEM.aluResult ∧ s.EXMEM.aluResult < NUMMEMORY) ∧
      ((opcode s.MEMWB.instr = NOR ∨ opcode s.MEMWB.instr = ADD) →
        field2 s.MEMWB.instr < NUMREGS)) ∧
    readReg s.reg (field0 s.IFID.instr) = some (s.reg (field0 s.IFID.instr)) ∧
    readReg s.reg (field1 s.IFID.instr) = some (s.reg (field1 s.IFID.instr)) ∧
    writeReg s.reg (field1 s.MEMWB.instr) s.MEMWB.writeData =
      some (Function.update s.reg (field1 s.MEMWB.instr) s.MEMWB.writeData) := by
  refine ⟨⟨?_, ?_⟩, readReg_field0 _ _, readReg_field1 _ _, writeReg_field1 _ _ _⟩
  · rintro ⟨s', hs⟩
    exact step_defined_of_some s s' hs
  · intro h
    exact ⟨nextState s, step_of_defined s h⟩

/-! ## Instruction codec -/

/-- C16: decoding is total.  For every word `w` (in particular every 32-bit
word), `field0(w)` is bits 19..21 of the 32-bit pattern of `w` and lies in
0..7, `field1(w)` is bits 16..18 and lies in 0..7, `field2(w)` is bits 0..15
and lies in 0..65535; hence the register reads `reg[field0(w)]` and
`reg[field1(w)]` of the ID stage are in range. -/
theorem decode_fields_in_range (w : Int) (reg : Int → Int) :
    (field0 w = (w % 4294967296) / 524288 % 8 ∧ 0 ≤ field0 w ∧ field0 w ≤ 7) ∧
    (field1 w = (w % 4294967296) / 65536 % 8 ∧ 0 ≤ field1 w ∧ field1 w ≤ 7) ∧
    (field2 w = (w % 4294967296) % 65536 ∧ 0 ≤ field2 w ∧ field2 w ≤ 65535) ∧
    readReg reg (field0 w) = some (reg (field0 w)) ∧
    readReg reg (field1 w) = some (reg (field1 w)) := by
  refine ⟨?_, ?_, ?_, readReg_field0 _ _, readReg_field1 _ _⟩
  · rw [field0_eq]; omega
  · rw [field1_eq]; omega
  · rw [field2_eq]; omega

/-- C17 (as stated, refuted): the 32-bit words `0x02000000` and `0xFFFFFFFF`
(the `int` -1) have opcodes 8 and -1, outside 0..7. -/
theorem opcode_outside_three_bits :
    opcode 0x02000000 = 8 ∧ opcode (-1) = -1 ∧
    (-2147483648 : Int) ≤ 0x02000000 ∧ (0x02000000 : Int) ≤ 2147483647 := by
  decide

/-- C17 (amended): the opcode is the whole part of the word above bit 21.  For
every 32-bit word `w`, `opcode(w)` is `w` divided by `2^22` rounded down and
lies in -512..511; it lies in 0..7 exactly when bits 25..31 of `w` are zero
(`0 ≤ w < 2^25`), and it then equals bits 22..24 of `w`. -/
theorem opcode_range (w : Int) (h32 : -2147483648 ≤ w ∧ w ≤ 2147483647) :
    opcode w = w / 4194304 ∧ -512 ≤ opcode w ∧ opcode w ≤ 511 ∧
    ((0 ≤ opcode w ∧ opcode w ≤ 7) ↔ (0 ≤ w ∧ w < 33554432)) ∧
    (0 ≤ w ∧ w < 33554432 → opcode w = w / 4194304 % 8) := by
  rw [opcode_eq]
  refine ⟨rfl, by omega, by omega, ?_, ?_⟩
  · constructor <;> intro h <;> omega
  · intro h; omega

/-- Witness of C17 (amended) at the word `0x01800000` (`halt`). -/
theorem opcode_range_witness :
    ((-2147483648 : Int) ≤ 0x01800000 ∧ (0x01800000 : Int) ≤ 2147483647) ∧
    opcode 0x01800000 = 0x01800000 / 4194304 ∧ -512 ≤ opcode 0x01800000 ∧
    opcode 0x01800000 ≤ 511 ∧
    ((0 ≤ opcode 0x01800000 ∧ opcode 0x01800000 ≤ 7) ↔
      ((0 : Int) ≤ 0x01800000 ∧ (0x01800000 : Int) < 33554432)) ∧
    ((0 : Int) ≤ 0x01800000 ∧ (0x01800000 : Int) < 33554432 →
      opcode 0x01800000 = 0x01800000 / 4194304 % 8) :=
  ⟨by decide, opcode_range 0x01800000 (by decide)⟩

theorem land_bit15 (m : Nat) (hm : m < 65536) :
    Int.land (m : Int) ((1 : Int) <<< (15 : Int)) ≠ 0 ↔ 32768 ≤ m := by
  have h1 : ((1 : Int) <<< (15 : Int)) = ((2 ^ 15 : Nat) : Int) := by decide
  rw [h1]
  show ((m &&& 2 ^ 15 : Nat) : Int) ≠ 0 ↔ _
  rw [Nat.and_two_pow, Nat.testBit_to_div_mod]
  by_cases h : m / 2 ^ 15 % 2 = 1
  · simp only [h, decide_True, Bool.toNat_true]
    constructor
    · intro _; omega
    · intro _; norm_num
  · simp only [h, decide_False, Bool.toNat_false]
    constructor
    · intro hc; exact absurd rfl hc
    · intro hc; omega

/-- The function `convertNum` on a 16-bit value. -/
theorem convertNum_eq (n : Int) (h0 : 0 ≤ n) (h1 : n ≤ 65535) :
    convertNum n = if n < 32768 then n else n - 65536 := by
  obtain ⟨m, rfl⟩ := Int.eq_ofNat_of_zero_le h0
  have hm : m < 65536 := by omega
  have hb := land_bit15 m hm
  have h16 : ((1 : Int) <<< (16 : Int)) = 65536 := by decide
  unfold convertNum
  by_cases hc : 32768 ≤ m
  · rw [if_pos (hb.2 hc), h16, if_neg (by omega)]
  · have hz : ¬ Int.land (m : Int) ((1 : Int) <<< (15 : Int)) ≠ 0 := fun hx => hc (hb.1 hx)
    rw [if_neg hz, if_pos (by omega)]
    simp

/-- C18: `convertNum` is two's-complement sign extension of a 16-bit value.  For
`0 ≤ n ≤ 65535` it returns `n` when `n < 32768` and `n - 65536` otherwise; so
for every word `w` the offset `convertNum(field2(w))` latched by the ID stage
lies in -32768..32767 and is congruent to `field2(w)` modulo 65536. -/
theorem convertNum_sign_extends (n w : Int) (hn : 0 ≤ n ∧ n ≤ 65535) :
    convertNum n = (if n < 32768 then n else n - 65536) ∧
    -32768 ≤ convertNum (field2 w) ∧ convertNum (field2 w) ≤ 32767 ∧
    (convertNum (field2 w) - field2 w) % 65536 = 0 := by
  have hf := field2_range w
  have hw := convertNum_eq (field2 w) hf.1 (by omega)
  refine ⟨convertNum_eq n hn.1 hn.2, ?_, ?_, ?_⟩ <;> rw [hw] <;> split_ifs <;> omega

/-- Witness of C18 at the value 40000 and the word `0x0100FFFF` (`beq 0 0 -1`). -/
theorem convertNum_sign_extends_witness :
    ((0 : Int) ≤ 40000 ∧ (40000 : Int) ≤ 65535) ∧
    convertNum 40000 = (if (40000 : Int) < 32768 then 40000 else 40000 - 65536) ∧
    -32768 ≤ convertNum (field2 0x0100FFFF) ∧ convertNum (field2 0x0100FFFF) ≤ 32767 ∧
    (convertNum (field2 0x0100FFFF) - field2 0x0100FFFF) % 65536 = 0 :=
  ⟨by decide, convertNum_sign_extends 40000 0x0100FFFF (by decide)⟩

theorem int_lor_natCast (x y : Nat) : Int.lor (x : Int) (y : Int) = ((x ||| y : Nat) : Int) :=
  rfl

/-- Bitwise or with a value below `2^i` of a multiple of `2^i` is addition. -/
theorem nat_lor_eq_add (i a b x : Nat) (hx : x = 2 ^ i * a) (hb : b < 2 ^ i) :
    x ||| b = x + b := by
  rw [hx]
  exact (Nat.mul_add_lt_is_or hb a).symm

theorem shiftLeft_22 (x : Int) : x <<< (22 : Int) = x * 4194304 := by
  have h := Int.shiftLeft_eq_mul_pow x 22
  norm_num at h
  exact h

theorem shiftLeft_19 (x : Int) : x <<< (19 : Int) = x * 524288 := by
  have h := Int.shiftLeft_eq_mul_pow x 19
  norm_num at h
  exact h

theorem shiftLeft_16 (x : Int) : x <<< (16 : Int) = x * 65536 := by
  have h := Int.shiftLeft_eq_mul_pow x 16
  norm_num at h
  exact h

/-- Re-assembling the fields of a non-negative word. -/
theorem reassemble_nat (m : Nat) :
    Int.lor (Int.lor (Int.lor (((m / 4194304 : Nat) : Int) * 4194304)
      (((m / 524288 % 8 : Nat) : Int) * 524288)) (((m / 65536 % 8 : Nat) : Int) * 65536))
      ((m % 65536 : Nat) : Int) = (m : Int) := by
  have e1 : ((m / 4194304 : Nat) : Int) * 4194304 = ((2 ^ 22 * (m / 4194304) : Nat) : Int) := by
    push_cast; ring
  have e2 : ((m / 524288 % 8 : Nat) : Int) * 524288 =
      ((2 ^ 19 * (m / 524288 % 8) : Nat) : Int) := by
    push_cast; ring
  have e3 : ((m / 65536 % 8 : Nat) : Int) * 65536 =
      ((2 ^ 16 * (m / 65536 % 8) : Nat) : Int) := by
    push_cast; ring
  rw [e1, e2, e3, int_lor_natCast, int_lor_natCast, int_lor_natCast]
  have s1 : 2 ^ 22 * (m / 4194304) ||| 2 ^ 19 * (m / 524288 % 8) =
      2 ^ 22 * (m / 4194304) + 2 ^ 19 * (m / 524288 % 8) :=
    nat_lor_eq_add 22 (m / 4194304) _ _ rfl (by omega)
  have s2 : 2 ^ 22 * (m / 4194304) + 2 ^ 19 * (m / 524288 % 8) ||| 2 ^ 16 * (m / 65536 % 8) =
      2 ^ 22 * (m / 4194304) + 2 ^ 19 * (m / 524288 % 8) + 2 ^ 16 * (m / 65536 % 8) :=
    nat_lor_eq_add 19 (8 * (m / 4194304) + m / 524288 % 8) _ _ (by omega) (by omega)
  have s3 : 2 ^ 22 * (m / 4194304) + 2 ^ 19 * (m / 524288 % 8) + 2 ^ 16 * (m / 65536 % 8) |||
      m % 65536 =
      2 ^ 22 * (m / 4194304) + 2 ^ 19 * (m / 524288 % 8) + 2 ^ 16 * (m / 65536 % 8) +
        m % 65536 :=
    nat_lor_eq_add 16 (64 * (m / 4194304) + 8 * (m / 524288 % 8) + m / 65536 % 8) _ _
      (by omega) (by omega)
  rw [s1, s2, s3]
  congr 1
  omega

/-- C19: decode/re-encode round trip.  For every word `w` whose opcode is
`add`, `nor`, `lw`, `sw` or `beq`,
`(opcode(w) << 22) | (field0(w) << 19) | (field1(w) << 16) |
(convertNum(field2(w)) & 0xFFFF)` is `w`. -/
theorem decode_reencode (w : Int)
    (hop : opcode w = ADD ∨ opcode w = NOR ∨ opcode w = LW ∨ opcode w = SW ∨
      opcode w = BEQ) :
    Int.lor (Int.lor (Int.lor (opcode w <<< (22 : Int)) (field0 w <<< (19 : Int)))
      (field1 w <<< (16 : Int))) (Int.land (convertNum (field2 w)) 65535) = w := by
  have hw : 0 ≤ w := by
    rw [opcode_eq] at hop
    simp only [ADD, NOR, LW, SW, BEQ] at hop
    omega
  obtain ⟨m, rfl⟩ := Int.eq_ofNat_of_zero_le hw
  have hA : opcode (m : Int) = ((m / 4194304 : Nat) : Int) := by
    rw [opcode_eq]; norm_cast
  have hB : field0 (m : Int) = ((m / 524288 % 8 : Nat) : Int) := by
    rw [field0_eq]; norm_cast
  have hC : field1 (m : Int) = ((m / 65536 % 8 : Nat) : Int) := by
    rw [field1_eq]; norm_cast
  have hD : Int.land (convertNum (field2 (m : Int))) 65535 = ((m % 65536 : Nat) : Int) := by
    have hf := field2_range (m : Int)
    have hc := convertNum_eq (field2 (m : Int)) hf.1 (by omega)
    have h2 := field2_eq (m : Int)
    rw [land_ffff, hc]
    push_cast
    split_ifs <;> omega
  rw [hA, hB, hC, hD, shiftLeft_22, shiftLeft_19, shiftLeft_16]
  exact reassemble_nat m

/-- Witness of C19 at the word `0x0115FFFE` (`beq 2 5 -2`). -/
theorem decode_reencode_witness :
    opcode 0x0115FFFE = BEQ ∧
    Int.lor (Int.lor (Int.lor (opcode 0x0115FFFE <<< (22 : Int))
      (field0 0x0115FFFE <<< (19 : Int))) (field1 0x0115FFFE <<< (16 : Int)))
      (Int.land (convertNum (field2 0x0115FFFE)) 65535) = 0x0115FFFE :=
  ⟨by decide, decode_reencode 0x0115FFFE (Or.inr (Or.inr (Or.inr (Or.inr (by decide)))))⟩

/-! ## Cycle counter -/

theorem stepN_cycles (n : Nat) :
    ∀ (s t : stateType), s.cycles < 4294967296 → stepN n s = some t →
      t.cycles = (s.cycles + n) % 4294967296 := by
  induction n with
  | zero =>
    intro s t hs h
    simp only [stepN] at h
    rw [← Option.some.inj h, Nat.add_zero, Nat.mod_eq_of_lt hs]
  | succ n ih =>
    intro s t hs h
    simp only [stepN] at h
    cases h1 : step s with
    | none => rw [h1] at h; simp at h
    | some s1 =>
      rw [h1, Option.some_bind] at h
      obtain ⟨-, e⟩ := (step_eq_some_iff s s1).1 h1
      have hc : s1.cycles = (s.cycles + 1) % 4294967296 := by rw [e]; rfl
      have hlt : s1.cycles < 4294967296 := by rw [hc]; exact Nat.mod_lt _ (by norm_num)
      rw [ih s1 t hlt h, hc]
      omega

/-- C20 (as stated, refuted): in the state whose cycle counter is 4294967295,
the largest `unsigned int`, one cycle yields the counter 0, not 4294967296. -/
theorem cycles_wrap :
    ∃ s', step lastCountState = some s' ∧ s'.cycles = 0 ∧
      s'.cycles ≠ lastCountState.cycles + 1 :=
  ⟨(step lastCountState).get (by decide), by simp, by decide, by decide⟩

/-- C20 (amended): the cycle counter is incremented exactly once per cycle,
modulo `2^32`.  In every state whose cycle is defined, whether the cycle
stalls, squashes or advances normally, the new counter is
`(cycles + 1) mod 2^32`, which is `cycles + 1` unless the counter was
4294967295; so after `n` cycles from the reset state of any program the
counter is `n mod 2^32`, that is `n` for `n < 2^32`. -/
theorem cycles_increment (s : stateType) (hdef : stepDefined s)
    (prog : List Int) (n : Nat) (t : stateType)
    (hn : stepN n (initState prog) = some t) :
    (∃ s', step s = some s' ∧ s'.cycles = (s.cycles + 1) % 4294967296 ∧
      (s.cycles < 4294967295 → s'.cycles = s.cycles + 1)) ∧
    t.cycles = n % 4294967296 ∧ (n < 4294967296 → t.cycles = n) := by
  refine ⟨⟨nextState s, step_of_defined s hdef, rfl, ?_⟩, ?_, ?_⟩
  · intro h
    rw [nextState_cycles]
    exact Nat.mod_eq_of_lt (by omega)
  · have h := stepN_cycles n (initState prog) t (by show (0 : Nat) < 4294967296; norm_num) hn
    rw [h]
    show (0 + n) % 4294967296 = n % 4294967296
    rw [Nat.zero_add]
  · intro hlt
    have h := stepN_cycles n (initState prog) t (by show (0 : Nat) < 4294967296; norm_num) hn
    rw [h]
    show (0 + n) % 4294967296 = n
    rw [Nat.zero_add, Nat.mod_eq_of_lt hlt]

/-- Witness of C20 (amended): the stalling state of `lwAddProg`, and four
cycles from the reset state of `haltProg`. -/
theorem cycles_increment_witness :
    stalling lwAddState = true ∧
    (∃ s', step lwAddState = some s' ∧ s'.cycles = (lwAddState.cycles + 1) % 4294967296 ∧
      (lwAddState.cycles < 4294967295 → s'.cycles = lwAddState.cycles + 1)) ∧
    (nextState (nextState (nextState (nextState (initState haltProg))))).cycles =
      4 % 4294967296 ∧
    (4 < 4294967296 →
      (nextState (nextState (nextState (nextState (initState haltProg))))).cycles = 4) :=
  ⟨by decide, cycles_increment lwAddState (by decide) haltProg 4
    (nextState (nextState (nextState (nextState (initState haltProg))))) rfl⟩

/-! ## Stage postconditions -/

theorem stalling_iff (s : stateType) :
    stalling s = true ↔
      (opcode s.IDEX.instr = LW ∧
        ((opcode s.IFID.instr = LW ∧ field0 s.IFID.instr = field1 s.IDEX.instr) ∨
          (opcode s.IFID.instr ≠ LW ∧
            (field0 s.IFID.instr = field1 s.IDEX.instr ∨
              field1 s.IFID.instr = field1 s.IDEX.instr)))) := by
  unfold stalling
  by_cases h1 : opcode s.IDEX.instr = LW
  · by_cases h2 : opcode s.IFID.instr = LW
    · simp [h1, h2]
    · simp [h1, h2]
  · simp [h1]

/-- C22: the stall check.  In every state whose cycle is defined and whose
`EX/MEM` latch holds no taken branch, the cycle freezes the program counter
exactly when `ID/EX` holds a `lw` and either the `IF/ID` instruction is a `lw`
whose `field0` is the destination `field1` of the load, or it is not a `lw` and
its `field0` or `field1` is that destination.  A `lw` in `IF/ID` whose `field1`
alone equals the destination does not stall, and in every non-stalling case
the program counter advances by one and the `IF/ID` instruction enters
`ID/EX` unchanged. -/
theorem stall_check_rule (s : stateType) (hdef : stepDefined s)
    (hnb : ¬ (s.EXMEM.eq ≠ 0 ∧ opcode s.EXMEM.instr = BEQ)) :
    ∃ s', step s = some s' ∧
      (s'.pc = s.pc ↔
        (opcode s.IDEX.instr = LW ∧
          ((opcode s.IFID.instr = LW ∧ field0 s.IFID.instr = field1 s.IDEX.instr) ∨
            (opcode s.IFID.instr ≠ LW ∧
              (field0 s.IFID.instr = field1 s.IDEX.instr ∨
                field1 s.IFID.instr = field1 s.IDEX.instr))))) ∧
      (opcode s.IFID.instr = LW → field0 s.IFID.instr ≠ field1 s.IDEX.instr →
        s'.pc ≠ s.pc) ∧
      (s'.pc ≠ s.pc → s'.pc = s.pc + 1 ∧ s'.IDEX.instr = s.IFID.instr) := by
  have hb : ¬ branchTaken s = true := by simp [branchTaken, hnb]
  have hpc : (nextState s).pc = if stalling s then s.pc else s.pc + 1 := by
    rw [nextState_pc, if_neg hb]
  have hiff : (nextState s).pc = s.pc ↔ stalling s = true := by
    rw [hpc]
    by_cases hs : stalling s = true
    · simp [hs]
    · rw [if_neg hs]
      constructor
      · intro h; omega
      · intro h; exact absurd h hs
  refine ⟨nextState s, step_of_defined s hdef, ?_, ?_, ?_⟩
  · rw [hiff, stalling_iff]
  · intro h1 h2 hc
    have := (stalling_iff s).1 (hiff.1 hc)
    rcases this.2 with ⟨-, h⟩ | ⟨h, -⟩
    · exact h2 h
    · exact h h1
  · intro hne
    have hs : ¬ stalling s = true := fun h => hne (hiff.2 h)
    constructor
    · rw [hpc, if_neg hs]
    · rw [nextState_IDEX_instr, if_neg (by tauto)]

/-- Witness of C22 at the stalling state of `lwAddProg`. -/
theorem stall_check_rule_witness :
    ¬ (lwAddState.EXMEM.eq ≠ 0 ∧ opcode lwAddState.EXMEM.instr = BEQ) ∧
    ∃ s', step lwAddState = some s' ∧
      (s'.pc = lwAddState.pc ↔
        (opcode lwAddState.IDEX.instr = LW ∧
          ((opcode lwAddState.IFID.instr = LW ∧
              field0 lwAddState.IFID.instr = field1 lwAddState.IDEX.instr) ∨
            (opcode lwAddState.IFID.instr ≠ LW ∧
              (field0 lwAddState.IFID.instr = field1 lwAddState.IDEX.instr ∨
                field1 lwAddState.IFID.instr = field1 lwAddState.IDEX.instr))))) ∧
      (opcode lwAddState.IFID.instr = LW →
        field0 lwAddState.IFID.instr ≠ field1 lwAddState.IDEX.instr →
        s'.pc ≠ lwAddState.pc) ∧
      (s'.pc ≠ lwAddState.pc →
        s'.pc = lwAddState.pc + 1 ∧ s'.IDEX.instr = lwAddState.IFID.instr) :=
  ⟨by decide, stall_check_rule lwAddState (by decide) (by decide)⟩

theorem wrap32_of_range (x : Int) (h : -2147483648 ≤ x ∧ x ≤ 2147483647) : wrap32 x = x := by
  unfold wrap32; omega

theorem wrap32_spec (x : Int) :
    -2147483648 ≤ wrap32 x ∧ wrap32 x ≤ 2147483647 ∧ (wrap32 x - x) % 4294967296 = 0 := by
  unfold wrap32; omega

/-- C23 (as stated, refuted): four cycles after reset of
`lw 0 1 3; lw 1 2 1; halt; .fill 2147483647` the second load is in `ID/EX`, its
operand `a` (forwarded from `MEM/WB`) is 2147483647 and its offset is 1, so
`a + IDEX.offset` is 2147483648; the cycle is defined and leaves
`EXMEM.aluResult = -2147483648`. -/
theorem load_address_wraps :
    stepN 4 (initState addrWrapProg) = some addrWrapState ∧
    opcode addrWrapState.IDEX.instr = LW ∧
    (dataHazard addrWrapState.IDEX.valA addrWrapState.IDEX.valB addrWrapState).1 +
      addrWrapState.IDEX.offset = 2147483648 ∧
    (step addrWrapState).map (fun s => s.EXMEM.aluResult) = some (-2147483648) := by
  refine ⟨?_, by decide, by decide, by decide⟩
  have e1 := step_of_defined (initState addrWrapProg) (by decide)
  have e2 := step_of_defined (nextState (initState addrWrapProg)) (by decide)
  have e3 := step_of_defined (nextState (nextState (initState addrWrapProg))) (by decide)
  have e4 := step_of_defined (nextState (nextState (nextState (initState addrWrapProg))))
    (by decide)
  simp only [stepN, e1, e2, e3, e4, Option.some_bind]
  rfl

/-- C23 (amended): execute stage.  In every state whose cycle is defined, with
`a` and `b` the operands returned by `dataHazard` for the `ID/EX` instruction,
the new `EX/MEM` latch has `branchTarget = IDEX.offset + IDEX.pcPlus1`, `eq`
non-zero exactly when `a = b`, `valB = b`, and `aluResult` is `a + b` for `add`,
the complement of `a | b` for `nor` and `a + IDEX.offset` for `lw` and `sw`; all
three sums are 32-bit `int` sums (they wrap modulo `2^32` and are the exact sums
when those fit in 32 bits).  A taken branch only replaces the new `EX/MEM`
instruction by the no-op word. -/
theorem execute_stage (s : stateType) (hdef : stepDefined s) :
    ∃ s', step s = some s' ∧
      s'.EXMEM.branchTarget = wrap32 (s.IDEX.offset + s.IDEX.pcPlus1) ∧
      (s'.EXMEM.eq ≠ 0 ↔
        (dataHazard s.IDEX.valA s.IDEX.valB s).1 = (dataHazard s.IDEX.valA s.IDEX.valB s).2) ∧
      s'.EXMEM.valB = (dataHazard s.IDEX.valA s.IDEX.valB s).2 ∧
      (opcode s.IDEX.instr = ADD →
        s'.EXMEM.aluResult = wrap32 ((dataHazard s.IDEX.valA s.IDEX.valB s).1 +
          (dataHazard s.IDEX.valA s.IDEX.valB s).2)) ∧
      (opcode s.IDEX.instr = NOR →
        s'.EXMEM.aluResult = ~~~ (Int.lor (dataHazard s.IDEX.valA s.IDEX.valB s).1
          (dataHazard s.IDEX.valA s.IDEX.valB s).2)) ∧
      (opcode s.IDEX.instr = LW ∨ opcode s.IDEX.instr = SW →
        s'.EXMEM.aluResult =
          wrap32 ((dataHazard s.IDEX.valA s.IDEX.valB s).1 + s.IDEX.offset)) ∧
      (∀ x : Int, (-2147483648 ≤ x ∧ x ≤ 2147483647 → wrap32 x = x) ∧
        (wrap32 x - x) % 4294967296 = 0) ∧
      s'.EXMEM.instr = (if s.EXMEM.eq ≠ 0 ∧ opcode s.EXMEM.instr = BEQ then NOOPINSTR
        else s.IDEX.instr) := by
  refine ⟨nextState s, step_of_defined s hdef, rfl, ?_, rfl, ?_, ?_, ?_, ?_, ?_⟩
  · rw [nextState_EXMEM_eq]
    by_cases h : (dataHazard s.IDEX.valA s.IDEX.valB s).1 =
        (dataHazard s.IDEX.valA s.IDEX.valB s).2 <;> simp [h]
  · intro h
    rw [nextState_EXMEM_aluResult, h, aluOut_ADD]
  · intro h
    rw [nextState_EXMEM_aluResult, h, aluOut_NOR]
  · intro h
    rw [nextState_EXMEM_aluResult, aluOut_mem _ _ _ _ _ h]
  · intro x
    exact ⟨wrap32_of_range x, (wrap32_spec x).2.2⟩
  · rw [nextState_EXMEM_instr]
    by_cases h : s.EXMEM.eq ≠ 0 ∧ opcode s.EXMEM.instr = BEQ
    · rw [if_pos h, if_pos (by simp [branchTaken, h])]
    · rw [if_neg h, if_neg (by simp [branchTaken, h])]

/-- Witness of C23: three cycles after reset of `fwdProg` the second `add` is in
`ID/EX`. -/
theorem execute_stage_witness :
    opcode (fwdState 3).IDEX.instr = ADD ∧
    ∃ s', step (fwdState 3) = some s' ∧
      s'.EXMEM.branchTarget = wrap32 ((fwdState 3).IDEX.offset + (fwdState 3).IDEX.pcPlus1) ∧
      (s'.EXMEM.eq ≠ 0 ↔
        (dataHazard (fwdState 3).IDEX.valA (fwdState 3).IDEX.valB (fwdState 3)).1 =
          (dataHazard (fwdState 3).IDEX.valA (fwdState 3).IDEX.valB (fwdState 3)).2) ∧
      s'.EXMEM.valB =
        (dataHazard (fwdState 3).IDEX.valA (fwdState 3).IDEX.valB (fwdState 3)).2 ∧
      (opcode (fwdState 3).IDEX.instr = ADD →
        s'.EXMEM.aluResult =
          wrap32 ((dataHazard (fwdState 3).IDEX.valA (fwdState 3).IDEX.valB (fwdState 3)).1 +
            (dataHazard (fwdState 3).IDEX.valA (fwdState 3).IDEX.valB (fwdState 3)).2)) ∧
      (opcode (fwdState 3).IDEX.instr = NOR →
        s'.EXMEM.aluResult =
          ~~~ (Int.lor
            (dataHazard (fwdState 3).IDEX.valA (fwdState 3).IDEX.valB (fwdState 3)).1
            (dataHazard (fwdState 3).IDEX.valA (fwdState 3).IDEX.valB (fwdState 3)).2)) ∧
      (opcode (fwdState 3).IDEX.instr = LW ∨ opcode (fwdState 3).IDEX.instr = SW →
        s'.EXMEM.aluResult =
          wrap32 ((dataHazard (fwdState 3).IDEX.valA (fwdState 3).IDEX.valB (fwdState 3)).1 +
            (fwdState 3).IDEX.offset)) ∧
      (∀ x : Int, (-2147483648 ≤ x ∧ x ≤ 2147483647 → wrap32 x = x) ∧
        (wrap32 x - x) % 4294967296 = 0) ∧
      s'.EXMEM.instr =
        (if (fwdState 3).EXMEM.eq ≠ 0 ∧ opcode (fwdState 3).EXMEM.instr = BEQ then NOOPINSTR
          else (fwdState 3).IDEX.instr) :=
  ⟨by decide, execute_stage (fwdState 3) (by decide)⟩

/-- C24: memory stage.  In every state whose cycle is defined (so the address
`EXMEM.aluResult` of a load or store is in range): when `EX/MEM` holds no taken
branch, the new `MEMWB.writeData` is `dataMem[EXMEM.aluResult]` of the old data
memory for a load, the same pre-store word for a store (the store puts
`EXMEM.valB` there), and `EXMEM.aluResult` for every other opcode; for a taken
branch it is `EXMEM.aluResult`. -/
theorem memory_stage (s : stateType) (hdef : stepDefined s) :
    ∃ s', step s = some s' ∧
      (¬ (s.EXMEM.eq ≠ 0 ∧ opcode s.EXMEM.instr = BEQ) →
        (opcode s.EXMEM.instr = LW → s'.MEMWB.writeData = s.dataMem s.EXMEM.aluResult) ∧
        (opcode s.EXMEM.instr = SW →
          s'.MEMWB.writeData = s.dataMem s.EXMEM.aluResult ∧
          s'.dataMem s.EXMEM.aluResult = s.EXMEM.valB) ∧
        (opcode s.EXMEM.instr ≠ LW → opcode s.EXMEM.instr ≠ SW →
          s'.MEMWB.writeData = s.EXMEM.aluResult)) ∧
      ((s.EXMEM.eq ≠ 0 ∧ opcode s.EXMEM.instr = BEQ) →
        s'.MEMWB.writeData = s.EXMEM.aluResult) := by
  refine ⟨nextState s, step_of_defined s hdef, ?_, ?_⟩
  · intro hnb
    have hb : ¬ branchTaken s = true := by simp [branchTaken, hnb]
    refine ⟨?_, ?_, ?_⟩
    · intro h
      rw [nextState_MEMWB_writeData, if_pos ⟨hb, Or.inl h⟩]
    · intro h
      constructor
      · rw [nextState_MEMWB_writeData, if_pos ⟨hb, Or.inr h⟩]
      · rw [nextState_dataMem, if_pos ⟨hb, h⟩, Function.update_same]
    · intro h1 h2
      rw [nextState_MEMWB_writeData, if_neg (by tauto)]
  · intro hb
    have hb' : branchTaken s = true := by simp [branchTaken, hb]
    rw [nextState_MEMWB_writeData, if_neg (by tauto)]

/-- Witness of C24 at the state of `lwAddProg` whose `ID/EX` holds the load
(nothing is in `EX/MEM` yet). -/
theorem memory_stage_witness :
    ∃ s', step lwAddState = some s' ∧
      (¬ (lwAddState.EXMEM.eq ≠ 0 ∧ opcode lwAddState.EXMEM.instr = BEQ) →
        (opcode lwAddState.EXMEM.instr = LW →
          s'.MEMWB.writeData = lwAddState.dataMem lwAddState.EXMEM.aluResult) ∧
        (opcode lwAddState.EXMEM.instr = SW →
          s'.MEMWB.writeData = lwAddState.dataMem lwAddState.EXMEM.aluResult ∧
          s'.dataMem lwAddState.EXMEM.aluResult = lwAddState.EXMEM.valB) ∧
        (opcode lwAddState.EXMEM.instr ≠ LW → opcode lwAddState.EXMEM.instr ≠ SW →
          s'.MEMWB.writeData = lwAddState.EXMEM.aluResult)) ∧
      ((lwAddState.EXMEM.eq ≠ 0 ∧ opcode lwAddState.EXMEM.instr = BEQ) →
        s'.MEMWB.writeData = lwAddState.EXMEM.aluResult) :=
  memory_stage lwAddState (by decide)

/-- C25: latch handoff.  In every state whose cycle is defined: with neither a
stall nor a taken branch every instruction moves exactly one stage (the new
`IF/ID` holds `instrMem[pc]` with `pcPlus1 = pc + 1`, the new `ID/EX` the old
`IF/ID` instruction, the new `EX/MEM` the old `ID/EX` instruction, the new
`MEM/WB` the old `EX/MEM` instruction); and in every case the new `WB/END`
holds the old `MEM/WB` instruction and write data, and the new `MEM/WB` holds
the old `EX/MEM` instruction. -/
theorem latch_handoff (s : stateType) (hdef : stepDefined s) :
    ∃ s', step s = some s' ∧
      (stalling s = false → ¬ (s.EXMEM.eq ≠ 0 ∧ opcode s.EXMEM.instr = BEQ) →
        s'.IFID.instr = s.instrMem s.pc ∧ s'.IFID.pcPlus1 = s.pc + 1 ∧
        s'.IDEX.instr = s.IFID.instr ∧ s'.EXMEM.instr = s.IDEX.instr ∧
        s'.MEMWB.instr = s.EXMEM.instr) ∧
      s'.WBEND.instr = s.MEMWB.instr ∧ s'.WBEND.writeData = s.MEMWB.writeData ∧
      s'.MEMWB.instr = s.EXMEM.instr := by
  refine ⟨nextState s, step_of_defined s hdef, ?_, rfl, rfl, rfl⟩
  intro hs hnb
  have hb : ¬ branchTaken s = true := by simp [branchTaken, hnb]
  have hs' : ¬ stalling s = true := by simp [hs]
  refine ⟨?_, ?_, ?_, ?_, rfl⟩
  · rw [nextState_IFID_instr, if_neg hb, if_neg hs']
  · rw [nextState_IFID_pcPlus1, if_neg hs']
  · rw [nextState_IDEX_instr, if_neg (by tauto)]
  · rw [nextState_EXMEM_instr, if_neg hb]

/-- Witness of C25 two cycles after reset of `fwdProg`. -/
theorem latch_handoff_witness :
    ∃ s', step (fwdState 2) = some s' ∧
      (stalling (fwdState 2) = false →
        ¬ ((fwdState 2).EXMEM.eq ≠ 0 ∧ opcode (fwdState 2).EXMEM.instr = BEQ) →
        s'.IFID.instr = (fwdState 2).instrMem (fwdState 2).pc ∧
        s'.IFID.pcPlus1 = (fwdState 2).pc + 1 ∧
        s'.IDEX.instr = (fwdState 2).IFID.instr ∧ s'.EXMEM.instr = (fwdState 2).IDEX.instr ∧
        s'.MEMWB.instr = (fwdState 2).EXMEM.instr) ∧
      s'.WBEND.instr = (fwdState 2).MEMWB.instr ∧
      s'.WBEND.writeData = (fwdState 2).MEMWB.writeData ∧
      s'.MEMWB.instr = (fwdState 2).EXMEM.instr :=
  latch_handoff (fwdState 2) (by decide)

theorem nextState_reg_of_writes (s : stateType) (r : Int) (h : writesReg s.MEMWB.instr r) :
    (nextState s).reg r = s.MEMWB.writeData := by
  rw [nextState_reg]
  rcases h with ⟨h1, h2⟩ | ⟨h1, h2⟩
  · have hn : ¬ (opcode s.MEMWB.instr = NOR ∨ opcode s.MEMWB.instr = ADD) := by
      rw [h1]; decide
    rw [if_neg hn, if_pos h1, ← h2, Function.update_same]
  · rw [if_pos (by tauto), ← h2, Function.update_same]

/-- C26: decode.  In every state whose cycle is defined, the new `ID/EX` latch
has `valA = reg[field0(IFID.instr)]` and `valB = reg[field1(IFID.instr)]` read
from the register file as it was before the cycle, `offset =
convertNum(field2(IFID.instr))` and `pcPlus1 = IFID.pcPlus1`; a register
written by the writeback stage in the same cycle holds the written value only
in the register file after the cycle. -/
theorem decode_reads_old_registers (s : stateType) (hdef : stepDefined s) :
    ∃ s', step s = some s' ∧
      s'.IDEX.valA = s.reg (field0 s.IFID.instr) ∧
      s'.IDEX.valB = s.reg (field1 s.IFID.instr) ∧
      s'.IDEX.offset = convertNum (field2 s.IFID.instr) ∧
      s'.IDEX.pcPlus1 = s.IFID.pcPlus1 ∧
      (∀ r, writesReg s.MEMWB.instr r → s'.reg r = s.MEMWB.writeData) :=
  ⟨nextState s, step_of_defined s hdef, rfl, rfl, rfl, rfl,
    fun r h => nextState_reg_of_writes s r h⟩

/-- Witness of C26 at `wbDecodeState`: the load writes 7 to register 1 in the
cycle in which decode reads register 1 and latches its old value 0. -/
theorem decode_reads_old_registers_witness :
    (writesReg wbDecodeState.MEMWB.instr (field0 wbDecodeState.IFID.instr) ∧
      wbDecodeState.MEMWB.writeData = 7 ∧
      wbDecodeState.reg (field0 wbDecodeState.IFID.instr) = 0) ∧
    ∃ s', step wbDecodeState = some s' ∧
      s'.IDEX.valA = wbDecodeState.reg (field0 wbDecodeState.IFID.instr) ∧
      s'.IDEX.valB = wbDecodeState.reg (field1 wbDecodeState.IFID.instr) ∧
      s'.IDEX.offset = convertNum (field2 wbDecodeState.IFID.instr) ∧
      s'.IDEX.pcPlus1 = wbDecodeState.IFID.pcPlus1 ∧
      (∀ r, writesReg wbDecodeState.MEMWB.instr r → s'.reg r = wbDecodeState.MEMWB.writeData) :=
  ⟨by decide, decode_reads_old_registers wbDecodeState (by decide)⟩

/-! ## The load-use invariant -/

theorem load_in_EXMEM_next (s : stateType) (h : opcode (nextState s).EXMEM.instr = LW) :
    (nextState s).IDEX.instr = NOOPINSTR ∨
      (field0 (nextState s).IDEX.instr ≠ field1 (nextState s).EXMEM.instr ∧
        (opcode (nextState s).IDEX.instr ≠ LW →
          field1 (nextState s).IDEX.instr ≠ field1 (nextState s).EXMEM.instr)) := by
  rw [nextState_EXMEM_instr] at h
  by_cases hb : branchTaken s = true
  · rw [if_pos hb, opcode_NOOPINSTR] at h
    exact absurd h (by decide)
  · rw [if_neg hb] at h
    rw [nextState_EXMEM_instr, if_neg hb, nextState_IDEX_instr]
    by_cases hs : stalling s = true
    · left
      rw [if_pos (Or.inr hs)]
    · right
      rw [if_neg (by tauto)]
      have hn := fun hc => hs ((stalling_iff s).2 hc)
      constructor
      · intro h0
        by_cases hl : opcode s.IFID.instr = LW
        · exact hn ⟨h, Or.inl ⟨hl, h0⟩⟩
        · exact hn ⟨h, Or.inr ⟨hl, Or.inl h0⟩⟩
      · intro hl h1
        exact hn ⟨h, Or.inr ⟨hl, Or.inr h1⟩⟩

theorem stepN_succ_last (n : Nat) (s0 s : stateType) (h : stepN (n + 1) s0 = some s) :
    ∃ t, stepN n s0 = some t ∧ s = nextState t := by
  rw [stepN_add n 1] at h
  cases ht : stepN n s0 with
  | none => rw [ht] at h; simp at h
  | some t =>
    rw [ht] at h
    simp only [Option.some_bind, stepN] at h
    cases hst : step t with
    | none => rw [hst] at h; simp at h
    | some u =>
      rw [hst] at h
      simp only [Option.some_bind] at h
      have h2 := Option.some.inj h
      subst h2
      exact ⟨t, rfl, ((step_eq_some_iff t u).1 hst).2⟩

theorem load_in_EXMEM_reachable (s0 : stateType) (h0 : opcode s0.EXMEM.instr ≠ LW) (n : Nat)
    (s : stateType) (hs : stepN n s0 = some s) (hl : opcode s.EXMEM.instr = LW) :
    s.IDEX.instr = NOOPINSTR ∨
      (field0 s.IDEX.instr ≠ field1 s.EXMEM.instr ∧
        (opcode s.IDEX.instr ≠ LW → field1 s.IDEX.instr ≠ field1 s.EXMEM.instr)) := by
  cases n with
  | zero =>
    simp only [stepN] at hs
    have := Option.some.inj hs
    subst this
    exact absurd hl h0
  | succ n =>
    obtain ⟨t, -, ht⟩ := stepN_succ_last n s0 s hs
    subst ht
    exact load_in_EXMEM_next t hl

theorem dataHazard_withoutEXMEM (s : stateType) (a b : Int)
    (h : s.IDEX.instr = NOOPINSTR ∨
      (¬ writesReg s.EXMEM.instr (field0 s.IDEX.instr) ∧
        (opcode s.IDEX.instr ≠ LW → ¬ writesReg s.EXMEM.instr (field1 s.IDEX.instr)))) :
    (dataHazard a b s).1 = (dataHazard a b (withoutEXMEM s)).1 ∧
      (opcode s.IDEX.instr ≠ LW →
        (dataHazard a b s).2 = (dataHazard a b (withoutEXMEM s)).2) := by
  by_cases hr : isReadInstr s.IDEX.instr = true
  · have hr' : isReadInstr (withoutEXMEM s).IDEX.instr = true := hr
    rw [dataHazard_eq s a b hr, dataHazard_eq (withoutEXMEM s) a b hr']
    have hne : s.IDEX.instr ≠ NOOPINSTR := by
      intro hc
      rw [hc] at hr
      exact absurd hr (by decide)
    rcases h with h | ⟨hA, hB⟩
    · exact absurd h hne
    · have hw : ∀ r, ¬ writesReg (withoutEXMEM s).EXMEM.instr r :=
        fun r => not_writesReg_NOOPINSTR r
      constructor
      · show forwarded s _ a = forwarded (withoutEXMEM s) _ a
        unfold forwarded
        rw [if_neg hA, if_neg (hw _)]
        rfl
      · intro hl
        show forwarded s _ b = forwarded (withoutEXMEM s) _ b
        unfold forwarded
        rw [if_neg (hB hl), if_neg (hw _)]
        rfl
  · have hr' : ¬ isReadInstr (withoutEXMEM s).IDEX.instr = true := hr
    simp [dataHazard, hr, hr']

theorem lwAddLoadState_reached :
    stepN 3 (resetWith 3 (loadMem lwAddProg) (loadMem lwAddProg) (fun _ => 0)) =
      some lwAddLoadState := by
  have e1 := step_of_defined (resetWith 3 (loadMem lwAddProg) (loadMem lwAddProg) (fun _ => 0))
    (by decide)
  have e2 := step_of_defined
    (nextState (resetWith 3 (loadMem lwAddProg) (loadMem lwAddProg) (fun _ => 0))) (by decide)
  have e3 := step_of_defined
    (nextState (nextState (resetWith 3 (loadMem lwAddProg) (loadMem lwAddProg) (fun _ => 0))))
    (by decide)
  simp only [stepN, e1, e2, e3, Option.some_bind]
  rfl

/-- C27: no forwarding of a load address.  In every state reached from the
reset state (with any instruction memory, data memory and register file) by any
number of cycles, if `EX/MEM` holds a load then either `ID/EX` holds the no-op
word, or `field0` of the `ID/EX` instruction differs from the destination
`field1` of the load and, unless the `ID/EX` instruction is itself a load, its
`field1` differs too.  Hence `dataHazard` takes nothing from `EX/MEM` for the
first operand, nor for the second operand of an instruction that is not a load:
the operands are those computed with `EX/MEM` emptied. -/
theorem load_address_never_forwarded (nm : Nat) (im dm rg : Int → Int) (n : Nat)
    (s : stateType) (hs : stepN n (resetWith nm im dm rg) = some s)
    (hl : opcode s.EXMEM.instr = LW) :
    (s.IDEX.instr = NOOPINSTR ∨
      (field0 s.IDEX.instr ≠ field1 s.EXMEM.instr ∧
        (opcode s.IDEX.instr ≠ LW → field1 s.IDEX.instr ≠ field1 s.EXMEM.instr))) ∧
    ∀ a b : Int,
      (dataHazard a b s).1 = (dataHazard a b (withoutEXMEM s)).1 ∧
      (opcode s.IDEX.instr ≠ LW →
        (dataHazard a b s).2 = (dataHazard a b (withoutEXMEM s)).2) := by
  have h0 : opcode (resetWith nm im dm rg).EXMEM.instr ≠ LW := by
    show opcode NOOPINSTR ≠ LW
    decide
  have hJ := load_in_EXMEM_reachable _ h0 n s hs hl
  refine ⟨hJ, fun a b => dataHazard_withoutEXMEM s a b ?_⟩
  have hLA : LW ≠ ADD := by decide
  have hLN : LW ≠ NOR := by decide
  rcases hJ with h | ⟨hA, hB⟩
  · exact Or.inl h
  · right
    constructor
    · rintro (⟨-, h⟩ | ⟨h | h, -⟩)
      · exact hA h.symm
      · rw [hl] at h; exact hLA h
      · rw [hl] at h; exact hLN h
    · intro hn
      rintro (⟨-, h⟩ | ⟨h | h, -⟩)
      · exact hB hn h.symm
      · rw [hl] at h; exact hLA h
      · rw [hl] at h; exact hLN h

/-- Witness of C27: three cycles after reset of `lwAddProg` the load is in
`EX/MEM` and the stall has put the no-op word in `ID/EX`. -/
theorem load_address_never_forwarded_witness :
    stepN 3 (resetWith 3 (loadMem lwAddProg) (loadMem lwAddProg) (fun _ => 0)) =
      some lwAddLoadState ∧
    opcode lwAddLoadState.EXMEM.instr = LW ∧ lwAddLoadState.IDEX.instr = NOOPINSTR ∧
    ((lwAddLoadState.IDEX.instr = NOOPINSTR ∨
      (field0 lwAddLoadState.IDEX.instr ≠ field1 lwAddLoadState.EXMEM.instr ∧
        (opcode lwAddLoadState.IDEX.instr ≠ LW →
          field1 lwAddLoadState.IDEX.instr ≠ field1 lwAddLoadState.EXMEM.instr))) ∧
    ∀ a b : Int,
      (dataHazard a b lwAddLoadState).1 = (dataHazard a b (withoutEXMEM lwAddLoadState)).1 ∧
      (opcode lwAddLoadState.IDEX.instr ≠ LW →
        (dataHazard a b lwAddLoadState).2 =
          (dataHazard a b (withoutEXMEM lwAddLoadState)).2)) :=
  ⟨lwAddLoadState_reached, by decide, by decide,
    load_address_never_forwarded 3 (loadMem lwAddProg) (loadMem lwAddProg) (fun _ => 0) 3
      lwAddLoadState lwAddLoadState_reached (by decide)⟩


/-! ## The cache: the loops in closed form -/

theorem block_index_loop_spec (c : cacheStruct) (addy : decoded_address) (n : Nat) (b : Int) :
    (block_index_loop c addy n b = -1 ∧
      ∀ j, b ≤ j → j < b + n →
        ¬ ((c.blocks (addy.base + j)).valid ≠ 0 ∧ (c.blocks (addy.base + j)).tag = addy.tag)) ∨
    (∃ j, b ≤ j ∧ j < b + n ∧
      ((c.blocks (addy.base + j)).valid ≠ 0 ∧ (c.blocks (addy.base + j)).tag = addy.tag) ∧
      (∀ j', b ≤ j' → j' < j →
        ¬ ((c.blocks (addy.base + j')).valid ≠ 0 ∧
          (c.blocks (addy.base + j')).tag = addy.tag)) ∧
      block_index_loop c addy n b = addy.base + j) := by
  induction n generalizing b with
  | zero =>
    left
    refine ⟨rfl, fun j h1 h2 => ?_⟩
    simp at h2
    omega
  | succ n ih =>
    simp only [block_index_loop]
    by_cases hm : (c.blocks (addy.base + b)).valid ≠ 0 ∧ (c.blocks (addy.base + b)).tag = addy.tag
    · right
      rw [if_pos hm]
      exact ⟨b, le_refl _, by push_cast; omega, hm, fun j' h1 h2 => by omega, rfl⟩
    · rw [if_neg hm]
      rcases ih (b + 1) with ⟨h1, h2⟩ | ⟨j, h1, h2, h3, h4, h5⟩
      · left
        refine ⟨h1, fun j hj1 hj2 => ?_⟩
        by_cases hjb : j = b
        · rw [hjb]; exact hm
        · exact h2 j (by omega) (by push_cast at hj2 ⊢; omega)
      · right
        refine ⟨j, by omega, by push_cast at h2 ⊢; omega, h3, fun j' hj1 hj2 => ?_, h5⟩
        by_cases hjb : j' = b
        · rw [hjb]; exact hm
        · exact h4 j' (by omega) hj2

theorem find_first_invalid_loop_spec (c : cacheStruct) (addy : decoded_address) (n : Nat)
    (b : Int) :
    (find_first_invalid_loop c addy n b = -1 ∧
      ∀ j, b ≤ j → j < b + n → (c.blocks (addy.base + j)).valid ≠ 0) ∨
    (∃ j, b ≤ j ∧ j < b + n ∧ (c.blocks (addy.base + j)).valid = 0 ∧
      (∀ j', b ≤ j' → j' < j → (c.blocks (addy.base + j')).valid ≠ 0) ∧
      find_first_invalid_loop c addy n b = j) := by
  induction n generalizing b with
  | zero =>
    left
    refine ⟨rfl, fun j h1 h2 => ?_⟩
    simp at h2
    omega
  | succ n ih =>
    simp only [find_first_invalid_loop]
    by_cases hm : (c.blocks (addy.base + b)).valid = 0
    · right
      rw [if_pos hm]
      exact ⟨b, le_refl _, by push_cast; omega, hm, fun j' h1 h2 => by omega, rfl⟩
    · rw [if_neg hm]
      rcases ih (b + 1) with ⟨h1, h2⟩ | ⟨j, h1, h2, h3, h4, h5⟩
      · left
        refine ⟨h1, fun j hj1 hj2 => ?_⟩
        by_cases hjb : j = b
        · rw [hjb]; exact hm
        · exact h2 j (by omega) (by push_cast at hj2 ⊢; omega)
      · right
        refine ⟨j, by omega, by push_cast at h2 ⊢; omega, h3, fun j' hj1 hj2 => ?_, h5⟩
        by_cases hjb : j' = b
        · rw [hjb]; exact hm
        · exact h4 j' (by omega) hj2

theorem find_highest_LRU_loop_spec (c : cacheStruct) (addy : decoded_address) (n : Nat)
    (b mx idx : Int) (hidx : 0 ≤ idx ∧ idx < b)
    (hmx : mx = (c.blocks (addy.base + idx)).lruLabel)
    (hle : ∀ j, 0 ≤ j → j < b → (c.blocks (addy.base + j)).lruLabel ≤ mx)
    (hlt : ∀ j, 0 ≤ j → j < idx → (c.blocks (addy.base + j)).lruLabel < mx) :
    ∃ r, find_highest_LRU_loop c addy n b mx idx = r ∧ 0 ≤ r ∧ r < b + n ∧
      (∀ j, 0 ≤ j → j < b + n →
        (c.blocks (addy.base + j)).lruLabel ≤ (c.blocks (addy.base + r)).lruLabel) ∧
      (∀ j, 0 ≤ j → j < r →
        (c.blocks (addy.base + j)).lruLabel < (c.blocks (addy.base + r)).lruLabel) := by
  induction n generalizing b mx idx with
  | zero =>
    refine ⟨idx, rfl, hidx.1, by simpa using hidx.2, ?_, ?_⟩
    · intro j h1 h2
      rw [← hmx]
      exact hle j h1 (by simpa using h2)
    · intro j h1 h2
      rw [← hmx]
      exact hlt j h1 h2
  | succ n ih =>
    simp only [find_highest_LRU_loop]
    by_cases hgt : (c.blocks (addy.base + b)).lruLabel > mx
    · rw [if_pos hgt]
      obtain ⟨r, h1, h2, h3, h4, h5⟩ := ih (b + 1) (c.blocks (addy.base + b)).lruLabel b
        ⟨by omega, by omega⟩ rfl
        (fun j hj1 hj2 => by
          by_cases hjb : j = b
          · rw [hjb]
          · have := hle j hj1 (by omega)
            omega)
        (fun j hj1 hj2 => by
          have := hle j hj1 hj2
          omega)
      exact ⟨r, h1, h2, by push_cast at h3 ⊢; omega,
        fun j hj1 hj2 => h4 j hj1 (by push_cast at hj2 ⊢; omega), h5⟩
    · rw [if_neg hgt]
      obtain ⟨r, h1, h2, h3, h4, h5⟩ := ih (b + 1) mx idx ⟨hidx.1, by omega⟩ hmx
        (fun j hj1 hj2 => by
          by_cases hjb : j = b
          · rw [hjb]; omega
          · exact hle j hj1 (by omega))
        hlt
      exact ⟨r, h1, h2, by push_cast at h3 ⊢; omega,
        fun j hj1 hj2 => h4 j hj1 (by push_cast at hj2 ⊢; omega), h5⟩


theorem update_LRUs_loop_config (addy : decoded_address) (n : Nat) (b : Int) (c : cacheStruct) :
    (update_LRUs_loop addy n b c).blockSize = c.blockSize ∧
    (update_LRUs_loop addy n b c).numSets = c.numSets ∧
    (update_LRUs_loop addy n b c).blocksPerSet = c.blocksPerSet := by
  induction n generalizing b c with
  | zero => exact ⟨rfl, rfl, rfl⟩
  | succ n ih =>
    simp only [update_LRUs_loop]
    split_ifs
    · exact ih _ _
    · exact ih _ _

theorem update_LRUs_loop_blocks (addy : decoded_address) (n : Nat) (b : Int) (c : cacheStruct)
    (i : Int) :
    (update_LRUs_loop addy n b c).blocks i =
      if (addy.base + b ≤ i ∧ i < addy.base + b + n) ∧ (c.blocks i).valid ≠ 0 then
        { c.blocks i with lruLabel := (c.blocks i).lruLabel + 1 }
      else c.blocks i := by
  induction n generalizing b c with
  | zero =>
    simp only [update_LRUs_loop]
    rw [if_neg]
    rintro ⟨⟨h1, h2⟩, -⟩
    simp at h2
    omega
  | succ n ih =>
    simp only [update_LRUs_loop]
    rw [ih]
    by_cases hv : (c.blocks (addy.base + b)).valid ≠ 0
    · rw [if_pos hv]
      by_cases hi : i = addy.base + b
      · subst hi
        simp only [Function.update_same]
        rw [if_neg (by omega), if_pos ⟨⟨le_refl _, by push_cast; omega⟩, hv⟩]
      · simp only [Function.update_noteq hi]
        by_cases hr : (addy.base + (b + 1) ≤ i ∧ i < addy.base + (b + 1) + n) ∧
            (c.blocks i).valid ≠ 0
        · rw [if_pos hr, if_pos ⟨⟨by omega, by push_cast; omega⟩, hr.2⟩]
        · rw [if_neg hr, if_neg]
          rintro ⟨⟨h1, h2⟩, h3⟩
          apply hr
          push_cast at h2
          exact ⟨⟨by omega, by omega⟩, h3⟩
    · rw [if_neg hv]
      by_cases hr : (addy.base + (b + 1) ≤ i ∧ i < addy.base + (b + 1) + n) ∧
          (c.blocks i).valid ≠ 0
      · rw [if_pos hr, if_pos ⟨⟨by omega, by push_cast; omega⟩, hr.2⟩]
      · rw [if_neg hr, if_neg]
        rintro ⟨⟨h1, h2⟩, h3⟩
        by_cases hi : i = addy.base + b
        · subst hi; exact hv h3
        · apply hr
          push_cast at h2
          exact ⟨⟨by omega, by omega⟩, h3⟩

theorem mem_access_read (m : mainMemory) (a : Int) :
    mem_access m a 0 0 = ({ mem := m.mem, calls := m.calls ++ [(a, 0, 0)] }, m.mem a) := by
  simp [mem_access]

theorem mem_access_write (m : mainMemory) (a d : Int) :
    mem_access m a 1 d =
      ({ mem := Function.update m.mem a d, calls := m.calls ++ [(a, 1, d)] }, d) := by
  simp [mem_access]

theorem evict_loop_mem (c : cacheStruct) (ea ob : Int) (n : Nat) (b : Int) (m : mainMemory)
    (a : Int) :
    (evict_loop c ea ob n b m).mem a =
      if ea + b ≤ a ∧ a < ea + b + n then (c.blocks ob).data (a - ea) else m.mem a := by
  induction n generalizing b m with
  | zero =>
    simp only [evict_loop]
    rw [if_neg]
    rintro ⟨h1, h2⟩
    simp at h2
    omega
  | succ n ih =>
    simp only [evict_loop]
    rw [ih]
    by_cases hr : ea + (b + 1) ≤ a ∧ a < ea + (b + 1) + n
    · rw [if_pos hr, if_pos ⟨by omega, by push_cast; omega⟩]
    · rw [if_neg hr]
      by_cases ha : a = ea + b
      · subst ha
        rw [if_pos ⟨le_refl _, by push_cast; omega⟩]
        simp [mem_access]
      · rw [if_neg]
        · simp [mem_access, Function.update_noteq ha]
        · rintro ⟨h1, h2⟩
          apply hr
          push_cast at h2
          exact ⟨by omega, by omega⟩

theorem evict_loop_calls (c : cacheStruct) (ea ob : Int) (n : Nat) (b : Int) (m : mainMemory) :
    (evict_loop c ea ob n b m).calls =
      m.calls ++ (List.range n).map
        (fun k => (ea + (b + (k : Nat)), (1 : Int), (c.blocks ob).data (b + (k : Nat)))) := by
  induction n generalizing b m with
  | zero => simp [evict_loop]
  | succ n ih =>
    simp only [evict_loop]
    rw [ih, List.range_succ_eq_map]
    simp only [mem_access, List.map_cons, List.map_map, List.append_assoc, List.singleton_append]
    congr 2
    · simp
    · apply List.map_congr_left
      intro k _
      simp only [Function.comp, Nat.cast_succ]
      rw [show b + 1 + (k : Int) = b + ((k : Int) + 1) by ring]

theorem fill_loop_mem (ob start : Int) (n : Nat) (b : Int) (cm : cacheStruct × mainMemory) :
    (fill_loop ob start n b cm).2.mem = cm.2.mem := by
  induction n generalizing b cm with
  | zero => rfl
  | succ n ih =>
    simp only [fill_loop]
    rw [ih]
    simp [mem_access]

theorem fill_loop_calls (ob start : Int) (n : Nat) (b : Int) (cm : cacheStruct × mainMemory) :
    (fill_loop ob start n b cm).2.calls =
      cm.2.calls ++ (List.range n).map
        (fun k => (start + (b + (k : Nat)), (0 : Int), (0 : Int))) := by
  induction n generalizing b cm with
  | zero => simp [fill_loop]
  | succ n ih =>
    simp only [fill_loop]
    rw [ih, List.range_succ_eq_map]
    simp only [mem_access, List.map_cons, List.map_map, List.append_assoc, List.singleton_append]
    congr 2
    · simp
    · apply List.map_congr_left
      intro k _
      simp only [Function.comp, Nat.cast_succ]
      rw [show b + 1 + (k : Int) = b + ((k : Int) + 1) by ring]

theorem fill_loop_config (ob start : Int) (n : Nat) (b : Int) (cm : cacheStruct × mainMemory) :
    (fill_loop ob start n b cm).1.blockSize = cm.1.blockSize ∧
    (fill_loop ob start n b cm).1.numSets = cm.1.numSets ∧
    (fill_loop ob start n b cm).1.blocksPerSet = cm.1.blocksPerSet := by
  induction n generalizing b cm with
  | zero => exact ⟨rfl, rfl, rfl⟩
  | succ n ih =>
    simp only [fill_loop]
    exact ih _ _

theorem fill_loop_blocks (ob start : Int) (n : Nat) (b : Int) (cm : cacheStruct × mainMemory)
    (i : Int) :
    (fill_loop ob start n b cm).1.blocks i =
      if i = ob then
        { cm.1.blocks ob with
          data := fun k => if b ≤ k ∧ k < b + n then cm.2.mem (start + k)
            else (cm.1.blocks ob).data k }
      else cm.1.blocks i := by
  induction n generalizing b cm with
  | zero =>
    simp only [fill_loop]
    by_cases hi : i = ob
    · subst hi
      rw [if_pos rfl]
      have : (fun k => if b ≤ k ∧ k < b + ((0 : Nat) : Int) then cm.2.mem (start + k)
          else (cm.1.blocks i).data k) = (cm.1.blocks i).data := by
        funext k
        rw [if_neg]
        rintro ⟨h1, h2⟩
        simp at h2
        omega
      rw [this]
    · rw [if_neg hi]
  | succ n ih =>
    simp only [fill_loop]
    rw [ih]
    by_cases hi : i = ob
    · subst hi
      rw [if_pos rfl, if_pos rfl]
      simp only [Function.update_same, mem_access_read]
      congr 1
      funext k
      by_cases hk : k = b
      · subst hk
        rw [if_neg (show ¬ (k + 1 ≤ k ∧ k < k + 1 + n) by omega),
          if_pos (show k ≤ k ∧ k < k + ((n + 1 : Nat) : Int) by push_cast; omega),
          Function.update_same]
      · by_cases hr : b + 1 ≤ k ∧ k < b + 1 + n
        · rw [if_pos hr,
            if_pos (show b ≤ k ∧ k < b + ((n + 1 : Nat) : Int) by push_cast; omega)]
        · rw [if_neg hr,
            if_neg (show ¬ (b ≤ k ∧ k < b + ((n + 1 : Nat) : Int)) by push_cast; omega),
            Function.update_noteq hk]
    · rw [if_neg hi, if_neg hi]
      simp [Function.update_noteq hi]


/-! ## The cache: address decoding -/

theorem create_mask_eq (k : Nat) : create_mask (k : Int) = ((2 ^ k - 1 : Nat) : Int) := by
  unfold create_mask
  rw [Int.shiftLeft_eq_mul_pow]
  have : 1 ≤ 2 ^ k := Nat.one_le_two_pow
  rw [Nat.cast_sub this]
  push_cast
  ring

theorem extract_bits_eq (x : Int) (s k : Nat) :
    extract_bits x (s : Int) (k : Int) = (x / 2 ^ s) % 2 ^ k := by
  unfold extract_bits
  rw [create_mask_eq, land_mask, Int.toNat_ofNat, Int.shiftRight_eq_div_pow]
  push_cast
  rfl

theorem decode_block_offset (c : cacheStruct) (addr : Int) :
    (decode c addr).block_offset = addr % 2 ^ (log2Nat c.blockSize.toNat) := by
  show extract_bits addr ((0 : Nat) : Int) ((log2Nat c.blockSize.toNat : Nat) : Int) = _
  rw [extract_bits_eq]
  simp

theorem decode_set_index (c : cacheStruct) (addr : Int) :
    (decode c addr).set_index =
      (addr / 2 ^ (log2Nat c.blockSize.toNat)) % 2 ^ (log2Nat c.numSets.toNat) := by
  show extract_bits addr ((log2Nat c.blockSize.toNat : Nat) : Int)
    ((log2Nat c.numSets.toNat : Nat) : Int) = _
  rw [extract_bits_eq]

theorem decode_tag (c : cacheStruct) (addr : Int) :
    (decode c addr).tag =
      addr / 2 ^ (log2Nat c.blockSize.toNat + log2Nat c.numSets.toNat) := by
  show addr >>> (((log2Nat c.blockSize.toNat : Nat) : Int) +
    ((log2Nat c.numSets.toNat : Nat) : Int)).toNat = _
  rw [← Nat.cast_add, Int.toNat_ofNat, Int.shiftRight_eq_div_pow]
  push_cast
  rfl

theorem decode_base (c : cacheStruct) (addr : Int) :
    (decode c addr).base = (decode c addr).set_index * c.blocksPerSet := rfl

theorem log2Fuel_spec (fuel n : Nat) (h : n ≤ fuel) (hn : 0 < n) :
    2 ^ log2Fuel fuel n ≤ n ∧ n < 2 ^ (log2Fuel fuel n + 1) := by
  induction fuel generalizing n with
  | zero => omega
  | succ f ih =>
    simp only [log2Fuel]
    by_cases h2 : 2 ≤ n
    · rw [if_pos h2]
      obtain ⟨h3, h4⟩ := ih (n / 2) (by omega) (by omega)
      rw [pow_succ, pow_succ]
      rw [pow_succ] at h4
      constructor <;> omega
    · rw [if_neg h2]
      have : n = 1 := by omega
      subst this
      simp

theorem log2Nat_two_pow (k : Nat) : log2Nat (2 ^ k) = k := by
  have h := log2Fuel_spec (2 ^ k) (2 ^ k) (le_refl _) (by positivity)
  unfold log2Nat
  have h1 : log2Fuel (2 ^ k) (2 ^ k) ≤ k := by
    by_contra hc
    have : 2 ^ (k + 1) ≤ 2 ^ log2Fuel (2 ^ k) (2 ^ k) := Nat.pow_le_pow_right (by norm_num) (by omega)
    have h5 : 2 ^ k < 2 ^ (k + 1) := Nat.pow_lt_pow_right (by norm_num) (by omega)
    omega
  have h2 : k ≤ log2Fuel (2 ^ k) (2 ^ k) := by
    by_contra hc
    have : 2 ^ (log2Fuel (2 ^ k) (2 ^ k) + 1) ≤ 2 ^ k := Nat.pow_le_pow_right (by norm_num) (by omega)
    omega
  omega

theorem two_pow_log2_le (n : Int) (h : 0 < n) : (2 : Int) ^ (log2Nat n.toNat) ≤ n := by
  have h2 := (log2Fuel_spec n.toNat n.toNat (le_refl _) (by omega)).1
  have h3 : ((2 ^ log2Nat n.toNat : Nat) : Int) ≤ (n.toNat : Int) := by exact_mod_cast h2
  push_cast at h3
  omega

theorem decode_block_offset_range (c : cacheStruct) (addr : Int) (h : 0 < c.blockSize) :
    0 ≤ (decode c addr).block_offset ∧ (decode c addr).block_offset < c.blockSize := by
  rw [decode_block_offset]
  have h1 := two_pow_log2_le c.blockSize h
  have h2 : (0 : Int) < 2 ^ (log2Nat c.blockSize.toNat) := by positivity
  constructor
  · exact Int.emod_nonneg _ (ne_of_gt h2)
  · exact lt_of_lt_of_le (Int.emod_lt_of_pos _ h2) h1

theorem decode_set_index_range (c : cacheStruct) (addr : Int) (h : 0 < c.numSets) :
    0 ≤ (decode c addr).set_index ∧ (decode c addr).set_index < c.numSets := by
  rw [decode_set_index]
  have h1 := two_pow_log2_le c.numSets h
  have h2 : (0 : Int) < 2 ^ (log2Nat c.numSets.toNat) := by positivity
  constructor
  · exact Int.emod_nonneg _ (ne_of_gt h2)
  · exact lt_of_lt_of_le (Int.emod_lt_of_pos _ h2) h1

/-- With a configuration accepted by `cache_init` the blocks of the addressed
set are inside the array `cache.blocks`. -/
theorem decode_base_range (c : cacheStruct) (addr : Int) (h : configOK c) :
    0 ≤ (decode c addr).base ∧ (decode c addr).base + c.blocksPerSet ≤ MAX_CACHE_SIZE := by
  obtain ⟨h1, h2, h3, h4, h5⟩ := h
  obtain ⟨h6, h7⟩ := decode_set_index_range c addr h3
  rw [decode_base]
  constructor
  · positivity
  · have : ((decode c addr).set_index + 1) * c.blocksPerSet ≤ c.numSets * c.blocksPerSet :=
      mul_le_mul_of_nonneg_right (by omega) (le_of_lt h4)
    have h8 : c.numSets * c.blocksPerSet = c.blocksPerSet * c.numSets := mul_comm _ _
    linarith

/-! ## The cache: the search functions -/

theorem block_index_spec (c : cacheStruct) (addy : decoded_address) (hb : 0 ≤ c.blocksPerSet) :
    (block_index c addy = -1 ∧
      ∀ j, 0 ≤ j → j < c.blocksPerSet →
        ¬ ((c.blocks (addy.base + j)).valid ≠ 0 ∧ (c.blocks (addy.base + j)).tag = addy.tag)) ∨
    (∃ j, 0 ≤ j ∧ j < c.blocksPerSet ∧
      ((c.blocks (addy.base + j)).valid ≠ 0 ∧ (c.blocks (addy.base + j)).tag = addy.tag) ∧
      (∀ j', 0 ≤ j' → j' < j →
        ¬ ((c.blocks (addy.base + j')).valid ≠ 0 ∧
          (c.blocks (addy.base + j')).tag = addy.tag)) ∧
      block_index c addy = addy.base + j) := by
  have h := block_index_loop_spec c addy c.blocksPerSet.toNat 0
  rw [Int.toNat_of_nonneg hb, zero_add] at h
  exact h

theorem find_first_invalid_spec (c : cacheStruct) (addy : decoded_address)
    (hb : 0 ≤ c.blocksPerSet) :
    (find_first_invalid c addy = -1 ∧
      ∀ j, 0 ≤ j → j < c.blocksPerSet → (c.blocks (addy.base + j)).valid ≠ 0) ∨
    (∃ j, 0 ≤ j ∧ j < c.blocksPerSet ∧ (c.blocks (addy.base + j)).valid = 0 ∧
      (∀ j', 0 ≤ j' → j' < j → (c.blocks (addy.base + j')).valid ≠ 0) ∧
      find_first_invalid c addy = j) := by
  have h := find_first_invalid_loop_spec c addy c.blocksPerSet.toNat 0
  rw [Int.toNat_of_nonneg hb, zero_add] at h
  exact h

theorem find_highest_LRU_spec (c : cacheStruct) (addy : decoded_address)
    (hb : 0 < c.blocksPerSet) :
    ∃ r, find_highest_LRU c addy = r ∧ 0 ≤ r ∧ r < c.blocksPerSet ∧
      (∀ j, 0 ≤ j → j < c.blocksPerSet →
        (c.blocks (addy.base + j)).lruLabel ≤ (c.blocks (addy.base + r)).lruLabel) ∧
      (∀ j, 0 ≤ j → j < r →
        (c.blocks (addy.base + j)).lruLabel < (c.blocks (addy.base + r)).lruLabel) := by
  have h := find_highest_LRU_loop_spec c addy (c.blocksPerSet.toNat - 1) 1
    (c.blocks addy.base).lruLabel 0 ⟨le_refl _, by omega⟩ (by rw [add_zero])
    (fun j h1 h2 => by
      have : j = 0 := by omega
      rw [this, add_zero])
    (fun j h1 h2 => by omega)
  have hc : (1 : Int) + ((c.blocksPerSet.toNat - 1 : Nat) : Int) = c.blocksPerSet := by omega
  rw [hc] at h
  exact h

/-- The replaced block: the lowest-indexed invalid block of the set when there
is one, otherwise the lowest-indexed block with the largest label. -/
theorem find_block_to_replace_spec (c : cacheStruct) (addy : decoded_address)
    (hb : 0 < c.blocksPerSet) :
    (∃ j, 0 ≤ j ∧ j < c.blocksPerSet ∧ (c.blocks (addy.base + j)).valid = 0 ∧
      (∀ j', 0 ≤ j' → j' < j → (c.blocks (addy.base + j')).valid ≠ 0) ∧
      find_block_to_replace c addy = addy.base + j) ∨
    ((∀ j, 0 ≤ j → j < c.blocksPerSet → (c.blocks (addy.base + j)).valid ≠ 0) ∧
      ∃ r, 0 ≤ r ∧ r < c.blocksPerSet ∧
        (∀ j, 0 ≤ j → j < c.blocksPerSet →
          (c.blocks (addy.base + j)).lruLabel ≤ (c.blocks (addy.base + r)).lruLabel) ∧
        (∀ j, 0 ≤ j → j < r →
          (c.blocks (addy.base + j)).lruLabel < (c.blocks (addy.base + r)).lruLabel) ∧
        find_block_to_replace c addy = addy.base + r) := by
  unfold find_block_to_replace
  rcases find_first_invalid_spec c addy (le_of_lt hb) with ⟨h1, h2⟩ | ⟨j, h1, h2, h3, h4, h5⟩
  · right
    obtain ⟨r, hr1, hr2, hr3, hr4, hr5⟩ := find_highest_LRU_spec c addy hb
    refine ⟨h2, r, hr2, hr3, hr4, hr5, ?_⟩
    simp only [h1, if_true, hr1]
  · left
    refine ⟨j, h1, h2, h3, h4, ?_⟩
    simp only [h5]
    rw [if_neg (by omega)]


/-! ## The cache: one access in closed form -/

theorem update_LRUs_config (c : cacheStruct) (addy : decoded_address) (rb : Int) :
    (update_LRUs c addy rb).blockSize = c.blockSize ∧
    (update_LRUs c addy rb).numSets = c.numSets ∧
    (update_LRUs c addy rb).blocksPerSet = c.blocksPerSet :=
  update_LRUs_loop_config addy c.blocksPerSet.toNat 0 c

theorem update_LRUs_blocks (c : cacheStruct) (addy : decoded_address) (rb i : Int)
    (hb : 0 ≤ c.blocksPerSet) :
    (update_LRUs c addy rb).blocks i =
      if i = rb then { c.blocks i with lruLabel := 0 }
      else if (addy.base ≤ i ∧ i < addy.base + c.blocksPerSet) ∧ (c.blocks i).valid ≠ 0 then
        { c.blocks i with lruLabel := (c.blocks i).lruLabel + 1 }
      else c.blocks i := by
  unfold update_LRUs
  by_cases hi : i = rb
  · subst hi
    simp only [Function.update_same, if_true]
    rw [update_LRUs_loop_blocks]
    split_ifs <;> rfl
  · rw [if_neg hi]
    simp only [Function.update_noteq hi]
    rw [update_LRUs_loop_blocks, Int.toNat_of_nonneg hb, add_zero]

theorem locate_hit (c : cacheStruct) (m : mainMemory) (addr : Int)
    (h : block_index c (decode c addr) ≠ -1) :
    locate c m addr = (c, m, block_index c (decode c addr)) := by
  unfold locate
  simp only [h, if_false]

theorem locate_miss (c : cacheStruct) (m : mainMemory) (addr : Int)
    (h : block_index c (decode c addr) = -1) :
    locate c m addr =
      ((fill_loop (victim c addr) (blockStart c addr) c.blockSize.toNat 0
          (touch_block c (victim c addr) (decode c addr).tag,
            evict c m (evictedAddr c (decode c addr) (victim c addr)) (victim c addr))).1,
        (fill_loop (victim c addr) (blockStart c addr) c.blockSize.toNat 0
          (touch_block c (victim c addr) (decode c addr).tag,
            evict c m (evictedAddr c (decode c addr) (victim c addr)) (victim c addr))).2,
        victim c addr) := by
  unfold locate
  simp only [h, if_true]
  rfl

theorem locate_open (c : cacheStruct) (m : mainMemory) (addr : Int) :
    (locate c m addr).2.2 = usedBlock c addr := by
  unfold usedBlock
  by_cases h : block_index c (decode c addr) = -1
  · rw [locate_miss c m addr h, if_pos h]
  · rw [locate_hit c m addr h, if_neg h]

theorem locate_config (c : cacheStruct) (m : mainMemory) (addr : Int) :
    (locate c m addr).1.blockSize = c.blockSize ∧
    (locate c m addr).1.numSets = c.numSets ∧
    (locate c m addr).1.blocksPerSet = c.blocksPerSet := by
  by_cases h : block_index c (decode c addr) = -1
  · rw [locate_miss c m addr h]
    exact fill_loop_config _ _ _ _ _
  · rw [locate_hit c m addr h]
    exact ⟨rfl, rfl, rfl⟩

theorem evict_mem (c : cacheStruct) (m : mainMemory) (ea ob a : Int) (hb : 0 ≤ c.blockSize) :
    (evict c m ea ob).mem a =
      if ((c.blocks ob).valid ≠ 0 ∧ (c.blocks ob).dirty ≠ 0) ∧ ea ≤ a ∧ a < ea + c.blockSize then
        (c.blocks ob).data (a - ea)
      else m.mem a := by
  unfold evict
  by_cases hv : (c.blocks ob).valid = 0
  · rw [if_pos hv, if_neg]
    rintro ⟨⟨h, -⟩, -⟩
    exact h hv
  · rw [if_neg hv]
    by_cases hd : (c.blocks ob).dirty ≠ 0
    · rw [if_pos hd, evict_loop_mem, Int.toNat_of_nonneg hb, add_zero]
      by_cases hr : ea ≤ a ∧ a < ea + c.blockSize
      · rw [if_pos hr, if_pos ⟨⟨hv, hd⟩, hr⟩]
      · rw [if_neg hr, if_neg (fun h => hr h.2)]
    · rw [if_neg hd, if_neg]
      rintro ⟨⟨-, h⟩, -⟩
      exact hd h

theorem evict_calls (c : cacheStruct) (m : mainMemory) (ea ob : Int) :
    (evict c m ea ob).calls =
      m.calls ++
        (if (c.blocks ob).valid ≠ 0 ∧ (c.blocks ob).dirty ≠ 0 then
          (List.range c.blockSize.toNat).map
            (fun k => (ea + (k : Nat), (1 : Int), (c.blocks ob).data (k : Nat)))
        else []) := by
  unfold evict
  by_cases hv : (c.blocks ob).valid = 0
  · rw [if_pos hv, if_neg (fun h => h.1 hv), List.append_nil]
  · rw [if_neg hv]
    by_cases hd : (c.blocks ob).dirty ≠ 0
    · rw [if_pos hd, if_pos ⟨hv, hd⟩, evict_loop_calls]
      simp
    · rw [if_neg hd, if_neg (fun h => hd h.2), List.append_nil]

theorem locate_mem (c : cacheStruct) (m : mainMemory) (addr a : Int) (hb : 0 ≤ c.blockSize) :
    (locate c m addr).2.1.mem a =
      if block_index c (decode c addr) = -1 ∧
          ((c.blocks (victim c addr)).valid ≠ 0 ∧ (c.blocks (victim c addr)).dirty ≠ 0) ∧
          evictedAddr c (decode c addr) (victim c addr) ≤ a ∧
          a < evictedAddr c (decode c addr) (victim c addr) + c.blockSize then
        (c.blocks (victim c addr)).data (a - evictedAddr c (decode c addr) (victim c addr))
      else m.mem a := by
  by_cases h : block_index c (decode c addr) = -1
  · rw [locate_miss c m addr h]
    show (fill_loop _ _ _ _ _).2.mem a = _
    rw [fill_loop_mem]
    show (evict c m _ _).mem a = _
    rw [evict_mem c m _ _ a hb]
    by_cases hr : ((c.blocks (victim c addr)).valid ≠ 0 ∧ (c.blocks (victim c addr)).dirty ≠ 0) ∧
        evictedAddr c (decode c addr) (victim c addr) ≤ a ∧
        a < evictedAddr c (decode c addr) (victim c addr) + c.blockSize
    · rw [if_pos hr, if_pos ⟨h, hr⟩]
    · rw [if_neg hr, if_neg (fun hc => hr hc.2)]
  · rw [locate_hit c m addr h, if_neg (fun hc => h hc.1)]

theorem locate_calls (c : cacheStruct) (m : mainMemory) (addr : Int) :
    (locate c m addr).2.1.calls =
      if block_index c (decode c addr) = -1 then
        m.calls ++
          (if (c.blocks (victim c addr)).valid ≠ 0 ∧ (c.blocks (victim c addr)).dirty ≠ 0 then
            (List.range c.blockSize.toNat).map
              (fun k => (evictedAddr c (decode c addr) (victim c addr) + (k : Nat), (1 : Int),
                (c.blocks (victim c addr)).data (k : Nat)))
          else []) ++
          (List.range c.blockSize.toNat).map
            (fun k => (blockStart c addr + (k : Nat), (0 : Int), (0 : Int)))
      else m.calls := by
  by_cases h : block_index c (decode c addr) = -1
  · rw [locate_miss c m addr h, if_pos h]
    show (fill_loop _ _ _ _ _).2.calls = _
    rw [fill_loop_calls]
    show (evict c m _ _).calls ++ _ = _
    rw [evict_calls]
    simp
  · rw [locate_hit c m addr h, if_neg h]

theorem locate_blocks (c : cacheStruct) (m : mainMemory) (addr i : Int) (hb : 0 ≤ c.blockSize) :
    (locate c m addr).1.blocks i =
      if block_index c (decode c addr) = -1 ∧ i = victim c addr then
        { data := fun k => if 0 ≤ k ∧ k < c.blockSize
            then (locate c m addr).2.1.mem (blockStart c addr + k)
            else (c.blocks i).data k
          dirty := 0
          lruLabel := (c.blocks i).lruLabel
          tag := (decode c addr).tag
          valid := 1 }
      else c.blocks i := by
  by_cases h : block_index c (decode c addr) = -1
  · have hm : ∀ a, (locate c m addr).2.1.mem a =
        (evict c m (evictedAddr c (decode c addr) (victim c addr)) (victim c addr)).mem a := by
      intro a
      rw [locate_miss c m addr h]
      show (fill_loop _ _ _ _ _).2.mem a = _
      rw [fill_loop_mem]
    simp only [hm]
    rw [locate_miss c m addr h]
    show (fill_loop _ _ _ _ _).1.blocks i = _
    rw [fill_loop_blocks]
    by_cases hi : i = victim c addr
    · subst hi
      rw [if_pos rfl, if_pos ⟨h, rfl⟩]
      simp only [touch_block, Function.update_same, Int.toNat_of_nonneg hb, zero_add]
    · rw [if_neg hi, if_neg (fun hc => hi hc.2)]
      simp only [touch_block, Function.update_noteq hi]
  · rw [locate_hit c m addr h, if_neg (fun hc => h hc.1)]

theorem cache_access_defined (c : cacheStruct) (m : mainMemory) (addr w d : Int)
    (r : cacheStruct × mainMemory × Int) (h : cache_access c m addr w d = some r) :
    accessDefined c addr := by
  unfold cache_access at h
  by_contra hn
  rw [if_neg hn] at h
  exact absurd h (by simp)

theorem cache_access_isSome (c : cacheStruct) (m : mainMemory) (addr w d : Int)
    (h : accessDefined c addr) : ∃ r, cache_access c m addr w d = some r := by
  unfold cache_access
  rw [if_pos h]
  exact ⟨_, rfl⟩

theorem cache_access_config (c : cacheStruct) (m : mainMemory) (addr w d : Int)
    (r : cacheStruct × mainMemory × Int) (h : cache_access c m addr w d = some r) :
    r.1.blockSize = c.blockSize ∧ r.1.numSets = c.numSets ∧
      r.1.blocksPerSet = c.blocksPerSet := by
  have hdef := cache_access_defined c m addr w d r h
  unfold cache_access at h
  rw [if_pos hdef] at h
  have h2 := Option.some.inj h
  subst h2
  have h1 := update_LRUs_config (locate c m addr).1 (decode c addr) (locate c m addr).2.2
  have h3 := locate_config c m addr
  by_cases hw : w ≠ 0
  · simp only [hw, if_true, ne_eq, not_false_eq_true]
    exact ⟨h1.1.trans h3.1, h1.2.1.trans h3.2.1, h1.2.2.trans h3.2.2⟩
  · simp only [hw, if_false]
    exact ⟨h1.1.trans h3.1, h1.2.1.trans h3.2.1, h1.2.2.trans h3.2.2⟩

theorem cache_access_memory (c : cacheStruct) (m : mainMemory) (addr w d : Int)
    (r : cacheStruct × mainMemory × Int) (h : cache_access c m addr w d = some r) :
    r.2.1 = (locate c m addr).2.1 := by
  have hdef := cache_access_defined c m addr w d r h
  unfold cache_access at h
  rw [if_pos hdef] at h
  have h2 := Option.some.inj h
  subst h2
  rfl

/-- The blocks after one access, in terms of the blocks after the miss
handling (`locate`). -/
theorem cache_access_blocks (c : cacheStruct) (m : mainMemory) (addr w d : Int)
    (r : cacheStruct × mainMemory × Int) (h : cache_access c m addr w d = some r) (i : Int) :
    r.1.blocks i =
      if i = usedBlock c addr then
        { data := if w ≠ 0 then
              Function.update ((locate c m addr).1.blocks i).data (decode c addr).block_offset d
            else ((locate c m addr).1.blocks i).data
          dirty := if w ≠ 0 then 1 else ((locate c m addr).1.blocks i).dirty
          lruLabel := 0
          tag := ((locate c m addr).1.blocks i).tag
          valid := ((locate c m addr).1.blocks i).valid }
      else if ((decode c addr).base ≤ i ∧ i < (decode c addr).base + c.blocksPerSet) ∧
          ((locate c m addr).1.blocks i).valid ≠ 0 then
        { (locate c m addr).1.blocks i with
          lruLabel := ((locate c m addr).1.blocks i).lruLabel + 1 }
      else (locate c m addr).1.blocks i := by
  have hdef := cache_access_defined c m addr w d r h
  have hb : 0 ≤ (locate c m addr).1.blocksPerSet := by
    rw [(locate_config c m addr).2.2]
    exact le_of_lt hdef.1.2.2.2.1
  unfold cache_access at h
  rw [if_pos hdef] at h
  have h2 := Option.some.inj h
  subst h2
  clear h
  have hU := update_LRUs_blocks (locate c m addr).1 (decode c addr) (locate c m addr).2.2 i hb
  rw [locate_open, (locate_config c m addr).2.2] at hU
  by_cases hw : w ≠ 0
  · simp only [if_pos hw, locate_open]
    by_cases hi : i = usedBlock c addr
    · subst hi
      simp only [Function.update_same, if_true]
      rw [hU, if_pos rfl]
    · simp only [Function.update_noteq hi]
      rw [hU, if_neg hi, if_neg hi]
  · simp only [if_neg hw, locate_open]
    rw [hU]

theorem cache_access_value (c : cacheStruct) (m : mainMemory) (addr w d : Int)
    (r : cacheStruct × mainMemory × Int) (h : cache_access c m addr w d = some r) :
    r.2.2 = if w ≠ 0 then 0
      else ((locate c m addr).1.blocks (usedBlock c addr)).data (decode c addr).block_offset := by
  have hdef := cache_access_defined c m addr w d r h
  have hb : 0 ≤ (locate c m addr).1.blocksPerSet := by
    rw [(locate_config c m addr).2.2]
    exact le_of_lt hdef.1.2.2.2.1
  have hB := cache_access_blocks c m addr w d r h (usedBlock c addr)
  rw [if_pos rfl] at hB
  unfold cache_access at h
  rw [if_pos hdef] at h
  have h2 := Option.some.inj h
  subst h2
  clear h
  by_cases hw : w ≠ 0
  · simp only [if_pos hw]
  · simp only [if_neg hw, locate_open] at hB ⊢
    rw [hB]


/-! ## The cache: calls of `mem_access` -/

theorem blockStart_aligned (c : cacheStruct) (addr : Int) (hb : 0 < c.blockSize)
    (ha : 0 ≤ addr) :
    c.blockSize ∣ blockStart c addr ∧ blockStart c addr ≤ addr ∧
      addr < blockStart c addr + c.blockSize := by
  unfold blockStart
  rw [Int.tmod_eq_emod ha (le_of_lt hb)]
  refine ⟨?_, ?_, ?_⟩
  · exact Int.dvd_sub_of_emod_eq rfl
  · have := Int.emod_nonneg addr (ne_of_gt hb)
    omega
  · have := Int.emod_lt_of_pos addr hb
    omega

/-- C21: `cache_access` calls `mem_access` only when necessary.  For every
cache state and every address (a word address, not negative) for which the call
is defined, the call returns, and: the access hits exactly when a valid block of
the addressed set carries the tag of the address; a hit makes no call of
`mem_access` and leaves main memory unchanged; a miss makes exactly `blockSize`
read calls, for the words `start .. start + blockSize - 1` of the aligned block
that contains the address, preceded by exactly `blockSize` write calls (the
words of the replaced block) when, and only when, the replaced block is valid
and dirty. -/
theorem mem_access_only_when_necessary (c : cacheStruct) (m : mainMemory) (addr w d : Int)
    (hd : accessDefined c addr) (ha : 0 ≤ addr) :
    ∃ r, cache_access c m addr w d = some r ∧
    (block_index c (decode c addr) ≠ -1 ↔
      ∃ j, 0 ≤ j ∧ j < c.blocksPerSet ∧
        (c.blocks ((decode c addr).base + j)).valid ≠ 0 ∧
        (c.blocks ((decode c addr).base + j)).tag = (decode c addr).tag) ∧
    (block_index c (decode c addr) ≠ -1 → r.2.1 = m) ∧
    (block_index c (decode c addr) = -1 →
      r.2.1.calls =
        m.calls ++
          (if (c.blocks (victim c addr)).valid ≠ 0 ∧ (c.blocks (victim c addr)).dirty ≠ 0 then
            (List.range c.blockSize.toNat).map
              (fun k => (evictedAddr c (decode c addr) (victim c addr) + (k : Nat), (1 : Int),
                (c.blocks (victim c addr)).data (k : Nat)))
          else []) ++
          (List.range c.blockSize.toNat).map
            (fun k => (blockStart c addr + (k : Nat), (0 : Int), (0 : Int))) ∧
      ((List.range c.blockSize.toNat).length : Int) = c.blockSize ∧
      c.blockSize ∣ blockStart c addr ∧ blockStart c addr ≤ addr ∧
      addr < blockStart c addr + c.blockSize) := by
  obtain ⟨r, h⟩ := cache_access_isSome c m addr w d hd
  refine ⟨r, h, ?_⟩
  have hdef := hd
  obtain ⟨hbs, -, -, hbps, -⟩ := hdef.1
  have hmem := cache_access_memory c m addr w d r h
  refine ⟨?_, ?_, ?_⟩
  · rcases block_index_spec c (decode c addr) (le_of_lt hbps) with
      ⟨h1, h2⟩ | ⟨j, h1, h2, h3, -, h5⟩
    · constructor
      · intro hc; exact absurd h1 hc
      · rintro ⟨j, hj1, hj2, hj3⟩
        exact absurd hj3 (h2 j hj1 hj2)
    · constructor
      · intro _; exact ⟨j, h1, h2, h3⟩
      · intro _
        rw [h5]
        have := (decode_base_range c addr hdef.1).1
        omega
  · intro hh
    rw [hmem, locate_hit c m addr hh]
  · intro hm
    refine ⟨?_, ?_, blockStart_aligned c addr hbs ha⟩
    · rw [hmem, locate_calls, if_pos hm]
    · rw [List.length_range, Int.toNat_of_nonneg (le_of_lt hbs)]

theorem dirtyCache_eq :
    (cache_init 2 1 1).bind (fun c => cache_access c exampleMemory 0 1 9) = some dirtyCache := by
  have h : ((cache_init 2 1 1).bind
      (fun c => cache_access c exampleMemory 0 1 9)).isSome = true := by decide
  unfold dirtyCache
  cases hc : (cache_init 2 1 1).bind (fun c => cache_access c exampleMemory 0 1 9) with
  | none => rw [hc] at h; exact absurd h (by simp)
  | some x => rfl

theorem dirtyMiss_eq : cache_access dirtyCache.1 dirtyCache.2.1 2 0 0 = some dirtyMiss := by
  have h : (cache_access dirtyCache.1 dirtyCache.2.1 2 0 0).isSome = true := by decide
  unfold dirtyMiss
  cases hc : cache_access dirtyCache.1 dirtyCache.2.1 2 0 0 with
  | none => rw [hc] at h; exact absurd h (by simp)
  | some x => rfl

/-- Witness of C21: the read of address 2 in `dirtyCache` misses and replaces
the dirty block: two writes (the words 9 and 101 of the old block) are followed
by two reads. -/
theorem mem_access_only_when_necessary_witness :
    (dirtyMiss.2.1.calls =
      [(0, 0, 0), (1, 0, 0), (0, 1, 9), (1, 1, 101), (2, 0, 0), (3, 0, 0)] ∧
      dirtyCache.2.1.calls = [(0, 0, 0), (1, 0, 0)]) ∧
    accessDefined dirtyCache.1 2 ∧
    ∃ r, cache_access dirtyCache.1 dirtyCache.2.1 2 0 0 = some r ∧
    (block_index dirtyCache.1 (decode dirtyCache.1 2) ≠ -1 ↔
      ∃ j, 0 ≤ j ∧ j < dirtyCache.1.blocksPerSet ∧
        (dirtyCache.1.blocks ((decode dirtyCache.1 2).base + j)).valid ≠ 0 ∧
        (dirtyCache.1.blocks ((decode dirtyCache.1 2).base + j)).tag =
          (decode dirtyCache.1 2).tag) ∧
    (block_index dirtyCache.1 (decode dirtyCache.1 2) ≠ -1 → r.2.1 = dirtyCache.2.1) ∧
    (block_index dirtyCache.1 (decode dirtyCache.1 2) = -1 →
      r.2.1.calls =
        dirtyCache.2.1.calls ++
          (if (dirtyCache.1.blocks (victim dirtyCache.1 2)).valid ≠ 0 ∧
              (dirtyCache.1.blocks (victim dirtyCache.1 2)).dirty ≠ 0 then
            (List.range dirtyCache.1.blockSize.toNat).map
              (fun k => (evictedAddr dirtyCache.1 (decode dirtyCache.1 2)
                  (victim dirtyCache.1 2) + (k : Nat), (1 : Int),
                (dirtyCache.1.blocks (victim dirtyCache.1 2)).data (k : Nat)))
          else []) ++
          (List.range dirtyCache.1.blockSize.toNat).map
            (fun k => (blockStart dirtyCache.1 2 + (k : Nat), (0 : Int), (0 : Int))) ∧
      ((List.range dirtyCache.1.blockSize.toNat).length : Int) = dirtyCache.1.blockSize ∧
      dirtyCache.1.blockSize ∣ blockStart dirtyCache.1 2 ∧ blockStart dirtyCache.1 2 ≤ 2 ∧
      2 < blockStart dirtyCache.1 2 + dirtyCache.1.blockSize) :=
  ⟨by decide, by decide,
    mem_access_only_when_necessary dirtyCache.1 dirtyCache.2.1 2 0 0 (by decide) (by decide)⟩

/-! ## The cache: the effect of one access on each block -/

theorem usedBlock_miss (c : cacheStruct) (addr : Int)
    (h : block_index c (decode c addr) = -1) : usedBlock c addr = victim c addr := by
  unfold usedBlock
  rw [if_pos h]

theorem usedBlock_hit (c : cacheStruct) (addr : Int)
    (h : block_index c (decode c addr) ≠ -1) :
    usedBlock c addr = block_index c (decode c addr) := by
  unfold usedBlock
  rw [if_neg h]

theorem usedBlock_in_set (c : cacheStruct) (addr : Int) (hb : 0 < c.blocksPerSet) :
    ∃ j, 0 ≤ j ∧ j < c.blocksPerSet ∧ usedBlock c addr = (decode c addr).base + j := by
  by_cases h : block_index c (decode c addr) = -1
  · rw [usedBlock_miss c addr h]
    rcases find_block_to_replace_spec c (decode c addr) hb with
      ⟨j, h1, h2, -, -, h5⟩ | ⟨-, r, h1, h2, -, -, h5⟩
    · exact ⟨j, h1, h2, h5⟩
    · exact ⟨r, h1, h2, h5⟩
  · rw [usedBlock_hit c addr h]
    rcases block_index_spec c (decode c addr) (le_of_lt hb) with
      ⟨h1, -⟩ | ⟨j, h1, h2, -, -, h5⟩
    · exact absurd h1 h
    · exact ⟨j, h1, h2, h5⟩

theorem hit_block (c : cacheStruct) (addr : Int) (hb : 0 < c.blocksPerSet)
    (h : block_index c (decode c addr) ≠ -1) :
    (c.blocks (usedBlock c addr)).valid ≠ 0 ∧
      (c.blocks (usedBlock c addr)).tag = (decode c addr).tag := by
  rw [usedBlock_hit c addr h]
  rcases block_index_spec c (decode c addr) (le_of_lt hb) with ⟨h1, -⟩ | ⟨j, -, -, h3, -, h5⟩
  · exact absurd h1 h
  · rw [h5]; exact h3

theorem miss_no_match (c : cacheStruct) (addr : Int) (hb : 0 < c.blocksPerSet)
    (hbase : 0 ≤ (decode c addr).base)
    (h : block_index c (decode c addr) = -1) (j : Int) (h1 : 0 ≤ j) (h2 : j < c.blocksPerSet) :
    ¬ ((c.blocks ((decode c addr).base + j)).valid ≠ 0 ∧
      (c.blocks ((decode c addr).base + j)).tag = (decode c addr).tag) := by
  rcases block_index_spec c (decode c addr) (le_of_lt hb) with ⟨-, h4⟩ | ⟨j', h5, -, -, -, h6⟩
  · exact h4 j h1 h2
  · rw [h6] at h
    omega

theorem access_valid (c : cacheStruct) (m : mainMemory) (addr w d : Int)
    (r : cacheStruct × mainMemory × Int) (h : cache_access c m addr w d = some r) (i : Int) :
    (r.1.blocks i).valid =
      if block_index c (decode c addr) = -1 ∧ i = usedBlock c addr then 1
      else (c.blocks i).valid := by
  have hdef := cache_access_defined c m addr w d r h
  have hbs : 0 ≤ c.blockSize := le_of_lt hdef.1.1
  rw [cache_access_blocks c m addr w d r h i]
  by_cases hi : i = usedBlock c addr
  · rw [if_pos hi]
    show ((locate c m addr).1.blocks i).valid = _
    rw [locate_blocks c m addr i hbs]
    by_cases hm : block_index c (decode c addr) = -1
    · rw [if_pos ⟨hm, by rw [hi, usedBlock_miss c addr hm]⟩, if_pos ⟨hm, hi⟩]
    · rw [if_neg (fun hc => hm hc.1), if_neg (fun hc => hm hc.1)]
  · have hl : (locate c m addr).1.blocks i = c.blocks i := by
      rw [locate_blocks c m addr i hbs, if_neg]
      rintro ⟨hm, hv⟩
      rw [usedBlock_miss c addr hm] at hi
      exact hi hv
    rw [if_neg hi, hl,
      if_neg (show ¬ (block_index c (decode c addr) = -1 ∧ i = usedBlock c addr) from
        fun hc => hi hc.2)]
    split_ifs <;> rfl

theorem access_tag (c : cacheStruct) (m : mainMemory) (addr w d : Int)
    (r : cacheStruct × mainMemory × Int) (h : cache_access c m addr w d = some r) (i : Int) :
    (r.1.blocks i).tag =
      if block_index c (decode c addr) = -1 ∧ i = usedBlock c addr then (decode c addr).tag
      else (c.blocks i).tag := by
  have hdef := cache_access_defined c m addr w d r h
  have hbs : 0 ≤ c.blockSize := le_of_lt hdef.1.1
  rw [cache_access_blocks c m addr w d r h i]
  by_cases hi : i = usedBlock c addr
  · rw [if_pos hi]
    show ((locate c m addr).1.blocks i).tag = _
    rw [locate_blocks c m addr i hbs]
    by_cases hm : block_index c (decode c addr) = -1
    · rw [if_pos ⟨hm, by rw [hi, usedBlock_miss c addr hm]⟩, if_pos ⟨hm, hi⟩]
    · rw [if_neg (fun hc => hm hc.1), if_neg (fun hc => hm hc.1)]
  · have hl : (locate c m addr).1.blocks i = c.blocks i := by
      rw [locate_blocks c m addr i hbs, if_neg]
      rintro ⟨hm, hv⟩
      rw [usedBlock_miss c addr hm] at hi
      exact hi hv
    rw [if_neg hi, hl,
      if_neg (show ¬ (block_index c (decode c addr) = -1 ∧ i = usedBlock c addr) from
        fun hc => hi hc.2)]
    split_ifs <;> rfl

theorem access_label (c : cacheStruct) (m : mainMemory) (addr w d : Int)
    (r : cacheStruct × mainMemory × Int) (h : cache_access c m addr w d = some r) (i : Int) :
    (r.1.blocks i).lruLabel =
      if i = usedBlock c addr then 0
      else if ((decode c addr).base ≤ i ∧ i < (decode c addr).base + c.blocksPerSet) ∧
          (c.blocks i).valid ≠ 0 then (c.blocks i).lruLabel + 1
      else (c.blocks i).lruLabel := by
  have hdef := cache_access_defined c m addr w d r h
  have hbs : 0 ≤ c.blockSize := le_of_lt hdef.1.1
  rw [cache_access_blocks c m addr w d r h i]
  by_cases hi : i = usedBlock c addr
  · rw [if_pos hi, if_pos hi]
  · rw [if_neg hi, if_neg hi]
    have hl : (locate c m addr).1.blocks i = c.blocks i := by
      rw [locate_blocks c m addr i hbs, if_neg]
      rintro ⟨hm, hv⟩
      rw [usedBlock_miss c addr hm] at hi
      exact hi hv
    rw [hl]
    split_ifs <;> rfl

theorem access_dirty (c : cacheStruct) (m : mainMemory) (addr w d : Int)
    (r : cacheStruct × mainMemory × Int) (h : cache_access c m addr w d = some r) (i : Int) :
    (r.1.blocks i).dirty =
      if i = usedBlock c addr then
        (if w ≠ 0 then 1 else if block_index c (decode c addr) = -1 then 0
          else (c.blocks i).dirty)
      else (c.blocks i).dirty := by
  have hdef := cache_access_defined c m addr w d r h
  have hbs : 0 ≤ c.blockSize := le_of_lt hdef.1.1
  rw [cache_access_blocks c m addr w d r h i]
  by_cases hi : i = usedBlock c addr
  · rw [if_pos hi, if_pos hi]
    dsimp only
    by_cases hw : w ≠ 0
    · rw [if_pos hw, if_pos hw]
    · rw [if_neg hw, if_neg hw, locate_blocks c m addr i hbs]
      by_cases hm : block_index c (decode c addr) = -1
      · rw [if_pos ⟨hm, by rw [hi, usedBlock_miss c addr hm]⟩, if_pos hm]
      · rw [if_neg (fun hc => hm hc.1), if_neg hm]
  · rw [if_neg hi, if_neg hi]
    have hl : (locate c m addr).1.blocks i = c.blocks i := by
      rw [locate_blocks c m addr i hbs, if_neg]
      rintro ⟨hm, hv⟩
      rw [usedBlock_miss c addr hm] at hi
      exact hi hv
    rw [hl]
    split_ifs <;> rfl

theorem access_data (c : cacheStruct) (m : mainMemory) (addr w d : Int)
    (r : cacheStruct × mainMemory × Int) (h : cache_access c m addr w d = some r) (i k : Int) :
    (r.1.blocks i).data k =
      if i = usedBlock c addr then
        (if w ≠ 0 ∧ k = (decode c addr).block_offset then d
          else if block_index c (decode c addr) = -1 ∧ 0 ≤ k ∧ k < c.blockSize then
            r.2.1.mem (blockStart c addr + k)
          else (c.blocks i).data k)
      else (c.blocks i).data k := by
  have hdef := cache_access_defined c m addr w d r h
  have hbs : 0 ≤ c.blockSize := le_of_lt hdef.1.1
  rw [cache_access_blocks c m addr w d r h i, cache_access_memory c m addr w d r h]
  by_cases hi : i = usedBlock c addr
  · rw [if_pos hi, if_pos hi]
    have hL : ((locate c m addr).1.blocks i).data k =
        if block_index c (decode c addr) = -1 ∧ 0 ≤ k ∧ k < c.blockSize then
          (locate c m addr).2.1.mem (blockStart c addr + k)
        else (c.blocks i).data k := by
      rw [locate_blocks c m addr i hbs]
      by_cases hm : block_index c (decode c addr) = -1
      · rw [if_pos ⟨hm, by rw [hi, usedBlock_miss c addr hm]⟩]
        show (if 0 ≤ k ∧ k < c.blockSize then _ else _) = _
        by_cases hk : 0 ≤ k ∧ k < c.blockSize
        · rw [if_pos hk, if_pos ⟨hm, hk⟩]
        · rw [if_neg hk, if_neg (fun hc => hk hc.2)]
      · rw [if_neg (fun hc => hm hc.1), if_neg (fun hc => hm hc.1)]
    dsimp only
    by_cases hw : w ≠ 0
    · rw [if_pos hw]
      by_cases hk : k = (decode c addr).block_offset
      · rw [hk, Function.update_same, if_pos ⟨hw, rfl⟩]
      · rw [Function.update_noteq hk,
          if_neg (show ¬ (w ≠ 0 ∧ k = (decode c addr).block_offset) from fun hc => hk hc.2), hL]
    · rw [if_neg hw,
        if_neg (show ¬ (w ≠ 0 ∧ k = (decode c addr).block_offset) from fun hc => hw hc.1), hL]
  · rw [if_neg hi, if_neg hi]
    have hl : (locate c m addr).1.blocks i = c.blocks i := by
      rw [locate_blocks c m addr i hbs, if_neg]
      rintro ⟨hm, hv⟩
      rw [usedBlock_miss c addr hm] at hi
      exact hi hv
    rw [hl]
    split_ifs <;> rfl

theorem access_mem (c : cacheStruct) (m : mainMemory) (addr w d : Int)
    (r : cacheStruct × mainMemory × Int) (h : cache_access c m addr w d = some r) (a : Int) :
    r.2.1.mem a =
      if block_index c (decode c addr) = -1 ∧
          ((c.blocks (usedBlock c addr)).valid ≠ 0 ∧ (c.blocks (usedBlock c addr)).dirty ≠ 0) ∧
          evictedAddr c (decode c addr) (usedBlock c addr) ≤ a ∧
          a < evictedAddr c (decode c addr) (usedBlock c addr) + c.blockSize then
        (c.blocks (usedBlock c addr)).data
          (a - evictedAddr c (decode c addr) (usedBlock c addr))
      else m.mem a := by
  have hdef := cache_access_defined c m addr w d r h
  have hbs : 0 ≤ c.blockSize := le_of_lt hdef.1.1
  rw [cache_access_memory c m addr w d r h, locate_mem c m addr a hbs]
  by_cases hm : block_index c (decode c addr) = -1
  · rw [usedBlock_miss c addr hm]
  · rw [if_neg (fun hc => hm hc.1), if_neg (fun hc => hm hc.1)]

theorem access_value (c : cacheStruct) (m : mainMemory) (addr w d : Int)
    (r : cacheStruct × mainMemory × Int) (h : cache_access c m addr w d = some r) :
    r.2.2 = if w ≠ 0 then 0
      else (r.1.blocks (usedBlock c addr)).data (decode c addr).block_offset := by
  rw [cache_access_value c m addr w d r h]
  by_cases hw : w ≠ 0
  · rw [if_pos hw, if_pos hw]
  · rw [if_neg hw, if_neg hw, cache_access_blocks c m addr w d r h, if_pos rfl]
    simp only [if_neg hw]


/-! ## The cache: the replacement policy -/

theorem in_set_iff (S bps i : Int) (h : 0 < bps) :
    (S * bps ≤ i ∧ i < S * bps + bps) ↔ i / bps = S := by
  constructor
  · rintro ⟨h1, h2⟩
    have := (Int.ediv_emod_unique (a := i) (r := i - S * bps) (q := S) h).2
      ⟨by rw [mul_comm bps S]; ring, by omega, by omega⟩
    exact this.1
  · intro hS
    have h1 := Int.ediv_add_emod i bps
    have h2 := Int.emod_nonneg i (ne_of_gt h)
    have h3 := Int.emod_lt_of_pos i h
    rw [hS, mul_comm] at h1
    constructor <;> omega

theorem usedBlock_div (c : cacheStruct) (addr : Int) (hb : 0 < c.blocksPerSet) :
    usedBlock c addr / c.blocksPerSet = (decode c addr).set_index := by
  obtain ⟨j, h1, h2, h3⟩ := usedBlock_in_set c addr hb
  rw [← in_set_iff _ _ _ hb, h3, decode_base]
  constructor <;> omega

theorem access_valid_iff (c : cacheStruct) (m : mainMemory) (addr w d : Int)
    (r : cacheStruct × mainMemory × Int) (h : cache_access c m addr w d = some r) (i : Int) :
    (r.1.blocks i).valid ≠ 0 ↔ (i = usedBlock c addr ∨ (c.blocks i).valid ≠ 0) := by
  have hdef := cache_access_defined c m addr w d r h
  have hb : 0 < c.blocksPerSet := hdef.1.2.2.2.1
  rw [access_valid c m addr w d r h i]
  by_cases hm : block_index c (decode c addr) = -1
  · by_cases hi : i = usedBlock c addr
    · rw [if_pos ⟨hm, hi⟩]
      simp [hi]
    · rw [if_neg (fun hc => hi hc.2)]
      simp [hi]
  · rw [if_neg (fun hc => hm hc.1)]
    constructor
    · intro hv; exact Or.inr hv
    · rintro (hi | hv)
      · rw [hi]; exact (hit_block c addr hb hm).1
      · exact hv

theorem access_label_div (c : cacheStruct) (m : mainMemory) (addr w d : Int)
    (r : cacheStruct × mainMemory × Int) (h : cache_access c m addr w d = some r) (i : Int) :
    (r.1.blocks i).lruLabel =
      if i = usedBlock c addr then 0
      else if i / c.blocksPerSet = usedBlock c addr / c.blocksPerSet ∧
          (c.blocks i).valid ≠ 0 then (c.blocks i).lruLabel + 1
      else (c.blocks i).lruLabel := by
  have hdef := cache_access_defined c m addr w d r h
  have hb : 0 < c.blocksPerSet := hdef.1.2.2.2.1
  rw [access_label c m addr w d r h i, usedBlock_div c addr hb, decode_base]
  simp only [in_set_iff _ _ _ hb]

theorem lruInv_step (c : cacheStruct) (m : mainMemory) (addr w d : Int)
    (r : cacheStruct × mainMemory × Int) (h : cache_access c m addr w d = some r)
    (lu : Int → Nat) (t : Nat) (hI : LruInv c lu t) :
    LruInv r.1 (Function.update lu (usedBlock c addr) (t + 1)) (t + 1) := by
  obtain ⟨I1, I2, I3, I4, I5, I6, I7⟩ := hI
  have hV := access_valid_iff c m addr w d r h
  have hL := access_label_div c m addr w d r h
  have hbps : r.1.blocksPerSet = c.blocksPerSet := (cache_access_config c m addr w d r h).2.2
  have hlu : ∀ i, i ≠ usedBlock c addr →
      Function.update lu (usedBlock c addr) (t + 1) i = lu i :=
    fun i hi => Function.update_noteq hi _ _
  have hlu0 : Function.update lu (usedBlock c addr) (t + 1) (usedBlock c addr) = t + 1 :=
    Function.update_same _ _ _
  refine ⟨?_, ?_, ?_, ?_, ?_, ?_, ?_⟩
  · intro i
    by_cases hi : i = usedBlock c addr
    · rw [hi, hlu0]
    · rw [hlu i hi]
      exact Nat.le_succ_of_le (I1 i)
  · intro i hv
    have hi : i ≠ usedBlock c addr := fun hc => (hV i).2 (Or.inl hc) hv
    rw [hlu i hi]
    apply I2
    by_contra hc
    exact (hV i).2 (Or.inr hc) hv
  · intro i hv
    by_cases hi : i = usedBlock c addr
    · rw [hi, hlu0]; omega
    · rw [hlu i hi]
      rcases (hV i).1 hv with h1 | h1
      · exact absurd h1 hi
      · exact I3 i h1
  · intro i1 i2 hv1 hv2 he
    by_cases h1 : i1 = usedBlock c addr
    · by_cases h2 : i2 = usedBlock c addr
      · rw [h1, h2]
      · rw [h1, hlu0, hlu i2 h2] at he
        have := I1 i2
        omega
    · by_cases h2 : i2 = usedBlock c addr
      · rw [h2, hlu0, hlu i1 h1] at he
        have := I1 i1
        omega
      · rw [hlu i1 h1, hlu i2 h2] at he
        rcases (hV i1).1 hv1 with h3 | h3
        · exact absurd h3 h1
        rcases (hV i2).1 hv2 with h4 | h4
        · exact absurd h4 h2
        exact I4 i1 i2 h3 h4 he
  · intro i
    rw [hL i]
    have := I5 i
    push_cast
    split_ifs <;> omega
  · intro i1 i2 hs hv1 hv2
    rw [hbps] at hs
    by_cases h1 : i1 = usedBlock c addr
    · by_cases h2 : i2 = usedBlock c addr
      · rw [h1, h2]
        constructor <;> intro hc <;> exact absurd hc (lt_irrefl _)
      · rcases (hV i2).1 hv2 with h4 | h4
        · exact absurd h4 h2
        have hl1 : (r.1.blocks i1).lruLabel = 0 := by rw [hL i1, if_pos h1]
        have hl2 : (r.1.blocks i2).lruLabel = (c.blocks i2).lruLabel + 1 := by
          rw [hL i2, if_neg h2, if_pos ⟨by rw [← hs, h1], h4⟩]
        rw [hl1, hl2, h1, hlu0, hlu i2 h2]
        have := I1 i2
        have := (I5 i2).1
        constructor <;> intro <;> omega
    · by_cases h2 : i2 = usedBlock c addr
      · rcases (hV i1).1 hv1 with h3 | h3
        · exact absurd h3 h1
        have hl2 : (r.1.blocks i2).lruLabel = 0 := by rw [hL i2, if_pos h2]
        have hl1 : (r.1.blocks i1).lruLabel = (c.blocks i1).lruLabel + 1 := by
          rw [hL i1, if_neg h1, if_pos ⟨by rw [hs, h2], h3⟩]
        rw [hl1, hl2, h2, hlu0, hlu i1 h1]
        have := I1 i1
        have := (I5 i1).1
        constructor <;> intro <;> omega
      · rw [hlu i1 h1, hlu i2 h2]
        rcases (hV i1).1 hv1 with h3 | h3
        · exact absurd h3 h1
        rcases (hV i2).1 hv2 with h4 | h4
        · exact absurd h4 h2
        have h6 := I6 i1 i2 hs h3 h4
        by_cases hq : i1 / c.blocksPerSet = usedBlock c addr / c.blocksPerSet
        · have hl1 : (r.1.blocks i1).lruLabel = (c.blocks i1).lruLabel + 1 := by
            rw [hL i1, if_neg h1, if_pos ⟨hq, h3⟩]
          have hl2 : (r.1.blocks i2).lruLabel = (c.blocks i2).lruLabel + 1 := by
            rw [hL i2, if_neg h2, if_pos ⟨by rw [← hs]; exact hq, h4⟩]
          rw [hl1, hl2, h6]
          constructor <;> intro <;> omega
        · have hl1 : (r.1.blocks i1).lruLabel = (c.blocks i1).lruLabel := by
            rw [hL i1, if_neg h1, if_neg (fun hc => hq hc.1)]
          have hl2 : (r.1.blocks i2).lruLabel = (c.blocks i2).lruLabel := by
            rw [hL i2, if_neg h2, if_neg (fun hc => hq (by rw [hs]; exact hc.1))]
          rw [hl1, hl2]
          exact h6
  · intro i _ he
    by_cases hi : i = usedBlock c addr
    · rw [hL i, if_pos hi]
    · rw [hlu i hi] at he
      have := I1 i
      omega

theorem cache_init_some (bs ns bps : Int) (c0 : cacheStruct)
    (h : cache_init bs ns bps = some c0) :
    (0 < bs ∧ bs ≤ MAX_BLOCK_SIZE ∧ 0 < ns ∧ 0 < bps ∧ bps * ns ≤ MAX_CACHE_SIZE) ∧
    c0.blockSize = bs ∧ c0.numSets = ns ∧ c0.blocksPerSet = bps ∧
    ∀ i, c0.blocks i = emptyBlock := by
  unfold cache_init at h
  split_ifs at h with h1 h2 h3
  have h4 := Option.some.inj h
  subst h4
  refine ⟨⟨by omega, by omega, by omega, by omega, by omega⟩, rfl, rfl, rfl, fun i => rfl⟩

theorem lruInv_init (bs ns bps : Int) (c0 : cacheStruct)
    (h : cache_init bs ns bps = some c0) : LruInv c0 (fun _ => 0) 0 := by
  have hb := (cache_init_some bs ns bps c0 h).2.2.2.2
  refine ⟨fun i => le_refl _, fun i _ => rfl, ?_, ?_, ?_, ?_, ?_⟩
  · intro i hv
    rw [hb i] at hv
    exact absurd rfl hv
  · intro i1 i2 hv
    rw [hb i1] at hv
    exact absurd rfl hv
  · intro i
    rw [hb i]
    exact ⟨le_refl _, le_refl _⟩
  · intro i1 i2 _ hv
    rw [hb i1] at hv
    exact absurd rfl hv
  · intro i ht
    exact absurd ht (lt_irrefl _)

theorem cacheRun_cons (c : cacheStruct) (m : mainMemory) (q : accessCall)
    (qs : List accessCall) (x : cacheStruct × mainMemory × List Int)
    (h : cacheRun c m (q :: qs) = some x) :
    ∃ r y, cache_access c m q.addr q.write_flag q.write_data = some r ∧
      cacheRun r.1 r.2.1 qs = some y ∧ x = (y.1, y.2.1, r.2.2 :: y.2.2) := by
  simp only [cacheRun] at h
  cases hr : cache_access c m q.addr q.write_flag q.write_data with
  | none => rw [hr] at h; simp at h
  | some r =>
    rw [hr] at h
    simp only [Option.some_bind] at h
    cases hy : cacheRun r.1 r.2.1 qs with
    | none => rw [hy] at h; simp at h
    | some y =>
      rw [hy] at h
      simp only [Option.map_some'] at h
      exact ⟨r, y, rfl, hy, (Option.some.inj h).symm⟩

theorem lruInv_run (calls : List accessCall) (c : cacheStruct) (m : mainMemory)
    (lu : Int → Nat) (t : Nat) (hI : LruInv c lu t)
    (x : cacheStruct × mainMemory × List Int) (h : cacheRun c m calls = some x) :
    LruInv x.1 (useRun c m t lu calls) (t + calls.length) := by
  induction calls generalizing c m lu t x with
  | nil =>
    simp only [cacheRun] at h
    have := Option.some.inj h
    subst this
    exact hI
  | cons q qs ih =>
    obtain ⟨r, y, hr, hy, hx⟩ := cacheRun_cons c m q qs x h
    have hstep := lruInv_step c m q.addr q.write_flag q.write_data r hr lu t hI
    have := ih r.1 r.2.1 _ _ hstep y hy
    simp only [useRun, hr, List.length_cons]
    rw [hx]
    rw [show t + (qs.length + 1) = t + 1 + qs.length by omega]
    exact this


theorem cacheRun_config (calls : List accessCall) (c : cacheStruct) (m : mainMemory)
    (x : cacheStruct × mainMemory × List Int) (h : cacheRun c m calls = some x) :
    x.1.blockSize = c.blockSize ∧ x.1.numSets = c.numSets ∧
      x.1.blocksPerSet = c.blocksPerSet := by
  induction calls generalizing c m x with
  | nil =>
    simp only [cacheRun] at h
    have := Option.some.inj h
    subst this
    exact ⟨rfl, rfl, rfl⟩
  | cons q qs ih =>
    obtain ⟨r, y, hr, hy, hx⟩ := cacheRun_cons c m q qs x h
    have h1 := cache_access_config c m q.addr q.write_flag q.write_data r hr
    have h2 := ih r.1 r.2.1 y hy
    rw [hx]
    exact ⟨h2.1.trans h1.1, h2.2.1.trans h1.2.1, h2.2.2.trans h1.2.2⟩

theorem cacheRun_snoc (calls : List accessCall) (q : accessCall) (c : cacheStruct)
    (m : mainMemory) (x : cacheStruct × mainMemory × List Int)
    (h : cacheRun c m (calls ++ [q]) = some x) :
    ∃ y r, cacheRun c m calls = some y ∧
      cache_access y.1 y.2.1 q.addr q.write_flag q.write_data = some r ∧
      x = (r.1, r.2.1, y.2.2 ++ [r.2.2]) := by
  induction calls generalizing c m x with
  | nil =>
    obtain ⟨r, y, hr, hy, hx⟩ := cacheRun_cons c m q [] x h
    simp only [cacheRun] at hy
    have := Option.some.inj hy
    subst this
    exact ⟨(c, m, []), r, rfl, hr, by rw [hx]; rfl⟩
  | cons p ps ih =>
    obtain ⟨r, y, hr, hy, hx⟩ := cacheRun_cons c m p (ps ++ [q]) x h
    obtain ⟨y2, r2, h1, h2, h3⟩ := ih r.1 r.2.1 y hy
    refine ⟨(y2.1, y2.2.1, r.2.2 :: y2.2.2), r2, ?_, h2, ?_⟩
    · simp only [cacheRun, hr, Option.some_bind, h1, Option.map_some']
    · rw [hx, h3]
      rfl

theorem useRun_snoc (calls : List accessCall) (q : accessCall) (c : cacheStruct)
    (m : mainMemory) (t : Nat) (lu : Int → Nat) (y : cacheStruct × mainMemory × List Int)
    (r : cacheStruct × mainMemory × Int)
    (h1 : cacheRun c m calls = some y)
    (h2 : cache_access y.1 y.2.1 q.addr q.write_flag q.write_data = some r) :
    useRun c m t lu (calls ++ [q]) =
      Function.update (useRun c m t lu calls) (usedBlock y.1 q.addr) (t + calls.length + 1) := by
  induction calls generalizing c m t lu y with
  | nil =>
    simp only [cacheRun] at h1
    have := Option.some.inj h1
    subst this
    simp only [List.nil_append, useRun, h2, List.length_nil, add_zero]
  | cons p ps ih =>
    obtain ⟨r1, y1, hr, hy, hx⟩ := cacheRun_cons c m p ps y h1
    have hy2 : y.1 = y1.1 ∧ y.2.1 = y1.2.1 := by rw [hx]; exact ⟨rfl, rfl⟩
    rw [hy2.1, hy2.2] at h2
    have := ih r1.1 r1.2.1 (t + 1) (Function.update lu (usedBlock c p.addr) (t + 1)) y1 hy h2
    rw [List.cons_append]
    simp only [useRun, hr, List.length_cons]
    rw [this, hy2.1, show t + 1 + ps.length + 1 = t + (ps.length + 1) + 1 by omega]

/-- C29: replacement is least-recently-used within a set.  In every cache state
reached from `cache_init` by calls of `cache_access`, for an address that
misses: the labels of the valid blocks of a set are pairwise distinct and the
block that the last call worked with has label 0; if the addressed set has an
invalid block the miss fills the lowest-indexed one and `evict` writes nothing;
otherwise it replaces the block of the set with the strictly largest
`lruLabel`, which is the block whose most recent access is the oldest. -/
theorem lru_replacement (bs ns bps : Int) (c0 : cacheStruct)
    (h0 : cache_init bs ns bps = some c0) (m0 : mainMemory) (calls : List accessCall)
    (x : cacheStruct × mainMemory × List Int)
    (hrun : cacheRun c0 m0 calls = some x) (addr : Int)
    (hmiss : block_index x.1 (decode x.1 addr) = -1) :
    usedBlock x.1 addr = victim x.1 addr ∧
    (∀ S j1 j2 : Int, 0 ≤ j1 → j1 < bps → 0 ≤ j2 → j2 < bps → j1 ≠ j2 →
      (x.1.blocks (S * bps + j1)).valid ≠ 0 → (x.1.blocks (S * bps + j2)).valid ≠ 0 →
      (x.1.blocks (S * bps + j1)).lruLabel ≠ (x.1.blocks (S * bps + j2)).lruLabel) ∧
    (∀ pre q y, calls = pre ++ [q] → cacheRun c0 m0 pre = some y →
      (x.1.blocks (usedBlock y.1 q.addr)).lruLabel = 0 ∧
      lastUse c0 m0 calls (usedBlock y.1 q.addr) = calls.length) ∧
    (∀ j, 0 ≤ j → j < bps → (x.1.blocks ((decode x.1 addr).base + j)).valid = 0 →
      (∀ j', 0 ≤ j' → j' < j → (x.1.blocks ((decode x.1 addr).base + j')).valid ≠ 0) →
      victim x.1 addr = (decode x.1 addr).base + j ∧
      evict x.1 x.2.1 (evictedAddr x.1 (decode x.1 addr) (victim x.1 addr)) (victim x.1 addr) =
        x.2.1) ∧
    ((∀ j, 0 ≤ j → j < bps → (x.1.blocks ((decode x.1 addr).base + j)).valid ≠ 0) →
      ∃ r, 0 ≤ r ∧ r < bps ∧ victim x.1 addr = (decode x.1 addr).base + r ∧
        ∀ j, 0 ≤ j → j < bps → j ≠ r →
          (x.1.blocks ((decode x.1 addr).base + j)).lruLabel <
            (x.1.blocks ((decode x.1 addr).base + r)).lruLabel ∧
          lastUse c0 m0 calls ((decode x.1 addr).base + r) <
            lastUse c0 m0 calls ((decode x.1 addr).base + j)) := by
  obtain ⟨hcfg, -, -, hc3, -⟩ := cache_init_some bs ns bps c0 h0
  have hbps : x.1.blocksPerSet = bps := by
    rw [(cacheRun_config calls c0 m0 x hrun).2.2, hc3]
  have hpos : 0 < x.1.blocksPerSet := by rw [hbps]; exact hcfg.2.2.2.1
  have hI := lruInv_run calls c0 m0 (fun _ => 0) 0 (lruInv_init bs ns bps c0 h0) x hrun
  rw [Nat.zero_add] at hI
  obtain ⟨I1, I2, I3, I4, I5, I6, I7⟩ := hI
  have hset : ∀ S j : Int, 0 ≤ j → j < bps → (S * bps + j) / x.1.blocksPerSet = S := by
    intro S j h1 h2
    rw [hbps, ← in_set_iff _ _ _ hcfg.2.2.2.1]
    constructor <;> omega
  have hdist : ∀ i1 i2 : Int, i1 / x.1.blocksPerSet = i2 / x.1.blocksPerSet → i1 ≠ i2 →
      (x.1.blocks i1).valid ≠ 0 → (x.1.blocks i2).valid ≠ 0 →
      (x.1.blocks i1).lruLabel ≠ (x.1.blocks i2).lruLabel := by
    intro i1 i2 hs hne hv1 hv2 hl
    have h1 := I6 i1 i2 hs hv1 hv2
    have h2 := I6 i2 i1 hs.symm hv2 hv1
    have h3 : useRun c0 m0 0 (fun _ => 0) calls i1 ≠ useRun c0 m0 0 (fun _ => 0) calls i2 :=
      fun hc => hne (I4 i1 i2 hv1 hv2 hc)
    rw [hl] at h1 h2
    have h4 : ¬ (useRun c0 m0 0 (fun _ => 0) calls i1 < useRun c0 m0 0 (fun _ => 0) calls i2) :=
      fun hc => lt_irrefl _ (h1.1 hc)
    have h5 : ¬ (useRun c0 m0 0 (fun _ => 0) calls i2 < useRun c0 m0 0 (fun _ => 0) calls i1) :=
      fun hc => lt_irrefl _ (h2.1 hc)
    omega
  refine ⟨usedBlock_miss x.1 addr hmiss, ?_, ?_, ?_, ?_⟩
  · intro S j1 j2 h1 h2 h3 h4 hne hv1 hv2
    exact hdist _ _ (by rw [hset S j1 h1 h2, hset S j2 h3 h4]) (by omega) hv1 hv2
  · intro pre q y hcalls hpre
    subst hcalls
    obtain ⟨y2, r, h1, h2, h3⟩ := cacheRun_snoc pre q c0 m0 x hrun
    rw [hpre] at h1
    have h4 := Option.some.inj h1
    subst h4
    have hu : lastUse c0 m0 (pre ++ [q]) (usedBlock y.1 q.addr) = (pre ++ [q]).length := by
      unfold lastUse
      rw [useRun_snoc pre q c0 m0 0 (fun _ => 0) y r hpre h2, Function.update_same]
      simp
    refine ⟨?_, hu⟩
    apply I7 _ (by simp) 
    exact hu
  · intro j h1 h2 hv hfirst
    rcases find_block_to_replace_spec x.1 (decode x.1 addr) hpos with
      ⟨j', g1, g2, g3, g4, g5⟩ | ⟨g1, -⟩
    · have hj : j' = j := by
        by_contra hne
        rcases lt_or_gt_of_ne hne with hlt | hgt
        · exact hfirst j' g1 hlt g3
        · exact g4 j h1 hgt hv
      subst hj
      have hvic : victim x.1 addr = (decode x.1 addr).base + j' := g5
      refine ⟨hvic, ?_⟩
      unfold evict
      rw [hvic, if_pos hv]
    · exact absurd hv (g1 j h1 (by rw [hbps]; exact h2))
  · intro hall
    rcases find_block_to_replace_spec x.1 (decode x.1 addr) hpos with
      ⟨j', g1, g2, g3, -, -⟩ | ⟨-, r, g1, g2, g3, -, g5⟩
    · exact absurd g3 (hall j' g1 (by rw [← hbps]; exact g2))
    · rw [hbps] at g2
      refine ⟨r, g1, g2, g5, ?_⟩
      intro j h1 h2 hne
      have hs : ((decode x.1 addr).base + j) / x.1.blocksPerSet =
          ((decode x.1 addr).base + r) / x.1.blocksPerSet := by
        rw [decode_base, hbps, ← hbps, hbps]
        rw [show x.1.blocksPerSet = bps from hbps] at hset
        rw [hset _ j h1 h2, hset _ r g1 g2]
      have hle := g3 j h1 (by rw [hbps]; exact h2)
      have hneq := hdist _ _ hs (by omega) (hall j h1 h2) (hall r g1 g2)
      have hlt : (x.1.blocks ((decode x.1 addr).base + j)).lruLabel <
          (x.1.blocks ((decode x.1 addr).base + r)).lruLabel := by omega
      refine ⟨hlt, ?_⟩
      exact (I6 _ _ hs.symm (hall r g1 g2) (hall j h1 h2)).2 hlt

theorem lruInit_eq : cache_init 1 1 2 = some lruInit := by
  unfold cache_init
  rw [if_neg (by decide), if_neg (by decide), if_neg (by decide)]
  rfl

theorem lruExample_eq : cacheRun lruInit exampleMemory lruCalls = some lruExample := by
  have h : (cacheRun lruInit exampleMemory lruCalls).isSome = true := by decide
  unfold lruExample
  cases hc : cacheRun lruInit exampleMemory lruCalls with
  | none => rw [hc] at h; exact absurd h (by simp)
  | some x => rfl

/-- Witness of C29: after the reads of 0 and 1 in a set of two blocks the read
of address 2 misses and replaces block 0, which holds address 0. -/
theorem lru_replacement_witness :
    (victim lruExample.1 2 = 0 ∧ (lruExample.1.blocks 0).tag = 0 ∧
      (lruExample.1.blocks 0).lruLabel = 1 ∧ (lruExample.1.blocks 1).lruLabel = 0) ∧
    usedBlock lruExample.1 2 = victim lruExample.1 2 ∧
    (∀ S j1 j2 : Int, 0 ≤ j1 → j1 < 2 → 0 ≤ j2 → j2 < 2 → j1 ≠ j2 →
      (lruExample.1.blocks (S * 2 + j1)).valid ≠ 0 →
      (lruExample.1.blocks (S * 2 + j2)).valid ≠ 0 →
      (lruExample.1.blocks (S * 2 + j1)).lruLabel ≠
        (lruExample.1.blocks (S * 2 + j2)).lruLabel) ∧
    (∀ pre q y, lruCalls = pre ++ [q] → cacheRun lruInit exampleMemory pre = some y →
      (lruExample.1.blocks (usedBlock y.1 q.addr)).lruLabel = 0 ∧
      lastUse lruInit exampleMemory lruCalls (usedBlock y.1 q.addr) = lruCalls.length) ∧
    (∀ j, 0 ≤ j → j < 2 → (lruExample.1.blocks ((decode lruExample.1 2).base + j)).valid = 0 →
      (∀ j', 0 ≤ j' → j' < j →
        (lruExample.1.blocks ((decode lruExample.1 2).base + j')).valid ≠ 0) →
      victim lruExample.1 2 = (decode lruExample.1 2).base + j ∧
      evict lruExample.1 lruExample.2.1
        (evictedAddr lruExample.1 (decode lruExample.1 2) (victim lruExample.1 2))
        (victim lruExample.1 2) = lruExample.2.1) ∧
    ((∀ j, 0 ≤ j → j < 2 → (lruExample.1.blocks ((decode lruExample.1 2).base + j)).valid ≠ 0) →
      ∃ r, 0 ≤ r ∧ r < 2 ∧ victim lruExample.1 2 = (decode lruExample.1 2).base + r ∧
        ∀ j, 0 ≤ j → j < 2 → j ≠ r →
          (lruExample.1.blocks ((decode lruExample.1 2).base + j)).lruLabel <
            (lruExample.1.blocks ((decode lruExample.1 2).base + r)).lruLabel ∧
          lastUse lruInit exampleMemory lruCalls ((decode lruExample.1 2).base + r) <
            lastUse lruInit exampleMemory lruCalls ((decode lruExample.1 2).base + j)) :=
  ⟨by decide,
    lru_replacement 1 1 2 lruInit lruInit_eq exampleMemory lruCalls lruExample lruExample_eq 2
      (by decide)⟩


/-! ## The cache: addresses with power-of-two sizes -/

theorem decode_congr (c c' : cacheStruct) (a : Int) (h1 : c'.blockSize = c.blockSize)
    (h2 : c'.numSets = c.numSets) (h3 : c'.blocksPerSet = c.blocksPerSet) :
    decode c' a = decode c a := by
  unfold decode
  rw [h1, h2, h3]

theorem log2Nat_pow2 (k : Nat) : log2Nat ((2 : Int) ^ k).toNat = k := by
  have : ((2 : Int) ^ k).toNat = 2 ^ k := by
    have h : ((2 : Int) ^ k) = ((2 ^ k : Nat) : Int) := by push_cast; rfl
    rw [h, Int.toNat_ofNat]
  rw [this, log2Nat_two_pow]

theorem ediv_mul_eq (a b c : Int) (hb : 0 < b) (hc : 0 < c) : a / (b * c) = a / b / c := by
  have e1 := Int.ediv_add_emod a b
  have e2 := Int.ediv_add_emod (a / b) c
  have r1 := Int.emod_nonneg a (ne_of_gt hb)
  have r2 := Int.emod_lt_of_pos a hb
  have r3 := Int.emod_nonneg (a / b) (ne_of_gt hc)
  have r4 := Int.emod_lt_of_pos (a / b) hc
  have hbc : 0 < b * c := mul_pos hb hc
  have := (Int.ediv_emod_unique (a := a) (r := b * (a / b % c) + a % b) (q := a / b / c) hbc).2
    ⟨by
      have : b * (c * (a / b / c) + a / b % c) + a % b = a := by rw [e2]; exact e1
      linarith [this, mul_assoc b c (a / b / c), mul_add b (c * (a / b / c)) (a / b % c)],
     by positivity,
     by
      have h5 : b * (a / b % c) ≤ b * (c - 1) := mul_le_mul_of_nonneg_left (by omega) (le_of_lt hb)
      have h6 : b * (c - 1) = b * c - b := by ring
      omega⟩
  exact this.1

theorem decode_pow2 (c : cacheStruct) (bb ib : Nat) (hc : Pow2Config c bb ib) (a : Int) :
    (decode c a).block_offset = a % c.blockSize ∧
    (decode c a).set_index = (a / c.blockSize) % c.numSets ∧
    (decode c a).tag = a / c.blockSize / c.numSets := by
  obtain ⟨h1, h2, -⟩ := hc
  rw [decode_block_offset, decode_set_index, decode_tag, h1, h2, log2Nat_pow2, log2Nat_pow2]
  refine ⟨rfl, rfl, ?_⟩
  rw [pow_add, ediv_mul_eq _ _ _ (by positivity) (by positivity)]

theorem addr_decomp (c : cacheStruct) (bb ib : Nat) (hc : Pow2Config c bb ib) (a : Int) :
    a = ((decode c a).tag * c.numSets + (decode c a).set_index) * c.blockSize +
      (decode c a).block_offset := by
  obtain ⟨h1, h2, h3⟩ := decode_pow2 c bb ib hc a
  rw [h1, h2, h3]
  have e1 := Int.ediv_add_emod a c.blockSize
  have e2 := Int.ediv_add_emod (a / c.blockSize) c.numSets
  rw [mul_comm] at e2
  rw [e2, mul_comm]
  exact e1.symm

theorem decode_compose (c : cacheStruct) (bb ib : Nat) (hc : Pow2Config c bb ib)
    (t S k : Int) (hS : 0 ≤ S ∧ S < c.numSets) (hk : 0 ≤ k ∧ k < c.blockSize) :
    (decode c ((t * c.numSets + S) * c.blockSize + k)).tag = t ∧
    (decode c ((t * c.numSets + S) * c.blockSize + k)).set_index = S ∧
    (decode c ((t * c.numSets + S) * c.blockSize + k)).block_offset = k := by
  obtain ⟨h1, h2, h3⟩ := decode_pow2 c bb ib hc ((t * c.numSets + S) * c.blockSize + k)
  have hbs : 0 < c.blockSize := hc.2.2.1
  have hns : 0 < c.numSets := hc.2.2.2.2.1
  have e1 := (Int.ediv_emod_unique (a := (t * c.numSets + S) * c.blockSize + k) (r := k)
    (q := t * c.numSets + S) hbs).2 ⟨by ring, hk.1, hk.2⟩
  have e2 := (Int.ediv_emod_unique (a := t * c.numSets + S) (r := S) (q := t) hns).2
    ⟨by ring, hS.1, hS.2⟩
  rw [h1, h2, h3, e1.1, e1.2, e2.1, e2.2]
  exact ⟨rfl, rfl, rfl⟩

theorem blockStart_pow2 (c : cacheStruct) (bb ib : Nat) (hc : Pow2Config c bb ib) (a : Int)
    (ha : 0 ≤ a) :
    blockStart c a = ((decode c a).tag * c.numSets + (decode c a).set_index) * c.blockSize := by
  have hbs : 0 < c.blockSize := hc.2.2.1
  have h := addr_decomp c bb ib hc a
  have ho := (decode_pow2 c bb ib hc a).1
  unfold blockStart
  rw [Int.tmod_eq_emod ha (le_of_lt hbs), ← ho]
  omega

/-- An address lies in the block with tag `t` of set `S` exactly when it decodes
to that tag and set. -/
theorem in_block_iff (c : cacheStruct) (bb ib : Nat) (hc : Pow2Config c bb ib)
    (t S a : Int) (hS : 0 ≤ S ∧ S < c.numSets) :
    ((t * c.numSets + S) * c.blockSize ≤ a ∧
      a < (t * c.numSets + S) * c.blockSize + c.blockSize) ↔
    ((decode c a).tag = t ∧ (decode c a).set_index = S) := by
  have hbs : 0 < c.blockSize := hc.2.2.1
  constructor
  · rintro ⟨h1, h2⟩
    have := decode_compose c bb ib hc t S (a - (t * c.numSets + S) * c.blockSize) hS
      ⟨by omega, by omega⟩
    rw [show (t * c.numSets + S) * c.blockSize + (a - (t * c.numSets + S) * c.blockSize) = a
      by ring] at this
    exact ⟨this.1, this.2.1⟩
  · rintro ⟨h1, h2⟩
    have h := addr_decomp c bb ib hc a
    have ho := decode_block_offset_range c a hbs
    rw [h1, h2] at h
    constructor <;> omega

theorem set_index_range_pow2 (c : cacheStruct) (bb ib : Nat) (hc : Pow2Config c bb ib)
    (a : Int) : 0 ≤ (decode c a).set_index ∧ (decode c a).set_index < c.numSets :=
  decode_set_index_range c a hc.2.2.2.2.1

/-! ## The cache: the overlay -/

theorem block_index_of_match (c : cacheStruct) (addy : decoded_address)
    (hb : 0 < c.blocksPerSet)
    (hT : ∀ j1 j2 : Int, 0 ≤ j1 → j1 < c.blocksPerSet → 0 ≤ j2 → j2 < c.blocksPerSet →
      (c.blocks (addy.base + j1)).valid ≠ 0 → (c.blocks (addy.base + j2)).valid ≠ 0 →
      (c.blocks (addy.base + j1)).tag = (c.blocks (addy.base + j2)).tag → j1 = j2)
    (j : Int) (h1 : 0 ≤ j) (h2 : j < c.blocksPerSet)
    (hv : (c.blocks (addy.base + j)).valid ≠ 0) (ht : (c.blocks (addy.base + j)).tag = addy.tag) :
    block_index c addy = addy.base + j := by
  rcases block_index_spec c addy (le_of_lt hb) with ⟨-, h4⟩ | ⟨j', g1, g2, g3, -, g5⟩
  · exact absurd ⟨hv, ht⟩ (h4 j h1 h2)
  · have := hT j' j g1 g2 h1 h2 g3.1 hv (by rw [g3.2, ht])
    rw [g5, this]

theorem block_index_of_no_match (c : cacheStruct) (addy : decoded_address)
    (hb : 0 < c.blocksPerSet)
    (h : ∀ j, 0 ≤ j → j < c.blocksPerSet →
      ¬ ((c.blocks (addy.base + j)).valid ≠ 0 ∧ (c.blocks (addy.base + j)).tag = addy.tag)) :
    block_index c addy = -1 := by
  rcases block_index_spec c addy (le_of_lt hb) with ⟨h3, -⟩ | ⟨j', g1, g2, g3, -, -⟩
  · exact h3
  · exact absurd g3 (h j' g1 g2)


/-! ## The cache: preservation of the write-back invariant -/

theorem set_block_unique (bps S S' j j' : Int) (hb : 0 < bps) (hj : 0 ≤ j ∧ j < bps)
    (hj' : 0 ≤ j' ∧ j' < bps) (h : S * bps + j = S' * bps + j') : S = S' ∧ j = j' := by
  have h1 : (S * bps + j) / bps = S := (in_set_iff S bps _ hb).1 ⟨by omega, by omega⟩
  have h2 : (S' * bps + j') / bps = S' := (in_set_iff S' bps _ hb).1 ⟨by omega, by omega⟩
  rw [h] at h1
  have h3 : S = S' := by rw [← h1, h2]
  subst h3
  exact ⟨rfl, by omega⟩

theorem access_other (c : cacheStruct) (m : mainMemory) (addr w d : Int)
    (r : cacheStruct × mainMemory × Int) (h : cache_access c m addr w d = some r) (i : Int)
    (hi : i ≠ usedBlock c addr) :
    (r.1.blocks i).valid = (c.blocks i).valid ∧ (r.1.blocks i).tag = (c.blocks i).tag ∧
    (r.1.blocks i).dirty = (c.blocks i).dirty ∧ (r.1.blocks i).data = (c.blocks i).data := by
  refine ⟨?_, ?_, ?_, ?_⟩
  · rw [access_valid c m addr w d r h i, if_neg (fun hc => hi hc.2)]
  · rw [access_tag c m addr w d r h i, if_neg (fun hc => hi hc.2)]
  · rw [access_dirty c m addr w d r h i, if_neg hi]
  · funext k
    rw [access_data c m addr w d r h i k, if_neg hi]

theorem access_used (c : cacheStruct) (m : mainMemory) (addr w d : Int)
    (r : cacheStruct × mainMemory × Int) (h : cache_access c m addr w d = some r) :
    (r.1.blocks (usedBlock c addr)).valid ≠ 0 ∧
      (r.1.blocks (usedBlock c addr)).tag = (decode c addr).tag := by
  have hdef := cache_access_defined c m addr w d r h
  have hb : 0 < c.blocksPerSet := hdef.1.2.2.2.1
  constructor
  · exact (access_valid_iff c m addr w d r h _).2 (Or.inl rfl)
  · rw [access_tag c m addr w d r h]
    by_cases hm : block_index c (decode c addr) = -1
    · rw [if_pos ⟨hm, rfl⟩]
    · rw [if_neg (fun hc => hm hc.1)]
      exact (hit_block c addr hb hm).2

/-- No block of the addressed set other than the block used holds the tag of
the address. -/
theorem access_no_other (c : cacheStruct) (m : mainMemory) (f : Int → Int) (addr : Int)
    (hcfg : configOK c) (hI : CacheInv c m f) (j : Int) (hj : 0 ≤ j ∧ j < c.blocksPerSet)
    (hne : (decode c addr).set_index * c.blocksPerSet + j ≠ usedBlock c addr) :
    ¬ ((c.blocks ((decode c addr).set_index * c.blocksPerSet + j)).valid ≠ 0 ∧
      (c.blocks ((decode c addr).set_index * c.blocksPerSet + j)).tag = (decode c addr).tag) := by
  have hb : 0 < c.blocksPerSet := hcfg.2.2.2.1
  by_cases hm : block_index c (decode c addr) = -1
  · exact miss_no_match c addr hb (decode_base_range c addr hcfg).1 hm j hj.1 hj.2
  · rintro ⟨hv, ht⟩
    obtain ⟨j0, h1, h2, h3⟩ := usedBlock_in_set c addr hb
    rw [decode_base] at h3
    obtain ⟨hv0, ht0⟩ := hit_block c addr hb hm
    rw [h3] at hv0 ht0 hne
    have := hI.1 (decode c addr).set_index j j0 hj.1 hj.2 h1 h2 hv hv0 (by rw [ht, ht0])
    rw [this] at hne
    exact hne rfl

theorem cacheInv_tags (c : cacheStruct) (m : mainMemory) (f : Int → Int) (addr w d : Int)
    (r : cacheStruct × mainMemory × Int) (h : cache_access c m addr w d = some r)
    (hI : CacheInv c m f) (S j1 j2 : Int) (h1 : 0 ≤ j1 ∧ j1 < c.blocksPerSet)
    (h2 : 0 ≤ j2 ∧ j2 < c.blocksPerSet)
    (hv1 : (r.1.blocks (S * c.blocksPerSet + j1)).valid ≠ 0)
    (hv2 : (r.1.blocks (S * c.blocksPerSet + j2)).valid ≠ 0)
    (ht : (r.1.blocks (S * c.blocksPerSet + j1)).tag =
      (r.1.blocks (S * c.blocksPerSet + j2)).tag) : j1 = j2 := by
  have hdef := cache_access_defined c m addr w d r h
  have hb : 0 < c.blocksPerSet := hdef.1.2.2.2.1
  obtain ⟨j0, g1, g2, g3⟩ := usedBlock_in_set c addr hb
  rw [decode_base] at g3
  have hU := access_used c m addr w d r h
  -- a block other than the used one that carries the tag of the address
  have key : ∀ ja jb : Int, 0 ≤ ja ∧ ja < c.blocksPerSet → 0 ≤ jb ∧ jb < c.blocksPerSet →
      S * c.blocksPerSet + ja = usedBlock c addr →
      S * c.blocksPerSet + jb ≠ usedBlock c addr →
      (r.1.blocks (S * c.blocksPerSet + jb)).valid ≠ 0 →
      (r.1.blocks (S * c.blocksPerSet + ja)).tag = (r.1.blocks (S * c.blocksPerSet + jb)).tag →
      False := by
    intro ja jb ha hb' hea hneb hvb htab
    obtain ⟨e1, e2, -, -⟩ := access_other c m addr w d r h _ hneb
    have hS : S = (decode c addr).set_index :=
      (set_block_unique c.blocksPerSet S _ ja j0 hb ha ⟨g1, g2⟩ (by rw [hea, g3])).1
    rw [hea, hU.2] at htab
    rw [e1] at hvb
    rw [e2] at htab
    rw [hS] at hvb htab hneb
    exact access_no_other c m f addr hdef.1 hI jb hb' hneb ⟨hvb, htab.symm⟩
  by_cases e1 : S * c.blocksPerSet + j1 = usedBlock c addr
  · by_cases e2 : S * c.blocksPerSet + j2 = usedBlock c addr
    · omega
    · exact absurd (key j1 j2 h1 h2 e1 e2 hv2 ht) id
  · by_cases e2 : S * c.blocksPerSet + j2 = usedBlock c addr
    · exact absurd (key j2 j1 h2 h1 e2 e1 hv1 ht.symm) id
    · obtain ⟨a1, a2, -, -⟩ := access_other c m addr w d r h _ e1
      obtain ⟨b1, b2, -, -⟩ := access_other c m addr w d r h _ e2
      rw [a1] at hv1
      rw [b1] at hv2
      rw [a2, b2] at ht
      exact hI.1 S j1 j2 h1.1 h1.2 h2.1 h2.2 hv1 hv2 ht

theorem access_mem_unchanged (c : cacheStruct) (bb ib : Nat) (hc : Pow2Config c bb ib)
    (m : mainMemory) (addr w d : Int) (r : cacheStruct × mainMemory × Int)
    (h : cache_access c m addr w d = some r) (a : Int)
    (hno : ¬ (block_index c (decode c addr) = -1 ∧
      ((c.blocks (usedBlock c addr)).valid ≠ 0 ∧ (c.blocks (usedBlock c addr)).dirty ≠ 0) ∧
      (decode c a).tag = (c.blocks (usedBlock c addr)).tag ∧
      (decode c a).set_index = (decode c addr).set_index)) :
    r.2.1.mem a = m.mem a := by
  rw [access_mem c m addr w d r h a, if_neg]
  rintro ⟨h1, h2, h3⟩
  apply hno
  refine ⟨h1, h2, ?_⟩
  exact (in_block_iff c bb ib hc _ _ a (set_index_range_pow2 c bb ib hc addr)).1 h3

theorem access_mem_evicted (c : cacheStruct) (bb ib : Nat) (hc : Pow2Config c bb ib)
    (m : mainMemory) (addr w d : Int) (r : cacheStruct × mainMemory × Int)
    (h : cache_access c m addr w d = some r) (a : Int)
    (hm : block_index c (decode c addr) = -1)
    (hv : (c.blocks (usedBlock c addr)).valid ≠ 0)
    (hd : (c.blocks (usedBlock c addr)).dirty ≠ 0)
    (ht : (decode c a).tag = (c.blocks (usedBlock c addr)).tag)
    (hs : (decode c a).set_index = (decode c addr).set_index) :
    r.2.1.mem a = (c.blocks (usedBlock c addr)).data (decode c a).block_offset := by
  have hr := (in_block_iff c bb ib hc (c.blocks (usedBlock c addr)).tag
    (decode c addr).set_index a (set_index_range_pow2 c bb ib hc addr)).2 ⟨ht, hs⟩
  rw [access_mem c m addr w d r h a, if_pos ⟨hm, ⟨hv, hd⟩, hr⟩]
  have hdec := addr_decomp c bb ib hc a
  rw [ht, hs] at hdec
  congr 1
  unfold evictedAddr
  omega

theorem cacheInv_clean (c : cacheStruct) (bb ib : Nat) (hc : Pow2Config c bb ib)
    (m : mainMemory) (f : Int → Int) (addr w d : Int) (ha : 0 ≤ addr)
    (r : cacheStruct × mainMemory × Int) (h : cache_access c m addr w d = some r)
    (hI : CacheInv c m f) (S j k : Int) (hS : 0 ≤ S ∧ S < c.numSets)
    (hj : 0 ≤ j ∧ j < c.blocksPerSet)
    (hv : (r.1.blocks (S * c.blocksPerSet + j)).valid ≠ 0)
    (hd : (r.1.blocks (S * c.blocksPerSet + j)).dirty = 0)
    (hk : 0 ≤ k ∧ k < c.blockSize) :
    (r.1.blocks (S * c.blocksPerSet + j)).data k =
      r.2.1.mem (((r.1.blocks (S * c.blocksPerSet + j)).tag * c.numSets + S) * c.blockSize
        + k) := by
  have hdef := cache_access_defined c m addr w d r h
  have hb : 0 < c.blocksPerSet := hdef.1.2.2.2.1
  obtain ⟨j0, g1, g2, g3⟩ := usedBlock_in_set c addr hb
  rw [decode_base] at g3
  have hU := access_used c m addr w d r h
  by_cases e : S * c.blocksPerSet + j = usedBlock c addr
  · have hSj := set_block_unique c.blocksPerSet S _ j j0 hb hj ⟨g1, g2⟩ (by rw [e, g3])
    rw [e] at hv hd ⊢
    rw [hU.2]
    rw [access_dirty c m addr w d r h, if_pos rfl] at hd
    have hw : ¬ w ≠ 0 := by
      intro hw
      rw [if_pos hw] at hd
      exact absurd hd (by decide)
    rw [if_neg hw] at hd
    rw [access_data c m addr w d r h, if_pos rfl, if_neg (fun hc' => hw hc'.1)]
    by_cases hm : block_index c (decode c addr) = -1
    · rw [if_pos ⟨hm, hk⟩, blockStart_pow2 c bb ib hc addr ha, hSj.1]
    · rw [if_neg (fun hc' => hm hc'.1)]
      rw [if_neg hm] at hd
      obtain ⟨hv0, ht0⟩ := hit_block c addr hb hm
      have hcl := hI.2.1 (decode c addr).set_index j0 k
        (set_index_range_pow2 c bb ib hc addr).1 (set_index_range_pow2 c bb ib hc addr).2
        g1 g2 (by rw [← g3]; exact hv0) (by rw [← g3]; exact hd) hk.1 hk.2
      rw [← g3, ht0] at hcl
      rw [hcl, hSj.1]
      symm
      apply access_mem_unchanged c bb ib hc m addr w d r h
      exact fun hc' => hm hc'.1
  · obtain ⟨a1, a2, a3, a4⟩ := access_other c m addr w d r h _ e
    rw [a1] at hv
    rw [a3] at hd
    rw [a2, a4, hI.2.1 S j k hS.1 hS.2 hj.1 hj.2 hv hd hk.1 hk.2]
    symm
    apply access_mem_unchanged c bb ib hc m addr w d r h
    rintro ⟨-, ⟨hv0, -⟩, ht, hs⟩
    obtain ⟨d1, d2, -⟩ := decode_compose c bb ib hc
      (c.blocks (S * c.blocksPerSet + j)).tag S k hS hk
    rw [d1] at ht
    rw [d2] at hs
    rw [g3] at hv0 ht
    rw [hs] at hv ht e
    have := hI.1 (decode c addr).set_index j j0 hj.1 hj.2 g1 g2 hv hv0 ht
    rw [this, ← g3] at e
    exact e rfl

theorem overlay_match_of_tags (c : cacheStruct) (m : mainMemory) (hcfg : configOK c)
    (hT : ∀ S j1 j2 : Int, 0 ≤ j1 → j1 < c.blocksPerSet → 0 ≤ j2 → j2 < c.blocksPerSet →
      (c.blocks (S * c.blocksPerSet + j1)).valid ≠ 0 →
      (c.blocks (S * c.blocksPerSet + j2)).valid ≠ 0 →
      (c.blocks (S * c.blocksPerSet + j1)).tag = (c.blocks (S * c.blocksPerSet + j2)).tag →
      j1 = j2)
    (a j : Int) (hj : 0 ≤ j ∧ j < c.blocksPerSet)
    (hv : (c.blocks ((decode c a).set_index * c.blocksPerSet + j)).valid ≠ 0)
    (ht : (c.blocks ((decode c a).set_index * c.blocksPerSet + j)).tag = (decode c a).tag) :
    overlay c m a =
      (c.blocks ((decode c a).set_index * c.blocksPerSet + j)).data (decode c a).block_offset := by
  have hb : 0 < c.blocksPerSet := hcfg.2.2.2.1
  have hbase := (decode_base_range c a hcfg).1
  have hbi : block_index c (decode c a) = (decode c a).base + j :=
    block_index_of_match c (decode c a) hb
      (fun j1 j2 h1 h2 h3 h4 => hT (decode c a).set_index j1 j2 h1 h2 h3 h4) j hj.1 hj.2 hv ht
  unfold overlay
  rw [hbi, if_neg (by omega), decode_base]

theorem overlay_match (c : cacheStruct) (m : mainMemory) (f : Int → Int) (hcfg : configOK c)
    (hI : CacheInv c m f) (a j : Int) (hj : 0 ≤ j ∧ j < c.blocksPerSet)
    (hv : (c.blocks ((decode c a).set_index * c.blocksPerSet + j)).valid ≠ 0)
    (ht : (c.blocks ((decode c a).set_index * c.blocksPerSet + j)).tag = (decode c a).tag) :
    overlay c m a =
      (c.blocks ((decode c a).set_index * c.blocksPerSet + j)).data (decode c a).block_offset :=
  overlay_match_of_tags c m hcfg hI.1 a j hj hv ht

theorem overlay_no_match (c : cacheStruct) (m : mainMemory) (hcfg : configOK c) (a : Int)
    (h : ∀ j, 0 ≤ j → j < c.blocksPerSet →
      ¬ ((c.blocks ((decode c a).set_index * c.blocksPerSet + j)).valid ≠ 0 ∧
        (c.blocks ((decode c a).set_index * c.blocksPerSet + j)).tag = (decode c a).tag)) :
    overlay c m a = m.mem a := by
  have hb : 0 < c.blocksPerSet := hcfg.2.2.2.1
  unfold overlay
  rw [if_pos (block_index_of_no_match c (decode c a) hb h)]

theorem flatAccess_other (f : Int → Int) (addr w d a : Int) (h : ¬ (w ≠ 0 ∧ a = addr)) :
    (flatAccess f ⟨addr, w, d⟩).1 a = f a := by
  unfold flatAccess
  by_cases hw : w ≠ 0
  · rw [if_pos hw]
    exact Function.update_noteq (fun hc => h ⟨hw, hc⟩) _ _
  · rw [if_neg hw]

theorem flatAccess_same (f : Int → Int) (addr w d : Int) (h : w ≠ 0) :
    (flatAccess f ⟨addr, w, d⟩).1 addr = d := by
  unfold flatAccess
  rw [if_pos h]
  exact Function.update_same _ _ _

theorem pow2Config_access (c : cacheStruct) (bb ib : Nat) (hc : Pow2Config c bb ib)
    (m : mainMemory) (addr w d : Int) (r : cacheStruct × mainMemory × Int)
    (h : cache_access c m addr w d = some r) : Pow2Config r.1 bb ib := by
  obtain ⟨h1, h2, h3⟩ := cache_access_config c m addr w d r h
  unfold Pow2Config configOK
  rw [h1, h2, h3]
  exact hc

/-- The invariant of the new cache on tags, in the form used for the overlay. -/
theorem cacheInv_tags_new (c : cacheStruct) (m : mainMemory) (f : Int → Int) (addr w d : Int)
    (r : cacheStruct × mainMemory × Int) (h : cache_access c m addr w d = some r)
    (hI : CacheInv c m f) (S j1 j2 : Int) (h1 : 0 ≤ j1) (h1' : j1 < r.1.blocksPerSet)
    (h2 : 0 ≤ j2) (h2' : j2 < r.1.blocksPerSet)
    (hv1 : (r.1.blocks (S * r.1.blocksPerSet + j1)).valid ≠ 0)
    (hv2 : (r.1.blocks (S * r.1.blocksPerSet + j2)).valid ≠ 0)
    (ht : (r.1.blocks (S * r.1.blocksPerSet + j1)).tag =
      (r.1.blocks (S * r.1.blocksPerSet + j2)).tag) : j1 = j2 := by
  have h3 := (cache_access_config c m addr w d r h).2.2
  rw [h3] at h1' h2' hv1 hv2 ht
  exact cacheInv_tags c m f addr w d r h hI S j1 j2 ⟨h1, h1'⟩ ⟨h2, h2'⟩ hv1 hv2 ht


theorem cacheInv_overlay (c : cacheStruct) (bb ib : Nat) (hc : Pow2Config c bb ib)
    (m : mainMemory) (f : Int → Int) (addr w d : Int) (ha : 0 ≤ addr)
    (r : cacheStruct × mainMemory × Int) (h : cache_access c m addr w d = some r)
    (hI : CacheInv c m f) (a : Int) :
    overlay r.1 r.2.1 a = (flatAccess f ⟨addr, w, d⟩).1 a := by
  have hdef := cache_access_defined c m addr w d r h
  have hcfg : configOK c := hdef.1
  have hb : 0 < c.blocksPerSet := hcfg.2.2.2.1
  have hbs : 0 < c.blockSize := hcfg.1
  obtain ⟨c1, c2, c3⟩ := cache_access_config c m addr w d r h
  have hcr := pow2Config_access c bb ib hc m addr w d r h
  have edec : ∀ x, decode r.1 x = decode c x := fun x => decode_congr c r.1 x c1 c2 c3
  have hTr := cacheInv_tags_new c m f addr w d r h hI
  obtain ⟨j0, g1, g2, g3⟩ := usedBlock_in_set c addr hb
  rw [decode_base] at g3
  have hU := access_used c m addr w d r h
  have hSr := set_index_range_pow2 c bb ib hc addr
  have hSa := set_index_range_pow2 c bb ib hc a
  have hoa := decode_block_offset_range c a hbs
  have hda := addr_decomp c bb ib hc a
  have hdaddr := addr_decomp c bb ib hc addr
  by_cases hP : (decode c a).set_index = (decode c addr).set_index ∧
      (decode c a).tag = (decode c addr).tag
  · -- the address lies in the block of the access
    obtain ⟨hS, ht⟩ := hP
    have hov : overlay r.1 r.2.1 a =
        (r.1.blocks (usedBlock c addr)).data (decode c a).block_offset := by
      have := overlay_match_of_tags r.1 r.2.1 hcr.2.2 hTr a j0 (by rw [c3]; exact ⟨g1, g2⟩)
        (by rw [edec, c3, hS, ← g3]; exact hU.1)
        (by rw [edec, c3, hS, ← g3, ht]; exact hU.2)
      rw [this, edec, c3, hS, ← g3]
    rw [hov, access_data c m addr w d r h, if_pos rfl]
    by_cases hwo : w ≠ 0 ∧ (decode c a).block_offset = (decode c addr).block_offset
    · rw [if_pos hwo]
      have : a = addr := by
        rw [hda, hdaddr, hS, ht, hwo.2]
      rw [this, flatAccess_same f addr w d hwo.1]
    · rw [if_neg hwo]
      have hne : ¬ (w ≠ 0 ∧ a = addr) := by
        rintro ⟨h1, h2⟩
        exact hwo ⟨h1, by rw [h2]⟩
      rw [flatAccess_other f addr w d a hne, ← hI.2.2 a]
      by_cases hm : block_index c (decode c addr) = -1
      · rw [if_pos ⟨hm, hoa⟩, blockStart_pow2 c bb ib hc addr ha, ← hS, ← ht, ← hda]
        rw [access_mem_unchanged c bb ib hc m addr w d r h a]
        · symm
          apply overlay_no_match c m hcfg a
          intro j h1 h2
          rw [hS, ht]
          exact miss_no_match c addr hb (decode_base_range c addr hcfg).1 hm j h1 h2
        · rintro ⟨-, ⟨hv, -⟩, ht2, -⟩
          have := miss_no_match c addr hb (decode_base_range c addr hcfg).1 hm j0 g1 g2
          rw [decode_base, ← g3] at this
          exact this ⟨hv, by rw [← ht2, ht]⟩
      · rw [if_neg (fun hq => hm hq.1)]
        obtain ⟨hv0, ht0⟩ := hit_block c addr hb hm
        have := overlay_match c m f hcfg hI a j0 ⟨g1, g2⟩
          (by rw [hS, ← g3]; exact hv0) (by rw [hS, ← g3, ht]; exact ht0)
        rw [this, hS, ← g3]
  · -- the address lies in another block
    have hne : ¬ (w ≠ 0 ∧ a = addr) := by
      rintro ⟨-, h2⟩
      exact hP ⟨by rw [h2], by rw [h2]⟩
    rw [flatAccess_other f addr w d a hne, ← hI.2.2 a]
    by_cases hmatch : ∃ j, 0 ≤ j ∧ j < c.blocksPerSet ∧
        (r.1.blocks ((decode c a).set_index * c.blocksPerSet + j)).valid ≠ 0 ∧
        (r.1.blocks ((decode c a).set_index * c.blocksPerSet + j)).tag = (decode c a).tag
    · obtain ⟨j, h1, h2, hv, ht⟩ := hmatch
      have hne2 : (decode c a).set_index * c.blocksPerSet + j ≠ usedBlock c addr := by
        intro he
        have := set_block_unique c.blocksPerSet _ _ j j0 hb ⟨h1, h2⟩ ⟨g1, g2⟩
          (by rw [he, g3])
        rw [he, hU.2] at ht
        exact hP ⟨this.1, ht.symm⟩
      obtain ⟨a1, a2, -, a4⟩ := access_other c m addr w d r h _ hne2
      have e1 := overlay_match_of_tags r.1 r.2.1 hcr.2.2 hTr a j (by rw [c3]; exact ⟨h1, h2⟩)
        (by rw [edec, c3]; exact hv) (by rw [edec, c3]; exact ht)
      have e2 := overlay_match c m f hcfg hI a j ⟨h1, h2⟩ (by rw [← a1]; exact hv)
        (by rw [← a2]; exact ht)
      rw [e1, e2, edec, c3, a4]
    · have e1 : overlay r.1 r.2.1 a = r.2.1.mem a := by
        apply overlay_no_match r.1 r.2.1 hcr.2.2 a
        intro j h1 h2 hq
        rw [edec, c3] at hq
        rw [c3] at h2
        exact hmatch ⟨j, h1, h2, hq.1, hq.2⟩
      rw [e1]
      by_cases hold : (decode c a).set_index = (decode c addr).set_index ∧
          (c.blocks (usedBlock c addr)).valid ≠ 0 ∧
          (c.blocks (usedBlock c addr)).tag = (decode c a).tag
      · obtain ⟨hS, hv0, ht0⟩ := hold
        have hm : block_index c (decode c addr) = -1 := by
          by_contra hm
          exact hP ⟨hS, by rw [← ht0, (hit_block c addr hb hm).2]⟩
        have e2 := overlay_match c m f hcfg hI a j0 ⟨g1, g2⟩
          (by rw [hS, ← g3]; exact hv0) (by rw [hS, ← g3]; exact ht0)
        rw [e2, hS, ← g3]
        by_cases hd : (c.blocks (usedBlock c addr)).dirty ≠ 0
        · exact access_mem_evicted c bb ib hc m addr w d r h a hm hv0 hd ht0.symm hS
        · rw [access_mem_unchanged c bb ib hc m addr w d r h a (fun hq => hd hq.2.1.2)]
          have hcl := hI.2.1 (decode c addr).set_index j0 (decode c a).block_offset hSr.1 hSr.2
            g1 g2 (by rw [← g3]; exact hv0) (by rw [← g3]; exact not_not.mp hd) hoa.1 hoa.2
          rw [← g3, ht0, ← hS, ← hda] at hcl
          exact hcl.symm
      · have e2 : overlay c m a = m.mem a := by
          apply overlay_no_match c m hcfg a
          intro j h1 h2 hq
          by_cases he : (decode c a).set_index * c.blocksPerSet + j = usedBlock c addr
          · have := set_block_unique c.blocksPerSet _ _ j j0 hb ⟨h1, h2⟩ ⟨g1, g2⟩
              (by rw [he, g3])
            rw [he] at hq
            exact hold ⟨this.1, hq.1, hq.2⟩
          · obtain ⟨a1, a2, -, -⟩ := access_other c m addr w d r h _ he
            exact hmatch ⟨j, h1, h2, by rw [a1]; exact hq.1, by rw [a2]; exact hq.2⟩
        rw [e2]
        apply access_mem_unchanged c bb ib hc m addr w d r h a
        rintro ⟨-, ⟨hv, -⟩, ht2, hs2⟩
        exact hold ⟨hs2, hv, ht2.symm⟩


/-! ## The cache: transparency -/

theorem cacheInv_step (c : cacheStruct) (bb ib : Nat) (hc : Pow2Config c bb ib)
    (m : mainMemory) (f : Int → Int) (addr w d : Int) (ha : 0 ≤ addr)
    (r : cacheStruct × mainMemory × Int) (h : cache_access c m addr w d = some r)
    (hI : CacheInv c m f) :
    CacheInv r.1 r.2.1 (flatAccess f ⟨addr, w, d⟩).1 ∧ r.2.2 = (flatAccess f ⟨addr, w, d⟩).2 := by
  have hdef := cache_access_defined c m addr w d r h
  have hb : 0 < c.blocksPerSet := hdef.1.2.2.2.1
  obtain ⟨c1, c2, c3⟩ := cache_access_config c m addr w d r h
  have hcr := pow2Config_access c bb ib hc m addr w d r h
  have hov := cacheInv_overlay c bb ib hc m f addr w d ha r h hI
  refine ⟨⟨cacheInv_tags_new c m f addr w d r h hI, ?_, hov⟩, ?_⟩
  · intro S j k h1 h2 h3 h4 hv hd h5 h6
    rw [c1, c2, c3] at *
    exact cacheInv_clean c bb ib hc m f addr w d ha r h hI S j k ⟨h1, h2⟩ ⟨h3, h4⟩ hv hd ⟨h5, h6⟩
  · rw [access_value c m addr w d r h]
    unfold flatAccess
    by_cases hw : w ≠ 0
    · rw [if_pos hw, if_pos hw]
    · rw [if_neg hw, if_neg hw]
      show _ = f addr
      have e := hov addr
      rw [flatAccess_other f addr w d addr (fun hq => hw hq.1)] at e
      rw [← e]
      obtain ⟨j0, g1, g2, g3⟩ := usedBlock_in_set c addr hb
      rw [decode_base] at g3
      have hU := access_used c m addr w d r h
      have edec : decode r.1 addr = decode c addr := decode_congr c r.1 addr c1 c2 c3
      have := overlay_match_of_tags r.1 r.2.1 hcr.2.2
        (cacheInv_tags_new c m f addr w d r h hI) addr j0 (by rw [c3]; exact ⟨g1, g2⟩)
        (by rw [edec, c3, ← g3]; exact hU.1) (by rw [edec, c3, ← g3]; exact hU.2)
      rw [this, edec, c3, ← g3]

theorem cacheInv_init (bs ns bps : Int) (c0 : cacheStruct)
    (h : cache_init bs ns bps = some c0) (m0 : mainMemory) : CacheInv c0 m0 m0.mem := by
  obtain ⟨hcfg, h1, h2, h3, hb⟩ := cache_init_some bs ns bps c0 h
  have hv : ∀ i, (c0.blocks i).valid = 0 := fun i => by rw [hb i]; rfl
  refine ⟨?_, ?_, ?_⟩
  · intro S j1 j2 _ _ _ _ hv1
    exact absurd (hv _) hv1
  · intro S j k _ _ _ _ hv1
    exact absurd (hv _) hv1
  · intro a
    apply overlay_no_match c0 m0
    · unfold configOK
      rw [h1, h2, h3]
      exact hcfg
    · intro j _ _ hq
      exact hq.1 (hv _)

theorem cacheInv_run (calls : List accessCall) (c : cacheStruct) (bb ib : Nat)
    (hc : Pow2Config c bb ib) (m : mainMemory) (f : Int → Int) (hI : CacheInv c m f)
    (hr : ∀ q ∈ calls, 0 ≤ q.addr) (x : cacheStruct × mainMemory × List Int)
    (h : cacheRun c m calls = some x) :
    CacheInv x.1 x.2.1 (flatRun f calls).1 ∧ x.2.2 = (flatRun f calls).2 := by
  induction calls generalizing c m f x with
  | nil =>
    simp only [cacheRun] at h
    have := Option.some.inj h
    subst this
    exact ⟨hI, rfl⟩
  | cons q qs ih =>
    obtain ⟨r, y, hr1, hy, hx⟩ := cacheRun_cons c m q qs x h
    have hq := hr q (List.mem_cons_self q qs)
    obtain ⟨s1, s2⟩ := cacheInv_step c bb ib hc m f q.addr q.write_flag q.write_data hq r hr1 hI
    have := ih r.1 (pow2Config_access c bb ib hc m _ _ _ r hr1) r.2.1 _ s1
      (fun p hp => hr p (List.mem_cons_of_mem q hp)) y hy
    rw [hx]
    simp only [flatRun]
    exact ⟨this.1, by rw [s2, this.2]⟩

theorem flatRun_lastWritten (calls : List accessCall) (f : Int → Int) (a : Int) :
    (flatRun f calls).1 a = lastWritten f calls a := by
  induction calls generalizing f with
  | nil => rfl
  | cons q qs ih =>
    simp only [flatRun]
    rw [ih]
    unfold lastWritten
    rw [List.reverse_cons, List.find?_append]
    cases hfind : List.find? (fun q => decide (q.write_flag ≠ 0 ∧ q.addr = a)) qs.reverse with
    | some p => rfl
    | none =>
      simp only [Option.none_or, List.find?_cons, List.find?_nil]
      by_cases hp : q.write_flag ≠ 0 ∧ q.addr = a
      · rw [decide_eq_true hp]
        show (flatAccess f q).1 a = q.write_data
        unfold flatAccess
        rw [if_pos hp.1, ← hp.2]
        exact Function.update_same _ _ _
      · rw [decide_eq_false hp]
        show (flatAccess f q).1 a = f a
        exact flatAccess_other f q.addr q.write_flag q.write_data a
          (fun hq => hp ⟨hq.1, hq.2.symm⟩)

theorem flatRun_result (pre : List accessCall) (q : accessCall) (post : List accessCall)
    (f : Int → Int) :
    (flatRun f (pre ++ q :: post)).2[pre.length]? =
      some (flatAccess (flatRun f pre).1 q).2 := by
  induction pre generalizing f with
  | nil => simp [flatRun]
  | cons p ps ih =>
    simp only [List.cons_append, flatRun, List.length_cons, List.getElem?_cons_succ]
    exact ih _

theorem pow2Config_init (bb ib : Nat) (bps : Int) (c0 : cacheStruct)
    (h0 : cache_init (2 ^ bb) (2 ^ ib) bps = some c0) : Pow2Config c0 bb ib := by
  obtain ⟨hcfg, h1, h2, h3, -⟩ := cache_init_some _ _ bps c0 h0
  unfold Pow2Config configOK
  rw [h1, h2, h3]
  exact ⟨rfl, rfl, hcfg⟩


/-! ## The cache: the accesses of a run are defined -/

theorem block_end_le (bs q : Int) (bb : Nat) (hbs : bs = 2 ^ bb) (hle : bs ≤ 256)
    (h : q * bs < 65536) : q * bs + bs ≤ 65536 := by
  have hb8 : bb ≤ 8 := by
    by_contra hc
    have : (2 : Int) ^ 9 ≤ 2 ^ bb := pow_le_pow_right₀ (by norm_num) (by omega)
    rw [← hbs] at this
    norm_num at this
    omega
  have hK : (65536 : Int) = 2 ^ (16 - bb) * bs := by
    rw [hbs, ← pow_add, show 16 - bb + bb = 16 by omega]
    norm_num
  have hpos : (0 : Int) < bs := by rw [hbs]; positivity
  rw [hK] at h ⊢
  have h1 : q < 2 ^ (16 - bb) := lt_of_mul_lt_mul_right h (le_of_lt hpos)
  have h2 : (q + 1) * bs ≤ 2 ^ (16 - bb) * bs :=
    mul_le_mul_of_nonneg_right (by omega) (le_of_lt hpos)
  linarith [h2, add_mul q 1 bs]

theorem decode_tag_nonneg (c : cacheStruct) (bb ib : Nat) (hc : Pow2Config c bb ib) (a : Int)
    (ha : 0 ≤ a) : 0 ≤ (decode c a).tag := by
  rw [(decode_pow2 c bb ib hc a).2.2]
  have hbs : 0 < c.blockSize := hc.2.2.1
  have hns : 0 < c.numSets := hc.2.2.2.2.1
  exact Int.ediv_nonneg (Int.ediv_nonneg ha (le_of_lt hbs)) (le_of_lt hns)

theorem tagInv_step (c : cacheStruct) (bb ib : Nat) (hc : Pow2Config c bb ib)
    (m : mainMemory) (addr w d : Int) (ha : 0 ≤ addr ∧ addr < 65536)
    (r : cacheStruct × mainMemory × Int) (h : cache_access c m addr w d = some r)
    (hI : TagInv c) : TagInv r.1 := by
  have hdef := cache_access_defined c m addr w d r h
  have hb : 0 < c.blocksPerSet := hdef.1.2.2.2.1
  have hbs : 0 < c.blockSize := hdef.1.1
  obtain ⟨c1, c2, c3⟩ := cache_access_config c m addr w d r h
  obtain ⟨j0, g1, g2, g3⟩ := usedBlock_in_set c addr hb
  rw [decode_base] at g3
  have hU := access_used c m addr w d r h
  constructor
  · intro i hv
    have hi : i ≠ usedBlock c addr := by
      intro hq
      rw [hq] at hv
      exact hU.1 hv
    obtain ⟨a1, a2, -, -⟩ := access_other c m addr w d r h i hi
    rw [a2]
    rw [a1] at hv
    exact hI.1 i hv
  · intro S j h1 h2 h3 h4 hv
    rw [c1, c2, c3] at *
    by_cases e : S * c.blocksPerSet + j = usedBlock c addr
    · have hSj := set_block_unique c.blocksPerSet S _ j j0 hb ⟨h3, h4⟩ ⟨g1, g2⟩ (by rw [e, g3])
      rw [e, hU.2, hSj.1]
      refine ⟨decode_tag_nonneg c bb ib hc addr ha.1, ?_⟩
      apply block_end_le c.blockSize _ bb hc.1 hdef.1.2.1
      have hd := addr_decomp c bb ib hc addr
      have ho := decode_block_offset_range c addr hbs
      omega
    · obtain ⟨a1, a2, -, -⟩ := access_other c m addr w d r h _ e
      rw [a2]
      rw [a1] at hv
      exact hI.2 S j h1 h2 h3 h4 hv

theorem tagInv_init (bs ns bps : Int) (c0 : cacheStruct)
    (h : cache_init bs ns bps = some c0) : TagInv c0 := by
  have hb := (cache_init_some bs ns bps c0 h).2.2.2.2
  constructor
  · intro i _
    rw [hb i]
    rfl
  · intro S j _ _ _ _ hv
    rw [hb _] at hv
    exact absurd rfl hv

/-- With power-of-two sizes, cached blocks inside the memory and labels below
`INT_MAX`, an access to an address of the memory is defined. -/
theorem accessDefined_of_inv (c : cacheStruct) (bb ib : Nat) (hc : Pow2Config c bb ib)
    (hT : TagInv c) (hL : ∀ i, (c.blocks i).lruLabel < 2147483647) (addr : Int)
    (ha : 0 ≤ addr ∧ addr < 65536) : accessDefined c addr := by
  have hcfg := hc.2.2
  obtain ⟨hbs, hbs2, hns, hb, hsz⟩ := hcfg
  have hS := set_index_range_pow2 c bb ib hc addr
  have hns2 : c.numSets ≤ 256 := by
    have : 1 * c.numSets ≤ c.blocksPerSet * c.numSets :=
      mul_le_mul_of_nonneg_right (by omega) (le_of_lt hns)
    have h256 : MAX_CACHE_SIZE = 256 := rfl
    omega
  have h256 : MAX_BLOCK_SIZE = 256 := rfl
  refine ⟨hc.2.2, ⟨by omega, by omega⟩, ?_, ?_⟩
  · intro hm
    obtain ⟨j0, g1, g2, g3⟩ := usedBlock_in_set c addr hb
    rw [usedBlock_miss c addr hm, decode_base] at g3
    have hst := blockStart_aligned c addr hbs ha.1
    unfold evictedAddr
    by_cases hv : (c.blocks (victim c addr)).valid = 0
    · have ht := hT.1 _ hv
      rw [ht]
      have e1 : (-1 * c.numSets + (decode c addr).set_index) * c.blockSize ≤ 0 :=
        mul_nonpos_of_nonpos_of_nonneg (by omega) (le_of_lt hbs)
      have e2 : -(256 * 256) ≤ (-1 * c.numSets + (decode c addr).set_index) * c.blockSize := by
        have : (c.numSets - (decode c addr).set_index) * c.blockSize ≤ 256 * 256 :=
          mul_le_mul (by omega) (by omega) (le_of_lt hbs) (by norm_num)
        linarith [this, sub_mul c.numSets (decode c addr).set_index c.blockSize,
          add_mul (-1 * c.numSets) (decode c addr).set_index c.blockSize]
      refine ⟨⟨by omega, by omega⟩, ⟨by omega, by omega⟩, ⟨by omega, by omega⟩, ?_,
        ⟨by omega, by omega⟩⟩
      intro hv2
      exact absurd hv hv2
    · have hv2 : (c.blocks ((decode c addr).set_index * c.blocksPerSet + j0)).valid ≠ 0 := by
        rw [← g3]; exact hv
      obtain ⟨t1, t2⟩ := hT.2 _ j0 hS.1 hS.2 g1 g2 hv2
      rw [← g3] at t1 t2
      have e0 : 0 ≤ (c.blocks (victim c addr)).tag * c.numSets :=
        mul_nonneg t1 (le_of_lt hns)
      have e1 : ((c.blocks (victim c addr)).tag * c.numSets + (decode c addr).set_index) * 1 ≤
          ((c.blocks (victim c addr)).tag * c.numSets + (decode c addr).set_index) *
            c.blockSize :=
        mul_le_mul_of_nonneg_left (by omega) (by omega)
      refine ⟨⟨by omega, by omega⟩, ⟨by omega, by omega⟩, ⟨by omega, by omega⟩,
        fun _ _ => ⟨by omega, by omega⟩, ⟨by omega, by omega⟩⟩
  · intro j _ _
    have hl : ∀ i, ((locate c { mem := fun _ => 0, calls := [] } addr).1.blocks i).lruLabel =
        (c.blocks i).lruLabel := by
      intro i
      rw [locate_blocks c _ addr i (le_of_lt hbs)]
      split_ifs <;> rfl
    rw [hl]
    exact hL _

theorem cacheRun_defined (calls : List accessCall) (c : cacheStruct) (bb ib : Nat)
    (hc : Pow2Config c bb ib) (m : mainMemory) (hT : TagInv c) (lu : Int → Nat) (t : Nat)
    (hL : LruInv c lu t) (hr : ∀ q ∈ calls, 0 ≤ q.addr ∧ q.addr < 65536)
    (hlen : t + calls.length ≤ 2147483647) :
    ∃ x, cacheRun c m calls = some x := by
  induction calls generalizing c m lu t with
  | nil => exact ⟨_, rfl⟩
  | cons q qs ih =>
    have hq := hr q (List.mem_cons_self q qs)
    simp only [List.length_cons] at hlen
    have hdef := accessDefined_of_inv c bb ib hc hT
      (fun i => by
        have := (hL.2.2.2.2.1 i).2
        omega) q.addr hq
    obtain ⟨r, hr1⟩ := cache_access_isSome c m q.addr q.write_flag q.write_data hdef
    obtain ⟨y, hy⟩ := ih r.1 (pow2Config_access c bb ib hc m _ _ _ r hr1) r.2.1
      (tagInv_step c bb ib hc m _ _ _ hq r hr1 hT) _ (t + 1)
      (lruInv_step c m _ _ _ r hr1 lu t hL)
      (fun p hp => hr p (List.mem_cons_of_mem q hp)) (by omega)
    exact ⟨(y.1, y.2.1, r.2.2 :: y.2.2),
      by simp only [cacheRun, hr1, Option.some_bind, hy, Option.map_some']⟩


/-- C28: the write-back cache is transparent.  After `cache_init` with a block
size `2^bb` and `2^ib` sets, for every list of calls of `cache_access` on
addresses from 0 to 65535: the calls are defined (as long as there are at most
`INT_MAX` of them, so that no `lruLabel` overflows); each read returns the value
of the most recent earlier write to the same address, or the word of the
initial main memory when there is none; the returned values are those of the
same calls on a memory without a cache, and main memory overlaid with the
cached blocks equals that memory at every address. -/
theorem write_back_transparent (bb ib : Nat) (bps : Int) (c0 : cacheStruct)
    (h0 : cache_init (2 ^ bb) (2 ^ ib) bps = some c0) (m0 : mainMemory)
    (calls : List accessCall) (hr : ∀ q ∈ calls, 0 ≤ q.addr ∧ q.addr < 65536) :
    (calls.length ≤ 2147483647 → ∃ x, cacheRun c0 m0 calls = some x) ∧
    ∀ x, cacheRun c0 m0 calls = some x →
      (∀ pre q post, calls = pre ++ q :: post → q.write_flag = 0 →
        x.2.2[pre.length]? = some (lastWritten m0.mem pre q.addr)) ∧
      x.2.2 = (flatRun m0.mem calls).2 ∧
      (∀ a, overlay x.1 x.2.1 a = (flatRun m0.mem calls).1 a) := by
  have hc := pow2Config_init bb ib bps c0 h0
  constructor
  · intro hlen
    exact cacheRun_defined calls c0 bb ib hc m0 (tagInv_init _ _ bps c0 h0) (fun _ => 0) 0
      (lruInv_init _ _ bps c0 h0) hr (by omega)
  · intro x hx
    obtain ⟨hI, hres⟩ := cacheInv_run calls c0 bb ib hc m0 m0.mem
      (cacheInv_init _ _ bps c0 h0 m0) (fun q hq => (hr q hq).1) x hx
    refine ⟨?_, hres, hI.2.2⟩
    intro pre q post hcalls hread
    rw [hres, hcalls, flatRun_result, ← flatRun_lastWritten]
    unfold flatAccess
    rw [if_neg (by rw [hread]; exact fun hq => hq rfl)]

theorem pow2Init_eq : cache_init (2 ^ 1) (2 ^ 0) 1 = some pow2Init := by
  unfold cache_init
  rw [if_neg (by decide), if_neg (by decide), if_neg (by decide)]
  rfl

/-- Witness of C28: one block of two words; the write of 9 to address 0, then
the read of address 2, which writes the dirty block back, then the read of
address 0, which returns 9. -/
theorem write_back_transparent_witness :
    ((∀ q ∈ pow2Calls, 0 ≤ q.addr ∧ q.addr < 65536) ∧
      (flatRun exampleMemory.mem pow2Calls).2 = [0, 102, 9]) ∧
    (pow2Calls.length ≤ 2147483647 → ∃ x, cacheRun pow2Init exampleMemory pow2Calls = some x) ∧
    ∀ x, cacheRun pow2Init exampleMemory pow2Calls = some x →
      (∀ pre q post, pow2Calls = pre ++ q :: post → q.write_flag = 0 →
        x.2.2[pre.length]? = some (lastWritten exampleMemory.mem pre q.addr)) ∧
      x.2.2 = (flatRun exampleMemory.mem pow2Calls).2 ∧
      (∀ a, overlay x.1 x.2.1 a = (flatRun exampleMemory.mem pow2Calls).1 a) :=
  ⟨by decide,
    write_back_transparent 1 0 1 pow2Init pow2Init_eq exampleMemory pow2Calls (by decide)⟩


/-! ## The linker: the symbol table pass -/

theorem mergeLoop_none_iff (e : SymbolTableEntry) (pt pd ex : Nat)
    (tbl : List SymbolTableEntry) :
    mergeLoop e pt pd ex tbl = none ↔
      (e.location ≠ 'U' ∧ ∃ x ∈ tbl, e.label = x.label ∧ x.location ≠ 'U') := by
  induction tbl with
  | nil => simp [mergeLoop]
  | cons x xs ih =>
    simp only [mergeLoop]
    by_cases hl : e.label = x.label
    · rw [if_pos hl]
      by_cases hb : e.location ≠ 'U' ∧ x.location ≠ 'U'
      · rw [if_pos hb]
        exact ⟨fun _ => ⟨hb.1, x, List.mem_cons_self _ _, hl, hb.2⟩, fun _ => rfl⟩
      · rw [if_neg hb, Option.map_eq_none', ih]
        constructor
        · rintro ⟨h1, y, hy, h2, h3⟩
          exact ⟨h1, y, List.mem_cons_of_mem _ hy, h2, h3⟩
        · rintro ⟨h1, y, hy, h2, h3⟩
          rcases List.mem_cons.1 hy with rfl | hy'
          · exact absurd ⟨h1, h3⟩ hb
          · exact ⟨h1, y, hy', h2, h3⟩
    · rw [if_neg hl, Option.map_eq_none', ih]
      constructor
      · rintro ⟨h1, y, hy, h2, h3⟩
        exact ⟨h1, y, List.mem_cons_of_mem _ hy, h2, h3⟩
      · rintro ⟨h1, y, hy, h2, h3⟩
        rcases List.mem_cons.1 hy with rfl | hy'
        · exact absurd h2 hl
        · exact ⟨h1, y, hy', h2, h3⟩

theorem mergeLoop_some (e : SymbolTableEntry) (pt pd ex : Nat) (tbl : List SymbolTableEntry)
    (r : List SymbolTableEntry × Bool) (h : mergeLoop e pt pd ex tbl = some r) :
    r.1 = tbl.map (mergeEntry e pt pd ex) ∧ (r.2 = true ↔ ∃ x ∈ tbl, e.label = x.label) := by
  induction tbl generalizing r with
  | nil =>
    simp only [mergeLoop] at h
    have := Option.some.inj h
    subst this
    simp
  | cons x xs ih =>
    simp only [mergeLoop] at h
    by_cases hl : e.label = x.label
    · rw [if_pos hl] at h
      by_cases hb : e.location ≠ 'U' ∧ x.location ≠ 'U'
      · rw [if_pos hb] at h
        exact absurd h (by simp)
      · rw [if_neg hb] at h
        cases hm : mergeLoop e pt pd ex xs with
        | none => rw [hm] at h; simp at h
        | some q =>
          rw [hm] at h
          simp only [Option.map_some'] at h
          have := Option.some.inj h
          subst this
          obtain ⟨h1, -⟩ := ih q hm
          refine ⟨?_, ?_⟩
          · simp only [List.map_cons, h1]
            congr 1
            unfold mergeEntry
            by_cases hu : x.location = 'U' ∧ e.location ≠ 'U'
            · rw [if_pos hu, if_pos ⟨hl, hu⟩]
            · rw [if_neg hu, if_neg (fun hc => hu hc.2)]
          · simp only [true_iff]
            exact ⟨x, List.mem_cons_self _ _, hl⟩
    · rw [if_neg hl] at h
      cases hm : mergeLoop e pt pd ex xs with
      | none => rw [hm] at h; simp at h
      | some q =>
        rw [hm] at h
        simp only [Option.map_some'] at h
        have := Option.some.inj h
        subst this
        obtain ⟨h1, h2⟩ := ih q hm
        refine ⟨?_, ?_⟩
        · simp only [List.map_cons, h1]
          congr 1
          unfold mergeEntry
          rw [if_neg (fun hc => hl hc.1)]
        · rw [h2]
          constructor
          · rintro ⟨y, hy, h3⟩
            exact ⟨y, List.mem_cons_of_mem _ hy, h3⟩
          · rintro ⟨y, hy, h3⟩
            rcases List.mem_cons.1 hy with rfl | hy'
            · exact absurd h3 hl
            · exact ⟨y, hy', h3⟩

theorem addSymbol_none_iff (tbl : List SymbolTableEntry) (e : SymbolTableEntry)
    (pt pd ex : Nat) :
    addSymbol tbl e pt pd ex = none ↔
      ((e.label = StackLabel ∧ e.location ≠ 'U') ∨
        (e.location ≠ 'U' ∧ ∃ x ∈ tbl, e.label = x.label ∧ x.location ≠ 'U')) := by
  unfold addSymbol
  by_cases hs : e.label = StackLabel ∧ e.location ≠ 'U'
  · rw [if_pos hs]
    exact ⟨fun _ => Or.inl hs, fun _ => rfl⟩
  · rw [if_neg hs, Option.map_eq_none', mergeLoop_none_iff]
    constructor
    · exact fun h => Or.inr h
    · rintro (h | h)
      · exact absurd h hs
      · exact h

theorem mergeEntry_label (e : SymbolTableEntry) (pt pd ex : Nat) (x : SymbolTableEntry) :
    (mergeEntry e pt pd ex x).label = x.label := by
  unfold mergeEntry
  split_ifs <;> rfl

theorem mergeEntry_of_ne (e : SymbolTableEntry) (pt pd ex : Nat) (x : SymbolTableEntry)
    (h : e.label ≠ x.label) : mergeEntry e pt pd ex x = x := by
  unfold mergeEntry
  rw [if_neg (fun hc => h hc.1)]

theorem addSymbol_some (tbl : List SymbolTableEntry) (e : SymbolTableEntry) (pt pd ex : Nat)
    (t : List SymbolTableEntry) (h : addSymbol tbl e pt pd ex = some t) :
    ((∃ x ∈ tbl, e.label = x.label) ∧ t = tbl.map (mergeEntry e pt pd ex)) ∨
    ((∀ x ∈ tbl, e.label ≠ x.label) ∧
      t = tbl ++ [{ label := e.label,
                    offset := if e.location = 'T' ∨ e.location = 'D'
                      then calculateOffset e pt pd ex else e.offset,
                    location := e.location }]) := by
  unfold addSymbol at h
  by_cases hs : e.label = StackLabel ∧ e.location ≠ 'U'
  · rw [if_pos hs] at h
    exact absurd h (by simp)
  · rw [if_neg hs] at h
    cases hm : mergeLoop e pt pd ex tbl with
    | none => rw [hm] at h; simp at h
    | some r =>
      rw [hm] at h
      simp only [Option.map_some'] at h
      obtain ⟨h1, h2⟩ := mergeLoop_some e pt pd ex tbl r hm
      have h3 := Option.some.inj h
      by_cases hf : r.2 = true
      · left
        rw [if_pos hf] at h3
        exact ⟨h2.1 hf, by rw [← h3, h1]⟩
      · right
        rw [if_neg hf] at h3
        have hno : ∀ x ∈ tbl, e.label ≠ x.label :=
          fun x hx hc => hf (h2.2 ⟨x, hx, hc⟩)
        refine ⟨hno, ?_⟩
        rw [← h3, h1]
        congr 1
        rw [List.map_congr_left (fun x hx => mergeEntry_of_ne e pt pd ex x (hno x hx))]
        simp

theorem calculateOffset_text (e : SymbolTableEntry) (pt pd ex : Nat)
    (hs : e.label ≠ StackLabel) (ht : e.location = 'T') :
    calculateOffset e pt pd ex = (e.offset + pt) % 4294967296 := by
  unfold calculateOffset
  rw [if_neg hs, if_pos ht]

theorem calculateOffset_data (e : SymbolTableEntry) (pt pd ex : Nat)
    (hs : e.label ≠ StackLabel) (hd : e.location = 'D') :
    calculateOffset e pt pd ex = (e.offset + pd + ex) % 4294967296 := by
  unfold calculateOffset
  rw [if_neg hs, if_neg (by rw [hd]; decide)]

theorem tableInv_step (ex : Nat) (done : List (SymbolTableEntry × Nat × Nat))
    (tbl : List SymbolTableEntry) (a : SymbolTableEntry × Nat × Nat)
    (t : List SymbolTableEntry) (hI : TableInv ex done tbl)
    (h : addSymbol tbl a.1 a.2.1 a.2.2 ex = some t) : TableInv ex (done ++ [a]) t := by
  obtain ⟨I1, I2, I3, I4, I5⟩ := hI
  have hnn : ¬ (addSymbol tbl a.1 a.2.1 a.2.2 ex = none) := by rw [h]; simp
  rw [addSymbol_none_iff] at hnn
  have hstack : ¬ (a.1.label = StackLabel ∧ a.1.location ≠ 'U') := fun hc => hnn (Or.inl hc)
  have hdup : ∀ x ∈ tbl, a.1.label = x.label → a.1.location ≠ 'U' → x.location = 'U' := by
    intro x hx hl hd
    by_contra hc
    exact hnn (Or.inr ⟨hd, x, hx, hl, hc⟩)
  have hnotstack : a.1.location ≠ 'U' → a.1.label ≠ StackLabel := fun hd hc => hstack ⟨hc, hd⟩
  rcases addSymbol_some tbl a.1 a.2.1 a.2.2 ex t h with ⟨⟨x0, hx0, hl0⟩, ht⟩ | ⟨hno, ht⟩
  · -- the label is in the table
    subst ht
    refine ⟨?_, ?_, ?_, ?_, ?_⟩
    · rw [List.map_map]
      have : ((fun x : SymbolTableEntry => x.label) ∘ mergeEntry a.1 a.2.1 a.2.2 ex) =
          (fun x : SymbolTableEntry => x.label) := by
        funext x
        exact mergeEntry_label _ _ _ _ x
      rw [this]
      exact I1
    · intro L
      constructor
      · rintro ⟨y, hy, hL⟩
        obtain ⟨x, hx, rfl⟩ := List.mem_map.1 hy
        rw [mergeEntry_label] at hL
        obtain ⟨b, hb, hbl⟩ := (I2 L).1 ⟨x, hx, hL⟩
        exact ⟨b, List.mem_append_left _ hb, hbl⟩
      · rintro ⟨b, hb, hbl⟩
        rcases List.mem_append.1 hb with hb' | hb'
        · obtain ⟨x, hx, hxl⟩ := (I2 L).2 ⟨b, hb', hbl⟩
          exact ⟨_, List.mem_map_of_mem _ hx, by rw [mergeEntry_label]; exact hxl⟩
        · rw [List.mem_singleton] at hb'
          subst hb'
          exact ⟨_, List.mem_map_of_mem _ hx0, by rw [mergeEntry_label, ← hl0]; exact hbl⟩
    · intro b hb
      rcases List.mem_append.1 hb with hb' | hb'
      · exact I3 b hb'
      · rw [List.mem_singleton] at hb'
        subst hb'
        exact hstack
    · intro y hy
      obtain ⟨x, hx, rfl⟩ := List.mem_map.1 hy
      rw [mergeEntry_label]
      by_cases hl : a.1.label = x.label
      · by_cases hu : x.location = 'U' ∧ a.1.location ≠ 'U'
        · have hm : (mergeEntry a.1 a.2.1 a.2.2 ex x).location = a.1.location := by
            unfold mergeEntry
            rw [if_pos ⟨hl, hu⟩]
          rw [hm]
          constructor
          · intro hc
            exact absurd hc hu.2
          · intro hall
            exact hall a (List.mem_append_right _ (List.mem_singleton_self a)) hl
        · have hm : mergeEntry a.1 a.2.1 a.2.2 ex x = x := by
            unfold mergeEntry
            rw [if_neg (fun hc => hu hc.2)]
          rw [hm, I4 x hx]
          have haU : x.location = 'U' → a.1.location = 'U' := by
            intro hxu
            by_contra hc
            exact hu ⟨hxu, hc⟩
          constructor
          · intro hall b hb hbl
            rcases List.mem_append.1 hb with hb' | hb'
            · exact hall b hb' hbl
            · rw [List.mem_singleton] at hb'
              subst hb'
              exact haU ((I4 x hx).2 hall)
          · intro hall b hb hbl
            exact hall b (List.mem_append_left _ hb) hbl
      · rw [mergeEntry_of_ne _ _ _ _ x hl, I4 x hx]
        constructor
        · intro hall b hb hbl
          rcases List.mem_append.1 hb with hb' | hb'
          · exact hall b hb' hbl
          · rw [List.mem_singleton] at hb'
            subst hb'
            exact absurd hbl hl
        · intro hall b hb hbl
          exact hall b (List.mem_append_left _ hb) hbl
    · intro y hy b hb hbl hbd
      obtain ⟨x, hx, rfl⟩ := List.mem_map.1 hy
      rw [mergeEntry_label] at hbl
      rcases List.mem_append.1 hb with hb' | hb'
      · obtain ⟨e1, e2, e3⟩ := I5 x hx b hb' hbl hbd
        have hxd : x.location ≠ 'U' := by rw [e1]; exact hbd
        have hm : mergeEntry a.1 a.2.1 a.2.2 ex x = x := by
          unfold mergeEntry
          rw [if_neg (fun hc => hxd hc.2.1)]
        rw [hm]
        exact ⟨e1, e2, e3⟩
      · rw [List.mem_singleton] at hb'
        subst hb'
        have hxu := hdup x hx hbl hbd
        have hm : mergeEntry b.1 b.2.1 b.2.2 ex x =
            { x with location := b.1.location,
                     offset := calculateOffset b.1 b.2.1 b.2.2 ex } := by
          unfold mergeEntry
          rw [if_pos ⟨hbl, hxu, hbd⟩]
        rw [hm]
        exact ⟨rfl, fun ht => calculateOffset_text _ _ _ _ (hnotstack hbd) ht,
          fun hd => calculateOffset_data _ _ _ _ (hnotstack hbd) hd⟩
  · -- a new label
    subst ht
    have hnodone : ∀ b ∈ done, b.1.label ≠ a.1.label := by
      intro b hb hc
      obtain ⟨x, hx, hxl⟩ := (I2 a.1.label).2 ⟨b, hb, hc⟩
      exact hno x hx hxl.symm
    refine ⟨?_, ?_, ?_, ?_, ?_⟩
    · rw [List.map_append, List.map_singleton]
      apply List.Nodup.append I1 (List.nodup_singleton _)
      intro L hL1 hL2
      rw [List.mem_singleton] at hL2
      obtain ⟨x, hx, hxl⟩ := List.mem_map.1 hL1
      exact hno x hx (by rw [hxl, hL2])
    · intro L
      constructor
      · rintro ⟨y, hy, hL⟩
        rcases List.mem_append.1 hy with hy' | hy'
        · obtain ⟨b, hb, hbl⟩ := (I2 L).1 ⟨y, hy', hL⟩
          exact ⟨b, List.mem_append_left _ hb, hbl⟩
        · rw [List.mem_singleton] at hy'
          subst hy'
          exact ⟨a, List.mem_append_right _ (List.mem_singleton_self a), hL⟩
      · rintro ⟨b, hb, hbl⟩
        rcases List.mem_append.1 hb with hb' | hb'
        · obtain ⟨x, hx, hxl⟩ := (I2 L).2 ⟨b, hb', hbl⟩
          exact ⟨x, List.mem_append_left _ hx, hxl⟩
        · rw [List.mem_singleton] at hb'
          subst hb'
          exact ⟨_, List.mem_append_right _ (List.mem_singleton_self _), hbl⟩
    · intro b hb
      rcases List.mem_append.1 hb with hb' | hb'
      · exact I3 b hb'
      · rw [List.mem_singleton] at hb'
        subst hb'
        exact hstack
    · intro y hy
      rcases List.mem_append.1 hy with hy' | hy'
      · rw [I4 y hy']
        constructor
        · intro hall b hb hbl
          rcases List.mem_append.1 hb with hb' | hb'
          · exact hall b hb' hbl
          · rw [List.mem_singleton] at hb'
            subst hb'
            exact absurd hbl (hno y hy')
        · intro hall b hb hbl
          exact hall b (List.mem_append_left _ hb) hbl
      · rw [List.mem_singleton] at hy'
        subst hy'
        constructor
        · intro hu b hb hbl
          rcases List.mem_append.1 hb with hb' | hb'
          · exact absurd hbl (hnodone b hb')
          · rw [List.mem_singleton] at hb'
            subst hb'
            exact hu
        · intro hall
          exact hall a (List.mem_append_right _ (List.mem_singleton_self a)) rfl
    · intro y hy b hb hbl hbd
      rcases List.mem_append.1 hy with hy' | hy'
      · rcases List.mem_append.1 hb with hb' | hb'
        · exact I5 y hy' b hb' hbl hbd
        · rw [List.mem_singleton] at hb'
          subst hb'
          exact absurd hbl (hno y hy')
      · rw [List.mem_singleton] at hy'
        subst hy'
        rcases List.mem_append.1 hb with hb' | hb'
        · exact absurd hbl (hnodone b hb')
        · rw [List.mem_singleton] at hb'
          subst hb'
          refine ⟨rfl, ?_, ?_⟩
          · intro ht
            show (if b.1.location = 'T' ∨ b.1.location = 'D' then _ else _) = _
            rw [if_pos (Or.inl ht)]
            exact calculateOffset_text _ _ _ _ (hnotstack hbd) ht
          · intro hd
            show (if b.1.location = 'T' ∨ b.1.location = 'D' then _ else _) = _
            rw [if_pos (Or.inr hd)]
            exact calculateOffset_data _ _ _ _ (hnotstack hbd) hd

theorem tableInv_nil (ex : Nat) : TableInv ex [] [] := by
  refine ⟨List.nodup_nil, ?_, ?_, ?_, ?_⟩
  · intro L
    simp
  · intro a ha
    exact absurd ha (List.not_mem_nil a)
  · intro x hx
    exact absurd hx (List.not_mem_nil x)
  · intro x hx
    exact absurd hx (List.not_mem_nil x)

theorem passLoop_inv (ex : Nat) (l : List (SymbolTableEntry × Nat × Nat))
    (done : List (SymbolTableEntry × Nat × Nat)) (tbl t : List SymbolTableEntry)
    (hI : TableInv ex done tbl) (h : passLoop ex l tbl = some t) :
    TableInv ex (done ++ l) t := by
  induction l generalizing done tbl with
  | nil =>
    simp only [passLoop] at h
    have := Option.some.inj h
    subst this
    rw [List.append_nil]
    exact hI
  | cons a l ih =>
    simp only [passLoop] at h
    cases hs : addSymbol tbl a.1 a.2.1 a.2.2 ex with
    | none => rw [hs] at h; simp at h
    | some t1 =>
      rw [hs] at h
      simp only [Option.some_bind] at h
      have := ih (done ++ [a]) t1 (tableInv_step ex done tbl a t1 hI hs) h
      rw [List.append_assoc, List.singleton_append] at this
      exact this

/-- The entry `a` cannot be added after the entries `done`: it defines `Stack`,
or it is defined and so is an entry of `done` with its label. -/
theorem addSymbol_none_of_inv (ex : Nat) (done : List (SymbolTableEntry × Nat × Nat))
    (tbl : List SymbolTableEntry) (hI : TableInv ex done tbl)
    (a : SymbolTableEntry × Nat × Nat) :
    addSymbol tbl a.1 a.2.1 a.2.2 ex = none ↔
      ((a.1.label = StackLabel ∧ a.1.location ≠ 'U') ∨
        (a.1.location ≠ 'U' ∧
          ∃ b ∈ done, b.1.label = a.1.label ∧ b.1.location ≠ 'U')) := by
  obtain ⟨-, I2, -, I4, -⟩ := hI
  rw [addSymbol_none_iff]
  constructor
  · rintro (h | ⟨h1, x, hx, h2, h3⟩)
    · exact Or.inl h
    · right
      refine ⟨h1, ?_⟩
      by_contra hc
      apply h3
      rw [I4 x hx]
      intro b hb hbl
      by_contra hbd
      exact hc ⟨b, hb, by rw [hbl, h2], hbd⟩
  · rintro (h | ⟨h1, b, hb, h2, h3⟩)
    · exact Or.inl h
    · right
      obtain ⟨x, hx, hxl⟩ := (I2 a.1.label).2 ⟨b, hb, h2⟩
      refine ⟨h1, x, hx, hxl.symm, ?_⟩
      intro hxu
      exact h3 ((I4 x hx).1 hxu b hb (by rw [h2, hxl]))

theorem passLoop_none_iff (ex : Nat) (l : List (SymbolTableEntry × Nat × Nat))
    (done : List (SymbolTableEntry × Nat × Nat)) (tbl : List SymbolTableEntry)
    (hI : TableInv ex done tbl) :
    passLoop ex l tbl = none ↔
      ∃ l1 a l2, l = l1 ++ a :: l2 ∧
        ((a.1.label = StackLabel ∧ a.1.location ≠ 'U') ∨
          (a.1.location ≠ 'U' ∧
            ∃ b ∈ done ++ l1, b.1.label = a.1.label ∧ b.1.location ≠ 'U')) := by
  induction l generalizing done tbl with
  | nil =>
    simp only [passLoop]
    constructor
    · intro h
      exact absurd h (by simp)
    · rintro ⟨l1, a, l2, h, -⟩
      exact absurd h (by simp)
  | cons a l ih =>
    simp only [passLoop]
    cases hs : addSymbol tbl a.1 a.2.1 a.2.2 ex with
    | none =>
      simp only [Option.none_bind, true_iff]
      refine ⟨[], a, l, rfl, ?_⟩
      rw [List.append_nil]
      exact (addSymbol_none_of_inv ex done tbl hI a).1 hs
    | some t1 =>
      simp only [Option.some_bind]
      rw [ih (done ++ [a]) t1 (tableInv_step ex done tbl a t1 hI hs)]
      have hok : ¬ ((a.1.label = StackLabel ∧ a.1.location ≠ 'U') ∨
          (a.1.location ≠ 'U' ∧
            ∃ b ∈ done, b.1.label = a.1.label ∧ b.1.location ≠ 'U')) := by
        rw [← addSymbol_none_of_inv ex done tbl hI a, hs]
        simp
      constructor
      · rintro ⟨l1, a', l2, h1, h2⟩
        refine ⟨a :: l1, a', l2, by rw [h1]; rfl, ?_⟩
        rw [List.append_assoc, List.singleton_append] at h2
        exact h2
      · rintro ⟨l1, a', l2, h1, h2⟩
        cases l1 with
        | nil =>
          rw [List.nil_append] at h1
          have e1 := (List.cons.inj h1).1
          subst e1
          rw [List.append_nil] at h2
          exact absurd h2 hok
        | cons a0 l1' =>
          rw [List.cons_append] at h1
          obtain ⟨e1, e2⟩ := List.cons.inj h1
          subst e1
          refine ⟨l1', a', l2, e2, ?_⟩
          rw [List.append_assoc, List.singleton_append]
          exact h2

theorem passLoop_append (ex : Nat) (l1 l2 : List (SymbolTableEntry × Nat × Nat))
    (tbl : List SymbolTableEntry) :
    passLoop ex (l1 ++ l2) tbl = (passLoop ex l1 tbl).bind (passLoop ex l2) := by
  induction l1 generalizing tbl with
  | nil => rfl
  | cons a l ih =>
    rw [List.cons_append]
    simp only [passLoop]
    cases addSymbol tbl a.1 a.2.1 a.2.2 ex with
    | none => rfl
    | some t => simp only [Option.some_bind, ih]

theorem fileLoop_eq (ex pt pd : Nat) (syms tbl : List SymbolTableEntry) :
    fileLoop ex pt pd syms tbl = passLoop ex (syms.map (fun e => (e, pt, pd))) tbl := by
  induction syms generalizing tbl with
  | nil => rfl
  | cons e es ih =>
    simp only [fileLoop, List.map_cons, passLoop]
    cases addSymbol tbl e pt pd ex with
    | none => rfl
    | some t => simp only [Option.some_bind, ih]

theorem filesLoop_eq (ex : Nat) (files : List FileData) (ts ds : Nat)
    (tbl : List SymbolTableEntry) :
    filesLoop ex files ts ds tbl = passLoop ex (entriesFrom files ts ds) tbl := by
  induction files generalizing ts ds tbl with
  | nil => rfl
  | cons f fs ih =>
    simp only [filesLoop, entriesFrom]
    rw [passLoop_append, fileLoop_eq]
    cases passLoop ex (f.symbolTable.map (fun e => (e, ts, ds))) tbl with
    | none => rfl
    | some t => simp only [Option.some_bind, ih]

theorem finalLoop_none_iff (total : Nat) (tbl : List SymbolTableEntry) :
    finalLoop total tbl = none ↔
      ∃ x ∈ tbl, x.location = 'U' ∧ x.label ≠ StackLabel := by
  induction tbl with
  | nil => simp [finalLoop]
  | cons x xs ih =>
    simp only [finalLoop]
    by_cases hx : x.location = 'U' ∧ x.label ≠ StackLabel
    · rw [if_pos hx]
      exact ⟨fun _ => ⟨x, List.mem_cons_self _ _, hx⟩, fun _ => rfl⟩
    · rw [if_neg hx, Option.map_eq_none', ih]
      constructor
      · rintro ⟨y, hy, h⟩
        exact ⟨y, List.mem_cons_of_mem _ hy, h⟩
      · rintro ⟨y, hy, h⟩
        rcases List.mem_cons.1 hy with rfl | hy'
        · exact absurd h hx
        · exact ⟨y, hy', h⟩

theorem finalLoop_some (total : Nat) (tbl r : List SymbolTableEntry)
    (h : finalLoop total tbl = some r) :
    r = tbl.map (fun x => if x.label = StackLabel then { x with offset := total } else x) := by
  induction tbl generalizing r with
  | nil =>
    simp only [finalLoop] at h
    rw [← Option.some.inj h]
    rfl
  | cons x xs ih =>
    simp only [finalLoop] at h
    by_cases hx : x.location = 'U' ∧ x.label ≠ StackLabel
    · rw [if_pos hx] at h
      exact absurd h (by simp)
    · rw [if_neg hx] at h
      cases hf : finalLoop total xs with
      | none => rw [hf] at h; simp at h
      | some q =>
        rw [hf] at h
        simp only [Option.map_some'] at h
        rw [← Option.some.inj h, ih q hf]
        rfl

theorem expectedTextSize_lt (files : List FileData) : expectedTextSize files < 4294967296 := by
  cases files with
  | nil => simp [expectedTextSize]
  | cons f fs =>
    simp only [expectedTextSize]
    omega

theorem expectedDataSize_lt (files : List FileData) : expectedDataSize files < 4294967296 := by
  cases files with
  | nil => simp [expectedDataSize]
  | cons f fs =>
    simp only [expectedDataSize]
    omega

/-- The entries of a file carry the sums of the text sizes and of the data
sizes of the files before it. -/
theorem entriesFrom_starts (pre : List FileData) (f : FileData) (post : List FileData)
    (ts ds : Nat) (hts : ts < 4294967296) (hds : ds < 4294967296)
    (e : SymbolTableEntry) (he : e ∈ f.symbolTable) :
    (e, (ts + expectedTextSize pre) % 4294967296, (ds + expectedDataSize pre) % 4294967296) ∈
      entriesFrom (pre ++ f :: post) ts ds := by
  induction pre generalizing ts ds with
  | nil =>
    simp only [List.nil_append, entriesFrom, expectedTextSize, expectedDataSize, add_zero]
    rw [Nat.mod_eq_of_lt hts, Nat.mod_eq_of_lt hds]
    exact List.mem_append_left _ (List.mem_map_of_mem _ he)
  | cons p ps ih =>
    rw [List.cons_append]
    simp only [entriesFrom, expectedTextSize, expectedDataSize]
    apply List.mem_append_right
    have := ih ((ts + p.textSize) % 4294967296) ((ds + p.dataSize) % 4294967296)
      (Nat.mod_lt _ (by norm_num)) (Nat.mod_lt _ (by norm_num))
    have e1 : ((ts + p.textSize) % 4294967296 + expectedTextSize ps) % 4294967296 =
        (ts + (p.textSize + expectedTextSize ps) % 4294967296) % 4294967296 := by omega
    have e2 : ((ds + p.dataSize) % 4294967296 + expectedDataSize ps) % 4294967296 =
        (ds + (p.dataSize + expectedDataSize ps) % 4294967296) % 4294967296 := by omega
    rw [e1, e2] at this
    exact this

/-- The two loops of the pass in terms of the entries in the order in which
they are treated: `throwError` ends them exactly when some entry defines
`Stack`, or an entry and an earlier entry with its label are both defined, or a
label other than `Stack` occurs only undefined; otherwise the combined table
holds each label once with the offsets resolved. -/
theorem tablePass_spec (files : List FileData) :
    (tablePass files = none ↔
      ((∃ a ∈ entriesFrom files 0 0, a.1.label = StackLabel ∧ a.1.location ≠ 'U') ∨
        (∃ l1 a l2, entriesFrom files 0 0 = l1 ++ a :: l2 ∧ a.1.location ≠ 'U' ∧
          ∃ b ∈ l1, b.1.label = a.1.label ∧ b.1.location ≠ 'U') ∨
        (∃ a ∈ entriesFrom files 0 0, a.1.label ≠ StackLabel ∧
          ∀ b ∈ entriesFrom files 0 0, b.1.label = a.1.label → b.1.location = 'U'))) ∧
    (∀ pre f post e, files = pre ++ f :: post → e ∈ f.symbolTable →
      (e, expectedTextSize pre, expectedDataSize pre) ∈ entriesFrom files 0 0) ∧
    ∀ tbl, tablePass files = some tbl →
      (tbl.map (fun x => x.label)).Nodup ∧
      (∀ L, L ∈ tbl.map (fun x => x.label) ↔ ∃ a ∈ entriesFrom files 0 0, a.1.label = L) ∧
      (∀ a ∈ entriesFrom files 0 0, a.1.location = 'T' →
        ∃ x ∈ tbl, x.label = a.1.label ∧ x.offset = (a.2.1 + a.1.offset) % 4294967296) ∧
      (∀ a ∈ entriesFrom files 0 0, a.1.location = 'D' →
        ∃ x ∈ tbl, x.label = a.1.label ∧
          x.offset = (expectedTextSize files + a.2.2 + a.1.offset) % 4294967296) ∧
      (∀ x ∈ tbl, x.label = StackLabel →
        x.offset = (expectedTextSize files + expectedDataSize files) % 4294967296) := by
  have hTU : ('T' : Char) ≠ 'U' := by decide
  have hDU : ('D' : Char) ≠ 'U' := by decide
  have hloop : filesLoop (expectedTextSize files) files 0 0 [] =
      passLoop (expectedTextSize files) (entriesFrom files 0 0) [] := filesLoop_eq _ _ _ _ _
  have hnone := passLoop_none_iff (expectedTextSize files) (entriesFrom files 0 0) [] []
    (tableInv_nil _)
  simp only [List.nil_append] at hnone
  refine ⟨?_, ?_, ?_⟩
  · unfold tablePass
    rw [hloop]
    cases hp : passLoop (expectedTextSize files) (entriesFrom files 0 0) [] with
    | none =>
      simp only [Option.none_bind, true_iff]
      obtain ⟨l1, a, l2, h1, h2⟩ := hnone.1 hp
      rcases h2 with h2 | h2
      · left
        exact ⟨a, by rw [h1]; exact List.mem_append_right _ (List.mem_cons_self _ _), h2⟩
      · right; left
        exact ⟨l1, a, l2, h1, h2⟩
    | some t =>
      simp only [Option.some_bind]
      have hI := passLoop_inv _ _ [] [] t (tableInv_nil _) hp
      rw [List.nil_append] at hI
      obtain ⟨-, I2, -, I4, -⟩ := hI
      have hsome : ¬ (passLoop (expectedTextSize files) (entriesFrom files 0 0) [] = none) := by
        rw [hp]; simp
      rw [finalLoop_none_iff]
      constructor
      · rintro ⟨x, hx, hu, hs⟩
        right; right
        obtain ⟨a, ha, hal⟩ := (I2 x.label).1 ⟨x, hx, rfl⟩
        refine ⟨a, ha, by rw [hal]; exact hs, ?_⟩
        intro b hb hbl
        exact (I4 x hx).1 hu b hb (by rw [hbl, hal])
      · rintro (⟨a, ha, h1⟩ | ⟨l1, a, l2, h1, h2⟩ | ⟨a, ha, hs, hall⟩)
        · obtain ⟨l1, l2, hl⟩ := List.append_of_mem ha
          exact absurd (hnone.2 ⟨l1, a, l2, hl, Or.inl h1⟩) hsome
        · exact absurd (hnone.2 ⟨l1, a, l2, h1, Or.inr h2⟩) hsome
        · obtain ⟨x, hx, hxl⟩ := (I2 a.1.label).2 ⟨a, ha, rfl⟩
          refine ⟨x, hx, ?_, by rw [hxl]; exact hs⟩
          rw [I4 x hx]
          intro b hb hbl
          exact hall b hb (by rw [hbl, hxl])
  · intro pre f post e hf he
    have := entriesFrom_starts pre f post 0 0 (by norm_num) (by norm_num) e he
    rw [Nat.zero_add, Nat.zero_add, Nat.mod_eq_of_lt (expectedTextSize_lt pre),
      Nat.mod_eq_of_lt (expectedDataSize_lt pre), ← hf] at this
    exact this
  · intro tbl htbl
    unfold tablePass at htbl
    rw [hloop] at htbl
    cases hp : passLoop (expectedTextSize files) (entriesFrom files 0 0) [] with
    | none => rw [hp] at htbl; simp at htbl
    | some t =>
      rw [hp] at htbl
      simp only [Option.some_bind] at htbl
      have hI := passLoop_inv _ _ [] [] t (tableInv_nil _) hp
      rw [List.nil_append] at hI
      obtain ⟨I1, I2, I3, I4, I5⟩ := hI
      have ht := finalLoop_some _ t tbl htbl
      have hlab : tbl.map (fun x => x.label) = t.map (fun x => x.label) := by
        rw [ht, List.map_map]
        apply List.map_congr_left
        intro x _
        simp only [Function.comp]
        split_ifs <;> rfl
      have hkeep : ∀ x ∈ t, x.label ≠ StackLabel → x ∈ tbl := by
        intro x hx hs
        rw [ht]
        have := List.mem_map_of_mem
          (fun x : SymbolTableEntry =>
            if x.label = StackLabel then
              { x with offset :=
                  (expectedTextSize files + expectedDataSize files) % 4294967296 }
            else x) hx
        simp only [if_neg hs] at this
        exact this
      refine ⟨?_, ?_, ?_, ?_, ?_⟩
      · rw [hlab]
        exact I1
      · intro L
        rw [hlab, List.mem_map]
        constructor
        · rintro ⟨x, hx, hL⟩
          exact (I2 L).1 ⟨x, hx, hL⟩
        · intro h
          obtain ⟨x, hx, hL⟩ := (I2 L).2 h
          exact ⟨x, hx, hL⟩
      · intro a ha hloc
        have hd : a.1.location ≠ 'U' := by rw [hloc]; exact hTU
        obtain ⟨x, hx, hxl⟩ := (I2 a.1.label).2 ⟨a, ha, rfl⟩
        obtain ⟨-, e2, -⟩ := I5 x hx a ha hxl.symm hd
        have hs : x.label ≠ StackLabel := by
          rw [hxl]
          exact fun hc => I3 a ha ⟨hc, hd⟩
        exact ⟨x, hkeep x hx hs, hxl, by rw [e2 hloc, Nat.add_comm]⟩
      · intro a ha hloc
        have hd : a.1.location ≠ 'U' := by rw [hloc]; exact hDU
        obtain ⟨x, hx, hxl⟩ := (I2 a.1.label).2 ⟨a, ha, rfl⟩
        obtain ⟨-, -, e3⟩ := I5 x hx a ha hxl.symm hd
        have hs : x.label ≠ StackLabel := by
          rw [hxl]
          exact fun hc => I3 a ha ⟨hc, hd⟩
        refine ⟨x, hkeep x hx hs, hxl, ?_⟩
        rw [e3 hloc]
        congr 1
        omega
      · intro x hx hs
        rw [ht] at hx
        obtain ⟨y, hy, hyx⟩ := List.mem_map.1 hx
        by_cases hys : y.label = StackLabel
        · rw [if_pos hys] at hyx
          rw [← hyx]
        · rw [if_neg hys] at hyx
          rw [← hyx] at hs
          exact absurd hs hys

theorem entriesFrom_fst (files : List FileData) (ts ds : Nat) :
    (entriesFrom files ts ds).map (fun a => a.1) = allSymbols files := by
  induction files generalizing ts ds with
  | nil => rfl
  | cons f fs ih =>
    simp only [entriesFrom, allSymbols, List.map_append, List.map_map, ih]
    congr 1
    exact List.map_id _

/-- The three conditions on the entries with the starts of their files are
those on the entries alone. -/
theorem badEntries_iff (E : List (SymbolTableEntry × Nat × Nat)) :
    ((∃ a ∈ E, a.1.label = StackLabel ∧ a.1.location ≠ 'U') ∨
      (∃ l1 a l2, E = l1 ++ a :: l2 ∧ a.1.location ≠ 'U' ∧
        ∃ b ∈ l1, b.1.label = a.1.label ∧ b.1.location ≠ 'U') ∨
      (∃ a ∈ E, a.1.label ≠ StackLabel ∧
        ∀ b ∈ E, b.1.label = a.1.label → b.1.location = 'U')) ↔
    ((∃ e ∈ E.map (fun a => a.1), e.label = StackLabel ∧ e.location ≠ 'U') ∨
      (∃ l1 e l2, E.map (fun a => a.1) = l1 ++ e :: l2 ∧ e.location ≠ 'U' ∧
        ∃ b ∈ l1, b.label = e.label ∧ b.location ≠ 'U') ∨
      (∃ e ∈ E.map (fun a => a.1), e.label ≠ StackLabel ∧
        ∀ b ∈ E.map (fun a => a.1), b.label = e.label → b.location = 'U')) := by
  have h1 : (∃ a ∈ E, a.1.label = StackLabel ∧ a.1.location ≠ 'U') ↔
      (∃ e ∈ E.map (fun a => a.1), e.label = StackLabel ∧ e.location ≠ 'U') := by
    constructor
    · rintro ⟨a, ha, h⟩
      exact ⟨a.1, List.mem_map_of_mem _ ha, h⟩
    · rintro ⟨e, he, h⟩
      obtain ⟨a, ha, rfl⟩ := List.mem_map.1 he
      exact ⟨a, ha, h⟩
  have h2 : (∃ l1 a l2, E = l1 ++ a :: l2 ∧ a.1.location ≠ 'U' ∧
        ∃ b ∈ l1, b.1.label = a.1.label ∧ b.1.location ≠ 'U') ↔
      (∃ l1 e l2, E.map (fun a => a.1) = l1 ++ e :: l2 ∧ e.location ≠ 'U' ∧
        ∃ b ∈ l1, b.label = e.label ∧ b.location ≠ 'U') := by
    constructor
    · rintro ⟨l1, a, l2, hE, ha, b, hb, h⟩
      refine ⟨l1.map (fun a => a.1), a.1, l2.map (fun a => a.1), ?_, ha, b.1,
        List.mem_map_of_mem _ hb, h⟩
      rw [hE, List.map_append, List.map_cons]
    · rintro ⟨l1, e, l2, hE, he, b, hb, h⟩
      obtain ⟨m1, m, hm, hm1, hm2⟩ := List.map_eq_append_iff.1 hE
      obtain ⟨a, m2, hma, hae, -⟩ := List.map_eq_cons_iff.1 hm2
      subst hm1
      subst hae
      obtain ⟨b0, hb0, rfl⟩ := List.mem_map.1 hb
      exact ⟨m1, a, m2, by rw [hm, hma], he, b0, hb0, h⟩
  have h3 : (∃ a ∈ E, a.1.label ≠ StackLabel ∧
        ∀ b ∈ E, b.1.label = a.1.label → b.1.location = 'U') ↔
      (∃ e ∈ E.map (fun a => a.1), e.label ≠ StackLabel ∧
        ∀ b ∈ E.map (fun a => a.1), b.label = e.label → b.location = 'U') := by
    constructor
    · rintro ⟨a, ha, hs, h⟩
      refine ⟨a.1, List.mem_map_of_mem _ ha, hs, ?_⟩
      intro b hb hl
      obtain ⟨b0, hb0, rfl⟩ := List.mem_map.1 hb
      exact h b0 hb0 hl
    · rintro ⟨e, he, hs, h⟩
      obtain ⟨a, ha, rfl⟩ := List.mem_map.1 he
      exact ⟨a, ha, hs, fun b hb hl => h b.1 (List.mem_map_of_mem _ hb) hl⟩
  rw [h1, h2, h3]

theorem totalText_append (l1 l2 : List FileData) :
    totalText (l1 ++ l2) = totalText l1 + totalText l2 := by
  induction l1 with
  | nil => simp [totalText]
  | cons f fs ih =>
    rw [List.cons_append]
    simp only [totalText, ih]
    omega

theorem totalData_append (l1 l2 : List FileData) :
    totalData (l1 ++ l2) = totalData l1 + totalData l2 := by
  induction l1 with
  | nil => simp [totalData]
  | cons f fs ih =>
    rw [List.cons_append]
    simp only [totalData, ih]
    omega

/-- Files inside the arrays have at most `MAXSIZE` text and data words
each. -/
theorem total_le (files : List FileData) (hb : inBounds files) :
    totalText files ≤ MAXSIZE * files.length ∧ totalData files ≤ MAXSIZE * files.length := by
  induction files with
  | nil => simp [totalText, totalData]
  | cons f fs ih =>
    have hf := hb f (List.mem_cons_self _ _)
    obtain ⟨i1, i2⟩ := ih (fun g hg => hb g (List.mem_cons_of_mem _ hg))
    simp only [totalText, totalData, List.length_cons]
    obtain ⟨h1, h2, -⟩ := hf
    constructor
    · rw [Nat.mul_succ]; omega
    · rw [Nat.mul_succ]; omega

/-- The `unsigned int` sums of the sizes do not wrap as long as the exact sums
are below `2^32`. -/
theorem expectedTextSize_eq (files : List FileData) (h : totalText files < 4294967296) :
    expectedTextSize files = totalText files := by
  induction files with
  | nil => rfl
  | cons f fs ih =>
    simp only [totalText] at h
    simp only [expectedTextSize, totalText]
    rw [ih (by omega), Nat.mod_eq_of_lt h]

theorem expectedDataSize_eq (files : List FileData) (h : totalData files < 4294967296) :
    expectedDataSize files = totalData files := by
  induction files with
  | nil => rfl
  | cons f fs ih =>
    simp only [totalData] at h
    simp only [expectedDataSize, totalData]
    rw [ih (by omega), Nat.mod_eq_of_lt h]

/-- C30 (as stated, refuted): two object files of one text word each (both
inside the arrays); the second defines `Far` at text offset 4294967295.  Its
text start is 1, and the linker resolves `Far` to 0, not to the text start plus
the offset, 4294967296. -/
theorem symbol_offset_wraps :
    inBounds wrapFiles ∧
    wrapFiles.map (fun f => f.symbolTable) = [[], [⟨"Far", 'T', 4294967295⟩]] ∧
    totalText (wrapFiles.take 1) = 1 ∧
    symbolPass wrapFiles = LinkResult.table [⟨"Far", 'T', 0⟩] ∧
    ¬ ∃ x ∈ [(⟨"Far", 'T', 0⟩ : SymbolTableEntry)],
      x.offset = totalText (wrapFiles.take 1) + 4294967295 := by
  decide

/-- C30 (amended): the symbol table pass of the linker, for object files that
are inside the arrays of the linker (at most 500 text words, data words and
symbols each, labels of at most 6 characters).  The linker does not overrun an
array.  It ends with an error exactly when the number of files is not from 1 to
6 (the test of line 66), or some entry defines the label `Stack` (its location
is not `U`), or two entries (of the same or of different files) carry the same
label and are both defined, or some label other than `Stack` occurs only with
location `U`.  When it does not, the combined table holds each label of the
files exactly once, the label of a text entry (`T`) has the text start of its
file plus its offset, the label of a data entry (`D`) has the total text size
plus the data start of its file plus its offset, both as `unsigned int` sums
modulo `2^32`, and `Stack` has the total text size plus the total data size;
the starts of a file are the sums of the sizes of the files before it. -/
theorem symbol_pass_spec (files : List FileData) (hb : inBounds files) :
    symbolPass files ≠ LinkResult.undefined ∧
    (symbolPass files = LinkResult.error ↔
      ((files.length = 0 ∨ MAXFILES < files.length) ∨
        (∃ e ∈ allSymbols files, e.label = StackLabel ∧ e.location ≠ 'U') ∨
        (∃ l1 e l2, allSymbols files = l1 ++ e :: l2 ∧ e.location ≠ 'U' ∧
          ∃ b ∈ l1, b.label = e.label ∧ b.location ≠ 'U') ∨
        (∃ e ∈ allSymbols files, e.label ≠ StackLabel ∧
          ∀ b ∈ allSymbols files, b.label = e.label → b.location = 'U'))) ∧
    ∀ tbl, symbolPass files = LinkResult.table tbl →
      (tbl.map (fun x => x.label)).Nodup ∧
      (∀ L, L ∈ tbl.map (fun x => x.label) ↔ ∃ e ∈ allSymbols files, e.label = L) ∧
      (∀ pre f post e, files = pre ++ f :: post → e ∈ f.symbolTable →
        (e.location = 'T' → ∃ x ∈ tbl, x.label = e.label ∧
          x.offset = (totalText pre + e.offset) % 4294967296) ∧
        (e.location = 'D' → ∃ x ∈ tbl, x.label = e.label ∧
          x.offset = (totalText files + totalData pre + e.offset) % 4294967296)) ∧
      (∀ x ∈ tbl, x.label = StackLabel → x.offset = totalText files + totalData files) := by
  obtain ⟨hnone, hstart, hsome⟩ := tablePass_spec files
  have hfst := entriesFrom_fst files 0 0
  have hbad := badEntries_iff (entriesFrom files 0 0)
  rw [hfst] at hbad
  by_cases hg : files.length = 0 ∨ MAXFILES < files.length
  · have hs : symbolPass files = LinkResult.error := by
      unfold symbolPass
      rw [if_pos hg]
    refine ⟨by rw [hs]; exact fun hc => LinkResult.noConfusion hc,
      ⟨fun _ => Or.inl hg, fun _ => hs⟩, ?_⟩
    intro tbl ht
    rw [hs] at ht
    exact LinkResult.noConfusion ht
  · have hlen : files.length ≤ 6 := by
      unfold MAXFILES at hg
      omega
    cases ht : tablePass files with
    | none =>
      have hs : symbolPass files = LinkResult.error := by
        unfold symbolPass
        rw [if_neg hg, if_pos hb, ht]
      refine ⟨by rw [hs]; exact fun hc => LinkResult.noConfusion hc,
        ⟨fun _ => Or.inr (hbad.1 (hnone.1 ht)), fun _ => hs⟩, ?_⟩
      intro tbl h
      rw [hs] at h
      exact LinkResult.noConfusion h
    | some t =>
      have hs : symbolPass files = LinkResult.table t := by
        unfold symbolPass
        rw [if_neg hg, if_pos hb, ht]
      refine ⟨by rw [hs]; exact fun hc => LinkResult.noConfusion hc, ⟨?_, ?_⟩, ?_⟩
      · intro h
        rw [hs] at h
        exact LinkResult.noConfusion h
      · rintro (h | h)
        · exact absurd h hg
        · have := hnone.2 (hbad.2 h)
          rw [ht] at this
          exact absurd this (by simp)
      · intro tbl h
        rw [hs] at h
        have htt : t = tbl := LinkResult.table.inj h
        subst htt
        obtain ⟨r1, r2, r3, r4, r5⟩ := hsome t ht
        obtain ⟨b1, b2⟩ := total_le files hb
        have hM : MAXSIZE * files.length ≤ 3000 := by
          unfold MAXSIZE
          omega
        have eT := expectedTextSize_eq files (by omega)
        have eD := expectedDataSize_eq files (by omega)
        refine ⟨r1, ?_, ?_, ?_⟩
        · intro L
          rw [r2 L, ← hfst]
          constructor
          · rintro ⟨a, ha, hl⟩
            exact ⟨a.1, List.mem_map_of_mem _ ha, hl⟩
          · rintro ⟨e, he, hl⟩
            obtain ⟨a, ha, rfl⟩ := List.mem_map.1 he
            exact ⟨a, ha, hl⟩
        · intro pre f post e hf he
          have hmem := hstart pre f post e hf he
          have hpT : totalText pre ≤ totalText files := by
            rw [hf, totalText_append]
            omega
          have hpD : totalData pre ≤ totalData files := by
            rw [hf, totalData_append]
            omega
          rw [expectedTextSize_eq pre (by omega), expectedDataSize_eq pre (by omega)] at hmem
          constructor
          · intro hl
            obtain ⟨x, hx, hxl, hxo⟩ := r3 _ hmem hl
            exact ⟨x, hx, hxl, hxo⟩
          · intro hl
            obtain ⟨x, hx, hxl, hxo⟩ := r4 _ hmem hl
            rw [eT] at hxo
            exact ⟨x, hx, hxl, hxo⟩
        · intro x hx hl
          rw [r5 x hx hl, eT, eD, Nat.mod_eq_of_lt (by omega)]

/-- Witness of C30 (amended): the two example files are inside the arrays and
link: `Foo` is at 3 + 2, `Dat` at 7 + 0 + 1, `Bar` at 7 + 2 + 0 and `Stack` at
7 + 3; the first file alone leaves `Foo` undefined and ends with an error. -/
theorem symbol_pass_spec_witness :
    (inBounds [linkFile1, linkFile2] ∧
      symbolPass [linkFile1, linkFile2] =
        LinkResult.table [⟨"Main", 'T', 0⟩, ⟨"Foo", 'T', 5⟩, ⟨"Dat", 'D', 8⟩,
          ⟨"Stack", 'U', 10⟩, ⟨"Bar", 'D', 9⟩] ∧
      symbolPass [linkFile1] = LinkResult.error) ∧
    symbolPass [linkFile1, linkFile2] ≠ LinkResult.undefined ∧
    (symbolPass [linkFile1, linkFile2] = LinkResult.error ↔
      (([linkFile1, linkFile2].length = 0 ∨ MAXFILES < [linkFile1, linkFile2].length) ∨
        (∃ e ∈ allSymbols [linkFile1, linkFile2], e.label = StackLabel ∧ e.location ≠ 'U') ∨
        (∃ l1 e l2, allSymbols [linkFile1, linkFile2] = l1 ++ e :: l2 ∧ e.location ≠ 'U' ∧
          ∃ b ∈ l1, b.label = e.label ∧ b.location ≠ 'U') ∨
        (∃ e ∈ allSymbols [linkFile1, linkFile2], e.label ≠ StackLabel ∧
          ∀ b ∈ allSymbols [linkFile1, linkFile2], b.label = e.label → b.location = 'U'))) ∧
    ∀ tbl, symbolPass [linkFile1, linkFile2] = LinkResult.table tbl →
      (tbl.map (fun x => x.label)).Nodup ∧
      (∀ L, L ∈ tbl.map (fun x => x.label) ↔
        ∃ e ∈ allSymbols [linkFile1, linkFile2], e.label = L) ∧
      (∀ pre f post e, [linkFile1, linkFile2] = pre ++ f :: post → e ∈ f.symbolTable →
        (e.location = 'T' → ∃ x ∈ tbl, x.label = e.label ∧
          x.offset = (totalText pre + e.offset) % 4294967296) ∧
        (e.location = 'D' → ∃ x ∈ tbl, x.label = e.label ∧
          x.offset =
            (totalText [linkFile1, linkFile2] + totalData pre + e.offset) % 4294967296)) ∧
      (∀ x ∈ tbl, x.label = StackLabel →
        x.offset = totalText [linkFile1, linkFile2] + totalData [linkFile1, linkFile2]) :=
  ⟨by decide, symbol_pass_spec [linkFile1, linkFile2] (by decide)⟩
end Sim
